import Mathlib

/-!
# NNTile: tensor-level task submission and CPU kernels

A shallow embedding of the tensor-level drivers of NNTile
(`src/tensor/hypot.cc`, `add_scalar.cc`, `gelutanh.cc`, `sumnorm.cc`,
`biasprod.cc`, `copy.cc`).  Each driver validates its operands, then walks the tile grid,
asking the runtime to move source tiles, to run a per-tile codelet on the owner
of the destination tile and to flush the destination tile.

The runtime itself is not modelled: a call is represented by the sequence of
requests it makes (`Effect`) together with the way it ends (`Outcome`).  A C++
exception ends the call but keeps the requests made so far.

The CPU kernels (`src/kernel/max/cpu.cc`, `src/kernel/cpu/randn.cc`,
`src/kernel/normalize/cpu.cc`) work on buffers, which are lists here; a pointer is a buffer
with a position in it, and an access outside of the buffer ends the call.  The element
type of a kernel is a type parameter with exact arithmetic, so rounding is not modelled.

The signed 64-bit type `Index` of the sources is `Int` throughout; the indices computed by
the drivers stay within the range of the operands, and the offsets computed by the kernels
are taken without overflow.
-/

namespace nntile

/-- The scalar type `scal_t`; only comparisons with `0.0` and `1.` are made on it here,
the values are otherwise forwarded unchanged to the codelets. -/
abbrev scal_t := ℚ

/-- Modelled from the spec: the handle of a tile (`starpu::VariableHandle`), a registered
buffer (`id`) together with the rank of the node that owns it. -/
structure Handle where
  id : Nat
  rank : Int
deriving DecidableEq, Repr

/-- Modelled from the spec: `mpi_get_rank()` of a handle, the rank of the owner. -/
def Handle.mpi_get_rank (h : Handle) : Int := h.rank

/-- Modelled from the spec: `TileTraits`, the metadata of one tile or of a grid of tiles. -/
structure TileTraits where
  ndim : Int
  shape : List Int
  stride : List Int
  nelems : Int
  matrix_shape : List (List Int)
deriving DecidableEq, Repr

/-- Modelled from the spec: `Tensor<T>`, its traits (`ndim`, `shape`, `basetile_shape`, `grid`)
and the per-tile traits and handles, both stored by linear tile offset. -/
structure Tensor where
  ndim : Int
  shape : List Int
  basetile_shape : List Int
  grid : TileTraits
  tile_traits : List TileTraits
  tile_handles : List Handle
deriving DecidableEq, Repr

/-- How a call can be cut short: by a `std::runtime_error` thrown by one of the checks of the
driver itself (`validation`), by an exception of a callee that is given an offset or index
outside of its range (`out_of_range`), or by an operation without defined behaviour
(`vector_bounds`): an access to a `std::vector` or a buffer outside of its bounds or
through a null pointer, or an integer division by zero. -/
inductive Error where
  | validation (what : String)
  | out_of_range (what : String)
  | vector_bounds
deriving DecidableEq, Repr

/-- The arguments of one `starpu::<codelet>::submit` call. -/
inductive Task where
  | hypot (nelems : Int) (alpha : scal_t) (src : Handle) (beta : scal_t) (dst : Handle)
  | add_scalar (nelems : Int) (alpha beta : scal_t) (dst : Handle)
  | gelutanh (nelems : Int) (data : Handle)
  | clear (data : Handle)
  | sumnorm (m n k : Int) (src dst : Handle)
  | biasprod (m n k : Int) (src dst : Handle)
deriving DecidableEq, Repr

/-- Modelled from the spec: a tile `Tile<T>`, its traits and its handle. -/
structure Tile where
  traits : TileTraits
  handle : Handle
deriving DecidableEq, Repr

/-- One request made to the runtime or to the tile layer: `h.mpi_transfer(dst_rank, mpi_rank)`,
a codelet submission, `h.mpi_flush()`, `starpu_task_wait_for_all()`,
`starpu_mpi_wait_for_all(MPI_COMM_WORLD)`, or a call of the tile-level
`copy_intersection_async(src_tile, src_offset, dst_tile, dst_offset)`. -/
inductive Effect where
  | transfer (h : Handle) (dst_rank mpi_rank : Int)
  | submit (t : Task)
  | flush (h : Handle)
  | task_wait_for_all
  | mpi_wait_for_all
  | tile_copy_intersection (src_tile : Tile) (src_offset : List Int) (dst_tile : Tile)
      (dst_offset : List Int)
deriving DecidableEq, Repr

/-- The way a call ends. -/
inductive Outcome (α : Type) where
  | ok (a : α)
  | error (e : Error)
deriving DecidableEq, Repr

/-- A finished call: the requests made, in order, and the way it ended. -/
structure Run (α : Type) where
  effects : List Effect
  result : Outcome α
deriving DecidableEq, Repr

namespace Run

/-- A call that returns `a` without any request. -/
def ret {α : Type} (a : α) : Run α := ⟨[], .ok a⟩

/-- Sequencing: an exception in the first part skips the second part. -/
def andThen {α β : Type} (m : Run α) (f : α → Run β) : Run β :=
  match m.result with
  | .error e => ⟨m.effects, .error e⟩
  | .ok a => ⟨m.effects ++ (f a).effects, (f a).result⟩

/-- The statement `throw e`. -/
def raise {α : Type} (e : Error) : Run α := ⟨[], .error e⟩

/-- A single request to the runtime. -/
def emit (e : Effect) : Run Unit := ⟨[e], .ok ()⟩

/-- The statement `if(c) throw e;`. -/
def throw_if (c : Prop) [Decidable c] (e : Error) : Run Unit :=
  if c then raise e else ret ()

/-- The statement `if(c) { m }`. -/
def when (c : Prop) [Decidable c] (m : Run Unit) : Run Unit :=
  if c then m else ret ()

end Run

instance : Monad Run where
  pure := Run.ret
  bind := Run.andThen

/-- The indices visited by `for(Int i = lo; i < hi; ++i)`. -/
def indexRange (lo hi : Int) : List Int :=
  (List.range (hi - lo).toNat).map (fun (k : Nat) => lo + (k : Int))

/-- The loop `for(x : xs) body(x)`. -/
def forEach {α : Type} : List α → (α → Run Unit) → Run Unit
  | [], _ => Run.ret ()
  | x :: xs, body => Run.andThen (body x) (fun _ => forEach xs body)

/-- The loop `for(Int i = lo; i < hi; ++i) body(i)`. -/
def forRange (lo hi : Int) (body : Int → Run Unit) : Run Unit :=
  forEach (indexRange lo hi) body

/-- A loop that updates a local variable: `for(x : xs) s = body(x, s)`. -/
def foldEach {α σ : Type} : List α → σ → (α → σ → Run σ) → Run σ
  | [], s, _ => Run.ret s
  | x :: xs, s, body => Run.andThen (body x s) (fun t => foldEach xs t body)

/-- The loop `for(Int i = lo; i < hi; ++i) s = body(i, s)`. -/
def foldRange {σ : Type} (lo hi : Int) (s : σ) (body : Int → σ → Run σ) : Run σ :=
  foldEach (indexRange lo hi) s body

/-- Reading `v[i]` of a `std::vector`. -/
def vget {α : Type} (v : List α) (i : Int) : Run α :=
  if 0 ≤ i then
    match v[i.toNat]? with
    | some x => Run.ret x
    | none => Run.raise .vector_bounds
  else Run.raise .vector_bounds

/-- The assignment `v[i] = x` on a `std::vector`. -/
def vset {α : Type} (v : List α) (i : Int) (x : α) : Run (List α) :=
  if 0 ≤ i ∧ i.toNat < v.length then Run.ret (v.set i.toNat x)
  else Run.raise .vector_bounds

/-- Modelled from the spec: `get_tile_handle(i)`, the handle stored for linear offset `i`;
an offset outside of the grid is refused with an exception. -/
def Tensor.get_tile_handle (t : Tensor) (i : Int) : Run Handle :=
  if 0 ≤ i then
    match t.tile_handles[i.toNat]? with
    | some h => Run.ret h
    | none => Run.raise (.out_of_range "Tile offset is out of bounds")
  else Run.raise (.out_of_range "Tile offset is out of bounds")

/-- Modelled from the spec: `get_tile_traits(i)`, the traits of the tile with linear
offset `i`; an offset outside of the grid is refused with an exception. -/
def Tensor.get_tile_traits (t : Tensor) (i : Int) : Run TileTraits :=
  if 0 ≤ i then
    match t.tile_traits[i.toNat]? with
    | some h => Run.ret h
    | none => Run.raise (.out_of_range "Tile offset is out of bounds")
  else Run.raise (.out_of_range "Tile offset is out of bounds")

/-- Modelled from the spec: the two index maps of a grid, `linear_to_index` and
`index_to_linear`, which the drivers call but do not define.  They are parameters of the
drivers that use them; `none` stands for the exception they throw. -/
structure GridMaps where
  linear_to_index : TileTraits → Int → Option (List Int)
  index_to_linear : TileTraits → List Int → Option Int

/-- The call `grid.linear_to_index(i)`. -/
def GridMaps.to_index (G : GridMaps) (grid : TileTraits) (i : Int) : Run (List Int) :=
  match G.linear_to_index grid i with
  | some c => Run.ret c
  | none => Run.raise (.out_of_range "linear_to_index")

/-- The call `grid.index_to_linear(index)`. -/
def GridMaps.to_linear (G : GridMaps) (grid : TileTraits) (c : List Int) : Run Int :=
  match G.index_to_linear grid c with
  | some i => Run.ret i
  | none => Run.raise (.out_of_range "index_to_linear")

/-! ## `src/tensor/hypot.cc` -/

/-- The checks of `hypot_async` on axis `i` (lines 33-41). -/
def hypot_check_axis (src dst : Tensor) (i : Int) : Run Unit := do
  Run.throw_if ((← vget dst.shape i) ≠ (← vget src.shape i))
    (.validation "dst.shape[i] != src.shape[i]")
  Run.throw_if ((← vget dst.basetile_shape i) ≠ (← vget src.basetile_shape i))
    (.validation "dst.basetile_shape[i] != src.basetile_shape[i]")

/-- The checks of `hypot_async` (lines 25-42). -/
def hypot_check (src dst : Tensor) : Run Unit := do
  Run.throw_if (dst.ndim ≠ src.ndim)
    (.validation "dst.ndim != src.ndim")
  forRange 0 dst.ndim (hypot_check_axis src dst)

/-- One round of the tile loop of `hypot_async` (lines 52-67). -/
def hypot_tile (mpi_rank : Int) (alpha : scal_t) (src : Tensor) (beta : scal_t)
    (dst : Tensor) (i : Int) : Run Unit := do
  let src_tile_handle ← src.get_tile_handle i
  let dst_tile_handle ← dst.get_tile_handle i
  let dst_tile_rank := dst_tile_handle.mpi_get_rank
  Run.emit (.transfer src_tile_handle dst_tile_rank mpi_rank)
  Run.when (mpi_rank = dst_tile_rank) do
    let traits ← src.get_tile_traits i
    Run.emit (.submit (.hypot traits.nelems alpha src_tile_handle beta dst_tile_handle))
  Run.emit (.flush dst_tile_handle)

/-- The function `hypot_async`, called on the node of rank `mpi_rank`. -/
def hypot_async (mpi_rank : Int) (alpha : scal_t) (src : Tensor) (beta : scal_t)
    (dst : Tensor) : Run Unit := do
  hypot_check src dst
  if alpha = 0 ∧ beta = 1 then
    return
  forRange 0 src.grid.nelems (hypot_tile mpi_rank alpha src beta dst)

/-- The blocking function `hypot` (lines 71-78). -/
def hypot (mpi_rank : Int) (alpha : scal_t) (src : Tensor) (beta : scal_t)
    (dst : Tensor) : Run Unit := do
  hypot_async mpi_rank alpha src beta dst
  Run.emit .task_wait_for_all
  Run.emit .mpi_wait_for_all

/-! ## `src/tensor/add_scalar.cc` -/

/-- One round of the tile loop of `add_scalar_async` (lines 38-49). -/
def add_scalar_tile (mpi_rank : Int) (alpha beta : scal_t) (dst : Tensor) (i : Int) :
    Run Unit := do
  let dst_tile_handle ← dst.get_tile_handle i
  let dst_tile_rank := dst_tile_handle.mpi_get_rank
  Run.when (mpi_rank = dst_tile_rank) do
    let traits ← dst.get_tile_traits i
    Run.emit (.submit (.add_scalar traits.nelems alpha beta dst_tile_handle))
  Run.emit (.flush dst_tile_handle)

/-- The function `add_scalar_async`, called on the node of rank `mpi_rank`. -/
def add_scalar_async (mpi_rank : Int) (alpha beta : scal_t) (dst : Tensor) : Run Unit := do
  if alpha = 0 ∧ beta = 1 then
    return
  forRange 0 dst.grid.nelems (add_scalar_tile mpi_rank alpha beta dst)

/-- The blocking function `add_scalar` (lines 53-60). -/
def add_scalar (mpi_rank : Int) (alpha beta : scal_t) (dst : Tensor) : Run Unit := do
  add_scalar_async mpi_rank alpha beta dst
  Run.emit .task_wait_for_all
  Run.emit .mpi_wait_for_all

/-! ## `src/tensor/gelutanh.cc` -/

/-- One round of the tile loop of `gelutanh_async` (lines 32-41). -/
def gelutanh_tile (mpi_rank : Int) (A : Tensor) (i : Int) : Run Unit := do
  let tile_handle ← A.get_tile_handle i
  let tile_rank := tile_handle.mpi_get_rank
  Run.when (mpi_rank = tile_rank) do
    let tile_traits ← A.get_tile_traits i
    Run.emit (.submit (.gelutanh tile_traits.nelems tile_handle))
  Run.emit (.flush tile_handle)

/-- The function `gelutanh_async`, called on the node of rank `mpi_rank`. -/
def gelutanh_async (mpi_rank : Int) (A : Tensor) : Run Unit :=
  forRange 0 A.grid.nelems (gelutanh_tile mpi_rank A)

/-- The blocking function `gelutanh` (lines 48-54). -/
def gelutanh (mpi_rank : Int) (A : Tensor) : Run Unit := do
  gelutanh_async mpi_rank A
  Run.emit .task_wait_for_all
  Run.emit .mpi_wait_for_all

/-! ## `src/tensor/sumnorm.cc` -/

/-- The checks of `sumnorm_async` on an axis `i` before `axis` (lines 58-66). -/
def sumnorm_check_before (src dst : Tensor) (i : Int) : Run Unit := do
  Run.throw_if ((← vget src.shape i) ≠ (← vget dst.shape (i+1)))
    (.validation "src.shape[i] != dst.shape[i+1]")
  Run.throw_if ((← vget src.basetile_shape i) ≠ (← vget dst.basetile_shape (i+1)))
    (.validation "src.basetile_shape[i] != dst.basetile_shape[i+1]")

/-- The checks of `sumnorm_async` on an axis `i` after `axis` (lines 70-78). -/
def sumnorm_check_after (src dst : Tensor) (i : Int) : Run Unit := do
  Run.throw_if ((← vget src.shape i) ≠ (← vget dst.shape i))
    (.validation "src.shape[i] != dst.shape[i]")
  Run.throw_if ((← vget src.basetile_shape i) ≠ (← vget dst.basetile_shape i))
    (.validation "src.basetile_shape[i] != dst.basetile_shape[i]")

/-- The checks of `sumnorm_async` (lines 28-79). -/
def sumnorm_check (src dst : Tensor) (axis : Int) : Run Unit := do
  Run.throw_if (src.ndim ≠ dst.ndim)
    (.validation "src.ndim != dst.ndim")
  Run.throw_if (src.ndim = 0)
    (.validation "Scalar input makes no sense")
  Run.throw_if (axis < 0)
    (.validation "axis < 0")
  Run.throw_if (axis ≥ src.ndim)
    (.validation "axis >= src.ndim")
  Run.throw_if ((← vget dst.shape 0) ≠ 2)
    (.validation "dst.shape[0] != 2")
  Run.throw_if ((← vget dst.basetile_shape 0) ≠ 2)
    (.validation "dst.basetile_shape[0] != 2")
  forRange 0 axis (sumnorm_check_before src dst)
  forRange (axis+1) src.ndim (sumnorm_check_after src dst)

/-- The fixed entries of the index of the source tiles of one destination tile
(lines 95-104). -/
def sumnorm_src_tile_index (src : Tensor) (axis : Int) (dst_tile_index : List Int) :
    Run (List Int) := do
  let src_tile_index := List.replicate src.ndim.toNat (0 : Int)
  let src_tile_index ← foldRange 0 axis src_tile_index fun j v => do
    vset v j (← vget dst_tile_index (j+1))
  let src_tile_index ← vset src_tile_index axis 0
  foldRange (axis+1) src.ndim src_tile_index fun j v => do
    vset v j (← vget dst_tile_index j)

/-- The sizes `m`, `n`, `k` handed to the `sumnorm` codelet (lines 120-138). -/
def sumnorm_sizes (ndim axis : Int) (src_tile_traits dst_tile_traits : TileTraits) :
    Run (Int × Int × Int) :=
  if axis = 0 then do
    let k ← vget src_tile_traits.shape 0
    pure (1, Int.tdiv dst_tile_traits.nelems 2, k)
  else if axis = ndim - 1 then do
    let k ← vget src_tile_traits.shape axis
    pure (Int.tdiv dst_tile_traits.nelems 2, 1, k)
  else do
    let m ← vget src_tile_traits.stride axis
    let n ← vget (← vget src_tile_traits.matrix_shape (axis+1)) 1
    let k ← vget src_tile_traits.shape axis
    pure (m, n, k)

/-- One round of the inner loop of `sumnorm_async` over the source tiles (lines 109-142);
the local vector `src_tile_index` is handed on to the next round. -/
def sumnorm_src_tile (G : GridMaps) (mpi_rank : Int) (src : Tensor) (axis : Int)
    (dst_tile_handle : Handle) (dst_tile_traits : TileTraits) (j : Int)
    (src_tile_index : List Int) : Run (List Int) := do
  let dst_tile_rank := dst_tile_handle.mpi_get_rank
  let src_tile_index ← vset src_tile_index axis j
  let src_tile_offset ← G.to_linear src.grid src_tile_index
  let src_tile_handle ← src.get_tile_handle src_tile_offset
  Run.emit (.transfer src_tile_handle dst_tile_rank mpi_rank)
  Run.when (mpi_rank = dst_tile_rank) do
    let src_tile_traits ← src.get_tile_traits src_tile_offset
    let sizes ← sumnorm_sizes src.ndim axis src_tile_traits dst_tile_traits
    Run.emit (.submit (.sumnorm sizes.1 sizes.2.1 sizes.2.2 src_tile_handle dst_tile_handle))
  pure src_tile_index

/-- One round of the loop of `sumnorm_async` over the destination tiles (lines 86-145). -/
def sumnorm_tile (G : GridMaps) (mpi_rank : Int) (src dst : Tensor) (axis : Int)
    (i : Int) : Run Unit := do
  let dst_tile_handle ← dst.get_tile_handle i
  let dst_tile_rank := dst_tile_handle.mpi_get_rank
  Run.when (mpi_rank = dst_tile_rank) do
    Run.emit (.submit (.clear dst_tile_handle))
  let dst_tile_index ← G.to_index dst.grid i
  let src_tile_index ← sumnorm_src_tile_index src axis dst_tile_index
  let dst_tile_traits ← dst.get_tile_traits i
  let _ ← foldRange 0 (← vget src.grid.shape axis) src_tile_index
    (sumnorm_src_tile G mpi_rank src axis dst_tile_handle dst_tile_traits)
  Run.emit (.flush dst_tile_handle)

/-- The function `sumnorm_async`, called on the node of rank `mpi_rank`. -/
def sumnorm_async (G : GridMaps) (mpi_rank : Int) (src dst : Tensor) (axis : Int) :
    Run Unit := do
  sumnorm_check src dst axis
  forRange 0 dst.grid.nelems (sumnorm_tile G mpi_rank src dst axis)

/-- The blocking function `sumnorm` (lines 150-156). -/
def sumnorm (G : GridMaps) (mpi_rank : Int) (src dst : Tensor) (axis : Int) : Run Unit := do
  sumnorm_async G mpi_rank src dst axis
  Run.emit .task_wait_for_all
  Run.emit .mpi_wait_for_all

/-! ## `src/tensor/biasprod.cc` -/

/-- The checks of `biasprod_async` on an axis `i` before `axis` (lines 44-52). -/
def biasprod_check_before (src dst : Tensor) (i : Int) : Run Unit := do
  Run.throw_if ((← vget dst.shape i) ≠ (← vget src.shape i))
    (.validation "dst.shape[i] != src.shape[i]")
  Run.throw_if ((← vget dst.basetile_shape i) ≠ (← vget src.basetile_shape i))
    (.validation "dst.basetile_shape[i] != src.basetile_shape[i]")

/-- The checks of `biasprod_async` on an axis `i` after `axis` (lines 56-64). -/
def biasprod_check_after (src dst : Tensor) (i : Int) : Run Unit := do
  Run.throw_if ((← vget dst.shape i) ≠ (← vget src.shape (i-1)))
    (.validation "dst.shape[i] != src.shape[i-1]")
  Run.throw_if ((← vget dst.basetile_shape i) ≠ (← vget src.basetile_shape (i-1)))
    (.validation "dst.basetile_shape[i] != src.basetile_shape[i-1]")

/-- The checks of `biasprod_async` (lines 27-65). -/
def biasprod_check (src dst : Tensor) (axis : Int) : Run Unit := do
  Run.throw_if (dst.ndim ≠ src.ndim + 1)
    (.validation "dst.ndim != src.ndim+1")
  Run.throw_if (axis < 0)
    (.validation "axis < 0")
  Run.throw_if (axis ≥ dst.ndim)
    (.validation "axis >= dst.ndim")
  forRange 0 axis (biasprod_check_before src dst)
  forRange (axis+1) dst.ndim (biasprod_check_after src dst)

/-- The fixed entries of the index of the destination tiles of one source tile
(lines 78-86). -/
def biasprod_dst_tile_index (dst : Tensor) (axis : Int) (src_tile_index : List Int) :
    Run (List Int) := do
  let dst_tile_index := List.replicate dst.ndim.toNat (0 : Int)
  let dst_tile_index ← foldRange 0 axis dst_tile_index fun j v => do
    vset v j (← vget src_tile_index j)
  foldRange (axis+1) dst.ndim dst_tile_index fun j v => do
    vset v j (← vget src_tile_index (j-1))

/-- One round of the inner loop of `biasprod_async` over the destination tiles
(lines 90-115); the local vector `dst_tile_index` is handed on to the next round. -/
def biasprod_dst_tile (G : GridMaps) (mpi_rank : Int) (dst : Tensor) (axis : Int)
    (src_tile_handle : Handle) (j : Int) (dst_tile_index : List Int) :
    Run (List Int) := do
  let dst_tile_index ← vset dst_tile_index axis j
  let dst_tile_offset ← G.to_linear dst.grid dst_tile_index
  let dst_tile_handle ← dst.get_tile_handle dst_tile_offset
  let dst_tile_rank := dst_tile_handle.mpi_get_rank
  Run.emit (.transfer src_tile_handle dst_tile_rank mpi_rank)
  Run.when (mpi_rank = dst_tile_rank) do
    let dst_tile_traits ← dst.get_tile_traits dst_tile_offset
    let m ← vget dst_tile_traits.stride axis
    let n ← vget (← vget dst_tile_traits.matrix_shape (axis+1)) 1
    let k ← vget dst_tile_traits.shape axis
    Run.emit (.submit (.biasprod m n k src_tile_handle dst_tile_handle))
  Run.emit (.flush dst_tile_handle)
  pure dst_tile_index

/-- One round of the loop of `biasprod_async` over the source tiles (lines 71-116). -/
def biasprod_tile (G : GridMaps) (mpi_rank : Int) (src dst : Tensor) (axis : Int)
    (i : Int) : Run Unit := do
  let src_tile_index ← G.to_index src.grid i
  let _ ← src.get_tile_traits i
  let src_tile_handle ← src.get_tile_handle i
  let dst_tile_index ← biasprod_dst_tile_index dst axis src_tile_index
  let _ ← foldRange 0 (← vget dst.grid.shape axis) dst_tile_index
    (biasprod_dst_tile G mpi_rank dst axis src_tile_handle)

/-- The function `biasprod_async`, called on the node of rank `mpi_rank`. -/
def biasprod_async (G : GridMaps) (mpi_rank : Int) (src dst : Tensor) (axis : Int) :
    Run Unit := do
  biasprod_check src dst axis
  forRange 0 src.grid.nelems (biasprod_tile G mpi_rank src dst axis)

/-- The blocking function `biasprod` (lines 120-127). -/
def biasprod (G : GridMaps) (mpi_rank : Int) (src dst : Tensor) (axis : Int) :
    Run Unit := do
  biasprod_async G mpi_rank src dst axis
  Run.emit .task_wait_for_all
  Run.emit .mpi_wait_for_all

/-! ## Invariants of the operands -/

/-- Modelled from the spec: the vectors `shape` and `basetile_shape` of a tensor have `ndim`
entries each (the constructor of the traits refuses anything else). -/
def Tensor.ShapeWF (t : Tensor) : Prop :=
  t.ndim = t.shape.length ∧ t.basetile_shape.length = t.shape.length

instance (t : Tensor) : Decidable t.ShapeWF := by
  unfold Tensor.ShapeWF; infer_instance

/-- Modelled from the spec: the number of tiles along one axis, `ceil(shape/basetile)`. -/
def grid_extent (shape basetile : Int) : Int := (shape + basetile - 1) / basetile

/-- Modelled from the spec: the traits of one tile of an `ndim`-dimensional tensor carry
`ndim` extents and strides and `ndim+1` matrix shapes of two entries each. -/
def TileTraits.WF (tr : TileTraits) (ndim : Int) : Prop :=
  ndim = tr.shape.length ∧ tr.stride.length = tr.shape.length ∧
  tr.matrix_shape.length = tr.shape.length + 1 ∧ ∀ row ∈ tr.matrix_shape, row.length = 2

instance (tr : TileTraits) (ndim : Int) : Decidable (tr.WF ndim) := by
  unfold TileTraits.WF; infer_instance

/-- Modelled from the spec: the invariant of a tensor.  Extents and tile sizes are positive,
the grid has `ceil(shape/basetile)` tiles along every axis, `grid.nelems` is the number of
tiles, and there is one handle and one set of traits per tile. -/
def Tensor.WF (t : Tensor) : Prop :=
  t.ShapeWF ∧
  (∀ n ∈ t.shape, 0 < n) ∧ (∀ n ∈ t.basetile_shape, 0 < n) ∧
  t.grid.shape = List.zipWith grid_extent t.shape t.basetile_shape ∧
  t.grid.nelems = t.grid.shape.prod ∧
  (t.tile_handles.length : Int) = t.grid.nelems ∧
  (t.tile_traits.length : Int) = t.grid.nelems ∧
  ∀ tr ∈ t.tile_traits, tr.WF t.ndim

instance (t : Tensor) : Decidable t.WF := by
  unfold Tensor.WF; infer_instance

/-- A tile index lies in the grid `g`: one entry per axis, each within the extent of
the grid along its axis. -/
def TileTraits.has_index (g : TileTraits) (index : List Int) : Prop :=
  index.length = g.shape.length ∧
  ∀ (k : Nat) (x n : Int), index[k]? = some x → g.shape[k]? = some n → 0 ≤ x ∧ x < n

/-- Modelled from the spec: on the grid `g` the two index maps are mutually inverse
bijections between the linear offsets `[0, g.nelems)` and the tile indices of the grid. -/
structure GridMaps.Lawful (G : GridMaps) (g : TileTraits) : Prop where
  index_of_linear : ∀ i, 0 ≤ i → i < g.nelems →
    ∃ c, G.linear_to_index g i = some c ∧ g.has_index c ∧ G.index_to_linear g c = some i
  linear_of_index : ∀ c, g.has_index c →
    ∃ i, G.index_to_linear g c = some i ∧ 0 ≤ i ∧ i < g.nelems ∧
      G.linear_to_index g i = some c

/-! ## Reading a run -/

/-- The codelet submissions among the requests. -/
def tasks (es : List Effect) : List Task :=
  es.filterMap fun e => match e with
    | .submit t => some t
    | _ => none

/-- The flushed handles among the requests. -/
def flushes (es : List Effect) : List Handle :=
  es.filterMap fun e => match e with
    | .flush h => some h
    | _ => none

/-- The transfers among the requests: the handle, the first and the second argument of
`mpi_transfer`. -/
def transfers (es : List Effect) : List (Handle × Int × Int) :=
  es.filterMap fun e => match e with
    | .transfer h d r => some (h, d, r)
    | _ => none

/-- The handle of tile `i` of a tensor. -/
def Tensor.handle (t : Tensor) (i : Nat) : Handle := t.tile_handles.getD i ⟨0, 0⟩

/-- The traits of tile `i` of a tensor. -/
def Tensor.traits (t : Tensor) (i : Nat) : TileTraits := t.tile_traits.getD i ⟨0, [], [], 0, []⟩

/-- A run never ends with an exception of the checks. -/
def Run.no_validation {α : Type} (m : Run α) : Prop :=
  ∀ what, m.result ≠ .error (.validation what)

/-- A run is a check: it makes no request, and it ends normally or with an exception of
the checks. -/
def Run.is_check (m : Run Unit) : Prop :=
  m.effects = [] ∧ (m.result = .ok () ∨ ∃ what, m.result = .error (.validation what))

/-- The value returned by a run, `d` if it ended with an exception. -/
def Run.value {α : Type} (m : Run α) (d : α) : α :=
  match m.result with
  | .ok a => a
  | .error _ => d

/-- The tile a task writes to. -/
def Task.dst : Task → Handle
  | .hypot _ _ _ _ d => d
  | .add_scalar _ _ _ d => d
  | .gelutanh _ d => d
  | .clear d => d
  | .sumnorm _ _ _ _ d => d
  | .biasprod _ _ _ _ d => d

/-- A request made for the destination tile `h`: a transfer to the owner of `h`, or a
submission that writes to `h`. -/
def Effect.concerns (h : Handle) : Effect → Prop
  | .transfer _ dst_rank _ => dst_rank = h.rank
  | .submit t => t.dst = h
  | _ => False

/-- The requests come in one group per tile of `dst`, in some order of the tiles: the
transfers and submissions made for the tile, followed by exactly one flush of the tile. -/
def flushed_per_tile (es : List Effect) (dst : Tensor) : Prop :=
  ∃ groups : List (List Effect × Handle),
    es = groups.flatMap (fun g => g.1 ++ [Effect.flush g.2]) ∧
    (∀ g ∈ groups, ∀ e ∈ g.1, e.concerns g.2) ∧
    (groups.map Prod.snd).Perm dst.tile_handles

/-- Modelled from the spec: the traits of a tile are derived from its shape: `nelems` is the
product of the extents, `stride[i]` is the product of the extents before axis `i`, and
`matrix_shape[i][1]` is the product of the extents from axis `i` on. -/
def TileTraits.Derived (tr : TileTraits) : Prop :=
  tr.nelems = tr.shape.prod ∧
  (∀ i : Nat, i < tr.shape.length → tr.stride.getD i 0 = (tr.shape.take i).prod) ∧
  (∀ i : Nat, i < tr.shape.length + 1 →
    (tr.matrix_shape.getD i []).getD 1 0 = (tr.shape.drop i).prod)

instance (tr : TileTraits) : Decidable tr.Derived := by
  unfold TileTraits.Derived; infer_instance

/-- Modelled from the spec: the extent of the tile with coordinate `x` along an axis of
extent `shape` that is cut into tiles of extent `basetile`: a whole tile, or what is left of
the axis for the last tile. -/
def tile_extent (shape basetile x : Int) : Int := min basetile (shape - x * basetile)

/-- Modelled from the spec: the shape of the tile with index `tile_index` of a tensor. -/
def tile_shape (shape basetile_shape tile_index : List Int) : List Int :=
  List.zipWith (fun (sb : Int × Int) x => tile_extent sb.1 sb.2 x)
    (List.zipWith Prod.mk shape basetile_shape) tile_index

/-- Modelled from the spec: the traits that a tensor stores for its tiles are those of the
tiles: the tile with linear offset `i` has the shape of the tile with the index of `i`, and
its traits are derived from that shape. -/
def Tensor.TilesWF (G : GridMaps) (t : Tensor) : Prop :=
  ∀ i : Nat, i < t.grid.nelems.toNat →
    (t.traits i).shape =
      tile_shape t.shape t.basetile_shape ((G.linear_to_index t.grid i).getD []) ∧
    (t.traits i).Derived

instance (G : GridMaps) (t : Tensor) : Decidable (t.TilesWF G) := by
  unfold Tensor.TilesWF; infer_instance

/-- The requests that write to the tile with handle `h` or flush it, in the order in which
they are made: the submissions of the tasks whose destination is `h` and the flushes of
`h`. -/
def tile_requests (h : Handle) (es : List Effect) : List Effect :=
  es.filter fun e => match e with
    | .submit t => decide (t.dst = h)
    | .flush h2 => decide (h2 = h)
    | _ => false

/-! ## The requests of one round of the tile loops -/

/-- The requests of `gelutanh_async` for tile `i`. -/
def gelutanh_block (mpi_rank : Int) (A : Tensor) (i : Nat) : List Effect :=
  (if mpi_rank = (A.handle i).rank then
    [Effect.submit (.gelutanh (A.traits i).nelems (A.handle i))] else []) ++
  [Effect.flush (A.handle i)]

/-- The requests of `add_scalar_async` for tile `i`. -/
def add_scalar_block (mpi_rank : Int) (alpha beta : scal_t) (dst : Tensor) (i : Nat) :
    List Effect :=
  (if mpi_rank = (dst.handle i).rank then
    [Effect.submit (.add_scalar (dst.traits i).nelems alpha beta (dst.handle i))] else []) ++
  [Effect.flush (dst.handle i)]

/-- The requests of `hypot_async` for tile `i`. -/
def hypot_block (mpi_rank : Int) (alpha : scal_t) (src : Tensor) (beta : scal_t)
    (dst : Tensor) (i : Nat) : List Effect :=
  [Effect.transfer (src.handle i) (dst.handle i).rank mpi_rank] ++
  (if mpi_rank = (dst.handle i).rank then
    [Effect.submit (.hypot (src.traits i).nelems alpha (src.handle i) beta (dst.handle i))]
    else []) ++
  [Effect.flush (dst.handle i)]

/-- The index of the `j`-th source tile of the destination tile with index `dst_index`
in `sumnorm_async`: the first entry is dropped and `j` is put at position `axis`. -/
def sumnorm_src_index (axis : Nat) (dst_index : List Int) (j : Int) : List Int :=
  dst_index.tail.take axis ++ j :: dst_index.drop (axis + 1)

/-- The linear offset of the `j`-th source tile of destination tile `i` in
`sumnorm_async`. -/
def sumnorm_src_offset (G : GridMaps) (src dst : Tensor) (axis : Nat) (i j : Nat) : Nat :=
  ((G.index_to_linear src.grid
    (sumnorm_src_index axis ((G.linear_to_index dst.grid i).getD []) j)).getD 0).toNat

/-- The requests of `sumnorm_async` for the `j`-th source tile of destination tile `i`. -/
def sumnorm_src_block (G : GridMaps) (mpi_rank : Int) (src dst : Tensor) (axis : Int)
    (i j : Nat) : List Effect :=
  let o := sumnorm_src_offset G src dst axis.toNat i j
  let sizes := (sumnorm_sizes src.ndim axis (src.traits o) (dst.traits i)).value (0, 0, 0)
  [Effect.transfer (src.handle o) (dst.handle i).rank mpi_rank] ++
  (if mpi_rank = (dst.handle i).rank then
    [Effect.submit (.sumnorm sizes.1 sizes.2.1 sizes.2.2 (src.handle o) (dst.handle i))]
    else [])

/-- The requests of `sumnorm_async` for destination tile `i`. -/
def sumnorm_block (G : GridMaps) (mpi_rank : Int) (src dst : Tensor) (axis : Int)
    (i : Nat) : List Effect :=
  (if mpi_rank = (dst.handle i).rank then [Effect.submit (.clear (dst.handle i))] else []) ++
  (List.range (src.grid.shape.getD axis.toNat 0).toNat).flatMap
    (sumnorm_src_block G mpi_rank src dst axis i) ++
  [Effect.flush (dst.handle i)]

/-- The task that `sumnorm_async` submits for the destination tile `i` and its `j`-th
source tile. -/
def sumnorm_task (G : GridMaps) (src dst : Tensor) (axis : Int) (i j : Nat) : Task :=
  let o := sumnorm_src_offset G src dst axis.toNat i j
  let sizes := (sumnorm_sizes src.ndim axis (src.traits o) (dst.traits i)).value (0, 0, 0)
  .sumnorm sizes.1 sizes.2.1 sizes.2.2 (src.handle o) (dst.handle i)

/-- The index of the `j`-th destination tile of the source tile with index `src_index`
in `biasprod_async`: `j` is inserted at position `axis`. -/
def biasprod_dst_index (axis : Nat) (src_index : List Int) (j : Int) : List Int :=
  src_index.take axis ++ j :: src_index.drop axis

/-- The linear offset of the `j`-th destination tile of source tile `i` in
`biasprod_async`. -/
def biasprod_dst_offset (G : GridMaps) (src dst : Tensor) (axis : Nat) (i j : Nat) : Nat :=
  ((G.index_to_linear dst.grid
    (biasprod_dst_index axis ((G.linear_to_index src.grid i).getD []) j)).getD 0).toNat

/-- The task `biasprod_async` submits for the source tile `i` and the destination tile
with linear offset `o`. -/
def biasprod_task (src dst : Tensor) (axis : Nat) (i o : Nat) : Task :=
  .biasprod ((dst.traits o).stride.getD axis 0)
    (((dst.traits o).matrix_shape.getD (axis + 1) []).getD 1 0)
    ((dst.traits o).shape.getD axis 0) (src.handle i) (dst.handle o)

/-- The requests of `biasprod_async` for the `j`-th destination tile of source tile `i`. -/
def biasprod_block (G : GridMaps) (mpi_rank : Int) (src dst : Tensor) (axis : Int)
    (i j : Nat) : List Effect :=
  let o := biasprod_dst_offset G src dst axis.toNat i j
  [Effect.transfer (src.handle i) (dst.handle o).rank mpi_rank] ++
  (if mpi_rank = (dst.handle o).rank then
    [Effect.submit (biasprod_task src dst axis.toNat i o)] else []) ++
  [Effect.flush (dst.handle o)]

/-! ## Sample operands -/

/-- Modelled from the spec: the row-major offset of a tile index in a grid of the given
extents, `none` for an index outside of the grid. -/
def row_major_offset : List Int → List Int → Option Int
  | [], [] => some 0
  | n :: shape, x :: index =>
    if 0 ≤ x ∧ x < n then
      (row_major_offset shape index).map fun r => x * shape.prod + r
    else none
  | _, _ => none

/-- Modelled from the spec: the tile index with the given row-major offset. -/
def row_major_index : List Int → Int → List Int
  | [], _ => []
  | _ :: shape, i => (i / shape.prod) :: row_major_index shape (i % shape.prod)

/-- Modelled from the spec: the index maps of a grid in row-major order; an offset outside
of `[0, nelems)` and an index outside of the grid are refused. -/
def row_major : GridMaps where
  linear_to_index g i :=
    if 0 ≤ i ∧ i < g.nelems then some (row_major_index g.shape i) else none
  index_to_linear g index := row_major_offset g.shape index

/-- The traits of a full `2 x 2` tile. -/
def tile22 : TileTraits := ⟨2, [2, 2], [1, 2], 4, [[1, 4], [2, 2], [4, 1]]⟩

/-- A `4 x 4` tensor cut into four `2 x 2` tiles, tile `i` owned by rank `i % 2`. -/
def sample44 (first : Nat) : Tensor where
  ndim := 2
  shape := [4, 4]
  basetile_shape := [2, 2]
  grid := ⟨2, [2, 2], [1, 2], 4, [[1, 4], [2, 2], [4, 1]]⟩
  tile_traits := [tile22, tile22, tile22, tile22]
  tile_handles := [⟨first, 0⟩, ⟨first + 1, 1⟩, ⟨first + 2, 0⟩, ⟨first + 3, 1⟩]

/-- A `4 x 4` tensor whose tiles are `2 x 3`. -/
def sample44_23 : Tensor where
  ndim := 2
  shape := [4, 4]
  basetile_shape := [2, 3]
  grid := ⟨2, [2, 2], [1, 2], 4, [[1, 4], [2, 2], [4, 1]]⟩
  tile_traits := [⟨2, [2, 3], [1, 2], 6, [[1, 6], [2, 3], [6, 1]]⟩,
    ⟨2, [2, 3], [1, 2], 6, [[1, 6], [2, 3], [6, 1]]⟩,
    ⟨2, [2, 1], [1, 2], 2, [[1, 2], [2, 1], [2, 1]]⟩,
    ⟨2, [2, 1], [1, 2], 2, [[1, 2], [2, 1], [2, 1]]⟩]
  tile_handles := [⟨20, 0⟩, ⟨21, 1⟩, ⟨22, 0⟩, ⟨23, 1⟩]

/-- A `2 x 4` tensor cut into two `2 x 2` tiles, the destination of a `sumnorm` of a
`4 x 4` tensor along axis `0`. -/
def sample24 : Tensor where
  ndim := 2
  shape := [2, 4]
  basetile_shape := [2, 2]
  grid := ⟨2, [1, 2], [1, 1], 2, [[1, 2], [1, 2], [2, 1]]⟩
  tile_traits := [tile22, tile22]
  tile_handles := [⟨30, 0⟩, ⟨31, 1⟩]

/-- A vector of `4` entries cut into two tiles of `2` entries, the source of a `biasprod`
into a `4 x 4` tensor along axis `1`. -/
def sample4 : Tensor where
  ndim := 1
  shape := [4]
  basetile_shape := [2]
  grid := ⟨1, [2], [1], 2, [[1, 2], [2, 1]]⟩
  tile_traits := [⟨1, [2], [1], 2, [[1, 2], [2, 1]]⟩, ⟨1, [2], [1], 2, [[1, 2], [2, 1]]⟩]
  tile_handles := [⟨40, 1⟩, ⟨41, 0⟩]

/-! ## Codelet lookup: `include/nntile/starpu/add.hh`, `hypot_scalar_inverse.hh`,
`total_sum_accum.hh` -/

/-- The element types a codelet template can be asked for: the three the headers name, and
any other type. -/
inductive ElemType where
  | fp32
  | fp32_fast_tf32
  | fp64
  | other (name : String)
deriving DecidableEq, Repr

/-- The operations of the three headers. -/
inductive Operation where
  | add
  | hypot_scalar_inverse
  | total_sum_accum
deriving DecidableEq, Repr

/-- The codelet objects the three headers declare `extern`: one object per operation and
element type, `codelet_fp32`, `codelet_fp64` and, for `add`, `codelet_fp32_fast_tf32`. -/
inductive Codelet where
  | add_codelet_fp32
  | add_codelet_fp64
  | add_codelet_fp32_fast_tf32
  | hypot_scalar_inverse_codelet_fp32
  | hypot_scalar_inverse_codelet_fp64
  | total_sum_accum_codelet_fp32
  | total_sum_accum_codelet_fp64
deriving DecidableEq, Repr

/-- The operation a codelet object belongs to (its namespace). -/
def Codelet.operation : Codelet → Operation
  | .add_codelet_fp32 => .add
  | .add_codelet_fp64 => .add
  | .add_codelet_fp32_fast_tf32 => .add
  | .hypot_scalar_inverse_codelet_fp32 => .hypot_scalar_inverse
  | .hypot_scalar_inverse_codelet_fp64 => .hypot_scalar_inverse
  | .total_sum_accum_codelet_fp32 => .total_sum_accum
  | .total_sum_accum_codelet_fp64 => .total_sum_accum

/-- The element type a codelet object is declared for (the suffix of its name). -/
def Codelet.elem_type : Codelet → ElemType
  | .add_codelet_fp32 => .fp32
  | .add_codelet_fp64 => .fp64
  | .add_codelet_fp32_fast_tf32 => .fp32_fast_tf32
  | .hypot_scalar_inverse_codelet_fp32 => .fp32
  | .hypot_scalar_inverse_codelet_fp64 => .fp64
  | .total_sum_accum_codelet_fp32 => .fp32
  | .total_sum_accum_codelet_fp64 => .fp64

/-- The template `add::codelet<T>()` with its three specialisations (`add.hh`, lines
53-76); the primary template throws `std::runtime_error("Non-supported type")`. -/
def starpu.add.codelet : ElemType → Except String Codelet
  | .fp32 => .ok .add_codelet_fp32
  | .fp32_fast_tf32 => .ok .add_codelet_fp32_fast_tf32
  | .fp64 => .ok .add_codelet_fp64
  | _ => .error "Non-supported type"

/-- The template `hypot_scalar_inverse::codelet<T>()` with its two specialisations
(`hypot_scalar_inverse.hh`, lines 49-66). -/
def starpu.hypot_scalar_inverse.codelet : ElemType → Except String Codelet
  | .fp32 => .ok .hypot_scalar_inverse_codelet_fp32
  | .fp64 => .ok .hypot_scalar_inverse_codelet_fp64
  | _ => .error "Non-supported type"

/-- The template `total_sum_accum::codelet<T>()` with its two specialisations
(`total_sum_accum.hh`, lines 46-63). -/
def starpu.total_sum_accum.codelet : ElemType → Except String Codelet
  | .fp32 => .ok .total_sum_accum_codelet_fp32
  | .fp64 => .ok .total_sum_accum_codelet_fp64
  | _ => .error "Non-supported type"

/-! ## `src/tensor/copy.cc` -/

/-- Modelled from the spec: `get_tile(i)`, the tile with linear offset `i`, made of its
traits and its handle; an offset outside of the grid is refused with an exception. -/
def Tensor.get_tile (t : Tensor) (i : Int) : Run Tile := do
  let traits ← t.get_tile_traits i
  let handle ← t.get_tile_handle i
  pure ⟨traits, handle⟩

/-- The loop `for(k < ndim) tile_offset[k] += tile_index[k] * basetile_shape[k]`
(lines 38-41 and 47-51). -/
def copy_tile_offset (ndim : Int) (offset tile_index basetile_shape : List Int) :
    Run (List Int) :=
  foldRange 0 ndim offset fun k tile_offset => do
    let o ← vget tile_offset k
    let x ← vget tile_index k
    let b ← vget basetile_shape k
    vset tile_offset k (o + x * b)

/-- The round of the inner loop of `copy_intersection_async` for the destination tile `j`
(lines 45-53). -/
def copy_intersection_dst_tile (G : GridMaps) (ndim : Int) (src_tile : Tile)
    (src_tile_offset : List Int) (dst : Tensor) (dst_offset : List Int) (j : Int) :
    Run Unit := do
  let dst_tile_index ← G.to_index dst.grid j
  let dst_tile_offset ← copy_tile_offset ndim dst_offset dst_tile_index dst.basetile_shape
  let dst_tile ← dst.get_tile j
  Run.emit (.tile_copy_intersection src_tile src_tile_offset dst_tile dst_tile_offset)

/-- The round of the outer loop of `copy_intersection_async` for the source tile `i`
(lines 36-54). -/
def copy_intersection_src_tile (G : GridMaps) (ndim : Int) (src : Tensor)
    (src_offset : List Int) (dst : Tensor) (dst_offset : List Int) (i : Int) : Run Unit := do
  let src_tile_index ← G.to_index src.grid i
  let src_tile_offset ← copy_tile_offset ndim src_offset src_tile_index src.basetile_shape
  let src_tile ← src.get_tile i
  forRange 0 dst.grid.nelems
    (copy_intersection_dst_tile G ndim src_tile src_tile_offset dst dst_offset)

/-- The three checks of `copy_intersection_async` (lines 13-24); `ndim` is compared with
the `size()` of the offsets. -/
def copy_intersection_check (src : Tensor) (src_offset : List Int) (dst : Tensor)
    (dst_offset : List Int) : Run Unit := do
  Run.throw_if (src.ndim ≠ (src_offset.length : Int))
    (.validation "src.ndim != src_offset.size()")
  Run.throw_if (src.ndim ≠ dst.ndim) (.validation "src.ndim != dst.ndim")
  Run.throw_if (dst.ndim ≠ (dst_offset.length : Int))
    (.validation "dst.ndim != dst_offset.size()")

/-- The tensor-level `copy_intersection_async` (lines 7-56).  The calls of the tile-level
`copy_intersection_async` are recorded as requests with their four arguments; in the case
`ndim == 0` the two tiles are fetched before the call. -/
def copy_intersection_async (G : GridMaps) (src : Tensor) (src_offset : List Int)
    (dst : Tensor) (dst_offset : List Int) : Run Unit := do
  copy_intersection_check src src_offset dst dst_offset
  let ndim := src.ndim
  if ndim = 0 then
    let src_tile ← src.get_tile 0
    let dst_tile ← dst.get_tile 0
    Run.emit (.tile_copy_intersection src_tile src_offset dst_tile dst_offset)
  else
    forRange 0 src.grid.nelems
      (copy_intersection_src_tile G ndim src src_offset dst dst_offset)

/-- The offset that the tile with index `tile_index` is copied with:
`offset[k] + tile_index[k] * basetile_shape[k]` on every axis `k`. -/
def copy_offset (offset tile_index basetile_shape : List Int) : List Int :=
  List.zipWith (fun o xb => o + xb) offset
    (List.zipWith (fun x b => x * b) tile_index basetile_shape)

/-- The call of the tile-level copy that `copy_intersection_async` makes for the source
tile with linear offset `i` and the destination tile with linear offset `j`. -/
def copy_intersection_call (G : GridMaps) (src : Tensor) (src_offset : List Int)
    (dst : Tensor) (dst_offset : List Int) (i j : Nat) : Effect :=
  .tile_copy_intersection ⟨src.traits i, src.handle i⟩
    (copy_offset src_offset ((G.linear_to_index src.grid i).getD []) src.basetile_shape)
    ⟨dst.traits j, dst.handle j⟩
    (copy_offset dst_offset ((G.linear_to_index dst.grid j).getD []) dst.basetile_shape)

/-! ## `src/kernel/max/cpu.cc` -/

/-- The function `std::max(a, b)`, which is `(a < b) ? b : a`. -/
def std.max {T : Type} [LinearOrder T] (a b : T) : T := if a < b then b else a

/-- The kernel `max::cpu(nelems, src, dst)` (lines 24-40); the result is the buffer `dst`
after the call, the buffer `src` is read only. -/
def kernel.max.cpu {T : Type} [LinearOrder T] (nelems : Int) (src dst : List T) :
    Run (List T) :=
  foldRange 0 nelems dst fun i dst => do
    let a ← vget src i
    let b ← vget dst i
    vset dst i (std.max a b)

/-! ## `src/kernel/cpu/randn.cc` -/

/-- The type `Index` of the repository is a signed integer of 64 bits.  `Index.wrap x` is the
value that an operation on `Index` leaves when its exact result is `x`: `x` itself when `x`
lies in `[-2^63, 2^63)`, and otherwise the number of that range that differs from `x` by a
multiple of `2^64` (overflow of the signed type wraps around on the machines that the
repository targets).  The kernel `randn` applies it to every sum, difference and product
that it computes from the entries of `start`, `shape`, `underlying_shape` and `stride`; the
increments `++tmp_index[k]` and `++k` and the loop counters are exact, as they stay at or
below an entry of `shape`, `ndim` or `ncols`. -/
def Index.wrap (x : Int) : Int :=
  (x + 9223372036854775808) % 18446744073709551616 - 9223372036854775808

/-- The random generator of `external/random.h`, which the kernel calls and does not
define.  A call `CORE_slaran(&seed)` or `CORE_dlaran(&seed)` returns `laran seed` and
leaves `next seed` in `seed`; `CORE_rnd64_jump(n, seed)` returns `jump n seed`.  The
generator is a parameter of the kernel. -/
structure Generator (T : Type) where
  laran : Nat → T
  next : Nat → Nat
  jump : Int → Nat → Nat

/-- Reading `p[i]` through a pointer to `Index` values; `none` is the null pointer. -/
def pget (p : Option (List Int)) (i : Int) : Run Int :=
  match p with
  | some v => vget v i
  | none => Run.raise .vector_bounds

/-- The function `chameleon_randn(seed, mean, stddev)` (lines 25-35): the value returned and
the seed left behind. -/
def kernel.cpu.chameleon_randn {T : Type} [Add T] [Mul T] (g : Generator T) (seed : Nat)
    (mean stddev : T) : T × Nat :=
  (stddev * g.laran seed + mean, g.next seed)

/-- The variables that a column of `randn` updates: the seed, the output buffer and the
position in it of the pointer `data`. -/
structure kernel.cpu.Cursor (T : Type) where
  seed : Nat
  buffer : List T
  data : Int
deriving DecidableEq, Repr

/-- The loop `for(i < nrows) { *data = chameleon_randn(seed, mean, stddev); ++data; }`
(lines 90-94 and 133-137). -/
def kernel.cpu.randn_column {T : Type} [Add T] [Mul T] (g : Generator T) (mean stddev : T)
    (nrows : Int) (c : kernel.cpu.Cursor T) : Run (kernel.cpu.Cursor T) :=
  foldRange 0 nrows c fun _ c => do
    let r := kernel.cpu.chameleon_randn g c.seed mean stddev
    let buffer ← vset c.buffer c.data r.1
    pure ⟨r.2, buffer, c.data + 1⟩

/-- The variables that the loop `while(tmp_index[k] == shape[k])` updates. -/
structure kernel.cpu.Carry where
  tmp_index : List Int
  k : Int
  shift : Int
  underlying_stride : Int
  data : Int
deriving DecidableEq, Repr

/-- The loop `while(tmp_index[k] == shape[k])` (lines 115-128), with a bound on the number
of turns.  Every turn reads `tmp_index[k]` and adds one to `k`, so the loop takes at most as
many turns as `tmp_index` has entries before it ends or reads outside of `tmp_index`; it is
run with that many turns, and a larger bound gives the same run (`randn_carry_fuel`).  The
updates of `shift`, of `underlying_stride` and of the step of `data` (lines 123, 125 and
127) are computed in `Index` (`Index.wrap`). -/
def kernel.cpu.randn_carry (shape underlying_shape stride : Option (List Int)) :
    Nat → kernel.cpu.Carry → Run kernel.cpu.Carry
  | 0, _ => Run.raise .vector_bounds
  | fuel + 1, c => do
    let t ← vget c.tmp_index c.k
    let s ← pget shape c.k
    if t = s then
      let tmp_index ← vset c.tmp_index c.k 0
      let k := c.k + 1
      let t ← vget tmp_index k
      let tmp_index ← vset tmp_index k (t + 1)
      let u ← pget underlying_shape (k - 1)
      let s ← pget shape (k - 1)
      let shift := Index.wrap (c.shift + Index.wrap (c.underlying_stride * Index.wrap (u - s)))
      let underlying_stride := Index.wrap (c.underlying_stride * u)
      let stride_k ← pget stride k
      let stride_k1 ← pget stride (k - 1)
      kernel.cpu.randn_carry shape underlying_shape stride fuel
        ⟨tmp_index, k, shift, underlying_stride,
          c.data + Index.wrap (stride_k - Index.wrap (stride_k1 * s))⟩
    else pure c

/-- One round of the loop over the columns `j = 1, ..., ncols-1` (lines 101-138).  The
differences `underlying_shape[0] - nrows` and `stride[1] - nrows` (lines 109 and 113) are
computed in `Index` (`Index.wrap`). -/
def kernel.cpu.randn_next_column {T : Type} [Add T] [Mul T] (g : Generator T)
    (mean stddev : T) (shape underlying_shape stride : Option (List Int)) (nrows : Int)
    (st : kernel.cpu.Cursor T × List Int) : Run (kernel.cpu.Cursor T × List Int) := do
  let t ← vget st.2 1
  let tmp_index ← vset st.2 1 (t + 1)
  let u ← pget underlying_shape 0
  let stride_1 ← pget stride 1
  let w ← kernel.cpu.randn_carry shape underlying_shape stride tmp_index.length
    ⟨tmp_index, 1, Index.wrap (u - nrows), u, st.1.data + Index.wrap (stride_1 - nrows)⟩
  let c ← kernel.cpu.randn_column g mean stddev nrows
    ⟨g.jump w.shift st.1.seed, st.1.buffer, w.data⟩
  pure (c, w.tmp_index)

/-- The kernel `randn` (lines 37-139).  The pointers `start`, `shape`, `underlying_shape`,
`stride` and `tmp_index` are optional vectors, `none` for the null pointer; `data` is the
output buffer and the result is that buffer after the call.  The seed is a natural number
that only the generator looks into.  The jump counts and the steps of the pointer `data` are
computed in `Index` (`Index.wrap`). -/
def kernel.cpu.randn {T : Type} [Add T] [Mul T] (g : Generator T) (ndim nelems : Int)
    (seed : Nat) (mean stddev : T) (start shape underlying_shape : Option (List Int))
    (data : List T) (stride tmp_index : Option (List Int)) : Run (List T) :=
  if ndim = 0 then
    vset data 0 (kernel.cpu.chameleon_randn g seed mean stddev).1
  else do
    let shift ← pget start (ndim - 1)
    let shift ← foldEach (indexRange 0 (ndim - 1)).reverse shift fun i shift => do
      let s ← pget start i
      let u ← pget underlying_shape i
      pure (Index.wrap (s + Index.wrap (shift * u)))
    let seed := g.jump shift seed
    let nrows ← pget shape 0
    Run.throw_if (nrows = 0) .vector_bounds
    let ncols := nelems.tdiv nrows
    let c ← kernel.cpu.randn_column g mean stddev nrows ⟨seed, data, 0⟩
    let tmp_index ← match tmp_index with
      | some t => foldRange 0 ndim t fun i t => vset t i 0
      | none => Run.raise .vector_bounds
    let r ← foldRange 1 ncols (c, tmp_index) fun _ st =>
      kernel.cpu.randn_next_column g mean stddev shape underlying_shape stride nrows st
    pure r.1.buffer

/-- The reference of the tests: the values of `n` calls of `chameleon_randn` in a row,
each call starting from the seed that the call before it left behind. -/
def kernel.cpu.sequential {T : Type} [Add T] [Mul T] (g : Generator T) (mean stddev : T) :
    Nat → Nat → List T
  | 0, _ => []
  | n + 1, seed =>
    (kernel.cpu.chameleon_randn g seed mean stddev).1 ::
      kernel.cpu.sequential g mean stddev n (kernel.cpu.chameleon_randn g seed mean stddev).2

/-- The position of the element with the given index in a contiguous array of the given
extents, the first axis running fastest: `index[0] + shape[0]*(index[1] + shape[1]*...)`. -/
def column_major_offset : List Int → List Int → Int
  | x :: index, n :: shape => x + n * column_major_offset index shape
  | _, _ => 0

/-- The position of the element with the given index in a buffer with the given strides:
`stride[0]*index[0] + stride[1]*index[1] + ...`. -/
def strided_offset : List Int → List Int → Int
  | s :: stride, x :: index => s * x + strided_offset stride index
  | _, _ => 0

/-- The index `index` lies inside an array of the given shape: one entry per axis, each
from `0` up to the extent of its axis, the extent excluded. -/
def index_within (index shape : List Int) : Prop :=
  index.length = shape.length ∧
  ∀ i : Nat, i < shape.length → 0 ≤ index.getD i 0 ∧ index.getD i 0 < shape.getD i 0

instance (index shape : List Int) : Decidable (index_within index shape) := by
  unfold index_within; infer_instance

/-- The computation of the first jump (lines 81-85): `shift = start[ndim-1]` and then
`shift = start[i] + shift*underlying_shape[i]` for `i = ndim-2, ..., 0`, computed in
`Index` (`Index.wrap`) as in `kernel.cpu.randn`, whose first four lines these are. -/
def kernel.cpu.randn_start_shift (ndim : Int) (start underlying_shape : Option (List Int)) :
    Run Int := do
  let shift ← pget start (ndim - 1)
  foldEach (indexRange 0 (ndim - 1)).reverse shift fun i shift => do
    let s ← pget start i
    let u ← pget underlying_shape i
    pure (Index.wrap (s + Index.wrap (shift * u)))

/-- The part of one round of the loop over the columns that finds the next column (lines
106-128), from the position `data` of the pointer and the index `tmp_index` left by the
round before: the variables as they are when the loop `while(tmp_index[k] == shape[k])`
ends, `shift` being the count that line 131 passes to `CORE_rnd64_jump`.  These are the
lines of `kernel.cpu.randn_next_column` before its column of writes. -/
def kernel.cpu.randn_index_step (shape underlying_shape stride : Option (List Int))
    (nrows data : Int) (tmp_index : List Int) : Run kernel.cpu.Carry := do
  let t ← vget tmp_index 1
  let tmp_index ← vset tmp_index 1 (t + 1)
  let u ← pget underlying_shape 0
  let stride_1 ← pget stride 1
  kernel.cpu.randn_carry shape underlying_shape stride tmp_index.length
    ⟨tmp_index, 1, Index.wrap (u - nrows), u, data + Index.wrap (stride_1 - nrows)⟩

/-- The walk of `randn` over the index arrays for `ndim != 0` (lines 88-138 without the
calls of the generator and the writes through `data`, on which no index depends): the
division `nelems / nrows`, the initialisation of `tmp_index` and the rounds of the loop over
the columns, each round moving the pointer on by the `nrows` elements of its column.  The
result lists, round by round, the variables at the end of the loop
`while(tmp_index[k] == shape[k])`.  The run of `kernel.cpu.randn` is the first jump and
column followed by one jump and one column per entry of this list (`randn_eq_walk`). -/
def kernel.cpu.randn_index_walk (ndim nelems : Int)
    (shape underlying_shape stride tmp_index : Option (List Int)) :
    Run (List kernel.cpu.Carry) := do
  let nrows ← pget shape 0
  Run.throw_if (nrows = 0) .vector_bounds
  let ncols := nelems.tdiv nrows
  let tmp_index ← match tmp_index with
    | some t => foldRange 0 ndim t fun i t => vset t i 0
    | none => Run.raise .vector_bounds
  let r ← foldRange 1 ncols (([] : List kernel.cpu.Carry), nrows, tmp_index) fun _ st => do
    let w ← kernel.cpu.randn_index_step shape underlying_shape stride nrows st.2.1 st.2.2
    pure (st.1 ++ [w], w.data + nrows, w.tmp_index)
  pure r.1

/-- The buffer `b` is the buffer `data` with the elements of offset below `bound` filled
in: the element of an index inside the shape whose column-major offset in the shape is
below `bound` sits at the position that the strides give to the index and holds the value
of the index, and every position that is not the position of such an index holds what
`data` holds there. -/
def kernel.cpu.Filled {T : Type} (value : List Int → T) (stride shape : List Int)
    (data : List T) (bound : Int) (b : List T) : Prop :=
  b.length = data.length ∧
  (∀ index, index_within index shape → column_major_offset index shape < bound →
    b[(strided_offset stride index).toNat]? = some (value index)) ∧
  (∀ p : Nat, (∀ index, index_within index shape → column_major_offset index shape < bound →
    (strided_offset stride index).toNat ≠ p) → b[p]? = data[p]?)

/-! ## `src/kernel/normalize/cpu.cc` -/

/-- The deviation `dev` computed for one element (lines 68-91) from `reps`, `mean` and
`rms`; `sqrt` stands for `std::sqrt` and the absolute value for `std::fabs`.  The quotients
are those of the field `T`, and the kernel uses the value only in a pass whose divisors
before the last one (`kernel.normalize.cpu_divisors`) are not zero. -/
def kernel.normalize.cpu_dev {T : Type} [LinearOrderedField T] (sqrt : T → T)
    (reps mean rms : T) : T :=
  let one : T := 1
  let tmp := |mean| / rms
  if tmp ≥ one then reps
  else if rms > reps then
    let ssq := one - tmp * tmp
    let tmp2 := reps / rms
    let ssq := ssq + tmp2 * tmp2
    rms * sqrt ssq
  else
    let ssq := one - tmp * tmp
    let tmp2 := rms / reps
    let ssq := ssq * (tmp2 * tmp2)
    let ssq := ssq + one
    reps * sqrt ssq

/-- The divisors of the divisions that one pass of the inner loop executes, in the order of
execution, for the values `reps`, `mean` and `rms` of lines 49, 64 and 66: `rms` in
`std::fabs(mean) / rms` (line 71), then `rms` in `reps / rms` (line 80) when the second
branch is taken or `reps` in `rms / reps` (line 87) when the third one is, then `dev` in
`(val-mean) / dev` (line 93). -/
def kernel.normalize.cpu_divisors {T : Type} [LinearOrderedField T] (sqrt : T → T)
    (reps mean rms : T) : List T :=
  let one : T := 1
  let tmp := |mean| / rms
  [rms] ++ (if tmp ≥ one then [] else if rms > reps then [rms] else [reps]) ++
    [kernel.normalize.cpu_dev sqrt reps mean rms]

/-- The body of the inner loop (lines 60-98) on the variables `dst`, `dst_offset` and
`src_offset`.  The kernel is followed in exact arithmetic, where a division by zero has no
value: an element of the buffer `dst` is a number of `T` or `none`, the element without a
value that a pass stores when one of its divisions has the divisor zero (or when the element
it reads is `none`).  For a pass whose last division `(val-mean) / dev` has the divisor zero
the floating-point code stores an infinity or a NaN. -/
def kernel.normalize.cpu_element {T : Type} [LinearOrderedField T] (sqrt : T → T)
    (invl rinvl reps : T) (gamma beta sumnorm : List T)
    (st : (List (Option T) × Int) × Int) : Run ((List (Option T) × Int) × Int) := do
  let val ← vget st.1.1 st.1.2
  let sum ← vget sumnorm st.2
  let mean := sum * invl
  let norm ← vget sumnorm (st.2 + 1)
  let rms := norm * rinvl
  let dev := kernel.normalize.cpu_dev sqrt reps mean rms
  let val := if 0 ∈ kernel.normalize.cpu_divisors sqrt reps mean rms then none
    else val.map fun v => (v - mean) / dev
  let gamma0 ← vget gamma 0
  let beta0 ← vget beta 0
  let val := val.map fun v => v * gamma0 + beta0
  let dst ← vset st.1.1 st.1.2 val
  pure ((dst, st.1.2 + 1), st.2 + 2)

/-- The body of the middle loop (lines 56-99) on the variables `dst` and `dst_offset`: the
inner loop over the first mode, with `src_offset` starting at `2 * m * i2`. -/
def kernel.normalize.cpu_middle {T : Type} [LinearOrderedField T] (sqrt : T → T)
    (invl rinvl reps : T) (gamma beta sumnorm : List T) (m i2 : Int)
    (st : List (Option T) × Int) : Run (List (Option T) × Int) := do
  let r ← foldRange 0 m (st, 2 * m * i2) fun _ st =>
    kernel.normalize.cpu_element sqrt invl rinvl reps gamma beta sumnorm st
  pure r.1

/-- The kernel `normalize::cpu` (lines 21-102) over an ordered field `T` with a square
root function `sqrt`; the result is the buffer `dst` after the call, whose elements are
numbers of `T` or `none`, the element without a value (see
`kernel.normalize.cpu_element`). -/
def kernel.normalize.cpu {T : Type} [LinearOrderedField T] (sqrt : T → T) (m n k l : Int)
    (eps : T) (gamma beta sumnorm : List T) (dst : List (Option T)) :
    Run (List (Option T)) := do
  let one : T := 1
  let invl := one / (l : T)
  let rinvl := sqrt invl
  let reps := sqrt eps
  let r ← foldRange 0 n (dst, (0 : Int)) fun i2 st =>
    foldRange 0 k st fun _ st =>
      kernel.normalize.cpu_middle sqrt invl rinvl reps gamma beta sumnorm m i2 st
  pure r.1

/-- The value that `normalize::cpu` gives to an element `old` of `dst` for the pair
`(sum, norm)` of `sumnorm` (lines 61-95), `gamma0` and `beta0` being `gamma[0]` and
`beta[0]`. -/
def kernel.normalize.cpu_value {T : Type} [LinearOrderedField T] (sqrt : T → T)
    (invl rinvl reps gamma0 beta0 : T) (old : Option T) (sum norm : T) : Option T :=
  (if 0 ∈ kernel.normalize.cpu_divisors sqrt reps (sum * invl) (norm * rinvl) then none
    else old.map fun v =>
      (v - sum * invl) / kernel.normalize.cpu_dev sqrt reps (sum * invl) (norm * rinvl)).map
    fun v => v * gamma0 + beta0

/-- The buffer `d` is the buffer `dst` with its first `done` elements updated: the element
`(i2*k + i1)*m + i0` holds `value old sum norm` for the old element and the pair at
`2*(i2*m + i0)` of `sumnorm`, and the elements from `done` on are the old ones. -/
def kernel.normalize.Updated {T U : Type} (value : U → T → T → U) (m n k : Nat)
    (sumnorm : List T) (dst : List U) (done : Nat) (d : List U) : Prop :=
  d.length = dst.length ∧
  (∀ (i0 i1 i2 : Nat) (old : U) (sum norm : T), i0 < m → i1 < k → i2 < n →
    (i2 * k + i1) * m + i0 < done →
    dst[(i2 * k + i1) * m + i0]? = some old → sumnorm[2 * (i2 * m + i0)]? = some sum →
    sumnorm[2 * (i2 * m + i0) + 1]? = some norm →
    d[(i2 * k + i1) * m + i0]? = some (value old sum norm)) ∧
  (∀ idx : Nat, done ≤ idx → d[idx]? = dst[idx]?)

/-! ## `wrappers/python/nntile/nntile_core.cc` -/

/-- The function that `def_mod_starpu` binds to the Python name `wait_for_all` of the
module `starpu` (lines 35-36), the lambda
`[](){starpu_task_wait_for_all; starpu_mpi_wait_for_all(MPI_COMM_WORLD);}`.  Its first
statement is the name `starpu_task_wait_for_all` without an argument list: an expression
statement that names the function and does not call it, so it makes no request.  Its second
statement is the call `starpu_mpi_wait_for_all(MPI_COMM_WORLD)`. -/
def def_mod_starpu.wait_for_all : Run Unit := do
  Run.ret ()
  Run.emit .mpi_wait_for_all

/-! ## Sample operands of the kernels and of the copy -/

/-- A generator on integers that counts: the state `s` yields the value `s + 1`, a step
adds one to the state and a jump by `n` is `n` steps. -/
def counting : Generator Int where
  laran s := (s : Int) + 1
  next s := s + 1
  jump n s := s + n.toNat

/-- A vector of one entry held in one tile. -/
def sample1 : Tensor where
  ndim := 1
  shape := [1]
  basetile_shape := [1]
  grid := ⟨1, [1], [1], 1, [[1, 1], [1, 1]]⟩
  tile_traits := [⟨1, [1], [1], 1, [[1, 1], [1, 1]]⟩]
  tile_handles := [⟨50, 0⟩]

/-- A `2 x 2 x 2` tensor held in one tile, with the handle `first` on rank `0`: the source
and, with another handle, the destination of a `sumnorm` along the interior axis `1`. -/
def sample222 (first : Nat) : Tensor where
  ndim := 3
  shape := [2, 2, 2]
  basetile_shape := [2, 2, 2]
  grid := ⟨3, [1, 1, 1], [1, 1, 1], 1, [[1, 1], [1, 1], [1, 1], [1, 1]]⟩
  tile_traits := [⟨3, [2, 2, 2], [1, 2, 4], 8, [[1, 8], [2, 4], [4, 2], [8, 1]]⟩]
  tile_handles := [⟨first, 0⟩]

/-- A scalar, the tensor without axes, held in one tile. -/
def sample0 : Tensor where
  ndim := 0
  shape := []
  basetile_shape := []
  grid := ⟨0, [], [], 1, [[1, 1]]⟩
  tile_traits := [⟨0, [], [], 1, [[1, 1]]⟩]
  tile_handles := [⟨60, 0⟩]


/-! ## Theorems -/

/-! ## The run monad -/

@[simp] theorem Run.bind_eq {α β : Type} (m : Run α) (f : α → Run β) :
    (m >>= f) = m.andThen f := rfl

@[simp] theorem Run.pure_eq {α : Type} (a : α) : (pure a : Run α) = Run.ret a := rfl

@[simp] theorem Run.ret_andThen {α β : Type} (a : α) (f : α → Run β) :
    (Run.ret a).andThen f = f a := by
  simp [Run.ret, Run.andThen]

@[simp] theorem Run.raise_andThen {α β : Type} (e : Error) (f : α → Run β) :
    (Run.raise e : Run α).andThen f = Run.raise e := by
  simp [Run.raise, Run.andThen]

@[simp] theorem Run.ret_effects {α : Type} (a : α) : (Run.ret a).effects = [] := rfl

@[simp] theorem Run.ret_result {α : Type} (a : α) : (Run.ret a).result = .ok a := rfl

@[simp] theorem Run.raise_effects {α : Type} (e : Error) :
    (Run.raise e : Run α).effects = [] := rfl

@[simp] theorem Run.raise_result {α : Type} (e : Error) :
    (Run.raise e : Run α).result = .error e := rfl

@[simp] theorem Run.emit_effects (e : Effect) : (Run.emit e).effects = [e] := rfl

@[simp] theorem Run.emit_result (e : Effect) : (Run.emit e).result = .ok () := rfl

theorem Run.throw_if_pos {c : Prop} [Decidable c] (e : Error) (h : c) :
    Run.throw_if c e = Run.raise e := by
  simp [Run.throw_if, h]

theorem Run.throw_if_neg {c : Prop} [Decidable c] (e : Error) (h : ¬ c) :
    Run.throw_if c e = Run.ret () := by
  simp [Run.throw_if, h]

theorem Run.when_pos {c : Prop} [Decidable c] (m : Run Unit) (h : c) :
    Run.when c m = m := by
  simp [Run.when, h]

theorem Run.when_neg {c : Prop} [Decidable c] (m : Run Unit) (h : ¬ c) :
    Run.when c m = Run.ret () := by
  simp [Run.when, h]

theorem Run.throw_if_effects {c : Prop} [Decidable c] (e : Error) :
    (Run.throw_if c e).effects = [] := by
  unfold Run.throw_if
  split <;> rfl

theorem Run.andThen_of_ok {α β : Type} {m : Run α} {a : α} (f : α → Run β)
    (h : m.result = .ok a) :
    m.andThen f = ⟨m.effects ++ (f a).effects, (f a).result⟩ := by
  simp [Run.andThen, h]

theorem Run.andThen_of_error {α β : Type} {m : Run α} {e : Error} (f : α → Run β)
    (h : m.result = .error e) :
    m.andThen f = ⟨m.effects, .error e⟩ := by
  simp [Run.andThen, h]

/-- A run is quiet when it makes no request. -/
theorem Run.andThen_quiet {α β : Type} {m : Run α} {f : α → Run β}
    (hm : m.effects = []) (hf : ∀ a, (f a).effects = []) :
    (m.andThen f).effects = [] := by
  unfold Run.andThen
  cases h : m.result <;> simp [hm, hf]

theorem Run.andThen_result_error {α β : Type} {m : Run α} {f : α → Run β} {e : Error}
    (h : (m.andThen f).result = .error e) :
    m.result = .error e ∨ ∃ a, m.result = .ok a ∧ (f a).result = .error e := by
  unfold Run.andThen at h
  cases hm : m.result with
  | ok a => rw [hm] at h; exact Or.inr ⟨a, rfl, h⟩
  | error e2 => rw [hm] at h; simp at h; exact Or.inl (by rw [h])

theorem forEach_quiet {α : Type} (xs : List α) (body : α → Run Unit)
    (h : ∀ x ∈ xs, (body x).effects = []) : (forEach xs body).effects = [] := by
  induction xs with
  | nil => rfl
  | cons x xs ih =>
    unfold forEach
    unfold Run.andThen
    cases hx : (body x).result with
    | ok a => simp [h x (by simp), ih (fun y hy => h y (by simp [hy]))]
    | error e => simp [h x (by simp)]

theorem forEach_result_error {α : Type} (xs : List α) (body : α → Run Unit) (e : Error)
    (h : (forEach xs body).result = .error e) : ∃ x ∈ xs, (body x).result = .error e := by
  induction xs with
  | nil => simp [forEach] at h
  | cons x xs ih =>
    unfold forEach at h
    rcases Run.andThen_result_error h with h1 | ⟨_, _, h2⟩
    · exact ⟨x, by simp, h1⟩
    · obtain ⟨y, hy, hy2⟩ := ih h2
      exact ⟨y, by simp [hy], hy2⟩

theorem forEach_result_ok_iff {α : Type} (xs : List α) (body : α → Run Unit) :
    (forEach xs body).result = .ok () ↔ ∀ x ∈ xs, (body x).result = .ok () := by
  induction xs with
  | nil => simp [forEach]
  | cons x xs ih =>
    unfold forEach
    unfold Run.andThen
    cases hx : (body x).result with
    | ok a => simp [ih, hx]
    | error e => simp [hx]

theorem forEach_of_ok {α : Type} (xs : List α) (body : α → Run Unit)
    (h : ∀ x ∈ xs, (body x).result = .ok ()) :
    forEach xs body = ⟨xs.flatMap fun x => (body x).effects, .ok ()⟩ := by
  induction xs with
  | nil => rfl
  | cons x xs ih =>
    unfold forEach
    rw [Run.andThen_of_ok _ (h x (by simp)), ih (fun y hy => h y (by simp [hy]))]
    simp

theorem mem_indexRange {lo hi i : Int} :
    i ∈ indexRange lo hi ↔ lo ≤ i ∧ i < hi := by
  unfold indexRange
  simp only [List.mem_map, List.mem_range]
  constructor
  · rintro ⟨k, hk, rfl⟩
    omega
  · rintro ⟨h1, h2⟩
    exact ⟨(i - lo).toNat, by omega, by omega⟩

theorem vget_effects {α : Type} (v : List α) (i : Int) : (vget v i).effects = [] := by
  unfold vget
  split
  · split <;> rfl
  · rfl

theorem vget_of_lt {α : Type} (v : List α) (i : Int) (h0 : 0 ≤ i) (h1 : i < v.length) :
    ∃ x, v[i.toNat]? = some x ∧ vget v i = Run.ret x := by
  have hlt : i.toNat < v.length := by omega
  refine ⟨v[i.toNat], List.getElem?_eq_getElem hlt, ?_⟩
  unfold vget
  simp [h0, List.getElem?_eq_getElem hlt]

theorem vget_nat {α : Type} (v : List α) (k : Nat) (x : α) (h : v[k]? = some x) :
    vget v (k : Int) = Run.ret x := by
  unfold vget
  simp [h]

theorem Run.no_validation_ret {α : Type} (a : α) : (Run.ret a).no_validation := by
  intro what; simp

theorem Run.no_validation_emit (e : Effect) : (Run.emit e).no_validation := by
  intro what; simp

theorem Run.no_validation_andThen {α β : Type} {m : Run α} {f : α → Run β}
    (hm : m.no_validation) (hf : ∀ a, (f a).no_validation) : (m.andThen f).no_validation := by
  intro what h
  rcases Run.andThen_result_error h with h1 | ⟨a, _, h2⟩
  · exact hm what h1
  · exact hf a what h2

theorem Run.no_validation_when {c : Prop} [Decidable c] {m : Run Unit}
    (hm : m.no_validation) : (Run.when c m).no_validation := by
  unfold Run.when
  split
  · exact hm
  · exact Run.no_validation_ret ()

theorem forEach_no_validation {α : Type} (xs : List α) (body : α → Run Unit)
    (h : ∀ x, (body x).no_validation) : (forEach xs body).no_validation := by
  intro what he
  obtain ⟨x, _, hx⟩ := forEach_result_error xs body _ he
  exact h x what hx

theorem foldEach_no_validation {α σ : Type} (xs : List α) (s : σ) (body : α → σ → Run σ)
    (h : ∀ x s, (body x s).no_validation) : (foldEach xs s body).no_validation := by
  induction xs generalizing s with
  | nil => exact Run.no_validation_ret s
  | cons x xs ih =>
    unfold foldEach
    exact Run.no_validation_andThen (h x s) (fun t => ih t)

theorem vget_no_validation {α : Type} (v : List α) (i : Int) : (vget v i).no_validation := by
  intro what
  unfold vget
  split
  · split <;> simp
  · simp

theorem vset_no_validation {α : Type} (v : List α) (i : Int) (x : α) :
    (vset v i x).no_validation := by
  intro what
  unfold vset
  split <;> simp

theorem get_tile_handle_no_validation (t : Tensor) (i : Int) :
    (t.get_tile_handle i).no_validation := by
  intro what
  unfold Tensor.get_tile_handle
  split
  · split <;> simp
  · simp

theorem get_tile_traits_no_validation (t : Tensor) (i : Int) :
    (t.get_tile_traits i).no_validation := by
  intro what
  unfold Tensor.get_tile_traits
  split
  · split <;> simp
  · simp

theorem to_index_no_validation (G : GridMaps) (g : TileTraits) (i : Int) :
    (G.to_index g i).no_validation := by
  intro what
  unfold GridMaps.to_index
  split <;> simp

theorem to_linear_no_validation (G : GridMaps) (g : TileTraits) (index : List Int) :
    (G.to_linear g index).no_validation := by
  intro what
  unfold GridMaps.to_linear
  split <;> simp

theorem hypot_tile_no_validation (mpi_rank : Int) (alpha : scal_t) (src : Tensor)
    (beta : scal_t) (dst : Tensor) (i : Int) :
    (hypot_tile mpi_rank alpha src beta dst i).no_validation := by
  unfold hypot_tile
  simp only [bind, pure]
  repeat first
    | apply Run.no_validation_andThen
    | apply Run.no_validation_when
    | apply Run.no_validation_ret
    | apply Run.no_validation_emit
    | apply get_tile_handle_no_validation
    | apply get_tile_traits_no_validation
    | split
    | intro (_ : _)

theorem sumnorm_sizes_no_validation (ndim axis : Int) (s d : TileTraits) :
    (sumnorm_sizes ndim axis s d).no_validation := by
  unfold sumnorm_sizes
  simp only [bind, pure]
  repeat first
    | apply Run.no_validation_andThen
    | apply Run.no_validation_when
    | apply Run.no_validation_ret
    | apply vget_no_validation
    | split
    | intro (_ : _)

theorem sumnorm_src_tile_no_validation (G : GridMaps) (mpi_rank : Int) (src : Tensor)
    (axis : Int) (h : Handle) (tr : TileTraits) (j : Int) (v : List Int) :
    (sumnorm_src_tile G mpi_rank src axis h tr j v).no_validation := by
  unfold sumnorm_src_tile
  simp only [bind, pure]
  repeat first
    | apply Run.no_validation_andThen
    | apply Run.no_validation_when
    | apply Run.no_validation_ret
    | apply Run.no_validation_emit
    | apply get_tile_handle_no_validation
    | apply get_tile_traits_no_validation
    | apply to_linear_no_validation
    | apply sumnorm_sizes_no_validation
    | apply vset_no_validation
    | split
    | intro (_ : _)

theorem sumnorm_tile_no_validation (G : GridMaps) (mpi_rank : Int) (src dst : Tensor)
    (axis : Int) (i : Int) : (sumnorm_tile G mpi_rank src dst axis i).no_validation := by
  unfold sumnorm_tile sumnorm_src_tile_index foldRange
  simp only [bind, pure]
  repeat first
    | apply Run.no_validation_andThen
    | apply Run.no_validation_when
    | apply foldEach_no_validation
    | apply Run.no_validation_ret
    | apply Run.no_validation_emit
    | apply get_tile_handle_no_validation
    | apply get_tile_traits_no_validation
    | apply to_index_no_validation
    | apply sumnorm_src_tile_no_validation
    | apply vget_no_validation
    | apply vset_no_validation
    | split
    | intro (_ : _)

theorem biasprod_tile_no_validation (G : GridMaps) (mpi_rank : Int) (src dst : Tensor)
    (axis : Int) (i : Int) : (biasprod_tile G mpi_rank src dst axis i).no_validation := by
  unfold biasprod_tile biasprod_dst_tile_index foldRange
  simp only [bind, pure]
  repeat first
    | apply Run.no_validation_andThen
    | apply Run.no_validation_when
    | apply foldEach_no_validation
    | apply Run.no_validation_ret
    | apply Run.no_validation_emit
    | apply get_tile_handle_no_validation
    | apply get_tile_traits_no_validation
    | apply to_index_no_validation
    | apply to_linear_no_validation
    | apply vget_no_validation
    | apply vset_no_validation
    | split
    | intro (_ : _)
    | unfold biasprod_dst_tile
    | simp only [bind, pure]

theorem vget_int {α : Type} (v : List α) (i : Int) (k : Nat) (x : α) (hk : i = k)
    (h : v[k]? = some x) : vget v i = Run.ret x := by
  subst hk
  exact vget_nat v k x h

theorem Run.is_check_ret : (Run.ret ()).is_check := ⟨rfl, Or.inl rfl⟩

theorem Run.is_check_raise (what : String) :
    (Run.raise (.validation what) : Run Unit).is_check := ⟨rfl, Or.inr ⟨what, rfl⟩⟩

theorem Run.is_check_andThen {m : Run Unit} {f : Unit → Run Unit} (hm : m.is_check)
    (hf : (f ()).is_check) : (m.andThen f).is_check := by
  obtain ⟨hq, hr | ⟨what, hr⟩⟩ := hm
  · rw [Run.andThen_of_ok f hr, hq]
    exact hf
  · rw [Run.andThen_of_error f hr, hq]
    exact ⟨rfl, Or.inr ⟨what, rfl⟩⟩

theorem Run.andThen_result_ok_iff {m : Run Unit} {f : Unit → Run Unit} :
    (m.andThen f).result = .ok () ↔ m.result = .ok () ∧ (f ()).result = .ok () := by
  unfold Run.andThen
  cases h : m.result <;> simp

theorem forEach_is_check {α : Type} (xs : List α) (body : α → Run Unit)
    (h : ∀ x ∈ xs, (body x).is_check) : (forEach xs body).is_check := by
  refine ⟨forEach_quiet xs body (fun x hx => (h x hx).1), ?_⟩
  cases hr : (forEach xs body).result with
  | ok a => exact Or.inl rfl
  | error e =>
    obtain ⟨x, hx, he⟩ := forEach_result_error xs body e hr
    rcases (h x hx).2 with h1 | ⟨what, h1⟩
    · rw [h1] at he; cases he
    · rw [h1] at he; cases he; exact Or.inr ⟨what, rfl⟩

/-- A call made of checks followed by a part that throws no exception of the checks ends
with such an exception exactly when the checks do not pass. -/
theorem validation_iff (chk : Run Unit) (rest : Unit → Run Unit) (hc : chk.is_check)
    (hr : (rest ()).no_validation) :
    (∃ what, (chk.andThen rest).result = .error (.validation what)) ↔
      chk.result ≠ .ok () := by
  obtain ⟨_, hok | ⟨what, herr⟩⟩ := hc
  · rw [Run.andThen_of_ok rest hok]
    simp only [hok, ne_eq, not_true_eq_false, iff_false, not_exists]
    exact fun what h => hr what h
  · rw [Run.andThen_of_error rest herr]
    simp [herr]

theorem validation_quiet {α : Type} (chk : Run Unit) (rest : Unit → Run α)
    (hc : chk.effects = []) (hr : ∀ u, (rest u).no_validation)
    (h : ∃ what, (chk.andThen rest).result = .error (.validation what)) :
    (chk.andThen rest).effects = [] := by
  obtain ⟨what, h⟩ := h
  cases hres : chk.result with
  | ok a =>
    rw [Run.andThen_of_ok rest hres] at h
    exact absurd h (hr a what)
  | error e =>
    rw [Run.andThen_of_error rest hres]
    exact hc

theorem hypot_check_axis_spec (src dst : Tensor) (hs : src.ShapeWF) (hd : dst.ShapeWF)
    (hn : dst.ndim = src.ndim) (i : Int) (h0 : 0 ≤ i) (h1 : i < dst.ndim) :
    (hypot_check_axis src dst i).is_check ∧
      ((hypot_check_axis src dst i).result = .ok () ↔
        dst.shape[i.toNat]? = src.shape[i.toNat]? ∧
        dst.basetile_shape[i.toNat]? = src.basetile_shape[i.toNat]?) := by
  obtain ⟨hs1, hs2⟩ := hs
  obtain ⟨hd1, hd2⟩ := hd
  obtain ⟨x, hx, hx2⟩ := vget_of_lt dst.shape i h0 (by omega)
  obtain ⟨y, hy, hy2⟩ := vget_of_lt src.shape i h0 (by omega)
  obtain ⟨bx, hbx, hbx2⟩ := vget_of_lt dst.basetile_shape i h0 (by omega)
  obtain ⟨cx, hcx, hcx2⟩ := vget_of_lt src.basetile_shape i h0 (by omega)
  unfold hypot_check_axis
  simp only [bind, pure, hx2, hy2, hbx2, hcx2, Run.ret_andThen, hx, hy, hbx, hcx]
  by_cases hxy : x = y <;> by_cases hbc : bx = cx <;>
    simp [hxy, hbc, Run.throw_if, Run.is_check_ret, Run.is_check_raise]

theorem hypot_check_spec (src dst : Tensor) (hs : src.ShapeWF) (hd : dst.ShapeWF) :
    (hypot_check src dst).is_check ∧
      ((hypot_check src dst).result = .ok () ↔
        dst.ndim = src.ndim ∧ ∀ i : Nat, (i : Int) < dst.ndim →
          dst.shape[i]? = src.shape[i]? ∧ dst.basetile_shape[i]? = src.basetile_shape[i]?) := by
  unfold hypot_check
  simp only [bind, pure]
  by_cases hn : dst.ndim = src.ndim
  · simp only [ne_eq, hn, not_true_eq_false, Run.throw_if, ↓reduceIte, Run.ret_andThen,
      true_and]
    have hb := fun i (hi : i ∈ indexRange 0 src.ndim) =>
      hypot_check_axis_spec src dst hs hd hn i (mem_indexRange.1 hi).1
        (by rw [hn]; exact (mem_indexRange.1 hi).2)
    refine ⟨forEach_is_check _ _ (fun i hi => (hb i hi).1), ?_⟩
    unfold forRange
    rw [forEach_result_ok_iff]
    constructor
    · intro h i hi
      have := (hb i (mem_indexRange.2 ⟨by omega, by omega⟩)).2.1
        (h i (mem_indexRange.2 ⟨by omega, by omega⟩))
      simpa using this
    · intro h i hi
      have hi2 := mem_indexRange.1 hi
      rw [(hb i hi).2]
      exact h i.toNat (by omega)
  · simp [hn, Run.throw_if, Run.is_check_raise]

theorem hypot_rest_no_validation (mpi_rank : Int) (alpha : scal_t) (src : Tensor)
    (beta : scal_t) (dst : Tensor) :
    (if alpha = 0 ∧ beta = 1 then Run.ret ()
      else forRange 0 src.grid.nelems (hypot_tile mpi_rank alpha src beta dst)).no_validation := by
  split
  · exact Run.no_validation_ret ()
  · exact forEach_no_validation _ _ (hypot_tile_no_validation mpi_rank alpha src beta dst)

theorem hypot_async_eq (mpi_rank : Int) (alpha : scal_t) (src : Tensor)
    (beta : scal_t) (dst : Tensor) :
    hypot_async mpi_rank alpha src beta dst =
      (hypot_check src dst).andThen fun _ =>
        if alpha = 0 ∧ beta = 1 then Run.ret ()
        else forRange 0 src.grid.nelems (hypot_tile mpi_rank alpha src beta dst) := by
  unfold hypot_async
  simp only [bind, pure]
  congr 1

/-- C1: on tensors whose `shape` and `basetile_shape` have `ndim` entries, `hypot_async` ends
with an exception of its checks if and only if `dst.ndim != src.ndim` or some axis
`i < dst.ndim` has `dst.shape[i] != src.shape[i]` or
`dst.basetile_shape[i] != src.basetile_shape[i]`; tile shapes `[2,2]` against `[2,3]` are
refused, and operands that agree in `ndim`, `shape` and `basetile_shape` never are. -/
theorem hypot_async_shape_mismatch (mpi_rank : Int) (alpha beta : scal_t) (src dst : Tensor)
    (hs : src.ShapeWF) (hd : dst.ShapeWF) :
    ((∃ what, (hypot_async mpi_rank alpha src beta dst).result = .error (.validation what)) ↔
      (dst.ndim ≠ src.ndim ∨ ∃ i : Nat, (i : Int) < dst.ndim ∧
        (dst.shape[i]? ≠ src.shape[i]? ∨
          dst.basetile_shape[i]? ≠ src.basetile_shape[i]?))) ∧
    ((dst.basetile_shape = [2, 2] ∧ src.basetile_shape = [2, 3] ∨
        dst.basetile_shape = [2, 3] ∧ src.basetile_shape = [2, 2]) →
      ∃ what, (hypot_async mpi_rank alpha src beta dst).result = .error (.validation what)) ∧
    (dst.ndim = src.ndim → dst.shape = src.shape →
      dst.basetile_shape = src.basetile_shape →
      ¬ ∃ what, (hypot_async mpi_rank alpha src beta dst).result =
        .error (.validation what)) := by
  have hiff : (∃ what, (hypot_async mpi_rank alpha src beta dst).result =
      .error (.validation what)) ↔
      (dst.ndim ≠ src.ndim ∨ ∃ i : Nat, (i : Int) < dst.ndim ∧
        (dst.shape[i]? ≠ src.shape[i]? ∨
          dst.basetile_shape[i]? ≠ src.basetile_shape[i]?)) := by
    rw [hypot_async_eq, validation_iff _ _ (hypot_check_spec src dst hs hd).1
      (hypot_rest_no_validation mpi_rank alpha src beta dst), ne_eq,
      (hypot_check_spec src dst hs hd).2]
    constructor
    · intro h
      by_cases hn : dst.ndim = src.ndim
      · right
        by_contra hcon
        apply h
        refine ⟨hn, fun i hi => ?_⟩
        by_contra hne
        exact hcon ⟨i, hi, by tauto⟩
      · exact Or.inl hn
    · rintro (hn | ⟨i, hi, hne⟩) ⟨h1, h2⟩
      · exact hn h1
      · have := h2 i hi
        tauto
  refine ⟨hiff, ?_, ?_⟩
  · intro h
    rw [hiff]
    by_cases hn : dst.ndim = src.ndim
    · right
      refine ⟨1, ?_, Or.inr ?_⟩
      · have h1 := hd.1
        have h2 := hd.2
        rcases h with ⟨h, _⟩ | ⟨h, _⟩ <;> rw [h] at h2 <;> simp at h2 <;> omega
      · rcases h with ⟨h, h3⟩ | ⟨h, h3⟩ <;> rw [h, h3] <;> simp
    · exact Or.inl hn
  · intro hn hsh hbt
    rw [hiff]
    rintro (h | ⟨i, _, h | h⟩)
    · exact h hn
    · exact h (by rw [hsh])
    · exact h (by rw [hbt])

theorem hypot_async_shape_mismatch_witness :
    ∃ what, (hypot_async 0 1 (sample44 0) 1 sample44_23).result =
      .error (.validation what) :=
  (hypot_async_shape_mismatch 0 1 1 (sample44 0) sample44_23 (by decide) (by decide)).2.1
    (Or.inr ⟨rfl, rfl⟩)

theorem hypot_check_quiet (src dst : Tensor) : (hypot_check src dst).effects = [] := by
  unfold hypot_check
  simp only [bind, pure]
  repeat first
    | apply Run.andThen_quiet
    | apply forEach_quiet
    | apply Run.throw_if_effects
    | apply vget_effects
    | rfl
    | intro (_ : _)
    | unfold hypot_check_axis
    | simp only [bind, pure]

theorem sumnorm_check_quiet (src dst : Tensor) (axis : Int) :
    (sumnorm_check src dst axis).effects = [] := by
  unfold sumnorm_check
  simp only [bind, pure]
  repeat first
    | apply Run.andThen_quiet
    | apply forEach_quiet
    | apply Run.throw_if_effects
    | apply vget_effects
    | rfl
    | intro (_ : _)
    | unfold sumnorm_check_before
    | unfold sumnorm_check_after
    | simp only [bind, pure]

theorem biasprod_check_quiet (src dst : Tensor) (axis : Int) :
    (biasprod_check src dst axis).effects = [] := by
  unfold biasprod_check
  simp only [bind, pure]
  repeat first
    | apply Run.andThen_quiet
    | apply forEach_quiet
    | apply Run.throw_if_effects
    | apply vget_effects
    | rfl
    | intro (_ : _)
    | unfold biasprod_check_before
    | unfold biasprod_check_after
    | simp only [bind, pure]

theorem sumnorm_async_eq (G : GridMaps) (mpi_rank : Int) (src dst : Tensor) (axis : Int) :
    sumnorm_async G mpi_rank src dst axis =
      (sumnorm_check src dst axis).andThen fun _ =>
        forRange 0 dst.grid.nelems (sumnorm_tile G mpi_rank src dst axis) := rfl

theorem biasprod_async_eq (G : GridMaps) (mpi_rank : Int) (src dst : Tensor) (axis : Int) :
    biasprod_async G mpi_rank src dst axis =
      (biasprod_check src dst axis).andThen fun _ =>
        forRange 0 src.grid.nelems (biasprod_tile G mpi_rank src dst axis) := rfl

/-- C2: whenever `hypot_async`, `sumnorm_async` or `biasprod_async` ends with an exception
of its checks, it has made no request to the runtime (no transfer, no submission, no
flush), whatever the operands and the calling rank. -/
theorem validation_failure_atomic (G : GridMaps) (mpi_rank : Int) (alpha beta : scal_t)
    (src dst : Tensor) (axis : Int) :
    ((∃ what, (hypot_async mpi_rank alpha src beta dst).result =
        .error (.validation what)) →
      (hypot_async mpi_rank alpha src beta dst).effects = []) ∧
    ((∃ what, (sumnorm_async G mpi_rank src dst axis).result =
        .error (.validation what)) →
      (sumnorm_async G mpi_rank src dst axis).effects = []) ∧
    ((∃ what, (biasprod_async G mpi_rank src dst axis).result =
        .error (.validation what)) →
      (biasprod_async G mpi_rank src dst axis).effects = []) := by
  refine ⟨?_, ?_, ?_⟩
  · rw [hypot_async_eq]
    exact validation_quiet _ _ (hypot_check_quiet src dst)
      (fun _ => hypot_rest_no_validation mpi_rank alpha src beta dst)
  · rw [sumnorm_async_eq]
    exact validation_quiet _ _ (sumnorm_check_quiet src dst axis)
      (fun _ => forEach_no_validation _ _ (sumnorm_tile_no_validation G mpi_rank src dst axis))
  · rw [biasprod_async_eq]
    exact validation_quiet _ _ (biasprod_check_quiet src dst axis)
      (fun _ => forEach_no_validation _ _ (biasprod_tile_no_validation G mpi_rank src dst axis))

/-- The shape of every check on one axis: two entries are read and compared, twice. -/
theorem axis_check_spec (A B C D : List Int) (i j : Int) (e1 e2 : String)
    (hi : 0 ≤ i) (hj : 0 ≤ j) (hA : i < A.length) (hB : j < B.length)
    (hC : i < C.length) (hD : j < D.length) :
    ((vget A i).andThen fun x => (vget B j).andThen fun y =>
      (Run.throw_if (x ≠ y) (.validation e1)).andThen fun _ =>
        (vget C i).andThen fun z => (vget D j).andThen fun w =>
          Run.throw_if (z ≠ w) (.validation e2)).is_check ∧
    (((vget A i).andThen fun x => (vget B j).andThen fun y =>
      (Run.throw_if (x ≠ y) (.validation e1)).andThen fun _ =>
        (vget C i).andThen fun z => (vget D j).andThen fun w =>
          Run.throw_if (z ≠ w) (.validation e2)).result = .ok () ↔
      A[i.toNat]? = B[j.toNat]? ∧ C[i.toNat]? = D[j.toNat]?) := by
  obtain ⟨x, hx, hx2⟩ := vget_of_lt A i hi hA
  obtain ⟨y, hy, hy2⟩ := vget_of_lt B j hj hB
  obtain ⟨z, hz, hz2⟩ := vget_of_lt C i hi hC
  obtain ⟨w, hw, hw2⟩ := vget_of_lt D j hj hD
  simp only [hx2, hy2, hz2, hw2, Run.ret_andThen, hx, hy, hz, hw]
  by_cases hxy : x = y <;> by_cases hzw : z = w <;>
    simp [hxy, hzw, Run.throw_if, Run.is_check_ret, Run.is_check_raise]

theorem forRange_check (lo hi : Int) (body : Int → Run Unit) (P : Nat → Prop)
    (hlo : 0 ≤ lo)
    (h : ∀ i : Nat, lo ≤ i → (i : Int) < hi →
      (body i).is_check ∧ ((body i).result = .ok () ↔ P i)) :
    (forRange lo hi body).is_check ∧
      ((forRange lo hi body).result = .ok () ↔
        ∀ i : Nat, lo ≤ i → (i : Int) < hi → P i) := by
  have hb : ∀ i ∈ indexRange lo hi,
      (body i).is_check ∧ ((body i).result = .ok () ↔ P i.toNat) := by
    intro i hi
    have hi2 := mem_indexRange.1 hi
    have := h i.toNat (by omega) (by omega)
    rwa [Int.toNat_of_nonneg (by omega)] at this
  refine ⟨forEach_is_check _ _ (fun i hi => (hb i hi).1), ?_⟩
  unfold forRange
  rw [forEach_result_ok_iff]
  constructor
  · intro h2 i h3 h4
    have hm : (i : Int) ∈ indexRange lo hi := mem_indexRange.2 ⟨h3, h4⟩
    simpa using (hb i hm).2.1 (h2 i hm)
  · intro h2 i hi
    have hi2 := mem_indexRange.1 hi
    rw [(hb i hi).2]
    exact h2 i.toNat (by omega) (by omega)

theorem sumnorm_check_spec (src dst : Tensor) (axis : Int) (hs : src.ShapeWF)
    (hd : dst.ShapeWF) :
    (sumnorm_check src dst axis).is_check ∧
      ((sumnorm_check src dst axis).result = .ok () ↔
        src.ndim = dst.ndim ∧ src.ndim ≠ 0 ∧ 0 ≤ axis ∧ axis < src.ndim ∧
        dst.shape[0]? = some 2 ∧ dst.basetile_shape[0]? = some 2 ∧
        (∀ i : Nat, (i : Int) < axis →
          src.shape[i]? = dst.shape[i + 1]? ∧
          src.basetile_shape[i]? = dst.basetile_shape[i + 1]?) ∧
        (∀ i : Nat, axis + 1 ≤ i → (i : Int) < src.ndim →
          src.shape[i]? = dst.shape[i]? ∧
          src.basetile_shape[i]? = dst.basetile_shape[i]?)) := by
  obtain ⟨hs1, hs2⟩ := hs
  obtain ⟨hd1, hd2⟩ := hd
  unfold sumnorm_check
  simp only [bind, pure]
  by_cases h1 : src.ndim = dst.ndim
  swap
  · rw [Run.throw_if_pos _ h1, Run.raise_andThen]
    exact ⟨Run.is_check_raise _, fun h => by simp at h, fun h => absurd h.1 h1⟩
  rw [Run.throw_if_neg _ (not_not.2 h1), Run.ret_andThen]
  by_cases h2 : src.ndim = 0
  · rw [Run.throw_if_pos _ h2, Run.raise_andThen]
    exact ⟨Run.is_check_raise _, fun h => by simp at h, fun h => absurd h2 h.2.1⟩
  rw [Run.throw_if_neg _ h2, Run.ret_andThen]
  by_cases h3 : axis < 0
  · rw [Run.throw_if_pos _ h3, Run.raise_andThen]
    exact ⟨Run.is_check_raise _, fun h => by simp at h, fun h => absurd h.2.2.1 (by omega)⟩
  rw [Run.throw_if_neg _ h3, Run.ret_andThen]
  by_cases h4 : axis ≥ src.ndim
  · rw [Run.throw_if_pos _ h4, Run.raise_andThen]
    exact ⟨Run.is_check_raise _, fun h => by simp at h,
      fun h => absurd h.2.2.2.1 (by omega)⟩
  rw [Run.throw_if_neg _ h4, Run.ret_andThen]
  obtain ⟨x, hx, hx2⟩ := vget_of_lt dst.shape 0 (le_refl 0) (by omega)
  obtain ⟨y, hy, hy2⟩ := vget_of_lt dst.basetile_shape 0 (le_refl 0) (by omega)
  simp only [Int.toNat_zero] at hx hy
  rw [hx2, Run.ret_andThen]
  by_cases h5 : x = 2
  swap
  · rw [Run.throw_if_pos _ h5, Run.raise_andThen]
    refine ⟨Run.is_check_raise _, fun h => by simp at h, fun h => ?_⟩
    have := h.2.2.2.2.1
    rw [hx] at this
    exact absurd (Option.some.inj this) h5
  rw [Run.throw_if_neg _ (not_not.2 h5), Run.ret_andThen, hy2, Run.ret_andThen]
  by_cases h6 : y = 2
  swap
  · rw [Run.throw_if_pos _ h6, Run.raise_andThen]
    refine ⟨Run.is_check_raise _, fun h => by simp at h, fun h => ?_⟩
    have := h.2.2.2.2.2.1
    rw [hy] at this
    exact absurd (Option.some.inj this) h6
  rw [Run.throw_if_neg _ (not_not.2 h6), Run.ret_andThen]
  have hA := forRange_check 0 axis (sumnorm_check_before src dst)
    (fun i => src.shape[i]? = dst.shape[i + 1]? ∧
      src.basetile_shape[i]? = dst.basetile_shape[i + 1]?) (le_refl 0) (by
      intro i _ hi
      have := axis_check_spec src.shape dst.shape src.basetile_shape dst.basetile_shape
        i (i + 1) "src.shape[i] != dst.shape[i+1]"
        "src.basetile_shape[i] != dst.basetile_shape[i+1]"
        (by omega) (by omega) (by omega) (by omega) (by omega) (by omega)
      rw [show ((i : Int) + 1).toNat = i + 1 by omega, Int.toNat_ofNat] at this
      exact this)
  have hB := forRange_check (axis + 1) src.ndim (sumnorm_check_after src dst)
    (fun i => src.shape[i]? = dst.shape[i]? ∧
      src.basetile_shape[i]? = dst.basetile_shape[i]?) (by omega) (by
      intro i _ hi
      have := axis_check_spec src.shape dst.shape src.basetile_shape dst.basetile_shape
        i i "src.shape[i] != dst.shape[i]"
        "src.basetile_shape[i] != dst.basetile_shape[i]"
        (by omega) (by omega) (by omega) (by omega) (by omega) (by omega)
      rw [Int.toNat_ofNat] at this
      exact this)
  refine ⟨Run.is_check_andThen hA.1 hB.1, ?_⟩
  rw [Run.andThen_result_ok_iff, hA.2, hB.2, hx, hy, h5, h6]
  constructor
  · rintro ⟨ha, hb⟩
    exact ⟨h1, h2, by omega, by omega, rfl, rfl, fun i hi => ha i (by omega) hi, hb⟩
  · rintro ⟨_, _, _, _, _, _, ha, hb⟩
    exact ⟨fun i _ hi => ha i hi, hb⟩

theorem biasprod_check_spec (src dst : Tensor) (axis : Int) (hs : src.ShapeWF)
    (hd : dst.ShapeWF) :
    (biasprod_check src dst axis).is_check ∧
      ((biasprod_check src dst axis).result = .ok () ↔
        dst.ndim = src.ndim + 1 ∧ 0 ≤ axis ∧ axis < dst.ndim ∧
        (∀ i : Nat, (i : Int) < axis →
          dst.shape[i]? = src.shape[i]? ∧
          dst.basetile_shape[i]? = src.basetile_shape[i]?) ∧
        (∀ i : Nat, axis + 1 ≤ i → (i : Int) < dst.ndim →
          dst.shape[i]? = src.shape[i - 1]? ∧
          dst.basetile_shape[i]? = src.basetile_shape[i - 1]?)) := by
  obtain ⟨hs1, hs2⟩ := hs
  obtain ⟨hd1, hd2⟩ := hd
  unfold biasprod_check
  simp only [bind, pure]
  by_cases h1 : dst.ndim = src.ndim + 1
  swap
  · rw [Run.throw_if_pos _ h1, Run.raise_andThen]
    exact ⟨Run.is_check_raise _, fun h => by simp at h, fun h => absurd h.1 h1⟩
  rw [Run.throw_if_neg _ (not_not.2 h1), Run.ret_andThen]
  by_cases h3 : axis < 0
  · rw [Run.throw_if_pos _ h3, Run.raise_andThen]
    exact ⟨Run.is_check_raise _, fun h => by simp at h, fun h => absurd h.2.1 (by omega)⟩
  rw [Run.throw_if_neg _ h3, Run.ret_andThen]
  by_cases h4 : axis ≥ dst.ndim
  · rw [Run.throw_if_pos _ h4, Run.raise_andThen]
    exact ⟨Run.is_check_raise _, fun h => by simp at h,
      fun h => absurd h.2.2.1 (by omega)⟩
  rw [Run.throw_if_neg _ h4, Run.ret_andThen]
  have hA := forRange_check 0 axis (biasprod_check_before src dst)
    (fun i => dst.shape[i]? = src.shape[i]? ∧
      dst.basetile_shape[i]? = src.basetile_shape[i]?) (le_refl 0) (by
      intro i _ hi
      have := axis_check_spec dst.shape src.shape dst.basetile_shape src.basetile_shape
        i i "dst.shape[i] != src.shape[i]"
        "dst.basetile_shape[i] != src.basetile_shape[i]"
        (by omega) (by omega) (by omega) (by omega) (by omega) (by omega)
      rw [Int.toNat_ofNat] at this
      exact this)
  have hB := forRange_check (axis + 1) dst.ndim (biasprod_check_after src dst)
    (fun i => dst.shape[i]? = src.shape[i - 1]? ∧
      dst.basetile_shape[i]? = src.basetile_shape[i - 1]?) (by omega) (by
      intro i hlo hi
      have := axis_check_spec dst.shape src.shape dst.basetile_shape src.basetile_shape
        i (i - 1) "dst.shape[i] != src.shape[i-1]"
        "dst.basetile_shape[i] != src.basetile_shape[i-1]"
        (by omega) (by omega) (by omega) (by omega) (by omega) (by omega)
      rw [show ((i : Int) - 1).toNat = i - 1 by omega, Int.toNat_ofNat] at this
      exact this)
  refine ⟨Run.is_check_andThen hA.1 hB.1, ?_⟩
  rw [Run.andThen_result_ok_iff, hA.2, hB.2]
  constructor
  · rintro ⟨ha, hb⟩
    exact ⟨h1, by omega, by omega, fun i hi => ha i (by omega) hi, hb⟩
  · rintro ⟨_, _, _, ha, hb⟩
    exact ⟨fun i _ hi => ha i hi, hb⟩

/-- A vector is `x` followed by another vector without its entry `a`, entry by entry. -/
theorem cons_eraseIdx_iff (u v : List Int) (a : Nat) (x : Int)
    (hlen : v.length = u.length) :
    v = x :: u.eraseIdx a ↔
      v[0]? = some x ∧ (∀ i : Nat, i < a → u[i]? = v[i + 1]?) ∧
        (∀ i : Nat, a + 1 ≤ i → i < u.length → u[i]? = v[i]?) := by
  constructor
  · intro h
    subst h
    refine ⟨by simp, fun i hi => ?_, fun i hi1 hi2 => ?_⟩
    · simp [List.getElem?_eraseIdx, hi]
    · obtain ⟨k, rfl⟩ : ∃ k, i = k + 1 := ⟨i - 1, by omega⟩
      simp [List.getElem?_eraseIdx, show ¬ k < a by omega]
  · rintro ⟨h0, h1, h2⟩
    apply List.ext_getElem?
    intro k
    cases k with
    | zero => simpa using h0
    | succ k =>
      rw [List.getElem?_cons_succ, List.getElem?_eraseIdx]
      split
      · rename_i hk
        exact (h1 k hk).symm
      · rename_i hk
        by_cases hk2 : k + 1 < u.length
        · exact (h2 (k + 1) (by omega) hk2).symm
        · rw [List.getElem?_eq_none (by omega), List.getElem?_eq_none (by omega)]

/-- A vector without its entry `a` is another vector, entry by entry. -/
theorem eraseIdx_eq_iff (u v : List Int) (a : Nat) (hlen : v.length = u.length + 1) :
    v.eraseIdx a = u ↔
      (∀ i : Nat, i < a → v[i]? = u[i]?) ∧
        (∀ i : Nat, a + 1 ≤ i → i < v.length → v[i]? = u[i - 1]?) := by
  constructor
  · intro h
    subst h
    refine ⟨fun i hi => ?_, fun i hi1 hi2 => ?_⟩
    · simp [List.getElem?_eraseIdx, hi]
    · obtain ⟨k, rfl⟩ : ∃ k, i = k + 1 := ⟨i - 1, by omega⟩
      simp [List.getElem?_eraseIdx, show ¬ k < a by omega]
  · rintro ⟨h1, h2⟩
    apply List.ext_getElem?
    intro k
    rw [List.getElem?_eraseIdx]
    split
    · rename_i hk
      exact h1 k hk
    · rename_i hk
      by_cases hk2 : k + 1 < v.length
      · simpa using h2 (k + 1) (by omega) hk2
      · rw [List.getElem?_eq_none (by omega), List.getElem?_eq_none (by omega)]

theorem forEach_replicate_ret (n : Nat) (m : Run Unit) (h : m = Run.ret ()) :
    forEach (List.replicate n ()) (fun _ => m) = Run.ret () := by
  subst h
  induction n with
  | zero => rfl
  | succ n ih =>
    rw [List.replicate_succ, forEach, Run.ret_andThen, ih]

/-- C3: with `alpha == 0` and `beta == 1`, `hypot_async` on operands that agree in `ndim`,
`shape` and `basetile_shape`, and `add_scalar_async`, return normally without any transfer,
submission or flush, on every rank; no tile is touched, and any number of such calls in a
row is the same as no call at all. -/
theorem identity_short_circuit (mpi_rank : Int) (src dst : Tensor) (n : Nat)
    (hs : src.ShapeWF) (hd : dst.ShapeWF) (hn : dst.ndim = src.ndim)
    (hsh : dst.shape = src.shape) (hbt : dst.basetile_shape = src.basetile_shape) :
    hypot_async mpi_rank 0 src 1 dst = ⟨[], .ok ()⟩ ∧
    add_scalar_async mpi_rank 0 1 dst = ⟨[], .ok ()⟩ ∧
    forEach (List.replicate n ()) (fun _ => hypot_async mpi_rank 0 src 1 dst) =
      ⟨[], .ok ()⟩ ∧
    forEach (List.replicate n ()) (fun _ => add_scalar_async mpi_rank 0 1 dst) =
      ⟨[], .ok ()⟩ := by
  have h1 : hypot_async mpi_rank 0 src 1 dst = Run.ret () := by
    have hc := hypot_check_spec src dst hs hd
    have hok : (hypot_check src dst).result = .ok () :=
      hc.2.2 ⟨hn, fun i _ => ⟨by rw [hsh], by rw [hbt]⟩⟩
    rw [hypot_async_eq, Run.andThen_of_ok _ hok, hc.1.1]
    simp [Run.ret]
  have h2 : add_scalar_async mpi_rank 0 1 dst = Run.ret () := by
    unfold add_scalar_async
    simp
  exact ⟨h1, h2, forEach_replicate_ret n _ h1, forEach_replicate_ret n _ h2⟩

theorem identity_short_circuit_witness :
    (sample44 0).ShapeWF ∧ (sample44 10).ShapeWF ∧
    hypot_async 1 0 (sample44 0) 1 (sample44 10) = ⟨[], .ok ()⟩ ∧
    add_scalar_async 1 0 1 (sample44 10) = ⟨[], .ok ()⟩ ∧
    forEach (List.replicate 3 ()) (fun _ => hypot_async 1 0 (sample44 0) 1 (sample44 10)) =
      ⟨[], .ok ()⟩ ∧
    forEach (List.replicate 3 ()) (fun _ => add_scalar_async 1 0 1 (sample44 10)) =
      ⟨[], .ok ()⟩ :=
  ⟨by decide, by decide,
    identity_short_circuit 1 (sample44 0) (sample44 10) 3 (by decide) (by decide) rfl rfl rfl⟩

/-- C9: on tensors whose `shape` and `basetile_shape` have `ndim` entries, `sumnorm_async`
passes its checks if and only if `src.ndim == dst.ndim`, `src.ndim >= 1`,
`0 <= axis < src.ndim` and `dst.shape`, `dst.basetile_shape` are `2` followed by the vector
of `src` without its entry `axis`; entry by entry this reads `dst[0] == 2`,
`src[i] == dst[i+1]` for `i < axis` and `src[i] == dst[i]` for `i > axis`, which leaves the
entry `axis` of `src` free; and the checks never read a vector outside of its bounds. -/
theorem sumnorm_async_validation (G : GridMaps) (mpi_rank : Int) (src dst : Tensor)
    (axis : Int) (hs : src.ShapeWF) (hd : dst.ShapeWF) :
    ((¬ ∃ what, (sumnorm_async G mpi_rank src dst axis).result =
        .error (.validation what)) ↔
      (src.ndim = dst.ndim ∧ 1 ≤ src.ndim ∧ 0 ≤ axis ∧ axis < src.ndim ∧
        dst.shape = 2 :: src.shape.eraseIdx axis.toNat ∧
        dst.basetile_shape = 2 :: src.basetile_shape.eraseIdx axis.toNat)) ∧
    (src.ndim = dst.ndim →
      ((dst.shape = 2 :: src.shape.eraseIdx axis.toNat ↔
        dst.shape[0]? = some 2 ∧
        (∀ i : Nat, i < axis.toNat → src.shape[i]? = dst.shape[i + 1]?) ∧
        (∀ i : Nat, axis.toNat + 1 ≤ i → i < src.shape.length →
          src.shape[i]? = dst.shape[i]?)) ∧
      (dst.basetile_shape = 2 :: src.basetile_shape.eraseIdx axis.toNat ↔
        dst.basetile_shape[0]? = some 2 ∧
        (∀ i : Nat, i < axis.toNat →
          src.basetile_shape[i]? = dst.basetile_shape[i + 1]?) ∧
        (∀ i : Nat, axis.toNat + 1 ≤ i → i < src.basetile_shape.length →
          src.basetile_shape[i]? = dst.basetile_shape[i]?)))) ∧
    (sumnorm_check src dst axis).result ≠ .error .vector_bounds := by
  have hc := sumnorm_check_spec src dst axis hs hd
  obtain ⟨hs1, hs2⟩ := hs
  obtain ⟨hd1, hd2⟩ := hd
  have hlist : src.ndim = dst.ndim →
      ((dst.shape = 2 :: src.shape.eraseIdx axis.toNat ↔
        dst.shape[0]? = some 2 ∧
        (∀ i : Nat, i < axis.toNat → src.shape[i]? = dst.shape[i + 1]?) ∧
        (∀ i : Nat, axis.toNat + 1 ≤ i → i < src.shape.length →
          src.shape[i]? = dst.shape[i]?)) ∧
      (dst.basetile_shape = 2 :: src.basetile_shape.eraseIdx axis.toNat ↔
        dst.basetile_shape[0]? = some 2 ∧
        (∀ i : Nat, i < axis.toNat →
          src.basetile_shape[i]? = dst.basetile_shape[i + 1]?) ∧
        (∀ i : Nat, axis.toNat + 1 ≤ i → i < src.basetile_shape.length →
          src.basetile_shape[i]? = dst.basetile_shape[i]?))) := fun h1 =>
    ⟨cons_eraseIdx_iff _ _ _ _ (by omega), cons_eraseIdx_iff _ _ _ _ (by omega)⟩
  refine ⟨?_, hlist, ?_⟩
  · rw [sumnorm_async_eq, validation_iff _ _ hc.1
      (forEach_no_validation _ _ (sumnorm_tile_no_validation G mpi_rank src dst axis)),
      ne_eq, not_not, hc.2]
    constructor
    · rintro ⟨h1, h2, h3, h4, h5, h6, h7, h8⟩
      refine ⟨h1, by omega, h3, h4, ?_, ?_⟩
      · exact ((hlist h1).1).2 ⟨h5, fun i hi => (h7 i (by omega)).1,
          fun i hi1 hi2 => (h8 i (by omega) (by omega)).1⟩
      · exact ((hlist h1).2).2 ⟨h6, fun i hi => (h7 i (by omega)).2,
          fun i hi1 hi2 => (h8 i (by omega) (by omega)).2⟩
    · rintro ⟨h1, h2, h3, h4, h5, h6⟩
      obtain ⟨h50, h51, h52⟩ := ((hlist h1).1).1 h5
      obtain ⟨h60, h61, h62⟩ := ((hlist h1).2).1 h6
      exact ⟨h1, by omega, h3, h4, h50, h60,
        fun i hi => ⟨h51 i (by omega), h61 i (by omega)⟩,
        fun i hi1 hi2 => ⟨h52 i (by omega) (by omega), h62 i (by omega) (by omega)⟩⟩
  · rcases hc.1.2 with h | ⟨what, h⟩ <;> rw [h] <;> simp

theorem sumnorm_async_validation_witness :
    (sample44 0).ShapeWF ∧ sample24.ShapeWF ∧
    ¬ ∃ what, (sumnorm_async row_major 0 (sample44 0) sample24 0).result =
      .error (.validation what) :=
  ⟨by decide, by decide,
    (sumnorm_async_validation row_major 0 (sample44 0) sample24 0 (by decide)
      (by decide)).1.2 ⟨rfl, by decide, by decide, by decide, rfl, rfl⟩⟩

/-- C10: on tensors whose `shape` and `basetile_shape` have `ndim` entries, `biasprod_async`
passes its checks if and only if `dst.ndim == src.ndim + 1`, `0 <= axis < dst.ndim` and
`dst.shape`, `dst.basetile_shape` without their entry `axis` are `src.shape`,
`src.basetile_shape`; entry by entry this reads `dst[i] == src[i]` for `i < axis` and
`dst[i] == src[i-1]` for `i > axis`, which leaves the entry `axis` of `dst` free; and the
checks never read a vector outside of its bounds. -/
theorem biasprod_async_validation (G : GridMaps) (mpi_rank : Int) (src dst : Tensor)
    (axis : Int) (hs : src.ShapeWF) (hd : dst.ShapeWF) :
    ((¬ ∃ what, (biasprod_async G mpi_rank src dst axis).result =
        .error (.validation what)) ↔
      (dst.ndim = src.ndim + 1 ∧ 0 ≤ axis ∧ axis < dst.ndim ∧
        dst.shape.eraseIdx axis.toNat = src.shape ∧
        dst.basetile_shape.eraseIdx axis.toNat = src.basetile_shape)) ∧
    (dst.ndim = src.ndim + 1 →
      ((dst.shape.eraseIdx axis.toNat = src.shape ↔
        (∀ i : Nat, i < axis.toNat → dst.shape[i]? = src.shape[i]?) ∧
        (∀ i : Nat, axis.toNat + 1 ≤ i → i < dst.shape.length →
          dst.shape[i]? = src.shape[i - 1]?)) ∧
      (dst.basetile_shape.eraseIdx axis.toNat = src.basetile_shape ↔
        (∀ i : Nat, i < axis.toNat → dst.basetile_shape[i]? = src.basetile_shape[i]?) ∧
        (∀ i : Nat, axis.toNat + 1 ≤ i → i < dst.basetile_shape.length →
          dst.basetile_shape[i]? = src.basetile_shape[i - 1]?)))) ∧
    (biasprod_check src dst axis).result ≠ .error .vector_bounds := by
  have hc := biasprod_check_spec src dst axis hs hd
  obtain ⟨hs1, hs2⟩ := hs
  obtain ⟨hd1, hd2⟩ := hd
  have hlist : dst.ndim = src.ndim + 1 →
      ((dst.shape.eraseIdx axis.toNat = src.shape ↔
        (∀ i : Nat, i < axis.toNat → dst.shape[i]? = src.shape[i]?) ∧
        (∀ i : Nat, axis.toNat + 1 ≤ i → i < dst.shape.length →
          dst.shape[i]? = src.shape[i - 1]?)) ∧
      (dst.basetile_shape.eraseIdx axis.toNat = src.basetile_shape ↔
        (∀ i : Nat, i < axis.toNat → dst.basetile_shape[i]? = src.basetile_shape[i]?) ∧
        (∀ i : Nat, axis.toNat + 1 ≤ i → i < dst.basetile_shape.length →
          dst.basetile_shape[i]? = src.basetile_shape[i - 1]?))) := fun h1 =>
    ⟨eraseIdx_eq_iff _ _ _ (by omega), eraseIdx_eq_iff _ _ _ (by omega)⟩
  refine ⟨?_, hlist, ?_⟩
  · rw [biasprod_async_eq, validation_iff _ _ hc.1
      (forEach_no_validation _ _ (biasprod_tile_no_validation G mpi_rank src dst axis)),
      ne_eq, not_not, hc.2]
    constructor
    · rintro ⟨h1, h3, h4, h7, h8⟩
      refine ⟨h1, h3, h4, ?_, ?_⟩
      · exact ((hlist h1).1).2 ⟨fun i hi => (h7 i (by omega)).1,
          fun i hi1 hi2 => (h8 i (by omega) (by omega)).1⟩
      · exact ((hlist h1).2).2 ⟨fun i hi => (h7 i (by omega)).2,
          fun i hi1 hi2 => (h8 i (by omega) (by omega)).2⟩
    · rintro ⟨h1, h3, h4, h5, h6⟩
      obtain ⟨h51, h52⟩ := ((hlist h1).1).1 h5
      obtain ⟨h61, h62⟩ := ((hlist h1).2).1 h6
      exact ⟨h1, h3, h4,
        fun i hi => ⟨h51 i (by omega), h61 i (by omega)⟩,
        fun i hi1 hi2 => ⟨h52 i (by omega) (by omega), h62 i (by omega) (by omega)⟩⟩
  · rcases hc.1.2 with h | ⟨what, h⟩ <;> rw [h] <;> simp

theorem biasprod_async_validation_witness :
    sample4.ShapeWF ∧ (sample44 0).ShapeWF ∧
    ¬ ∃ what, (biasprod_async row_major 0 sample4 (sample44 0) 1).result =
      .error (.validation what) :=
  ⟨by decide, by decide,
    (biasprod_async_validation row_major 0 sample4 (sample44 0) 1 (by decide)
      (by decide)).1.2 ⟨rfl, by decide, by decide, rfl, rfl⟩⟩

theorem validation_failure_atomic_witness :
    (hypot_async 0 1 (sample44 0) 1 sample44_23).effects = [] ∧
    (sumnorm_async row_major 0 (sample44 0) (sample44 10) 0).effects = [] ∧
    (biasprod_async row_major 0 (sample44 0) (sample44 10) 0).effects = [] :=
  ⟨(validation_failure_atomic row_major 0 1 1 (sample44 0) sample44_23 0).1 ⟨_, rfl⟩,
    (validation_failure_atomic row_major 0 1 1 (sample44 0) (sample44 10) 0).2.1 ⟨_, rfl⟩,
    (validation_failure_atomic row_major 0 1 1 (sample44 0) (sample44 10) 0).2.2 ⟨_, rfl⟩⟩

/-! ## Loops -/

theorem indexRange_nil (lo hi : Int) (h : hi ≤ lo) : indexRange lo hi = [] := by
  unfold indexRange
  rw [show (hi - lo).toNat = 0 by omega]
  rfl

theorem indexRange_cons (lo hi : Int) (h : lo < hi) :
    indexRange lo hi = lo :: indexRange (lo + 1) hi := by
  unfold indexRange
  rw [show (hi - lo).toNat = (hi - (lo + 1)).toNat + 1 by omega, List.range_succ_eq_map]
  simp only [List.map_cons, List.map_map, Nat.cast_zero, add_zero, List.cons.injEq, true_and]
  apply List.map_congr_left
  intro k _
  simp only [Function.comp_apply, Nat.succ_eq_add_one, Nat.cast_add, Nat.cast_one]
  omega

theorem indexRange_zero (n : Int) :
    indexRange 0 n = (List.range n.toNat).map (fun (k : Nat) => (k : Int)) := by
  unfold indexRange
  simp

theorem forEach_map {α β : Type} (xs : List α) (f : α → β) (body : β → Run Unit) :
    forEach (xs.map f) body = forEach xs (fun x => body (f x)) := by
  induction xs with
  | nil => rfl
  | cons x xs ih => simp only [List.map_cons, forEach, ih]

/-- A loop over `[0, n)` whose rounds all end normally makes the requests of its rounds
in order. -/
theorem forRange_blocks (n : Int) (body : Int → Run Unit) (blk : Nat → List Effect)
    (h : ∀ i : Nat, (i : Int) < n → body i = ⟨blk i, .ok ()⟩) :
    forRange 0 n body = ⟨(List.range n.toNat).flatMap blk, .ok ()⟩ := by
  unfold forRange
  rw [indexRange_zero, forEach_map, forEach_of_ok]
  · congr 1
    apply List.flatMap_congr
    intro i hi
    rw [h i (by have := List.mem_range.1 hi; omega)]
  · intro i hi
    rw [h i (by have := List.mem_range.1 hi; omega)]

theorem foldEach_map {α β σ : Type} (xs : List α) (f : α → β) (s : σ)
    (body : β → σ → Run σ) :
    foldEach (xs.map f) s body = foldEach xs s (fun x => body (f x)) := by
  induction xs generalizing s with
  | nil => rfl
  | cons x xs ih => simp only [List.map_cons, foldEach, ih]

/-- A loop with a local variable, whose rounds keep an invariant of the variable and end
normally, makes the requests of its rounds in order. -/
theorem foldEach_blocks {α σ : Type} (xs : List α) (s : σ) (body : α → σ → Run σ)
    (inv : σ → Prop) (blk : α → List Effect) (hs : inv s)
    (h : ∀ x ∈ xs, ∀ t, inv t → ∃ t2, body x t = ⟨blk x, .ok t2⟩ ∧ inv t2) :
    ∃ t, foldEach xs s body = ⟨xs.flatMap blk, .ok t⟩ ∧ inv t := by
  induction xs generalizing s with
  | nil => exact ⟨s, rfl, hs⟩
  | cons x xs ih =>
    obtain ⟨t2, hb, ht2⟩ := h x (by simp) s hs
    obtain ⟨t, hf, ht⟩ := ih t2 ht2 (fun y hy => h y (by simp [hy]))
    refine ⟨t, ?_, ht⟩
    unfold foldEach
    rw [hb]
    simp [Run.andThen, hf]

theorem foldRange_blocks {σ : Type} (n : Int) (s : σ) (body : Int → σ → Run σ)
    (inv : σ → Prop) (blk : Nat → List Effect) (hs : inv s)
    (h : ∀ i : Nat, (i : Int) < n → ∀ t, inv t →
      ∃ t2, body i t = ⟨blk i, .ok t2⟩ ∧ inv t2) :
    ∃ t, foldRange 0 n s body = ⟨(List.range n.toNat).flatMap blk, .ok t⟩ ∧ inv t := by
  unfold foldRange
  rw [indexRange_zero, foldEach_map]
  exact foldEach_blocks _ s _ inv blk hs
    (fun i hi t ht => h i (by have := List.mem_range.1 hi; omega) t ht)

/-- The loop `for(j = lo; j < hi; ++j) v[j] = g(j)` overwrites the entries `[lo, hi)`
of `v` and leaves the other entries alone. -/
theorem fill_loop (n : Nat) (lo hi : Int) (v : List Int) (f : Int → Run Int) (g : Nat → Int)
    (hn : (hi - lo).toNat = n) (hlo : 0 ≤ lo) (hhi : hi ≤ v.length)
    (hf : ∀ k : Nat, lo ≤ k → (k : Int) < hi → f k = Run.ret (g k)) :
    ∃ w, foldRange lo hi v (fun j v => (f j).andThen fun x => vset v j x) = Run.ret w ∧
      w.length = v.length ∧
      ∀ k : Nat, w[k]? = if lo ≤ k ∧ (k : Int) < hi then some (g k) else v[k]? := by
  induction n generalizing lo v with
  | zero =>
    refine ⟨v, ?_, rfl, fun k => ?_⟩
    · unfold foldRange
      rw [indexRange_nil lo hi (by omega)]
      rfl
    · rw [if_neg (by omega)]
  | succ n ih =>
    have hlt : lo < hi := by omega
    have hset : vset v lo (g lo.toNat) = Run.ret (v.set lo.toNat (g lo.toNat)) := by
      unfold vset
      rw [if_pos ⟨hlo, by omega⟩]
    obtain ⟨w, hw, hlen, hget⟩ := ih (lo + 1) (v.set lo.toNat (g lo.toNat)) (by omega)
      (by omega) (by rw [List.length_set]; exact hhi)
      (fun k hk1 hk2 => hf k (by omega) hk2)
    refine ⟨w, ?_, by rw [hlen, List.length_set], fun k => ?_⟩
    · unfold foldRange at hw ⊢
      rw [indexRange_cons lo hi hlt, foldEach]
      have := hf lo.toNat (by omega) (by omega)
      rw [Int.toNat_of_nonneg hlo] at this
      rw [this, Run.ret_andThen, hset, Run.ret_andThen]
      exact hw
    · rw [hget k, List.getElem?_set]
      by_cases h1 : lo + 1 ≤ (k : Int) ∧ (k : Int) < hi
      · rw [if_pos h1, if_pos ⟨by omega, h1.2⟩]
      · rw [if_neg h1]
        by_cases h2 : lo.toNat = k
        · subst h2
          rw [if_pos rfl, if_pos (by omega), if_pos ⟨by omega, by omega⟩]
        · rw [if_neg h2, if_neg (by omega)]

/-! ## The elementwise drivers -/

theorem get_tile_handle_nat (t : Tensor) (i : Nat) (h : i < t.tile_handles.length) :
    t.get_tile_handle (i : Int) = Run.ret (t.handle i) := by
  unfold Tensor.get_tile_handle Tensor.handle
  simp [List.getElem?_eq_getElem h, List.getD_eq_getElem?_getD]

theorem get_tile_traits_nat (t : Tensor) (i : Nat) (h : i < t.tile_traits.length) :
    t.get_tile_traits (i : Int) = Run.ret (t.traits i) := by
  unfold Tensor.get_tile_traits Tensor.traits
  simp [List.getElem?_eq_getElem h, List.getD_eq_getElem?_getD]

theorem Run.emit_andThen (e : Effect) (f : Unit → Run Unit) :
    (Run.emit e).andThen f = ⟨e :: (f ()).effects, (f ()).result⟩ := rfl

theorem gelutanh_tile_run (mpi_rank : Int) (A : Tensor) (hA : A.WF) (i : Nat)
    (hi : (i : Int) < A.grid.nelems) :
    gelutanh_tile mpi_rank A i = ⟨gelutanh_block mpi_rank A i, .ok ()⟩ := by
  obtain ⟨_, _, _, _, _, h1, h2, _⟩ := hA
  unfold gelutanh_tile gelutanh_block
  simp only [bind, pure]
  rw [get_tile_handle_nat A i (by omega), Run.ret_andThen, Handle.mpi_get_rank]
  by_cases hr : mpi_rank = (A.handle i).rank
  · rw [Run.when_pos _ hr, get_tile_traits_nat A i (by omega), Run.ret_andThen, if_pos hr]
    rfl
  · rw [Run.when_neg _ hr, if_neg hr]
    rfl

theorem gelutanh_async_run (mpi_rank : Int) (A : Tensor) (hA : A.WF) :
    gelutanh_async mpi_rank A =
      ⟨(List.range A.grid.nelems.toNat).flatMap (gelutanh_block mpi_rank A), .ok ()⟩ :=
  forRange_blocks _ _ _ (gelutanh_tile_run mpi_rank A hA)

theorem add_scalar_tile_run (mpi_rank : Int) (alpha beta : scal_t) (dst : Tensor)
    (hd : dst.WF) (i : Nat) (hi : (i : Int) < dst.grid.nelems) :
    add_scalar_tile mpi_rank alpha beta dst i =
      ⟨add_scalar_block mpi_rank alpha beta dst i, .ok ()⟩ := by
  obtain ⟨_, _, _, _, _, h1, h2, _⟩ := hd
  unfold add_scalar_tile add_scalar_block
  simp only [bind, pure]
  rw [get_tile_handle_nat dst i (by omega), Run.ret_andThen, Handle.mpi_get_rank]
  by_cases hr : mpi_rank = (dst.handle i).rank
  · rw [Run.when_pos _ hr, get_tile_traits_nat dst i (by omega), Run.ret_andThen, if_pos hr]
    rfl
  · rw [Run.when_neg _ hr, if_neg hr]
    rfl

theorem add_scalar_async_run (mpi_rank : Int) (alpha beta : scal_t) (dst : Tensor)
    (hd : dst.WF) (hab : ¬ (alpha = 0 ∧ beta = 1)) :
    add_scalar_async mpi_rank alpha beta dst =
      ⟨(List.range dst.grid.nelems.toNat).flatMap (add_scalar_block mpi_rank alpha beta dst),
        .ok ()⟩ := by
  unfold add_scalar_async
  simp only [bind, pure, if_neg hab, Run.ret_andThen]
  exact forRange_blocks _ _ _ (add_scalar_tile_run mpi_rank alpha beta dst hd)

/-- Operands that agree in shape and tile shape have grids with the same number of tiles. -/
theorem nelems_eq_of_shape_eq (src dst : Tensor) (hs : src.WF) (hd : dst.WF)
    (hsh : dst.shape = src.shape) (hbt : dst.basetile_shape = src.basetile_shape) :
    dst.grid.nelems = src.grid.nelems := by
  obtain ⟨_, _, _, hg1, hn1, _⟩ := hs
  obtain ⟨_, _, _, hg2, hn2, _⟩ := hd
  rw [hn1, hn2, hg1, hg2, hsh, hbt]

theorem hypot_tile_run (mpi_rank : Int) (alpha : scal_t) (src : Tensor) (beta : scal_t)
    (dst : Tensor) (hs : src.WF) (hd : dst.WF) (hne : dst.grid.nelems = src.grid.nelems)
    (i : Nat) (hi : (i : Int) < src.grid.nelems) :
    hypot_tile mpi_rank alpha src beta dst i =
      ⟨hypot_block mpi_rank alpha src beta dst i, .ok ()⟩ := by
  obtain ⟨_, _, _, _, _, h1, h2, _⟩ := hs
  obtain ⟨_, _, _, _, _, h3, h4, _⟩ := hd
  unfold hypot_tile hypot_block
  simp only [bind, pure]
  rw [get_tile_handle_nat src i (by omega), Run.ret_andThen,
    get_tile_handle_nat dst i (by omega), Run.ret_andThen, Handle.mpi_get_rank]
  by_cases hr : mpi_rank = (dst.handle i).rank
  · rw [Run.when_pos _ hr, get_tile_traits_nat src i (by omega), Run.ret_andThen, if_pos hr]
    rfl
  · rw [Run.when_neg _ hr, if_neg hr]
    rfl

theorem hypot_async_run (mpi_rank : Int) (alpha : scal_t) (src : Tensor) (beta : scal_t)
    (dst : Tensor) (hs : src.WF) (hd : dst.WF) (hn : dst.ndim = src.ndim)
    (hsh : dst.shape = src.shape) (hbt : dst.basetile_shape = src.basetile_shape)
    (hab : ¬ (alpha = 0 ∧ beta = 1)) :
    hypot_async mpi_rank alpha src beta dst =
      ⟨(List.range dst.grid.nelems.toNat).flatMap (hypot_block mpi_rank alpha src beta dst),
        .ok ()⟩ := by
  have hc := hypot_check_spec src dst hs.1 hd.1
  have hok : (hypot_check src dst).result = .ok () :=
    hc.2.2 ⟨hn, fun i _ => ⟨by rw [hsh], by rw [hbt]⟩⟩
  have hne := nelems_eq_of_shape_eq src dst hs hd hsh hbt
  rw [hypot_async_eq, Run.andThen_of_ok _ hok, hc.1.1, if_neg hab, hne,
    forRange_blocks _ _ _ (hypot_tile_run mpi_rank alpha src beta dst hs hd hne)]
  simp

/-! ## Reading the requests of a run -/

theorem tasks_append (a b : List Effect) : tasks (a ++ b) = tasks a ++ tasks b := by
  unfold tasks
  rw [List.filterMap_append]

theorem tasks_flatMap {α : Type} (xs : List α) (f : α → List Effect) :
    tasks (xs.flatMap f) = xs.flatMap (fun x => tasks (f x)) := by
  induction xs with
  | nil => rfl
  | cons x xs ih => simp only [List.flatMap_cons, tasks_append, ih]

theorem flushes_append (a b : List Effect) : flushes (a ++ b) = flushes a ++ flushes b := by
  unfold flushes
  rw [List.filterMap_append]

theorem flushes_flatMap {α : Type} (xs : List α) (f : α → List Effect) :
    flushes (xs.flatMap f) = xs.flatMap (fun x => flushes (f x)) := by
  induction xs with
  | nil => rfl
  | cons x xs ih => simp only [List.flatMap_cons, flushes_append, ih]

theorem transfers_append (a b : List Effect) :
    transfers (a ++ b) = transfers a ++ transfers b := by
  unfold transfers
  rw [List.filterMap_append]

theorem transfers_flatMap {α : Type} (xs : List α) (f : α → List Effect) :
    transfers (xs.flatMap f) = xs.flatMap (fun x => transfers (f x)) := by
  induction xs with
  | nil => rfl
  | cons x xs ih => simp only [List.flatMap_cons, transfers_append, ih]

theorem flatMap_ite_singleton {α β : Type} (xs : List α) (p : α → Prop) [DecidablePred p]
    (f : α → β) :
    (xs.flatMap fun x => if p x then [f x] else []) = (xs.filter (fun x => p x)).map f := by
  induction xs with
  | nil => rfl
  | cons x xs ih =>
    rw [List.flatMap_cons, ih]
    by_cases h : p x <;> simp [h]

theorem flatMap_singleton_eq_map {α β : Type} (xs : List α) (f : α → β) :
    (xs.flatMap fun x => [f x]) = xs.map f := by
  induction xs with
  | nil => rfl
  | cons x xs ih => rw [List.flatMap_cons, ih]; rfl

/-- Tiles sorted by owner: when every owner is one of the distinct `ranks`, the tiles owned
by the several ranks make up all the tiles, each once. -/
theorem ranks_partition {α : Type} (ranks : List Int) (hnd : ranks.Nodup) (l : List α)
    (owner : α → Int) (hall : ∀ x ∈ l, owner x ∈ ranks) :
    (ranks.flatMap fun r => l.filter (fun x => r = owner x)).Perm l := by
  induction ranks generalizing l with
  | nil =>
    cases l with
    | nil => exact List.Perm.refl _
    | cons x xs => exact absurd (hall x (by simp)) (by simp)
  | cons r rs ih =>
    rw [List.flatMap_cons]
    have hr : r ∉ rs := (List.nodup_cons.1 hnd).1
    have hrest : (rs.flatMap fun q => l.filter (fun x => q = owner x)) =
        rs.flatMap fun q => (l.filter (fun x => ¬ r = owner x)).filter
          (fun x => q = owner x) := by
      apply List.flatMap_congr
      intro q hq
      rw [List.filter_filter]
      apply List.filter_congr
      intro x _
      have hqr : q ≠ r := fun h => hr (h ▸ hq)
      by_cases hx : q = owner x
      · simp [hx, show ¬ r = owner x from fun h => hqr (hx.trans h.symm)]
      · simp [hx]
    rw [hrest]
    have hih := ih (List.nodup_cons.1 hnd).2 (l.filter (fun x => ¬ r = owner x)) (by
      intro x hx
      rw [List.mem_filter] at hx
      have := hall x hx.1
      rw [List.mem_cons] at this
      rcases this with h | h
      · exact absurd h.symm (by simpa using hx.2)
      · exact h)
    refine (List.Perm.append_left _ hih).trans ?_
    have := List.filter_append_perm (fun x => decide (r = owner x)) l
    simpa using this

theorem tasks_by_rank {α : Type} (ranks : List Int) (hnd : ranks.Nodup) (l : List α)
    (owner : α → Int) (hall : ∀ x ∈ l, owner x ∈ ranks) (f : α → Task) :
    (ranks.flatMap fun r => (l.filter (fun x => r = owner x)).map f).Perm (l.map f) := by
  have h := (ranks_partition ranks hnd l owner hall).map f
  rwa [List.map_flatMap] at h

theorem tasks_gelutanh_block (mpi_rank : Int) (A : Tensor) (i : Nat) :
    tasks (gelutanh_block mpi_rank A i) =
      if mpi_rank = (A.handle i).rank then
        [Task.gelutanh (A.traits i).nelems (A.handle i)] else [] := by
  unfold gelutanh_block
  split <;> rfl

theorem tasks_add_scalar_block (mpi_rank : Int) (alpha beta : scal_t) (dst : Tensor)
    (i : Nat) :
    tasks (add_scalar_block mpi_rank alpha beta dst i) =
      if mpi_rank = (dst.handle i).rank then
        [Task.add_scalar (dst.traits i).nelems alpha beta (dst.handle i)] else [] := by
  unfold add_scalar_block
  split <;> rfl

theorem tasks_hypot_block (mpi_rank : Int) (alpha : scal_t) (src : Tensor) (beta : scal_t)
    (dst : Tensor) (i : Nat) :
    tasks (hypot_block mpi_rank alpha src beta dst i) =
      if mpi_rank = (dst.handle i).rank then
        [Task.hypot (src.traits i).nelems alpha (src.handle i) beta (dst.handle i)]
      else [] := by
  unfold hypot_block
  split <;> rfl

theorem handle_mem (t : Tensor) (i : Nat) (h : i < t.tile_handles.length) :
    t.handle i ∈ t.tile_handles := by
  unfold Tensor.handle
  rw [List.getD_eq_getElem?_getD, List.getElem?_eq_getElem h]
  exact List.getElem_mem h

theorem owner_in_ranks (t : Tensor) (ht : t.WF) (ranks : List Int)
    (hr : ∀ h ∈ t.tile_handles, h.rank ∈ ranks) :
    ∀ i ∈ List.range t.grid.nelems.toNat, (t.handle i).rank ∈ ranks := by
  intro i hi
  obtain ⟨_, _, _, _, _, h1, _, _⟩ := ht
  exact hr _ (handle_mem t i (by have := List.mem_range.1 hi; omega))

/-- C4: for `gelutanh_async`, `add_scalar_async` with scalars other than `(0, 1)` and
`hypot_async` on compatible operands with scalars other than `(0, 1)`, the call returns
normally and the tasks submitted on rank `mpi_rank` are, in tile order, one task for every
tile owned by `mpi_rank` and none for the other tiles, each with the element count of its
tile as `nelems` (for `hypot_async`, the count of the source tile of the same offset);
taken over distinct ranks that include every owner, the submitted tasks are exactly one per
tile, `grid.nelems` in all. -/
theorem one_task_per_tile (mpi_rank : Int) (alpha beta : scal_t) (A src dst : Tensor)
    (ranks : List Int) (hA : A.WF) (hs : src.WF) (hd : dst.WF) (hn : dst.ndim = src.ndim)
    (hsh : dst.shape = src.shape) (hbt : dst.basetile_shape = src.basetile_shape)
    (hab : ¬ (alpha = 0 ∧ beta = 1)) (hnd : ranks.Nodup)
    (hrA : ∀ h ∈ A.tile_handles, h.rank ∈ ranks)
    (hrd : ∀ h ∈ dst.tile_handles, h.rank ∈ ranks) :
    ((gelutanh_async mpi_rank A).result = .ok () ∧
      tasks (gelutanh_async mpi_rank A).effects =
        ((List.range A.grid.nelems.toNat).filter
          (fun i => mpi_rank = (A.handle i).rank)).map
          (fun i => Task.gelutanh (A.traits i).nelems (A.handle i)) ∧
      (ranks.flatMap fun r => tasks (gelutanh_async r A).effects).Perm
        ((List.range A.grid.nelems.toNat).map
          (fun i => Task.gelutanh (A.traits i).nelems (A.handle i))) ∧
      (ranks.flatMap fun r => tasks (gelutanh_async r A).effects).length =
        A.grid.nelems.toNat) ∧
    ((add_scalar_async mpi_rank alpha beta dst).result = .ok () ∧
      tasks (add_scalar_async mpi_rank alpha beta dst).effects =
        ((List.range dst.grid.nelems.toNat).filter
          (fun i => mpi_rank = (dst.handle i).rank)).map
          (fun i => Task.add_scalar (dst.traits i).nelems alpha beta (dst.handle i)) ∧
      (ranks.flatMap fun r => tasks (add_scalar_async r alpha beta dst).effects).Perm
        ((List.range dst.grid.nelems.toNat).map
          (fun i => Task.add_scalar (dst.traits i).nelems alpha beta (dst.handle i))) ∧
      (ranks.flatMap fun r => tasks (add_scalar_async r alpha beta dst).effects).length =
        dst.grid.nelems.toNat) ∧
    ((hypot_async mpi_rank alpha src beta dst).result = .ok () ∧
      tasks (hypot_async mpi_rank alpha src beta dst).effects =
        ((List.range dst.grid.nelems.toNat).filter
          (fun i => mpi_rank = (dst.handle i).rank)).map
          (fun i => Task.hypot (src.traits i).nelems alpha (src.handle i) beta
            (dst.handle i)) ∧
      (ranks.flatMap fun r => tasks (hypot_async r alpha src beta dst).effects).Perm
        ((List.range dst.grid.nelems.toNat).map
          (fun i => Task.hypot (src.traits i).nelems alpha (src.handle i) beta
            (dst.handle i))) ∧
      (ranks.flatMap fun r => tasks (hypot_async r alpha src beta dst).effects).length =
        dst.grid.nelems.toNat) := by
  have hg : ∀ r, tasks (gelutanh_async r A).effects =
      ((List.range A.grid.nelems.toNat).filter (fun i => r = (A.handle i).rank)).map
        (fun i => Task.gelutanh (A.traits i).nelems (A.handle i)) := by
    intro r
    rw [gelutanh_async_run r A hA, tasks_flatMap]
    simp only [tasks_gelutanh_block]
    exact flatMap_ite_singleton _ _ _
  have ha : ∀ r, tasks (add_scalar_async r alpha beta dst).effects =
      ((List.range dst.grid.nelems.toNat).filter (fun i => r = (dst.handle i).rank)).map
        (fun i => Task.add_scalar (dst.traits i).nelems alpha beta (dst.handle i)) := by
    intro r
    rw [add_scalar_async_run r alpha beta dst hd hab, tasks_flatMap]
    simp only [tasks_add_scalar_block]
    exact flatMap_ite_singleton _ _ _
  have hh : ∀ r, tasks (hypot_async r alpha src beta dst).effects =
      ((List.range dst.grid.nelems.toNat).filter (fun i => r = (dst.handle i).rank)).map
        (fun i => Task.hypot (src.traits i).nelems alpha (src.handle i) beta
          (dst.handle i)) := by
    intro r
    rw [hypot_async_run r alpha src beta dst hs hd hn hsh hbt hab, tasks_flatMap]
    simp only [tasks_hypot_block]
    exact flatMap_ite_singleton _ _ _
  have pg := tasks_by_rank ranks hnd (List.range A.grid.nelems.toNat)
    (fun i => (A.handle i).rank) (owner_in_ranks A hA ranks hrA)
    (fun i => Task.gelutanh (A.traits i).nelems (A.handle i))
  have pa := tasks_by_rank ranks hnd (List.range dst.grid.nelems.toNat)
    (fun i => (dst.handle i).rank) (owner_in_ranks dst hd ranks hrd)
    (fun i => Task.add_scalar (dst.traits i).nelems alpha beta (dst.handle i))
  have ph := tasks_by_rank ranks hnd (List.range dst.grid.nelems.toNat)
    (fun i => (dst.handle i).rank) (owner_in_ranks dst hd ranks hrd)
    (fun i => Task.hypot (src.traits i).nelems alpha (src.handle i) beta (dst.handle i))
  refine ⟨⟨?_, hg mpi_rank, ?_, ?_⟩, ⟨?_, ha mpi_rank, ?_, ?_⟩, ⟨?_, hh mpi_rank, ?_, ?_⟩⟩
  · rw [gelutanh_async_run mpi_rank A hA]
  · simpa only [hg] using pg
  · have := pg.length_eq
    simpa only [hg, List.length_map, List.length_range] using this
  · rw [add_scalar_async_run mpi_rank alpha beta dst hd hab]
  · simpa only [ha] using pa
  · have := pa.length_eq
    simpa only [ha, List.length_map, List.length_range] using this
  · rw [hypot_async_run mpi_rank alpha src beta dst hs hd hn hsh hbt hab]
  · simpa only [hh] using ph
  · have := ph.length_eq
    simpa only [hh, List.length_map, List.length_range] using this

theorem one_task_per_tile_witness :
    (sample44 0).WF ∧ (sample44 10).WF ∧
    tasks (hypot_async 0 1 (sample44 0) 1 (sample44 10)).effects =
      [Task.hypot 4 1 ⟨0, 0⟩ 1 ⟨10, 0⟩, Task.hypot 4 1 ⟨2, 0⟩ 1 ⟨12, 0⟩] ∧
    (([0, 1] : List Int).flatMap fun r =>
      tasks (hypot_async r 1 (sample44 0) 1 (sample44 10)).effects).length = 4 :=
  ⟨by decide, by decide,
    (one_task_per_tile 0 1 1 (sample44 0) (sample44 0) (sample44 10) [0, 1] (by decide)
      (by decide) (by decide) rfl rfl rfl (by norm_num) (by decide) (by decide)
      (by decide)).2.2.2.1.trans (by decide),
    (one_task_per_tile 0 1 1 (sample44 0) (sample44 0) (sample44 10) [0, 1] (by decide)
      (by decide) (by decide) rfl rfl rfl (by norm_num) (by decide) (by decide)
      (by decide)).2.2.2.2.2⟩

/-! ## Tile indices of `sumnorm_async` and `biasprod_async` -/

theorem zipWith_eraseIdx {α β γ : Type} (f : α → β → γ) (u : List α) (v : List β) (a : Nat) :
    (List.zipWith f u v).eraseIdx a = List.zipWith f (u.eraseIdx a) (v.eraseIdx a) := by
  induction u generalizing v a with
  | nil => simp
  | cons x u ih =>
    cases v with
    | nil => simp
    | cons y v =>
      cases a with
      | zero => simp
      | succ a => simp [ih]

theorem vget_getD (v : List Int) (i : Int) (h0 : 0 ≤ i) (h1 : i < v.length) :
    vget v i = Run.ret (v.getD i.toNat 0) := by
  obtain ⟨x, hx, hx2⟩ := vget_of_lt v i h0 h1
  rw [hx2, List.getD_eq_getElem?_getD, hx]
  rfl

theorem vset_of_lt (v : List Int) (i : Int) (x : Int) (h0 : 0 ≤ i) (h1 : i < v.length) :
    vset v i x = Run.ret (v.set i.toNat x) := by
  unfold vset
  rw [if_pos ⟨h0, by omega⟩]

theorem getElem?_sumnorm_src_index (a : Nat) (d : List Int) (j : Int) (k : Nat)
    (ha : a < d.length) :
    (sumnorm_src_index a d j)[k]? =
      if k < a then d[k + 1]? else if k = a then some j else d[k]? := by
  unfold sumnorm_src_index
  have hlen : (d.tail.take a).length = a := by
    rw [List.length_take, List.length_tail]
    omega
  rw [List.getElem?_append, hlen]
  by_cases h1 : k < a
  · rw [if_pos h1, if_pos h1, List.getElem?_take, if_pos h1, List.getElem?_tail]
  · rw [if_neg h1, if_neg h1]
    by_cases h2 : k = a
    · subst h2
      simp
    · rw [if_neg h2]
      obtain ⟨m, hm⟩ : ∃ m, k - a = m + 1 := ⟨k - a - 1, by omega⟩
      rw [hm, List.getElem?_cons_succ, List.getElem?_drop]
      congr 1
      omega

theorem length_sumnorm_src_index (a : Nat) (d : List Int) (j : Int) (ha : a < d.length) :
    (sumnorm_src_index a d j).length = d.length := by
  unfold sumnorm_src_index
  simp only [List.length_append, List.length_take, List.length_tail, List.length_cons,
    List.length_drop]
  omega

/-- The vector built by lines 95-104 of `sumnorm.cc`: whatever is written at position
`axis` afterwards, the result is the index of a source tile. -/
theorem sumnorm_src_tile_index_run (src : Tensor) (axis : Int) (d : List Int)
    (h0 : 0 ≤ axis) (h1 : axis < src.ndim) (hd : (d.length : Int) = src.ndim) :
    ∃ w, sumnorm_src_tile_index src axis d = Run.ret w ∧
      ∀ j, w.set axis.toNat j = sumnorm_src_index axis.toNat d j := by
  unfold sumnorm_src_tile_index
  simp only [bind, pure]
  obtain ⟨w1, hw1, hl1, hg1⟩ := fill_loop axis.toNat 0 axis
    (List.replicate src.ndim.toNat 0) (fun j => vget d (j + 1)) (fun k => d.getD (k + 1) 0)
    (by omega) (le_refl 0) (by rw [List.length_replicate]; omega)
    (fun k _ hk => by
      show vget d ((k : Int) + 1) = _
      rw [vget_getD d (k + 1) (by omega) (by omega)]
      congr 2)
  rw [hw1, Run.ret_andThen]
  rw [List.length_replicate] at hl1
  rw [vset_of_lt w1 axis 0 h0 (by omega), Run.ret_andThen]
  obtain ⟨w2, hw2, hl2, hg2⟩ := fill_loop (src.ndim - (axis + 1)).toNat (axis + 1) src.ndim
    (w1.set axis.toNat 0) (fun j => vget d j) (fun k => d.getD k 0)
    rfl (by omega) (by rw [List.length_set]; omega)
    (fun k hk1 hk2 => by
      show vget d (k : Int) = _
      rw [vget_getD d k (by omega) (by omega)]
      congr 2)
  refine ⟨w2, hw2, fun j => ?_⟩
  apply List.ext_getElem?
  intro k
  rw [getElem?_sumnorm_src_index _ _ _ _ (by omega), List.getElem?_set, hg2, List.getElem?_set,
    hg1, hl2, List.length_set, hl1]
  by_cases hk1 : k < axis.toNat
  · rw [if_pos hk1, if_neg (by omega), if_neg (by omega), if_neg (by omega),
      if_pos ⟨by omega, by omega⟩, List.getD_eq_getElem?_getD,
      List.getElem?_eq_getElem (by omega)]
    rfl
  · rw [if_neg hk1]
    by_cases hk2 : k = axis.toNat
    · rw [if_pos hk2, if_pos hk2.symm, if_pos (by omega)]
    · rw [if_neg hk2, if_neg (fun h => hk2 h.symm)]
      by_cases hk3 : (k : Int) < src.ndim
      · rw [if_pos ⟨by omega, hk3⟩, List.getD_eq_getElem?_getD,
          List.getElem?_eq_getElem (by omega)]
        rfl
      · rw [if_neg (by omega), if_neg (fun h => hk2 h.symm), if_neg (by omega),
          List.getElem?_replicate, if_neg (by omega), List.getElem?_eq_none (by omega)]

theorem sumnorm_check_ok_iff (src dst : Tensor) (axis : Int) (hs : src.ShapeWF)
    (hd : dst.ShapeWF) :
    (sumnorm_check src dst axis).result = .ok () ↔
      (src.ndim = dst.ndim ∧ 1 ≤ src.ndim ∧ 0 ≤ axis ∧ axis < src.ndim ∧
        dst.shape = 2 :: src.shape.eraseIdx axis.toNat ∧
        dst.basetile_shape = 2 :: src.basetile_shape.eraseIdx axis.toNat) := by
  rw [(sumnorm_check_spec src dst axis hs hd).2]
  obtain ⟨hs1, hs2⟩ := hs
  obtain ⟨hd1, hd2⟩ := hd
  constructor
  · rintro ⟨h1, h2, h3, h4, h5, h6, h7, h8⟩
    refine ⟨h1, by omega, h3, h4, ?_, ?_⟩
    · exact (cons_eraseIdx_iff _ _ _ _ (by omega)).2 ⟨h5, fun i hi => (h7 i (by omega)).1,
        fun i hi1 hi2 => (h8 i (by omega) (by omega)).1⟩
    · exact (cons_eraseIdx_iff _ _ _ _ (by omega)).2 ⟨h6, fun i hi => (h7 i (by omega)).2,
        fun i hi1 hi2 => (h8 i (by omega) (by omega)).2⟩
  · rintro ⟨h1, h2, h3, h4, h5, h6⟩
    obtain ⟨h50, h51, h52⟩ := (cons_eraseIdx_iff _ _ _ _ (by omega)).1 h5
    obtain ⟨h60, h61, h62⟩ := (cons_eraseIdx_iff _ _ _ _ (by omega)).1 h6
    exact ⟨h1, by omega, h3, h4, h50, h60,
      fun i hi => ⟨h51 i (by omega), h61 i (by omega)⟩,
      fun i hi1 hi2 => ⟨h52 i (by omega) (by omega), h62 i (by omega) (by omega)⟩⟩

theorem biasprod_check_ok_iff (src dst : Tensor) (axis : Int) (hs : src.ShapeWF)
    (hd : dst.ShapeWF) :
    (biasprod_check src dst axis).result = .ok () ↔
      (dst.ndim = src.ndim + 1 ∧ 0 ≤ axis ∧ axis < dst.ndim ∧
        dst.shape.eraseIdx axis.toNat = src.shape ∧
        dst.basetile_shape.eraseIdx axis.toNat = src.basetile_shape) := by
  rw [(biasprod_check_spec src dst axis hs hd).2]
  obtain ⟨hs1, hs2⟩ := hs
  obtain ⟨hd1, hd2⟩ := hd
  constructor
  · rintro ⟨h1, h3, h4, h7, h8⟩
    refine ⟨h1, h3, h4, ?_, ?_⟩
    · exact (eraseIdx_eq_iff _ _ _ (by omega)).2 ⟨fun i hi => (h7 i (by omega)).1,
        fun i hi1 hi2 => (h8 i (by omega) (by omega)).1⟩
    · exact (eraseIdx_eq_iff _ _ _ (by omega)).2 ⟨fun i hi => (h7 i (by omega)).2,
        fun i hi1 hi2 => (h8 i (by omega) (by omega)).2⟩
  · rintro ⟨h1, h3, h4, h5, h6⟩
    obtain ⟨h51, h52⟩ := (eraseIdx_eq_iff _ _ _ (by omega)).1 h5
    obtain ⟨h61, h62⟩ := (eraseIdx_eq_iff _ _ _ (by omega)).1 h6
    exact ⟨h1, h3, h4,
      fun i hi => ⟨h51 i (by omega), h61 i (by omega)⟩,
      fun i hi1 hi2 => ⟨h52 i (by omega) (by omega), h62 i (by omega) (by omega)⟩⟩

theorem grid_shape_length (t : Tensor) (ht : t.WF) : (t.grid.shape.length : Int) = t.ndim := by
  obtain ⟨⟨h1, h2⟩, _, _, hg, _⟩ := ht
  rw [hg, List.length_zipWith, h2, min_self, h1]

/-- The grid of the destination of `sumnorm_async` has one tile along its first axis and
the tiles of the grid of the source along the others. -/
theorem sumnorm_grid_shape (src dst : Tensor) (axis : Int) (hs : src.WF) (hd : dst.WF)
    (hok : (sumnorm_check src dst axis).result = .ok ()) :
    dst.grid.shape = 1 :: src.grid.shape.eraseIdx axis.toNat := by
  obtain ⟨_, _, _, _, h5, h6⟩ := (sumnorm_check_ok_iff src dst axis hs.1 hd.1).1 hok
  obtain ⟨_, _, _, hg1, _⟩ := hs
  obtain ⟨_, _, _, hg2, _⟩ := hd
  rw [hg2, hg1, h5, h6, zipWith_eraseIdx]
  rfl

/-- The grid of the source of `biasprod_async` is the grid of the destination without its
axis `axis`. -/
theorem biasprod_grid_shape (src dst : Tensor) (axis : Int) (hs : src.WF) (hd : dst.WF)
    (hok : (biasprod_check src dst axis).result = .ok ()) :
    dst.grid.shape.eraseIdx axis.toNat = src.grid.shape := by
  obtain ⟨_, _, _, h5, h6⟩ := (biasprod_check_ok_iff src dst axis hs.1 hd.1).1 hok
  obtain ⟨_, _, _, hg1, _⟩ := hs
  obtain ⟨_, _, _, hg2, _⟩ := hd
  rw [hg2, hg1, zipWith_eraseIdx, h5, h6]

/-- The index built for the `j`-th source tile lies in the grid of the source. -/
theorem sumnorm_src_index_in_grid (sg dg : TileTraits) (a : Nat) (d : List Int) (j : Int)
    (hg : dg.shape = 1 :: sg.shape.eraseIdx a) (ha : a < sg.shape.length)
    (hd : dg.has_index d) (hj0 : 0 ≤ j) (hj1 : j < sg.shape.getD a 0) :
    sg.has_index (sumnorm_src_index a d j) := by
  obtain ⟨hlen, hin⟩ := hd
  have hdl : d.length = sg.shape.length := by
    rw [hlen, hg, List.length_cons, List.length_eraseIdx, if_pos ha]
    omega
  refine ⟨by rw [length_sumnorm_src_index _ _ _ (by omega), hdl], fun k x n hx hn => ?_⟩
  rw [getElem?_sumnorm_src_index _ _ _ _ (by omega)] at hx
  by_cases hk1 : k < a
  · rw [if_pos hk1] at hx
    refine hin (k + 1) x n hx ?_
    rw [hg, List.getElem?_cons_succ, List.getElem?_eraseIdx, if_pos hk1]
    exact hn
  · rw [if_neg hk1] at hx
    by_cases hk2 : k = a
    · rw [if_pos hk2] at hx
      subst hk2
      rw [List.getD_eq_getElem?_getD, hn] at hj1
      cases hx
      exact ⟨hj0, hj1⟩
    · rw [if_neg hk2] at hx
      refine hin k x n hx ?_
      obtain ⟨m, rfl⟩ : ∃ m, k = m + 1 := ⟨k - 1, by omega⟩
      rw [hg, List.getElem?_cons_succ, List.getElem?_eraseIdx, if_neg (by omega)]
      exact hn

theorem traits_mem (t : Tensor) (i : Nat) (h : i < t.tile_traits.length) :
    t.traits i ∈ t.tile_traits := by
  unfold Tensor.traits
  rw [List.getD_eq_getElem?_getD, List.getElem?_eq_getElem h]
  exact List.getElem_mem h

/-- On the traits of a tile of the source, the sizes of the `sumnorm` codelet are read
within the bounds of the vectors. -/
theorem sumnorm_sizes_run (ndim axis : Int) (tr dtr : TileTraits) (htr : tr.WF ndim)
    (h0 : 0 ≤ axis) (h1 : axis < ndim) :
    ∃ z, sumnorm_sizes ndim axis tr dtr = Run.ret z := by
  obtain ⟨hn, hst, hms, hrow⟩ := htr
  unfold sumnorm_sizes
  simp only [bind, pure]
  split
  · rw [vget_getD _ 0 (le_refl 0) (by omega)]
    exact ⟨_, rfl⟩
  · split
    · rw [vget_getD _ axis h0 (by omega)]
      exact ⟨_, rfl⟩
    · obtain ⟨row, hrow1, hrow2⟩ := vget_of_lt tr.matrix_shape (axis + 1) (by omega)
        (by omega)
      have hr2 : row.length = 2 := hrow row (List.mem_iff_getElem?.2 ⟨_, hrow1⟩)
      rw [vget_getD _ axis h0 (by omega), Run.ret_andThen, hrow2, Run.ret_andThen,
        vget_getD row 1 (by omega) (by omega), Run.ret_andThen,
        vget_getD _ axis h0 (by omega), Run.ret_andThen]
      exact ⟨_, rfl⟩

/-! ## The run of `sumnorm_async` -/

/-- The source tiles of a destination tile of `sumnorm_async`: the offset computed for the
`j`-th source tile of destination tile `i` is an offset of the grid of the source, and it
is the offset of the index made from the index of tile `i`. -/
theorem sumnorm_src_offset_spec (G : GridMaps) (src dst : Tensor) (axis : Int)
    (hs : src.WF) (hd : dst.WF) (hok : (sumnorm_check src dst axis).result = .ok ())
    (hGs : G.Lawful src.grid) (hGd : G.Lawful dst.grid) (i j : Nat)
    (hi : (i : Int) < dst.grid.nelems) (hj : (j : Int) < src.grid.shape.getD axis.toNat 0) :
    ∃ d, G.linear_to_index dst.grid i = some d ∧ dst.grid.has_index d ∧
      G.index_to_linear dst.grid d = some (i : Int) ∧
      G.index_to_linear src.grid (sumnorm_src_index axis.toNat d j) =
        some ((sumnorm_src_offset G src dst axis.toNat i j : Nat) : Int) ∧
      ((sumnorm_src_offset G src dst axis.toNat i j : Nat) : Int) < src.grid.nelems ∧
      G.linear_to_index src.grid ((sumnorm_src_offset G src dst axis.toNat i j : Nat) : Int) =
        some (sumnorm_src_index axis.toNat d j) := by
  obtain ⟨h1, h2, h3, h4, _, _⟩ := (sumnorm_check_ok_iff src dst axis hs.1 hd.1).1 hok
  have hg := sumnorm_grid_shape src dst axis hs hd hok
  have hsl := grid_shape_length src hs
  obtain ⟨d, hd1, hd2, hd3⟩ := hGd.index_of_linear i (by omega) hi
  have hin := sumnorm_src_index_in_grid src.grid dst.grid axis.toNat d j hg (by omega) hd2
    (by omega) hj
  obtain ⟨o, ho1, ho2, ho3, ho4⟩ := hGs.linear_of_index _ hin
  have hoff : ((sumnorm_src_offset G src dst axis.toNat i j : Nat) : Int) = o := by
    unfold sumnorm_src_offset
    rw [hd1, Option.getD_some, ho1, Option.getD_some]
    omega
  rw [hoff]
  exact ⟨d, hd1, hd2, hd3, ho1, ho3, ho4⟩

theorem sumnorm_src_tile_run (G : GridMaps) (mpi_rank : Int) (src dst : Tensor) (axis : Int)
    (hs : src.WF) (hd : dst.WF) (hok : (sumnorm_check src dst axis).result = .ok ())
    (hGs : G.Lawful src.grid) (hGd : G.Lawful dst.grid) (i j : Nat)
    (hi : (i : Int) < dst.grid.nelems) (hj : (j : Int) < src.grid.shape.getD axis.toNat 0)
    (d t : List Int) (hd1 : G.linear_to_index dst.grid i = some d)
    (ht : ∀ x, t.set axis.toNat x = sumnorm_src_index axis.toNat d x) :
    sumnorm_src_tile G mpi_rank src axis (dst.handle i) (dst.traits i) j t =
      ⟨sumnorm_src_block G mpi_rank src dst axis i j, .ok (t.set axis.toNat j)⟩ := by
  obtain ⟨h1, h2, h3, h4, _, _⟩ := (sumnorm_check_ok_iff src dst axis hs.1 hd.1).1 hok
  obtain ⟨d2, hd2, hdin, _, ho1, ho2, _⟩ := sumnorm_src_offset_spec G src dst axis hs hd hok
    hGs hGd i j hi hj
  rw [hd1] at hd2
  cases hd2
  have hsl := grid_shape_length src hs
  have hdl : d.length = src.grid.shape.length := by
    rw [hdin.1, sumnorm_grid_shape src dst axis hs hd hok, List.length_cons,
      List.length_eraseIdx, if_pos (by omega)]
    omega
  have htl : t.length = d.length := by
    have := congrArg List.length (ht 0)
    rwa [List.length_set, length_sumnorm_src_index _ _ _ (by omega)] at this
  obtain ⟨_, _, _, _, _, hh, htr, hwf⟩ := hs
  unfold sumnorm_src_tile sumnorm_src_block
  simp only [bind, pure]
  rw [vset_of_lt t axis j h3 (by omega), Run.ret_andThen, ht j]
  unfold GridMaps.to_linear
  simp only [ho1, Run.ret_andThen]
  rw [get_tile_handle_nat src _ (by omega), Run.ret_andThen, Handle.mpi_get_rank]
  by_cases hr : mpi_rank = (dst.handle i).rank
  · rw [Run.when_pos _ hr, get_tile_traits_nat src _ (by omega), Run.ret_andThen, if_pos hr]
    obtain ⟨z, hz⟩ := sumnorm_sizes_run src.ndim axis
      (src.traits (sumnorm_src_offset G src dst axis.toNat i j)) (dst.traits i)
      (hwf _ (traits_mem src _ (by omega))) h3 h4
    rw [hz, Run.ret_andThen]
    simp [Run.value, Run.andThen, Run.emit, Run.ret]
  · rw [Run.when_neg _ hr, if_neg hr]
    simp [Run.andThen, Run.emit, Run.ret]

theorem sumnorm_tile_run (G : GridMaps) (mpi_rank : Int) (src dst : Tensor) (axis : Int)
    (hs : src.WF) (hd : dst.WF) (hok : (sumnorm_check src dst axis).result = .ok ())
    (hGs : G.Lawful src.grid) (hGd : G.Lawful dst.grid) (i : Nat)
    (hi : (i : Int) < dst.grid.nelems) :
    sumnorm_tile G mpi_rank src dst axis i =
      ⟨sumnorm_block G mpi_rank src dst axis i, .ok ()⟩ := by
  obtain ⟨h1, h2, h3, h4, _, _⟩ := (sumnorm_check_ok_iff src dst axis hs.1 hd.1).1 hok
  have hsl := grid_shape_length src hs
  have hdl := grid_shape_length dst hd
  obtain ⟨d, hd1, hd2, hd3⟩ := hGd.index_of_linear i (by omega) hi
  obtain ⟨w, hw1, hw2⟩ := sumnorm_src_tile_index_run src axis d h3 h4
    (by rw [hd2.1, hdl, h1])
  obtain ⟨t, hf, _⟩ := foldRange_blocks (src.grid.shape.getD axis.toNat 0) w
    (sumnorm_src_tile G mpi_rank src axis (dst.handle i) (dst.traits i))
    (fun t => ∀ x, t.set axis.toNat x = sumnorm_src_index axis.toNat d x)
    (sumnorm_src_block G mpi_rank src dst axis i) hw2
    (fun j hj t ht => ⟨t.set axis.toNat j,
      sumnorm_src_tile_run G mpi_rank src dst axis hs hd hok hGs hGd i j hi hj d t hd1 ht,
      fun x => by rw [List.set_set]; exact ht x⟩)
  obtain ⟨_, _, _, _, _, hh, htr, _⟩ := hd
  unfold sumnorm_tile sumnorm_block
  simp only [bind, pure]
  rw [get_tile_handle_nat dst i (by omega), Run.ret_andThen, Handle.mpi_get_rank]
  unfold GridMaps.to_index
  simp only [hd1, Run.ret_andThen]
  rw [hw1, get_tile_traits_nat dst i (by omega), vget_getD _ axis h3 (by omega)]
  simp only [Run.ret_andThen]
  rw [hf]
  by_cases hr : mpi_rank = (dst.handle i).rank
  · rw [Run.when_pos _ hr, if_pos hr]
    simp [Run.andThen, Run.emit]
  · rw [Run.when_neg _ hr, if_neg hr]
    simp [Run.andThen, Run.emit, Run.ret]

theorem sumnorm_async_run (G : GridMaps) (mpi_rank : Int) (src dst : Tensor) (axis : Int)
    (hs : src.WF) (hd : dst.WF) (hok : (sumnorm_check src dst axis).result = .ok ())
    (hGs : G.Lawful src.grid) (hGd : G.Lawful dst.grid) :
    sumnorm_async G mpi_rank src dst axis =
      ⟨(List.range dst.grid.nelems.toNat).flatMap (sumnorm_block G mpi_rank src dst axis),
        .ok ()⟩ := by
  rw [sumnorm_async_eq, Run.andThen_of_ok _ hok, sumnorm_check_quiet,
    forRange_blocks _ _ _
      (sumnorm_tile_run G mpi_rank src dst axis hs hd hok hGs hGd)]
  simp

/-! ## The run of `biasprod_async` -/

theorem vget_getD_any {α : Type} (v : List α) (i : Int) (dflt : α) (h0 : 0 ≤ i)
    (h1 : i < v.length) : vget v i = Run.ret (v.getD i.toNat dflt) := by
  obtain ⟨x, hx, hx2⟩ := vget_of_lt v i h0 h1
  rw [hx2, List.getD_eq_getElem?_getD, hx]
  rfl

theorem getElem?_biasprod_dst_index (a : Nat) (s : List Int) (j : Int) (k : Nat)
    (ha : a ≤ s.length) :
    (biasprod_dst_index a s j)[k]? =
      if k < a then s[k]? else if k = a then some j else s[k - 1]? := by
  unfold biasprod_dst_index
  have hlen : (s.take a).length = a := by
    rw [List.length_take]
    omega
  rw [List.getElem?_append, hlen]
  by_cases h1 : k < a
  · rw [if_pos h1, if_pos h1, List.getElem?_take, if_pos h1]
  · rw [if_neg h1, if_neg h1]
    by_cases h2 : k = a
    · subst h2
      simp
    · rw [if_neg h2]
      obtain ⟨m, hm⟩ : ∃ m, k - a = m + 1 := ⟨k - a - 1, by omega⟩
      rw [hm, List.getElem?_cons_succ, List.getElem?_drop]
      congr 1
      omega

theorem length_biasprod_dst_index (a : Nat) (s : List Int) (j : Int) (ha : a ≤ s.length) :
    (biasprod_dst_index a s j).length = s.length + 1 := by
  unfold biasprod_dst_index
  simp only [List.length_append, List.length_take, List.length_cons, List.length_drop]
  omega

/-- The vector built by lines 78-86 of `biasprod.cc`: whatever is written at position
`axis` afterwards, the result is the index of a destination tile. -/
theorem biasprod_dst_tile_index_run (dst : Tensor) (axis : Int) (s : List Int)
    (h0 : 0 ≤ axis) (h1 : axis < dst.ndim) (hs : (s.length : Int) + 1 = dst.ndim) :
    ∃ w, biasprod_dst_tile_index dst axis s = Run.ret w ∧
      ∀ j, w.set axis.toNat j = biasprod_dst_index axis.toNat s j := by
  unfold biasprod_dst_tile_index
  simp only [bind, pure]
  obtain ⟨w1, hw1, hl1, hg1⟩ := fill_loop axis.toNat 0 axis
    (List.replicate dst.ndim.toNat 0) (fun j => vget s j) (fun k => s.getD k 0)
    (by omega) (le_refl 0) (by rw [List.length_replicate]; omega)
    (fun k _ hk => by
      show vget s (k : Int) = _
      rw [vget_getD s k (by omega) (by omega)]
      congr 2)
  rw [hw1, Run.ret_andThen]
  rw [List.length_replicate] at hl1
  obtain ⟨w2, hw2, hl2, hg2⟩ := fill_loop (dst.ndim - (axis + 1)).toNat (axis + 1) dst.ndim
    w1 (fun j => vget s (j - 1)) (fun k => s.getD (k - 1) 0)
    rfl (by omega) (by omega)
    (fun k hk1 hk2 => by
      show vget s ((k : Int) - 1) = _
      rw [vget_getD s (k - 1) (by omega) (by omega)]
      congr 2
      omega)
  refine ⟨w2, hw2, fun j => ?_⟩
  apply List.ext_getElem?
  intro k
  rw [getElem?_biasprod_dst_index _ _ _ _ (by omega), List.getElem?_set, hg2, hg1, hl2, hl1]
  by_cases hk1 : k < axis.toNat
  · rw [if_pos hk1, if_neg (by omega), if_neg (by omega),
      if_pos ⟨by omega, by omega⟩, List.getD_eq_getElem?_getD,
      List.getElem?_eq_getElem (by omega)]
    rfl
  · rw [if_neg hk1]
    by_cases hk2 : k = axis.toNat
    · rw [if_pos hk2, if_pos hk2.symm, if_pos (by omega)]
    · rw [if_neg hk2, if_neg (fun h => hk2 h.symm)]
      by_cases hk3 : (k : Int) < dst.ndim
      · rw [if_pos ⟨by omega, hk3⟩, List.getD_eq_getElem?_getD,
          List.getElem?_eq_getElem (by omega)]
        rfl
      · rw [if_neg (by omega), if_neg (by omega),
          List.getElem?_replicate, if_neg (by omega), List.getElem?_eq_none (by omega)]

/-- The index built for the `j`-th destination tile lies in the grid of the destination. -/
theorem biasprod_dst_index_in_grid (sg dg : TileTraits) (a : Nat) (s : List Int) (j : Int)
    (hg : dg.shape.eraseIdx a = sg.shape) (ha : a < dg.shape.length)
    (hs : sg.has_index s) (hj0 : 0 ≤ j) (hj1 : j < dg.shape.getD a 0) :
    dg.has_index (biasprod_dst_index a s j) := by
  obtain ⟨hlen, hin⟩ := hs
  have hsl : s.length + 1 = dg.shape.length := by
    rw [hlen, ← hg, List.length_eraseIdx, if_pos ha]
    omega
  refine ⟨by rw [length_biasprod_dst_index _ _ _ (by omega), hsl], fun k x n hx hn => ?_⟩
  rw [getElem?_biasprod_dst_index _ _ _ _ (by omega)] at hx
  by_cases hk1 : k < a
  · rw [if_pos hk1] at hx
    refine hin k x n hx ?_
    rw [← hg, List.getElem?_eraseIdx, if_pos hk1]
    exact hn
  · rw [if_neg hk1] at hx
    by_cases hk2 : k = a
    · rw [if_pos hk2] at hx
      subst hk2
      rw [List.getD_eq_getElem?_getD, hn] at hj1
      cases hx
      exact ⟨hj0, hj1⟩
    · rw [if_neg hk2] at hx
      refine hin (k - 1) x n hx ?_
      rw [← hg, List.getElem?_eraseIdx, if_neg (by omega),
        show k - 1 + 1 = k by omega]
      exact hn

/-- The destination tiles of a source tile of `biasprod_async`: the offset computed for the
`j`-th destination tile of source tile `i` is an offset of the grid of the destination,
and it is the offset of the index made from the index of tile `i`. -/
theorem biasprod_dst_offset_spec (G : GridMaps) (src dst : Tensor) (axis : Int)
    (hs : src.WF) (hd : dst.WF) (hok : (biasprod_check src dst axis).result = .ok ())
    (hGs : G.Lawful src.grid) (hGd : G.Lawful dst.grid) (i j : Nat)
    (hi : (i : Int) < src.grid.nelems) (hj : (j : Int) < dst.grid.shape.getD axis.toNat 0) :
    ∃ s, G.linear_to_index src.grid i = some s ∧ src.grid.has_index s ∧
      G.index_to_linear src.grid s = some (i : Int) ∧
      G.index_to_linear dst.grid (biasprod_dst_index axis.toNat s j) =
        some ((biasprod_dst_offset G src dst axis.toNat i j : Nat) : Int) ∧
      ((biasprod_dst_offset G src dst axis.toNat i j : Nat) : Int) < dst.grid.nelems ∧
      G.linear_to_index dst.grid ((biasprod_dst_offset G src dst axis.toNat i j : Nat) : Int) =
        some (biasprod_dst_index axis.toNat s j) := by
  obtain ⟨h1, h3, h4, _, _⟩ := (biasprod_check_ok_iff src dst axis hs.1 hd.1).1 hok
  have hg := biasprod_grid_shape src dst axis hs hd hok
  have hdl := grid_shape_length dst hd
  obtain ⟨s, hs1, hs2, hs3⟩ := hGs.index_of_linear i (by omega) hi
  have hin := biasprod_dst_index_in_grid src.grid dst.grid axis.toNat s j hg (by omega) hs2
    (by omega) hj
  obtain ⟨o, ho1, ho2, ho3, ho4⟩ := hGd.linear_of_index _ hin
  have hoff : ((biasprod_dst_offset G src dst axis.toNat i j : Nat) : Int) = o := by
    unfold biasprod_dst_offset
    rw [hs1, Option.getD_some, ho1, Option.getD_some]
    omega
  rw [hoff]
  exact ⟨s, hs1, hs2, hs3, ho1, ho3, ho4⟩

theorem biasprod_dst_tile_run (G : GridMaps) (mpi_rank : Int) (src dst : Tensor)
    (axis : Int) (hs : src.WF) (hd : dst.WF)
    (hok : (biasprod_check src dst axis).result = .ok ())
    (hGs : G.Lawful src.grid) (hGd : G.Lawful dst.grid) (i j : Nat)
    (hi : (i : Int) < src.grid.nelems) (hj : (j : Int) < dst.grid.shape.getD axis.toNat 0)
    (s t : List Int) (hs1 : G.linear_to_index src.grid i = some s)
    (ht : ∀ x, t.set axis.toNat x = biasprod_dst_index axis.toNat s x) :
    biasprod_dst_tile G mpi_rank dst axis (src.handle i) j t =
      ⟨biasprod_block G mpi_rank src dst axis i j, .ok (t.set axis.toNat j)⟩ := by
  obtain ⟨h1, h3, h4, _, _⟩ := (biasprod_check_ok_iff src dst axis hs.1 hd.1).1 hok
  obtain ⟨s2, hs2, hsin, _, ho1, ho2, _⟩ := biasprod_dst_offset_spec G src dst axis hs hd hok
    hGs hGd i j hi hj
  rw [hs1] at hs2
  cases hs2
  have hdl := grid_shape_length dst hd
  have hsl : s.length + 1 = dst.grid.shape.length := by
    rw [hsin.1, ← biasprod_grid_shape src dst axis hs hd hok, List.length_eraseIdx,
      if_pos (by omega)]
    omega
  have htl : t.length = s.length + 1 := by
    have := congrArg List.length (ht 0)
    rwa [List.length_set, length_biasprod_dst_index _ _ _ (by omega)] at this
  obtain ⟨_, _, _, _, _, hh, htr, hwf⟩ := hd
  unfold biasprod_dst_tile biasprod_block
  simp only [bind, pure]
  rw [vset_of_lt t axis j h3 (by omega), Run.ret_andThen, ht j]
  unfold GridMaps.to_linear
  simp only [ho1, Run.ret_andThen]
  rw [get_tile_handle_nat dst _ (by omega), Run.ret_andThen, Handle.mpi_get_rank]
  by_cases hr : mpi_rank = (dst.handle (biasprod_dst_offset G src dst axis.toNat i j)).rank
  · rw [Run.when_pos _ hr, get_tile_traits_nat dst _ (by omega), Run.ret_andThen, if_pos hr]
    obtain ⟨hn, hst, hms, hrow⟩ := hwf _ (traits_mem dst
      (biasprod_dst_offset G src dst axis.toNat i j) (by omega))
    have hrl : ((dst.traits (biasprod_dst_offset G src dst axis.toNat i j)).matrix_shape.getD
        (axis + 1).toNat []).length = 2 := by
      apply hrow
      rw [List.getD_eq_getElem?_getD, List.getElem?_eq_getElem (by omega)]
      exact List.getElem_mem _
    rw [vget_getD _ axis h3 (by omega), Run.ret_andThen,
      vget_getD_any _ (axis + 1) [] (by omega) (by omega), Run.ret_andThen,
      vget_getD _ 1 (by omega) (by omega), Run.ret_andThen,
      vget_getD _ axis h3 (by omega), Run.ret_andThen]
    simp [biasprod_task, Run.andThen, Run.emit, Run.ret,
      show (axis + 1).toNat = axis.toNat + 1 by omega]
  · rw [Run.when_neg _ hr, if_neg hr]
    simp [Run.andThen, Run.emit, Run.ret]

theorem biasprod_tile_run (G : GridMaps) (mpi_rank : Int) (src dst : Tensor) (axis : Int)
    (hs : src.WF) (hd : dst.WF) (hok : (biasprod_check src dst axis).result = .ok ())
    (hGs : G.Lawful src.grid) (hGd : G.Lawful dst.grid) (i : Nat)
    (hi : (i : Int) < src.grid.nelems) :
    biasprod_tile G mpi_rank src dst axis i =
      ⟨(List.range (dst.grid.shape.getD axis.toNat 0).toNat).flatMap
        (biasprod_block G mpi_rank src dst axis i), .ok ()⟩ := by
  obtain ⟨h1, h3, h4, _, _⟩ := (biasprod_check_ok_iff src dst axis hs.1 hd.1).1 hok
  have hsl := grid_shape_length src hs
  have hdl := grid_shape_length dst hd
  obtain ⟨s, hs1, hs2, hs3⟩ := hGs.index_of_linear i (by omega) hi
  obtain ⟨w, hw1, hw2⟩ := biasprod_dst_tile_index_run dst axis s h3 h4
    (by rw [hs2.1, hsl]; omega)
  obtain ⟨t, hf, _⟩ := foldRange_blocks (dst.grid.shape.getD axis.toNat 0) w
    (biasprod_dst_tile G mpi_rank dst axis (src.handle i))
    (fun t => ∀ x, t.set axis.toNat x = biasprod_dst_index axis.toNat s x)
    (biasprod_block G mpi_rank src dst axis i) hw2
    (fun j hj t ht => ⟨t.set axis.toNat j,
      biasprod_dst_tile_run G mpi_rank src dst axis hs hd hok hGs hGd i j hi hj s t hs1 ht,
      fun x => by rw [List.set_set]; exact ht x⟩)
  obtain ⟨_, _, _, _, _, hh, htr, _⟩ := hs
  unfold biasprod_tile
  simp only [bind, pure]
  unfold GridMaps.to_index
  simp only [hs1, Run.ret_andThen]
  rw [get_tile_traits_nat src i (by omega), Run.ret_andThen,
    get_tile_handle_nat src i (by omega), Run.ret_andThen, hw1, Run.ret_andThen,
    vget_getD _ axis h3 (by omega), Run.ret_andThen, hf]
  simp [Run.andThen, Run.ret]

theorem biasprod_async_run (G : GridMaps) (mpi_rank : Int) (src dst : Tensor) (axis : Int)
    (hs : src.WF) (hd : dst.WF) (hok : (biasprod_check src dst axis).result = .ok ())
    (hGs : G.Lawful src.grid) (hGd : G.Lawful dst.grid) :
    biasprod_async G mpi_rank src dst axis =
      ⟨(List.range src.grid.nelems.toNat).flatMap (fun i =>
        (List.range (dst.grid.shape.getD axis.toNat 0).toNat).flatMap
          (biasprod_block G mpi_rank src dst axis i)), .ok ()⟩ := by
  rw [biasprod_async_eq, Run.andThen_of_ok _ hok, biasprod_check_quiet,
    forRange_blocks _ _ _
      (biasprod_tile_run G mpi_rank src dst axis hs hd hok hGs hGd)]
  simp

/-! ## Every tile is reached once -/

theorem eraseIdx_biasprod_dst_index (a : Nat) (s : List Int) (j : Int) (ha : a ≤ s.length) :
    (biasprod_dst_index a s j).eraseIdx a = s := by
  apply List.ext_getElem?
  intro k
  rw [List.getElem?_eraseIdx]
  by_cases hk : k < a
  · rw [if_pos hk, getElem?_biasprod_dst_index _ _ _ _ ha, if_pos hk]
  · rw [if_neg hk, getElem?_biasprod_dst_index _ _ _ _ ha, if_neg (by omega),
      if_neg (by omega)]
    rfl

theorem biasprod_dst_index_axis (a : Nat) (s : List Int) (j : Int) (ha : a ≤ s.length) :
    (biasprod_dst_index a s j)[a]? = some j := by
  rw [getElem?_biasprod_dst_index _ _ _ _ ha, if_neg (by omega), if_pos rfl]

theorem biasprod_dst_index_eraseIdx (a : Nat) (d : List Int) (x : Int)
    (hx : d[a]? = some x) : biasprod_dst_index a (d.eraseIdx a) x = d := by
  have ha : a < d.length := (List.getElem?_eq_some.1 hx).1
  apply List.ext_getElem?
  intro k
  rw [getElem?_biasprod_dst_index _ _ _ _
    (by rw [List.length_eraseIdx, if_pos ha]; omega)]
  by_cases hk : k < a
  · rw [if_pos hk, List.getElem?_eraseIdx, if_pos hk]
  · rw [if_neg hk]
    by_cases hk2 : k = a
    · rw [if_pos hk2, hk2, hx]
    · rw [if_neg hk2, List.getElem?_eraseIdx, if_neg (by omega),
        show k - 1 + 1 = k by omega]

theorem biasprod_dst_index_inj (a : Nat) (s t : List Int) (j k : Int) (hs : a ≤ s.length)
    (ht : a ≤ t.length) (h : biasprod_dst_index a s j = biasprod_dst_index a t k) :
    s = t ∧ j = k := by
  constructor
  · rw [← eraseIdx_biasprod_dst_index a s j hs, h, eraseIdx_biasprod_dst_index a t k ht]
  · have := biasprod_dst_index_axis a s j hs
    rw [h, biasprod_dst_index_axis a t k ht] at this
    exact (Option.some.inj this).symm

theorem sumnorm_src_index_eq (a : Nat) (d : List Int) (j : Int) :
    sumnorm_src_index a d j = biasprod_dst_index a d.tail j := by
  unfold sumnorm_src_index biasprod_dst_index
  cases d with
  | nil => simp
  | cons x xs => simp

/-- A tile index of a grid with a single tile along the first axis starts with `0`. -/
theorem index_head_zero (dg : TileTraits) (rest : List Int) (d : List Int)
    (hg : dg.shape = 1 :: rest) (hd : dg.has_index d) : d = 0 :: d.tail := by
  obtain ⟨hlen, hin⟩ := hd
  cases d with
  | nil => rw [hg] at hlen; simp at hlen
  | cons x xs =>
    have := hin 0 x 1 (by simp) (by rw [hg]; simp)
    simp only [List.tail_cons, List.cons.injEq, and_true]
    omega

theorem has_index_eraseIdx (g h : TileTraits) (a : Nat) (index : List Int)
    (hg : h.shape = g.shape.eraseIdx a) (hc : g.has_index index) :
    h.has_index (index.eraseIdx a) := by
  obtain ⟨hlen, hin⟩ := hc
  refine ⟨by rw [hg, List.length_eraseIdx, List.length_eraseIdx, hlen], fun k x n hx hn => ?_⟩
  rw [hg, List.getElem?_eraseIdx] at hn
  rw [List.getElem?_eraseIdx] at hx
  by_cases hk : k < a
  · rw [if_pos hk] at hx hn
    exact hin k x n hx hn
  · rw [if_neg hk] at hx hn
    exact hin (k + 1) x n hx hn

theorem has_index_cons_zero (g h : TileTraits) (a : Nat) (index : List Int)
    (hg : h.shape = 1 :: g.shape.eraseIdx a) (hc : g.has_index index) :
    h.has_index (0 :: index.eraseIdx a) := by
  obtain ⟨hlen, hin⟩ := hc
  refine ⟨by rw [hg, List.length_cons, List.length_cons, List.length_eraseIdx,
    List.length_eraseIdx, hlen], fun k x n hx hn => ?_⟩
  cases k with
  | zero =>
    rw [hg] at hn
    simp only [List.getElem?_cons_zero, Option.some.injEq] at hx hn
    omega
  | succ k =>
    rw [hg, List.getElem?_cons_succ, List.getElem?_eraseIdx] at hn
    rw [List.getElem?_cons_succ, List.getElem?_eraseIdx] at hx
    by_cases hk : k < a
    · rw [if_pos hk] at hx hn
      exact hin k x n hx hn
    · rw [if_neg hk] at hx hn
      exact hin (k + 1) x n hx hn

theorem sumnorm_offset_injective (G : GridMaps) (src dst : Tensor) (axis : Int)
    (hs : src.WF) (hd : dst.WF) (hok : (sumnorm_check src dst axis).result = .ok ())
    (hGs : G.Lawful src.grid) (hGd : G.Lawful dst.grid) (i j i2 j2 : Nat)
    (hi : (i : Int) < dst.grid.nelems) (hj : (j : Int) < src.grid.shape.getD axis.toNat 0)
    (hi2 : (i2 : Int) < dst.grid.nelems)
    (hj2 : (j2 : Int) < src.grid.shape.getD axis.toNat 0)
    (h : sumnorm_src_offset G src dst axis.toNat i j =
      sumnorm_src_offset G src dst axis.toNat i2 j2) : i = i2 ∧ j = j2 := by
  obtain ⟨h1, h2, h3, h4, _, _⟩ := (sumnorm_check_ok_iff src dst axis hs.1 hd.1).1 hok
  have hg := sumnorm_grid_shape src dst axis hs hd hok
  have hsl := grid_shape_length src hs
  obtain ⟨d, _, hd2, hd3, _, _, hd6⟩ := sumnorm_src_offset_spec G src dst axis hs hd hok
    hGs hGd i j hi hj
  obtain ⟨e, _, he2, he3, _, _, he6⟩ := sumnorm_src_offset_spec G src dst axis hs hd hok
    hGs hGd i2 j2 hi2 hj2
  rw [h, he6] at hd6
  have heq := Option.some.inj hd6
  rw [sumnorm_src_index_eq, sumnorm_src_index_eq] at heq
  have hdl : d.length = src.grid.shape.length := by
    rw [hd2.1, hg, List.length_cons, List.length_eraseIdx, if_pos (by omega)]
    omega
  have hel : e.length = src.grid.shape.length := by
    rw [he2.1, hg, List.length_cons, List.length_eraseIdx, if_pos (by omega)]
    omega
  obtain ⟨ht, hjj⟩ := biasprod_dst_index_inj axis.toNat e.tail d.tail j2 j
    (by rw [List.length_tail]; omega) (by rw [List.length_tail]; omega) heq
  have hde : d = e := by
    rw [index_head_zero dst.grid _ d hg hd2, index_head_zero dst.grid _ e hg he2, ht]
  rw [hde, he3] at hd3
  have := Option.some.inj hd3
  omega

theorem sumnorm_offset_surjective (G : GridMaps) (src dst : Tensor) (axis : Int)
    (hs : src.WF) (hd : dst.WF) (hok : (sumnorm_check src dst axis).result = .ok ())
    (hGs : G.Lawful src.grid) (hGd : G.Lawful dst.grid) (t : Nat)
    (ht : (t : Int) < src.grid.nelems) :
    ∃ i j : Nat, (i : Int) < dst.grid.nelems ∧
      (j : Int) < src.grid.shape.getD axis.toNat 0 ∧
      sumnorm_src_offset G src dst axis.toNat i j = t := by
  obtain ⟨h1, h2, h3, h4, _, _⟩ := (sumnorm_check_ok_iff src dst axis hs.1 hd.1).1 hok
  have hg := sumnorm_grid_shape src dst axis hs hd hok
  have hsl := grid_shape_length src hs
  obtain ⟨s, hs1, hs2, hs3⟩ := hGs.index_of_linear t (by omega) ht
  have hsa : axis.toNat < s.length := by rw [hs2.1]; omega
  have hbound := hs2.2 axis.toNat _ _ (List.getElem?_eq_getElem hsa)
    (List.getElem?_eq_getElem (by omega))
  obtain ⟨i, hi1, hi2, hi3, hi4⟩ := hGd.linear_of_index _
    (has_index_cons_zero src.grid dst.grid axis.toNat s hg hs2)
  refine ⟨i.toNat, (s[axis.toNat]).toNat, by omega, ?_, ?_⟩
  · rw [List.getD_eq_getElem?_getD, List.getElem?_eq_getElem (by omega)]
    simp only [Option.getD_some]
    omega
  · unfold sumnorm_src_offset
    rw [Int.toNat_of_nonneg hi2, hi4, Option.getD_some, sumnorm_src_index_eq, List.tail_cons,
      Int.toNat_of_nonneg hbound.1,
      biasprod_dst_index_eraseIdx _ _ _ (List.getElem?_eq_getElem hsa), hs3]
    simp

theorem biasprod_offset_injective (G : GridMaps) (src dst : Tensor) (axis : Int)
    (hs : src.WF) (hd : dst.WF) (hok : (biasprod_check src dst axis).result = .ok ())
    (hGs : G.Lawful src.grid) (hGd : G.Lawful dst.grid) (i j i2 j2 : Nat)
    (hi : (i : Int) < src.grid.nelems) (hj : (j : Int) < dst.grid.shape.getD axis.toNat 0)
    (hi2 : (i2 : Int) < src.grid.nelems)
    (hj2 : (j2 : Int) < dst.grid.shape.getD axis.toNat 0)
    (h : biasprod_dst_offset G src dst axis.toNat i j =
      biasprod_dst_offset G src dst axis.toNat i2 j2) : i = i2 ∧ j = j2 := by
  obtain ⟨h1, h3, h4, _, _⟩ := (biasprod_check_ok_iff src dst axis hs.1 hd.1).1 hok
  have hsl := grid_shape_length src hs
  obtain ⟨d, _, hd2, hd3, _, _, hd6⟩ := biasprod_dst_offset_spec G src dst axis hs hd hok
    hGs hGd i j hi hj
  obtain ⟨e, _, he2, he3, _, _, he6⟩ := biasprod_dst_offset_spec G src dst axis hs hd hok
    hGs hGd i2 j2 hi2 hj2
  rw [h, he6] at hd6
  obtain ⟨ht, hjj⟩ := biasprod_dst_index_inj axis.toNat e d j2 j
    (by rw [he2.1]; omega) (by rw [hd2.1]; omega) (Option.some.inj hd6)
  rw [← ht, he3] at hd3
  have := Option.some.inj hd3
  omega

theorem biasprod_offset_surjective (G : GridMaps) (src dst : Tensor) (axis : Int)
    (hs : src.WF) (hd : dst.WF) (hok : (biasprod_check src dst axis).result = .ok ())
    (hGs : G.Lawful src.grid) (hGd : G.Lawful dst.grid) (t : Nat)
    (ht : (t : Int) < dst.grid.nelems) :
    ∃ i j : Nat, (i : Int) < src.grid.nelems ∧
      (j : Int) < dst.grid.shape.getD axis.toNat 0 ∧
      biasprod_dst_offset G src dst axis.toNat i j = t := by
  obtain ⟨h1, h3, h4, _, _⟩ := (biasprod_check_ok_iff src dst axis hs.1 hd.1).1 hok
  have hg := biasprod_grid_shape src dst axis hs hd hok
  have hdl := grid_shape_length dst hd
  obtain ⟨d, hd1, hd2, hd3⟩ := hGd.index_of_linear t (by omega) ht
  have hda : axis.toNat < d.length := by rw [hd2.1]; omega
  have hbound := hd2.2 axis.toNat _ _ (List.getElem?_eq_getElem hda)
    (List.getElem?_eq_getElem (by omega))
  obtain ⟨i, hi1, hi2, hi3, hi4⟩ := hGs.linear_of_index _
    (has_index_eraseIdx dst.grid src.grid axis.toNat d hg.symm hd2)
  refine ⟨i.toNat, (d[axis.toNat]).toNat, by omega, ?_, ?_⟩
  · rw [List.getD_eq_getElem?_getD, List.getElem?_eq_getElem (by omega)]
    simp only [Option.getD_some]
    omega
  · unfold biasprod_dst_offset
    rw [Int.toNat_of_nonneg hi2, hi4, Option.getD_some,
      Int.toNat_of_nonneg hbound.1,
      biasprod_dst_index_eraseIdx _ _ _ (List.getElem?_eq_getElem hda), hd3]
    simp

/-- A map of pairs that is one-to-one and onto `[0, n)` lists `[0, n)` in some order. -/
theorem perm_range_of_bijection (ni nj n : Nat) (o : Nat → Nat → Nat)
    (hlt : ∀ i j, i < ni → j < nj → o i j < n)
    (hinj : ∀ i j i2 j2, i < ni → j < nj → i2 < ni → j2 < nj → o i j = o i2 j2 →
      i = i2 ∧ j = j2)
    (hsurj : ∀ t, t < n → ∃ i j, i < ni ∧ j < nj ∧ o i j = t) :
    ((List.range ni).flatMap fun i => (List.range nj).map (o i)).Perm (List.range n) := by
  rw [List.perm_ext_iff_of_nodup _ (List.nodup_range n)]
  · intro t
    simp only [List.mem_flatMap, List.mem_map, List.mem_range]
    constructor
    · rintro ⟨i, hi, j, hj, rfl⟩
      exact hlt i j hi hj
    · intro ht
      obtain ⟨i, j, hi, hj, h⟩ := hsurj t ht
      exact ⟨i, hi, j, hj, h⟩
  · rw [List.nodup_flatMap]
    constructor
    · intro i hi
      refine List.Nodup.map_on ?_ (List.nodup_range nj)
      intro j hj j2 hj2 h
      exact (hinj i j i j2 (List.mem_range.1 hi) (List.mem_range.1 hj) (List.mem_range.1 hi)
        (List.mem_range.1 hj2) h).2
    · refine List.Pairwise.imp_of_mem ?_ (List.nodup_range ni)
      intro i i2 hi hi2 hne
      simp only [Function.onFun, List.Disjoint, List.mem_map, List.mem_range]
      rintro t ⟨j, hj, rfl⟩ ⟨j2, hj2, h⟩
      exact hne (hinj i2 j2 i j (List.mem_range.1 hi2) hj2 (List.mem_range.1 hi) hj h).1.symm

/-! ## The row-major index maps -/

theorem prod_pos_of_pos (shape : List Int) (hpos : ∀ n ∈ shape, 0 < n) : 0 < shape.prod := by
  induction shape with
  | nil => simp
  | cons n shape ih =>
    rw [List.prod_cons]
    exact Int.mul_pos (hpos n (by simp)) (ih (fun m hm => hpos m (by simp [hm])))

theorem row_major_index_spec (shape : List Int) (hpos : ∀ n ∈ shape, 0 < n) (i : Int)
    (h0 : 0 ≤ i) (h1 : i < shape.prod) :
    (row_major_index shape i).length = shape.length ∧
    (∀ (k : Nat) (x n : Int), (row_major_index shape i)[k]? = some x → shape[k]? = some n →
      0 ≤ x ∧ x < n) ∧
    row_major_offset shape (row_major_index shape i) = some i := by
  induction shape generalizing i with
  | nil =>
    simp only [List.prod_nil] at h1
    have : i = 0 := by omega
    subst this
    simp [row_major_index, row_major_offset]
  | cons n shape ih =>
    have hp := prod_pos_of_pos shape (fun m hm => hpos m (by simp [hm]))
    rw [List.prod_cons] at h1
    have hq0 : 0 ≤ i / shape.prod := Int.ediv_nonneg h0 (le_of_lt hp)
    have hq1 : i / shape.prod < n := Int.ediv_lt_of_lt_mul hp h1
    have hr0 : 0 ≤ i % shape.prod := Int.emod_nonneg i (ne_of_gt hp)
    have hr1 : i % shape.prod < shape.prod := Int.emod_lt_of_pos i hp
    obtain ⟨hl, hin, hoff⟩ := ih (fun m hm => hpos m (by simp [hm])) (i % shape.prod) hr0 hr1
    refine ⟨by simp [row_major_index, hl], fun k x m hx hm => ?_, ?_⟩
    · cases k with
      | zero =>
        simp only [row_major_index, List.getElem?_cons_zero, Option.some.injEq] at hx hm
        omega
      | succ k =>
        simp only [row_major_index, List.getElem?_cons_succ] at hx hm
        exact hin k x m hx hm
    · simp only [row_major_index, row_major_offset, hq0, hq1, and_self, ↓reduceIte, hoff,
        Option.map_some', Option.some.injEq]
      exact Int.ediv_add_emod' i shape.prod

theorem row_major_offset_spec (shape : List Int) (hpos : ∀ n ∈ shape, 0 < n)
    (index : List Int) (hl : index.length = shape.length)
    (hin : ∀ (k : Nat) (x n : Int), index[k]? = some x → shape[k]? = some n →
      0 ≤ x ∧ x < n) :
    ∃ i, row_major_offset shape index = some i ∧ 0 ≤ i ∧ i < shape.prod ∧
      row_major_index shape i = index := by
  induction shape generalizing index with
  | nil =>
    cases index with
    | nil => exact ⟨0, rfl, le_refl 0, by simp, rfl⟩
    | cons x xs => simp at hl
  | cons n shape ih =>
    cases index with
    | nil => simp at hl
    | cons x xs =>
      have hp := prod_pos_of_pos shape (fun m hm => hpos m (by simp [hm]))
      have hx := hin 0 x n (by simp) (by simp)
      obtain ⟨r, hr, hr0, hr1, hri⟩ := ih (fun m hm => hpos m (by simp [hm])) xs
        (by simpa using hl) (fun k y m hy hm => hin (k + 1) y m (by simpa using hy)
          (by simpa using hm))
      refine ⟨x * shape.prod + r, ?_, ?_, ?_, ?_⟩
      · simp [row_major_offset, hx.1, hx.2, hr]
      · have := Int.mul_nonneg hx.1 (le_of_lt hp)
        omega
      · rw [List.prod_cons]
        have h2 : (x + 1) * shape.prod ≤ n * shape.prod :=
          Int.mul_le_mul_of_nonneg_right (by omega) (le_of_lt hp)
        rw [Int.add_mul, Int.one_mul] at h2
        omega
      · have hdiv : (x * shape.prod + r) / shape.prod = x := by
          rw [Int.add_comm, Int.add_mul_ediv_right _ _ (ne_of_gt hp),
            Int.ediv_eq_zero_of_lt hr0 hr1, Int.zero_add]
        have hmod : (x * shape.prod + r) % shape.prod = r := by
          rw [Int.add_comm, Int.add_mul_emod_self, Int.emod_eq_of_lt hr0 hr1]
        simp only [row_major_index, hdiv, hmod, hri]

/-- The row-major index maps are mutually inverse on every grid with positive extents whose
`nelems` is the product of the extents. -/
theorem row_major_lawful (g : TileTraits) (hpos : ∀ n ∈ g.shape, 0 < n)
    (hn : g.nelems = g.shape.prod) : row_major.Lawful g := by
  constructor
  · intro i h0 h1
    rw [hn] at h1
    obtain ⟨hl, hin, hoff⟩ := row_major_index_spec g.shape hpos i h0 h1
    refine ⟨row_major_index g.shape i, ?_, ⟨hl, hin⟩, hoff⟩
    simp [row_major, h0, hn, h1]
  · intro index hc
    obtain ⟨i, hi, h0, h1, hri⟩ := row_major_offset_spec g.shape hpos index hc.1 hc.2
    refine ⟨i, hi, h0, by rw [hn]; exact h1, ?_⟩
    simp [row_major, h0, hn, h1, hri]

/-! ## Flushes -/

theorem map_handle_range (t : Tensor) (n : Nat) (h : t.tile_handles.length = n) :
    (List.range n).map t.handle = t.tile_handles := by
  apply List.ext_getElem?
  intro k
  rw [List.getElem?_map]
  by_cases hk : k < n
  · rw [List.getElem?_range hk, List.getElem?_eq_getElem (by omega)]
    simp [Tensor.handle, List.getD_eq_getElem?_getD, List.getElem?_eq_getElem (h ▸ hk)]
  · rw [List.getElem?_eq_none (by simpa using hk), List.getElem?_eq_none (by omega)]
    rfl

theorem flushed_per_tile_of_blocks {α : Type} (xs : List α) (pre : α → List Effect)
    (h : α → Handle) (dst : Tensor) (hpre : ∀ x ∈ xs, ∀ e ∈ pre x, e.concerns (h x))
    (hperm : (xs.map h).Perm dst.tile_handles) :
    flushed_per_tile (xs.flatMap fun x => pre x ++ [Effect.flush (h x)]) dst := by
  refine ⟨xs.map (fun x => (pre x, h x)), ?_, ?_, ?_⟩
  · rw [List.flatMap_map]
  · intro g hg
    obtain ⟨x, hx, rfl⟩ := List.mem_map.1 hg
    exact hpre x hx
  · rw [List.map_map]
    exact hperm

theorem flushes_of_concerns (es : List Effect) (h : Handle) (hes : ∀ e ∈ es, e.concerns h) :
    flushes es = [] := by
  unfold flushes
  rw [List.filterMap_eq_nil_iff]
  intro e he
  have := hes e he
  cases e with
  | transfer _ _ _ => rfl
  | submit _ => rfl
  | _ => exact absurd this (by simp [Effect.concerns])

/-- Requests grouped by tile contain exactly one flush per tile. -/
theorem flushes_of_flushed_per_tile (es : List Effect) (dst : Tensor)
    (h : flushed_per_tile es dst) : (flushes es).Perm dst.tile_handles := by
  obtain ⟨groups, rfl, hc, hp⟩ := h
  have : flushes (groups.flatMap fun g => g.1 ++ [Effect.flush g.2]) =
      groups.map Prod.snd := by
    rw [flushes_flatMap, ← flatMap_singleton_eq_map]
    apply List.flatMap_congr
    intro g hg
    rw [flushes_append, flushes_of_concerns g.1 g.2 (hc g hg)]
    rfl
  rw [this]
  exact hp

theorem gelutanh_flushed (mpi_rank : Int) (A : Tensor) (hA : A.WF) :
    flushed_per_tile (gelutanh_async mpi_rank A).effects A := by
  rw [gelutanh_async_run mpi_rank A hA]
  refine flushed_per_tile_of_blocks _ _ _ A ?_ ?_
  · intro i _ e he
    split at he
    · simp only [List.mem_singleton] at he
      subst he
      rfl
    · simp at he
  · rw [map_handle_range A _ (by have := hA.2.2.2.2.2.1; omega)]

theorem add_scalar_flushed (mpi_rank : Int) (alpha beta : scal_t) (dst : Tensor)
    (hd : dst.WF) (hab : ¬ (alpha = 0 ∧ beta = 1)) :
    flushed_per_tile (add_scalar_async mpi_rank alpha beta dst).effects dst := by
  rw [add_scalar_async_run mpi_rank alpha beta dst hd hab]
  refine flushed_per_tile_of_blocks _ _ _ dst ?_ ?_
  · intro i _ e he
    split at he
    · simp only [List.mem_singleton] at he
      subst he
      rfl
    · simp at he
  · rw [map_handle_range dst _ (by have := hd.2.2.2.2.2.1; omega)]

theorem hypot_flushed (mpi_rank : Int) (alpha : scal_t) (src : Tensor) (beta : scal_t)
    (dst : Tensor) (hs : src.WF) (hd : dst.WF) (hn : dst.ndim = src.ndim)
    (hsh : dst.shape = src.shape) (hbt : dst.basetile_shape = src.basetile_shape)
    (hab : ¬ (alpha = 0 ∧ beta = 1)) :
    flushed_per_tile (hypot_async mpi_rank alpha src beta dst).effects dst := by
  rw [hypot_async_run mpi_rank alpha src beta dst hs hd hn hsh hbt hab]
  refine flushed_per_tile_of_blocks _ _ _ dst ?_ ?_
  · intro i _ e he
    rw [List.mem_append] at he
    rcases he with he | he
    · simp only [List.mem_singleton] at he
      subst he
      rfl
    · split at he
      · simp only [List.mem_singleton] at he
        subst he
        rfl
      · simp at he
  · rw [map_handle_range dst _ (by have := hd.2.2.2.2.2.1; omega)]

theorem sumnorm_flushed (G : GridMaps) (mpi_rank : Int) (src dst : Tensor) (axis : Int)
    (hs : src.WF) (hd : dst.WF) (hok : (sumnorm_check src dst axis).result = .ok ())
    (hGs : G.Lawful src.grid) (hGd : G.Lawful dst.grid) :
    flushed_per_tile (sumnorm_async G mpi_rank src dst axis).effects dst := by
  rw [sumnorm_async_run G mpi_rank src dst axis hs hd hok hGs hGd]
  refine flushed_per_tile_of_blocks _ _ _ dst ?_ ?_
  · intro i _ e he
    rw [List.mem_append] at he
    rcases he with he | he
    · split at he
      · simp only [List.mem_singleton] at he
        subst he
        rfl
      · simp at he
    · obtain ⟨j, _, hj⟩ := List.mem_flatMap.1 he
      unfold sumnorm_src_block at hj
      simp only [List.mem_append, List.mem_singleton] at hj
      rcases hj with hj | hj
      · subst hj
        rfl
      · split at hj
        · simp only [List.mem_singleton] at hj
          subst hj
          rfl
        · simp at hj
  · rw [map_handle_range dst _ (by have := hd.2.2.2.2.2.1; omega)]

/-- The pairs `(i, j)` visited by the two nested loops, in order. -/
theorem flatMap_pairs {β : Type} (ni nj : Nat) (f : Nat → Nat → List β) :
    ((List.range ni).flatMap fun i => (List.range nj).flatMap (f i)) =
      ((List.range ni).flatMap fun i => (List.range nj).map fun j => (i, j)).flatMap
        fun p => f p.1 p.2 := by
  rw [List.flatMap_assoc]
  apply List.flatMap_congr
  intro i _
  rw [List.flatMap_map]

theorem map_pairs {β : Type} (ni nj : Nat) (f : Nat → Nat → β) :
    ((List.range ni).flatMap fun i => (List.range nj).map fun j => (i, j)).map
      (fun p => f p.1 p.2) =
      (List.range ni).flatMap fun i => (List.range nj).map (f i) := by
  rw [List.map_flatMap]
  apply List.flatMap_congr
  intro i _
  rw [List.map_map]
  rfl

/-- The destination offsets computed by `biasprod_async` list the tiles of the destination,
each once. -/
theorem biasprod_offsets_perm (G : GridMaps) (src dst : Tensor) (axis : Int)
    (hs : src.WF) (hd : dst.WF) (hok : (biasprod_check src dst axis).result = .ok ())
    (hGs : G.Lawful src.grid) (hGd : G.Lawful dst.grid) :
    ((List.range src.grid.nelems.toNat).flatMap fun i =>
      (List.range (dst.grid.shape.getD axis.toNat 0).toNat).map
        (biasprod_dst_offset G src dst axis.toNat i)).Perm
      (List.range dst.grid.nelems.toNat) := by
  apply perm_range_of_bijection
  · intro i j hi hj
    obtain ⟨_, _, _, _, _, h, _⟩ := biasprod_dst_offset_spec G src dst axis hs hd hok hGs hGd
      i j (by omega) (by omega)
    omega
  · intro i j i2 j2 hi hj hi2 hj2 h
    exact biasprod_offset_injective G src dst axis hs hd hok hGs hGd i j i2 j2 (by omega)
      (by omega) (by omega) (by omega) h
  · intro t ht
    obtain ⟨i, j, hi, hj, h⟩ := biasprod_offset_surjective G src dst axis hs hd hok hGs hGd
      t (by omega)
    exact ⟨i, j, by omega, by omega, h⟩

/-- The source offsets computed by `sumnorm_async` list the tiles of the source, each
once. -/
theorem sumnorm_offsets_perm (G : GridMaps) (src dst : Tensor) (axis : Int)
    (hs : src.WF) (hd : dst.WF) (hok : (sumnorm_check src dst axis).result = .ok ())
    (hGs : G.Lawful src.grid) (hGd : G.Lawful dst.grid) :
    ((List.range dst.grid.nelems.toNat).flatMap fun i =>
      (List.range (src.grid.shape.getD axis.toNat 0).toNat).map
        (sumnorm_src_offset G src dst axis.toNat i)).Perm
      (List.range src.grid.nelems.toNat) := by
  apply perm_range_of_bijection
  · intro i j hi hj
    obtain ⟨_, _, _, _, _, h, _⟩ := sumnorm_src_offset_spec G src dst axis hs hd hok hGs hGd
      i j (by omega) (by omega)
    omega
  · intro i j i2 j2 hi hj hi2 hj2 h
    exact sumnorm_offset_injective G src dst axis hs hd hok hGs hGd i j i2 j2 (by omega)
      (by omega) (by omega) (by omega) h
  · intro t ht
    obtain ⟨i, j, hi, hj, h⟩ := sumnorm_offset_surjective G src dst axis hs hd hok hGs hGd
      t (by omega)
    exact ⟨i, j, by omega, by omega, h⟩

theorem biasprod_flushed (G : GridMaps) (mpi_rank : Int) (src dst : Tensor) (axis : Int)
    (hs : src.WF) (hd : dst.WF) (hok : (biasprod_check src dst axis).result = .ok ())
    (hGs : G.Lawful src.grid) (hGd : G.Lawful dst.grid) :
    flushed_per_tile (biasprod_async G mpi_rank src dst axis).effects dst := by
  rw [biasprod_async_run G mpi_rank src dst axis hs hd hok hGs hGd]
  simp only []
  rw [flatMap_pairs]
  refine flushed_per_tile_of_blocks _
    (fun (p : Nat × Nat) => [Effect.transfer (src.handle p.1)
        (dst.handle (biasprod_dst_offset G src dst axis.toNat p.1 p.2)).rank mpi_rank] ++
      (if mpi_rank = (dst.handle (biasprod_dst_offset G src dst axis.toNat p.1 p.2)).rank then
        [Effect.submit (biasprod_task src dst axis.toNat p.1
          (biasprod_dst_offset G src dst axis.toNat p.1 p.2))] else []))
    (fun (p : Nat × Nat) =>
      dst.handle (biasprod_dst_offset G src dst axis.toNat p.1 p.2)) dst ?_ ?_
  · intro p _ e he
    rw [List.mem_append] at he
    rcases he with he | he
    · simp only [List.mem_singleton] at he
      subst he
      rfl
    · split at he
      · simp only [List.mem_singleton] at he
        subst he
        rfl
      · simp at he
  · rw [map_pairs _ _ (fun i j => dst.handle (biasprod_dst_offset G src dst axis.toNat i j))]
    have := (biasprod_offsets_perm G src dst axis hs hd hok hGs hGd).map dst.handle
    rw [List.map_flatMap, map_handle_range dst _ (by have := hd.2.2.2.2.2.1; omega)] at this
    simpa only [List.map_map] using this

/-- C5: a call of `gelutanh_async`, `add_scalar_async`, `hypot_async`, `sumnorm_async` or
`biasprod_async` that passes the checks and is not cut short by the scalars `(0, 1)`
returns normally on every rank, and its requests come in one group per destination tile:
the transfers and submissions made for the tile, then the flush of the tile; so every rank
flushes every destination tile exactly once, after everything it requests for that
tile. -/
theorem flush_on_every_node (G : GridMaps) (mpi_rank : Int) (alpha beta : scal_t)
    (A esrc edst ssrc sdst bsrc bdst : Tensor) (saxis baxis : Int)
    (hA : A.WF) (hes : esrc.WF) (hed : edst.WF) (hn : edst.ndim = esrc.ndim)
    (hsh : edst.shape = esrc.shape) (hbt : edst.basetile_shape = esrc.basetile_shape)
    (hab : ¬ (alpha = 0 ∧ beta = 1))
    (hss : ssrc.WF) (hsd : sdst.WF) (hsok : (sumnorm_check ssrc sdst saxis).result = .ok ())
    (hbs : bsrc.WF) (hbd : bdst.WF) (hbok : (biasprod_check bsrc bdst baxis).result = .ok ())
    (hG1 : G.Lawful ssrc.grid) (hG2 : G.Lawful sdst.grid) (hG3 : G.Lawful bsrc.grid)
    (hG4 : G.Lawful bdst.grid) :
    ((gelutanh_async mpi_rank A).result = .ok () ∧
      flushed_per_tile (gelutanh_async mpi_rank A).effects A ∧
      (flushes (gelutanh_async mpi_rank A).effects).Perm A.tile_handles) ∧
    ((add_scalar_async mpi_rank alpha beta edst).result = .ok () ∧
      flushed_per_tile (add_scalar_async mpi_rank alpha beta edst).effects edst ∧
      (flushes (add_scalar_async mpi_rank alpha beta edst).effects).Perm edst.tile_handles) ∧
    ((hypot_async mpi_rank alpha esrc beta edst).result = .ok () ∧
      flushed_per_tile (hypot_async mpi_rank alpha esrc beta edst).effects edst ∧
      (flushes (hypot_async mpi_rank alpha esrc beta edst).effects).Perm
        edst.tile_handles) ∧
    ((sumnorm_async G mpi_rank ssrc sdst saxis).result = .ok () ∧
      flushed_per_tile (sumnorm_async G mpi_rank ssrc sdst saxis).effects sdst ∧
      (flushes (sumnorm_async G mpi_rank ssrc sdst saxis).effects).Perm
        sdst.tile_handles) ∧
    ((biasprod_async G mpi_rank bsrc bdst baxis).result = .ok () ∧
      flushed_per_tile (biasprod_async G mpi_rank bsrc bdst baxis).effects bdst ∧
      (flushes (biasprod_async G mpi_rank bsrc bdst baxis).effects).Perm
        bdst.tile_handles) := by
  have h1 := gelutanh_flushed mpi_rank A hA
  have h2 := add_scalar_flushed mpi_rank alpha beta edst hed hab
  have h3 := hypot_flushed mpi_rank alpha esrc beta edst hes hed hn hsh hbt hab
  have h4 := sumnorm_flushed G mpi_rank ssrc sdst saxis hss hsd hsok hG1 hG2
  have h5 := biasprod_flushed G mpi_rank bsrc bdst baxis hbs hbd hbok hG3 hG4
  refine ⟨⟨?_, h1, flushes_of_flushed_per_tile _ _ h1⟩,
    ⟨?_, h2, flushes_of_flushed_per_tile _ _ h2⟩,
    ⟨?_, h3, flushes_of_flushed_per_tile _ _ h3⟩,
    ⟨?_, h4, flushes_of_flushed_per_tile _ _ h4⟩,
    ⟨?_, h5, flushes_of_flushed_per_tile _ _ h5⟩⟩
  · rw [gelutanh_async_run mpi_rank A hA]
  · rw [add_scalar_async_run mpi_rank alpha beta edst hed hab]
  · rw [hypot_async_run mpi_rank alpha esrc beta edst hes hed hn hsh hbt hab]
  · rw [sumnorm_async_run G mpi_rank ssrc sdst saxis hss hsd hsok hG1 hG2]
  · rw [biasprod_async_run G mpi_rank bsrc bdst baxis hbs hbd hbok hG3 hG4]

theorem flush_on_every_node_witness :
    (sample44 0).WF ∧ (sample44 10).WF ∧ sample24.WF ∧ sample4.WF ∧
    (sumnorm_check (sample44 0) sample24 0).result = .ok () ∧
    (biasprod_check sample4 (sample44 0) 1).result = .ok () ∧
    flushes (sumnorm_async row_major 1 (sample44 0) sample24 0).effects =
      [⟨30, 0⟩, ⟨31, 1⟩] ∧
    (flushes (biasprod_async row_major 1 sample4 (sample44 0) 1).effects).Perm
      (sample44 0).tile_handles :=
  ⟨by decide, by decide, by decide, by decide, by decide, by decide, by decide,
    (flush_on_every_node row_major 1 1 1 (sample44 0) (sample44 0) (sample44 10)
      (sample44 0) sample24 sample4 (sample44 0) 0 1 (by decide) (by decide) (by decide)
      rfl rfl rfl (by norm_num) (by decide) (by decide) (by decide) (by decide) (by decide)
      (by decide)
      (row_major_lawful _ (by decide) (by decide))
      (row_major_lawful _ (by decide) (by decide))
      (row_major_lawful _ (by decide) (by decide))
      (row_major_lawful _ (by decide) (by decide))).2.2.2.2.2.2⟩

theorem transfers_hypot_block (mpi_rank : Int) (alpha : scal_t) (src : Tensor)
    (beta : scal_t) (dst : Tensor) (i : Nat) :
    transfers (hypot_block mpi_rank alpha src beta dst i) =
      [(src.handle i, (dst.handle i).rank, mpi_rank)] := by
  unfold hypot_block
  split <;> rfl

theorem transfers_sumnorm_src_block (G : GridMaps) (mpi_rank : Int) (src dst : Tensor)
    (axis : Int) (i j : Nat) :
    transfers (sumnorm_src_block G mpi_rank src dst axis i j) =
      [(src.handle (sumnorm_src_offset G src dst axis.toNat i j), (dst.handle i).rank,
        mpi_rank)] := by
  unfold sumnorm_src_block
  simp only []
  split <;> rfl

theorem transfers_sumnorm_block (G : GridMaps) (mpi_rank : Int) (src dst : Tensor)
    (axis : Int) (i : Nat) :
    transfers (sumnorm_block G mpi_rank src dst axis i) =
      (List.range (src.grid.shape.getD axis.toNat 0).toNat).map (fun j =>
        (src.handle (sumnorm_src_offset G src dst axis.toNat i j), (dst.handle i).rank,
          mpi_rank)) := by
  unfold sumnorm_block
  rw [transfers_append, transfers_append, transfers_flatMap]
  simp only [transfers_sumnorm_src_block]
  rw [flatMap_singleton_eq_map]
  split <;> simp [transfers]

theorem transfers_biasprod_block (G : GridMaps) (mpi_rank : Int) (src dst : Tensor)
    (axis : Int) (i j : Nat) :
    transfers (biasprod_block G mpi_rank src dst axis i j) =
      [(src.handle i, (dst.handle (biasprod_dst_offset G src dst axis.toNat i j)).rank,
        mpi_rank)] := by
  unfold biasprod_block
  simp only []
  split <;> rfl

theorem flushes_biasprod_block (G : GridMaps) (mpi_rank : Int) (src dst : Tensor)
    (axis : Int) (i j : Nat) :
    flushes (biasprod_block G mpi_rank src dst axis i j) =
      [dst.handle (biasprod_dst_offset G src dst axis.toNat i j)] := by
  unfold biasprod_block
  simp only []
  split <;> rfl

theorem tasks_biasprod_block (G : GridMaps) (mpi_rank : Int) (src dst : Tensor)
    (axis : Int) (i j : Nat) :
    tasks (biasprod_block G mpi_rank src dst axis i j) =
      if mpi_rank = (dst.handle (biasprod_dst_offset G src dst axis.toNat i j)).rank then
        [biasprod_task src dst axis.toNat i (biasprod_dst_offset G src dst axis.toNat i j)]
      else [] := by
  unfold biasprod_block
  simp only []
  split <;> rfl

/-- C6, as the code has it: for every source tile it moves, `hypot_async`, `sumnorm_async`
and `biasprod_async` call `mpi_transfer` of the handle of the source tile with the rank of
the owner of the destination tile as first argument and the rank of the calling node as
second argument, on every calling rank. -/
theorem transfer_arguments (G : GridMaps) (mpi_rank : Int) (alpha beta : scal_t)
    (esrc edst ssrc sdst bsrc bdst : Tensor) (saxis baxis : Int)
    (hes : esrc.WF) (hed : edst.WF) (hn : edst.ndim = esrc.ndim)
    (hsh : edst.shape = esrc.shape) (hbt : edst.basetile_shape = esrc.basetile_shape)
    (hab : ¬ (alpha = 0 ∧ beta = 1))
    (hss : ssrc.WF) (hsd : sdst.WF) (hsok : (sumnorm_check ssrc sdst saxis).result = .ok ())
    (hbs : bsrc.WF) (hbd : bdst.WF) (hbok : (biasprod_check bsrc bdst baxis).result = .ok ())
    (hG1 : G.Lawful ssrc.grid) (hG2 : G.Lawful sdst.grid) (hG3 : G.Lawful bsrc.grid)
    (hG4 : G.Lawful bdst.grid) :
    transfers (hypot_async mpi_rank alpha esrc beta edst).effects =
      (List.range edst.grid.nelems.toNat).map
        (fun i => (esrc.handle i, (edst.handle i).rank, mpi_rank)) ∧
    transfers (sumnorm_async G mpi_rank ssrc sdst saxis).effects =
      (List.range sdst.grid.nelems.toNat).flatMap (fun i =>
        (List.range (ssrc.grid.shape.getD saxis.toNat 0).toNat).map (fun j =>
          (ssrc.handle (sumnorm_src_offset G ssrc sdst saxis.toNat i j),
            (sdst.handle i).rank, mpi_rank))) ∧
    transfers (biasprod_async G mpi_rank bsrc bdst baxis).effects =
      (List.range bsrc.grid.nelems.toNat).flatMap (fun i =>
        (List.range (bdst.grid.shape.getD baxis.toNat 0).toNat).map (fun j =>
          (bsrc.handle i,
            (bdst.handle (biasprod_dst_offset G bsrc bdst baxis.toNat i j)).rank,
            mpi_rank))) := by
  refine ⟨?_, ?_, ?_⟩
  · rw [hypot_async_run mpi_rank alpha esrc beta edst hes hed hn hsh hbt hab,
      transfers_flatMap]
    simp only [transfers_hypot_block]
    exact flatMap_singleton_eq_map _ _
  · rw [sumnorm_async_run G mpi_rank ssrc sdst saxis hss hsd hsok hG1 hG2,
      transfers_flatMap]
    simp only [transfers_sumnorm_block]
  · rw [biasprod_async_run G mpi_rank bsrc bdst baxis hbs hbd hbok hG3 hG4,
      transfers_flatMap]
    simp only [transfers_flatMap, transfers_biasprod_block]
    apply List.flatMap_congr
    intro i _
    exact flatMap_singleton_eq_map _ _

theorem transfer_arguments_witness :
    transfers (hypot_async 0 1 (sample44 0) 1 (sample44 10)).effects =
      [(⟨0, 0⟩, 0, 0), (⟨1, 1⟩, 1, 0), (⟨2, 0⟩, 0, 0), (⟨3, 1⟩, 1, 0)] :=
  (transfer_arguments row_major 0 1 1 (sample44 0) (sample44 10)
      (sample44 0) sample24 sample4 (sample44 0) 0 1 (by decide) (by decide)
      rfl rfl rfl (by norm_num) (by decide) (by decide) (by decide) (by decide) (by decide)
      (by decide)
      (row_major_lawful _ (by decide) (by decide))
      (row_major_lawful _ (by decide) (by decide))
      (row_major_lawful _ (by decide) (by decide))
      (row_major_lawful _ (by decide) (by decide))).1.trans (by decide)

/-- C6, as stated, fails: on rank `0`, `hypot_async` on two `4 x 4` tensors of four tiles
calls `mpi_transfer(1, 0)` on the source tile owned by rank `1`; the second argument is the
calling rank, not the owner of the source tile. -/
theorem transfer_from_rank_counterexample :
    (⟨1, 1⟩, 1, 0) ∈ transfers (hypot_async 0 1 (sample44 0) 1 (sample44 10)).effects ∧
    ¬ ∀ tr ∈ transfers (hypot_async 0 1 (sample44 0) 1 (sample44 10)).effects,
      tr.2.2 = tr.1.rank := by
  decide

/-- C7: when `sumnorm_async` passes its checks on well-formed tensors and the index maps
are mutually inverse on both grids, the call returns normally and the source tile moved in
round `(i, j)` is the tile with offset `sumnorm_src_offset i j`; that offset lies in
`[0, src.grid.nelems)` and its index `s` is made from the index `d` of destination tile `i`
by `s[k] = d[k+1]` for `k < axis`, `s[axis] = j` and `s[k] = d[k]` for `k > axis`; the map
from `(i, j)` with `i < dst.grid.nelems`, `j < src.grid.shape[axis]` to source offsets is
one-to-one and onto, so the rounds reach every source tile exactly once. -/
theorem sumnorm_source_tiles (G : GridMaps) (mpi_rank : Int) (src dst : Tensor) (axis : Int)
    (hs : src.WF) (hd : dst.WF) (hok : (sumnorm_check src dst axis).result = .ok ())
    (hGs : G.Lawful src.grid) (hGd : G.Lawful dst.grid) :
    ((sumnorm_async G mpi_rank src dst axis).result = .ok () ∧
      (transfers (sumnorm_async G mpi_rank src dst axis).effects).map (fun tr => tr.1) =
        (List.range dst.grid.nelems.toNat).flatMap (fun i =>
          (List.range (src.grid.shape.getD axis.toNat 0).toNat).map (fun j =>
            src.handle (sumnorm_src_offset G src dst axis.toNat i j)))) ∧
    (∀ i j : Nat, (i : Int) < dst.grid.nelems →
      (j : Int) < src.grid.shape.getD axis.toNat 0 →
      ∃ d s, G.linear_to_index dst.grid i = some d ∧
        G.linear_to_index src.grid (sumnorm_src_offset G src dst axis.toNat i j : Nat) =
          some s ∧
        ((sumnorm_src_offset G src dst axis.toNat i j : Nat) : Int) < src.grid.nelems ∧
        s.length = d.length ∧
        (∀ k : Nat, k < axis.toNat → s[k]? = d[k + 1]?) ∧
        s[axis.toNat]? = some (j : Int) ∧
        (∀ k : Nat, axis.toNat < k → s[k]? = d[k]?)) ∧
    (∀ i j i2 j2 : Nat, (i : Int) < dst.grid.nelems →
      (j : Int) < src.grid.shape.getD axis.toNat 0 → (i2 : Int) < dst.grid.nelems →
      (j2 : Int) < src.grid.shape.getD axis.toNat 0 →
      sumnorm_src_offset G src dst axis.toNat i j =
        sumnorm_src_offset G src dst axis.toNat i2 j2 → i = i2 ∧ j = j2) ∧
    (∀ t : Nat, (t : Int) < src.grid.nelems →
      ∃ i j : Nat, (i : Int) < dst.grid.nelems ∧
        (j : Int) < src.grid.shape.getD axis.toNat 0 ∧
        sumnorm_src_offset G src dst axis.toNat i j = t) ∧
    ((List.range dst.grid.nelems.toNat).flatMap fun i =>
      (List.range (src.grid.shape.getD axis.toNat 0).toNat).map
        (sumnorm_src_offset G src dst axis.toNat i)).Perm
      (List.range src.grid.nelems.toNat) := by
  refine ⟨⟨?_, ?_⟩, ?_, ?_, ?_, ?_⟩
  · rw [sumnorm_async_run G mpi_rank src dst axis hs hd hok hGs hGd]
  · rw [sumnorm_async_run G mpi_rank src dst axis hs hd hok hGs hGd, transfers_flatMap]
    simp only [transfers_sumnorm_block, List.map_flatMap, List.map_map]
    rfl
  · intro i j hi hj
    obtain ⟨h1, h2, h3, h4, _, _⟩ := (sumnorm_check_ok_iff src dst axis hs.1 hd.1).1 hok
    obtain ⟨d, hd1, hd2, _, _, ho, hs1⟩ := sumnorm_src_offset_spec G src dst axis hs hd hok
      hGs hGd i j hi hj
    have hsl := grid_shape_length src hs
    have hdl : d.length = src.grid.shape.length := by
      rw [hd2.1, sumnorm_grid_shape src dst axis hs hd hok, List.length_cons,
        List.length_eraseIdx, if_pos (by omega)]
      omega
    refine ⟨d, _, hd1, hs1, ho, length_sumnorm_src_index _ _ _ (by omega),
      fun k hk => ?_, ?_, fun k hk => ?_⟩
    · rw [getElem?_sumnorm_src_index _ _ _ _ (by omega), if_pos hk]
    · rw [getElem?_sumnorm_src_index _ _ _ _ (by omega), if_neg (by omega), if_pos rfl]
    · rw [getElem?_sumnorm_src_index _ _ _ _ (by omega), if_neg (by omega),
        if_neg (by omega)]
  · exact sumnorm_offset_injective G src dst axis hs hd hok hGs hGd
  · exact sumnorm_offset_surjective G src dst axis hs hd hok hGs hGd
  · exact sumnorm_offsets_perm G src dst axis hs hd hok hGs hGd

theorem sumnorm_source_tiles_witness :
    (sample44 0).WF ∧ sample24.WF ∧
    (sumnorm_check (sample44 0) sample24 0).result = .ok () ∧
    ((List.range 2).flatMap fun i =>
      (List.range 2).map (sumnorm_src_offset row_major (sample44 0) sample24 0 i)).Perm
      (List.range 4) :=
  ⟨by decide, by decide, by decide,
    (sumnorm_source_tiles row_major 0 (sample44 0) sample24 0 (by decide) (by decide)
      (by decide) (row_major_lawful _ (by decide) (by decide))
      (row_major_lawful _ (by decide) (by decide))).2.2.2.2⟩

/-- C8: when `biasprod_async` passes its checks on well-formed tensors and the index maps
are mutually inverse on both grids, the call returns normally and round `(i, j)` of the
nested loops flushes the destination tile with offset `biasprod_dst_offset i j`; that
offset lies in `[0, dst.grid.nelems)`, its index `d` has `d[axis] = j` and is the index of
source tile `i` once the entry `axis` is removed; the rounds reach every destination tile
exactly once; and the calling rank submits one task in the rounds whose destination tile it
owns and none in the others. -/
theorem biasprod_destination_tiles (G : GridMaps) (mpi_rank : Int) (src dst : Tensor)
    (axis : Int) (hs : src.WF) (hd : dst.WF)
    (hok : (biasprod_check src dst axis).result = .ok ())
    (hGs : G.Lawful src.grid) (hGd : G.Lawful dst.grid) :
    ((biasprod_async G mpi_rank src dst axis).result = .ok () ∧
      flushes (biasprod_async G mpi_rank src dst axis).effects =
        (List.range src.grid.nelems.toNat).flatMap (fun i =>
          (List.range (dst.grid.shape.getD axis.toNat 0).toNat).map (fun j =>
            dst.handle (biasprod_dst_offset G src dst axis.toNat i j)))) ∧
    (∀ i j : Nat, (i : Int) < src.grid.nelems →
      (j : Int) < dst.grid.shape.getD axis.toNat 0 →
      ∃ s d, G.linear_to_index src.grid i = some s ∧
        G.linear_to_index dst.grid (biasprod_dst_offset G src dst axis.toNat i j : Nat) =
          some d ∧
        ((biasprod_dst_offset G src dst axis.toNat i j : Nat) : Int) < dst.grid.nelems ∧
        d.eraseIdx axis.toNat = s ∧ d[axis.toNat]? = some (j : Int)) ∧
    (∀ i j i2 j2 : Nat, (i : Int) < src.grid.nelems →
      (j : Int) < dst.grid.shape.getD axis.toNat 0 → (i2 : Int) < src.grid.nelems →
      (j2 : Int) < dst.grid.shape.getD axis.toNat 0 →
      biasprod_dst_offset G src dst axis.toNat i j =
        biasprod_dst_offset G src dst axis.toNat i2 j2 → i = i2 ∧ j = j2) ∧
    (∀ t : Nat, (t : Int) < dst.grid.nelems →
      ∃ i j : Nat, (i : Int) < src.grid.nelems ∧
        (j : Int) < dst.grid.shape.getD axis.toNat 0 ∧
        biasprod_dst_offset G src dst axis.toNat i j = t) ∧
    ((List.range src.grid.nelems.toNat).flatMap fun i =>
      (List.range (dst.grid.shape.getD axis.toNat 0).toNat).map
        (biasprod_dst_offset G src dst axis.toNat i)).Perm
      (List.range dst.grid.nelems.toNat) ∧
    tasks (biasprod_async G mpi_rank src dst axis).effects =
      (List.range src.grid.nelems.toNat).flatMap (fun i =>
        ((List.range (dst.grid.shape.getD axis.toNat 0).toNat).filter (fun j =>
          mpi_rank = (dst.handle (biasprod_dst_offset G src dst axis.toNat i j)).rank)).map
          (fun j => biasprod_task src dst axis.toNat i
            (biasprod_dst_offset G src dst axis.toNat i j))) := by
  refine ⟨⟨?_, ?_⟩, ?_, ?_, ?_, ?_, ?_⟩
  · rw [biasprod_async_run G mpi_rank src dst axis hs hd hok hGs hGd]
  · rw [biasprod_async_run G mpi_rank src dst axis hs hd hok hGs hGd, flushes_flatMap]
    simp only [flushes_flatMap, flushes_biasprod_block]
    apply List.flatMap_congr
    intro i _
    exact flatMap_singleton_eq_map _ _
  · intro i j hi hj
    obtain ⟨h1, h3, h4, _, _⟩ := (biasprod_check_ok_iff src dst axis hs.1 hd.1).1 hok
    obtain ⟨s, hs1, hs2, _, _, ho, hd1⟩ := biasprod_dst_offset_spec G src dst axis hs hd hok
      hGs hGd i j hi hj
    have hsl := grid_shape_length src hs
    exact ⟨s, _, hs1, hd1, ho,
      eraseIdx_biasprod_dst_index _ _ _ (by rw [hs2.1]; omega),
      biasprod_dst_index_axis _ _ _ (by rw [hs2.1]; omega)⟩
  · exact biasprod_offset_injective G src dst axis hs hd hok hGs hGd
  · exact biasprod_offset_surjective G src dst axis hs hd hok hGs hGd
  · exact biasprod_offsets_perm G src dst axis hs hd hok hGs hGd
  · rw [biasprod_async_run G mpi_rank src dst axis hs hd hok hGs hGd, tasks_flatMap]
    simp only [tasks_flatMap, tasks_biasprod_block]
    apply List.flatMap_congr
    intro i _
    exact flatMap_ite_singleton _ _ _

theorem biasprod_destination_tiles_witness :
    sample4.WF ∧ (sample44 0).WF ∧
    (biasprod_check sample4 (sample44 0) 1).result = .ok () ∧
    tasks (biasprod_async row_major 0 sample4 (sample44 0) 1).effects =
      [Task.biasprod 2 1 2 ⟨40, 1⟩ ⟨0, 0⟩, Task.biasprod 2 1 2 ⟨41, 0⟩ ⟨2, 0⟩] :=
  ⟨by decide, by decide, by decide,
    (biasprod_destination_tiles row_major 0 sample4 (sample44 0) 1 (by decide) (by decide)
      (by decide) (row_major_lawful _ (by decide) (by decide))
      (row_major_lawful _ (by decide) (by decide))).2.2.2.2.2.trans (by decide)⟩

/-! ## Blocking drivers -/

/-- A blocking driver: the asynchronous part, then the two waits, unless the asynchronous
part throws. -/
theorem blocking_run (m : Run Unit) :
    (m.andThen fun _ => (Run.emit .task_wait_for_all).andThen fun _ =>
        Run.emit .mpi_wait_for_all) =
      match m.result with
      | .ok _ => ⟨m.effects ++ [Effect.task_wait_for_all, Effect.mpi_wait_for_all], .ok ()⟩
      | .error e => ⟨m.effects, .error e⟩ := by
  unfold Run.andThen
  cases h : m.result <;> simp [Run.emit]

theorem blocking_of_validation_error (m : Run Unit) (hq : m.result ≠ .ok () → m.effects = [])
    (e : Error) (he : m.result = .error e) :
    (m.andThen fun _ => (Run.emit .task_wait_for_all).andThen fun _ =>
        Run.emit .mpi_wait_for_all) = ⟨[], .error e⟩ := by
  rw [blocking_run, he, hq (by rw [he]; simp)]

/-- C11: each blocking driver (`hypot`, `add_scalar`, `gelutanh`, `sumnorm`, `biasprod`)
makes exactly the requests of its asynchronous counterpart with the same arguments and, when
that returns normally, `starpu_task_wait_for_all()` followed by
`starpu_mpi_wait_for_all(MPI_COMM_WORLD)` and nothing else; when the asynchronous part
throws, the exception leaves the driver without any wait, and for an exception of the
checks the driver has made no request at all. -/
theorem blocking_is_async_then_waits (G : GridMaps) (mpi_rank : Int) (alpha beta : scal_t)
    (A src dst : Tensor) (axis : Int) :
    (hypot mpi_rank alpha src beta dst =
      match (hypot_async mpi_rank alpha src beta dst).result with
      | .ok _ => ⟨(hypot_async mpi_rank alpha src beta dst).effects ++
          [Effect.task_wait_for_all, Effect.mpi_wait_for_all], .ok ()⟩
      | .error e => ⟨(hypot_async mpi_rank alpha src beta dst).effects, .error e⟩) ∧
    (add_scalar mpi_rank alpha beta dst =
      match (add_scalar_async mpi_rank alpha beta dst).result with
      | .ok _ => ⟨(add_scalar_async mpi_rank alpha beta dst).effects ++
          [Effect.task_wait_for_all, Effect.mpi_wait_for_all], .ok ()⟩
      | .error e => ⟨(add_scalar_async mpi_rank alpha beta dst).effects, .error e⟩) ∧
    (gelutanh mpi_rank A =
      match (gelutanh_async mpi_rank A).result with
      | .ok _ => ⟨(gelutanh_async mpi_rank A).effects ++
          [Effect.task_wait_for_all, Effect.mpi_wait_for_all], .ok ()⟩
      | .error e => ⟨(gelutanh_async mpi_rank A).effects, .error e⟩) ∧
    (sumnorm G mpi_rank src dst axis =
      match (sumnorm_async G mpi_rank src dst axis).result with
      | .ok _ => ⟨(sumnorm_async G mpi_rank src dst axis).effects ++
          [Effect.task_wait_for_all, Effect.mpi_wait_for_all], .ok ()⟩
      | .error e => ⟨(sumnorm_async G mpi_rank src dst axis).effects, .error e⟩) ∧
    (biasprod G mpi_rank src dst axis =
      match (biasprod_async G mpi_rank src dst axis).result with
      | .ok _ => ⟨(biasprod_async G mpi_rank src dst axis).effects ++
          [Effect.task_wait_for_all, Effect.mpi_wait_for_all], .ok ()⟩
      | .error e => ⟨(biasprod_async G mpi_rank src dst axis).effects, .error e⟩) ∧
    (∀ what, (hypot_async mpi_rank alpha src beta dst).result = .error (.validation what) →
      hypot mpi_rank alpha src beta dst = ⟨[], .error (.validation what)⟩) ∧
    (∀ what, (sumnorm_async G mpi_rank src dst axis).result = .error (.validation what) →
      sumnorm G mpi_rank src dst axis = ⟨[], .error (.validation what)⟩) ∧
    (∀ what, (biasprod_async G mpi_rank src dst axis).result = .error (.validation what) →
      biasprod G mpi_rank src dst axis = ⟨[], .error (.validation what)⟩) := by
  refine ⟨blocking_run _, blocking_run _, blocking_run _, blocking_run _, blocking_run _,
    ?_, ?_, ?_⟩
  · intro what h
    have hq : (hypot_async mpi_rank alpha src beta dst).effects = [] := by
      rw [hypot_async_eq]
      rw [hypot_async_eq] at h
      exact validation_quiet _ _ (hypot_check_quiet src dst)
        (fun _ => hypot_rest_no_validation mpi_rank alpha src beta dst) ⟨what, h⟩
    exact (blocking_run _).trans (by rw [h, hq])
  · intro what h
    have hq : (sumnorm_async G mpi_rank src dst axis).effects = [] := by
      rw [sumnorm_async_eq]
      rw [sumnorm_async_eq] at h
      exact validation_quiet _ _ (sumnorm_check_quiet src dst axis)
        (fun _ => forEach_no_validation _ _
          (sumnorm_tile_no_validation G mpi_rank src dst axis)) ⟨what, h⟩
    exact (blocking_run _).trans (by rw [h, hq])
  · intro what h
    have hq : (biasprod_async G mpi_rank src dst axis).effects = [] := by
      rw [biasprod_async_eq]
      rw [biasprod_async_eq] at h
      exact validation_quiet _ _ (biasprod_check_quiet src dst axis)
        (fun _ => forEach_no_validation _ _
          (biasprod_tile_no_validation G mpi_rank src dst axis)) ⟨what, h⟩
    exact (blocking_run _).trans (by rw [h, hq])

theorem blocking_is_async_then_waits_witness :
    hypot 0 1 (sample44 0) 1 sample44_23 =
      ⟨[], .error (.validation "dst.basetile_shape[i] != src.basetile_shape[i]")⟩ ∧
    (gelutanh 1 sample4).effects =
      [Effect.submit (.gelutanh 2 ⟨40, 1⟩), Effect.flush ⟨40, 1⟩, Effect.flush ⟨41, 0⟩,
        Effect.task_wait_for_all, Effect.mpi_wait_for_all] :=
  ⟨(blocking_is_async_then_waits row_major 0 1 1 sample4 (sample44 0) sample44_23
      0).2.2.2.2.2.1 _ rfl,
    (congrArg Run.effects (blocking_is_async_then_waits row_major 1 1 1 sample4 (sample44 0)
      sample44_23 0).2.2.1).trans (by decide)⟩

/-! ## Codelet lookup -/

/-- C12: the codelet lookup never falls back to another type. `add::codelet<T>()` returns
the codelet object of `add` declared for `T` when `T` is `fp32`, `fp32_fast_tf32` or
`fp64`, three different objects; `hypot_scalar_inverse::codelet<T>()` and
`total_sum_accum::codelet<T>()` return the object of their operation declared for `T` when
`T` is `fp32` or `fp64`; for every other type, `fp32_fast_tf32` included for the latter
two, the lookup throws "Non-supported type". -/
theorem codelet_lookup_exact (T : ElemType) :
    (∀ c, starpu.add.codelet T = .ok c → c.operation = .add ∧ c.elem_type = T) ∧
    (∀ c, starpu.hypot_scalar_inverse.codelet T = .ok c →
      c.operation = .hypot_scalar_inverse ∧ c.elem_type = T) ∧
    (∀ c, starpu.total_sum_accum.codelet T = .ok c →
      c.operation = .total_sum_accum ∧ c.elem_type = T) ∧
    ((T = .fp32 ∨ T = .fp32_fast_tf32 ∨ T = .fp64) → ∃ c, starpu.add.codelet T = .ok c) ∧
    ((T = .fp32 ∨ T = .fp64) →
      (∃ c, starpu.hypot_scalar_inverse.codelet T = .ok c) ∧
      (∃ c, starpu.total_sum_accum.codelet T = .ok c)) ∧
    (¬ (T = .fp32 ∨ T = .fp32_fast_tf32 ∨ T = .fp64) →
      starpu.add.codelet T = .error "Non-supported type") ∧
    (¬ (T = .fp32 ∨ T = .fp64) →
      starpu.hypot_scalar_inverse.codelet T = .error "Non-supported type" ∧
      starpu.total_sum_accum.codelet T = .error "Non-supported type") ∧
    (starpu.add.codelet .fp32 = .ok .add_codelet_fp32 ∧
      starpu.add.codelet .fp32_fast_tf32 = .ok .add_codelet_fp32_fast_tf32 ∧
      starpu.add.codelet .fp64 = .ok .add_codelet_fp64 ∧
      Codelet.add_codelet_fp32 ≠ Codelet.add_codelet_fp32_fast_tf32 ∧
      Codelet.add_codelet_fp32 ≠ Codelet.add_codelet_fp64 ∧
      Codelet.add_codelet_fp32_fast_tf32 ≠ Codelet.add_codelet_fp64) ∧
    (starpu.hypot_scalar_inverse.codelet .fp32_fast_tf32 = .error "Non-supported type" ∧
      starpu.total_sum_accum.codelet .fp32_fast_tf32 = .error "Non-supported type") := by
  refine ⟨?_, ?_, ?_, ?_, ?_, ?_, ?_, ?_, ?_⟩
  · intro c h
    cases T <;> simp [starpu.add.codelet] at h <;> subst h <;> exact ⟨rfl, rfl⟩
  · intro c h
    cases T <;> simp [starpu.hypot_scalar_inverse.codelet] at h <;> subst h <;>
      exact ⟨rfl, rfl⟩
  · intro c h
    cases T <;> simp [starpu.total_sum_accum.codelet] at h <;> subst h <;> exact ⟨rfl, rfl⟩
  · rintro (h | h | h) <;> subst h <;> exact ⟨_, rfl⟩
  · rintro (h | h) <;> subst h <;> exact ⟨⟨_, rfl⟩, ⟨_, rfl⟩⟩
  · intro h
    cases T <;> simp at h
    rfl
  · intro h
    cases T <;> simp at h <;> exact ⟨rfl, rfl⟩
  · exact ⟨rfl, rfl, rfl, by decide, by decide, by decide⟩
  · exact ⟨rfl, rfl⟩

theorem codelet_lookup_exact_witness :
    starpu.hypot_scalar_inverse.codelet (.other "bf16") = .error "Non-supported type" ∧
    starpu.total_sum_accum.codelet (.other "bf16") = .error "Non-supported type" :=
  (codelet_lookup_exact (.other "bf16")).2.2.2.2.2.2.1 (by decide)

/-! ## Loops with an invariant -/

/-- A loop whose body keeps an invariant and never throws ends normally, in a state that
satisfies the invariant at the upper bound. -/
theorem foldRange_invariant {σ : Type} (lo hi : Int) (hle : lo ≤ hi) (s : σ)
    (body : Int → σ → Run σ) (inv : Int → σ → Prop) (h0 : inv lo s)
    (hstep : ∀ i t, lo ≤ i → i < hi → inv i t → ∃ t2, body i t = Run.ret t2 ∧ inv (i + 1) t2) :
    ∃ t, foldRange lo hi s body = Run.ret t ∧ inv hi t := by
  obtain ⟨n, hn⟩ : ∃ n : Nat, n = (hi - lo).toNat := ⟨_, rfl⟩
  induction n generalizing lo s with
  | zero =>
    have : hi = lo := by omega
    subst this
    refine ⟨s, ?_, h0⟩
    unfold foldRange
    rw [indexRange_nil _ _ (le_refl _)]
    rfl
  | succ n ih =>
    have hlt : lo < hi := by omega
    obtain ⟨t2, hb, hi2⟩ := hstep lo s (le_refl _) hlt h0
    obtain ⟨t, ht, hit⟩ := ih (lo + 1) (by omega) t2 hi2
      (fun i t h1 h2 h3 => hstep i t (by omega) h2 h3) (by omega)
    refine ⟨t, ?_, hit⟩
    unfold foldRange at ht ⊢
    rw [indexRange_cons _ _ hlt]
    unfold foldEach
    rw [hb, Run.ret_andThen]
    exact ht

/-- A loop without rounds returns its initial state. -/
theorem foldRange_empty {σ : Type} (lo hi : Int) (hle : hi ≤ lo) (s : σ)
    (body : Int → σ → Run σ) : foldRange lo hi s body = Run.ret s := by
  unfold foldRange
  rw [indexRange_nil _ _ hle]
  rfl

theorem vset_ret {α : Type} (v : List α) (i : Int) (x : α) (h0 : 0 ≤ i)
    (h1 : i < v.length) : vset v i x = Run.ret (v.set i.toNat x) := by
  unfold vset
  rw [if_pos ⟨h0, by omega⟩]

theorem vget_ret {α : Type} (v : List α) (i : Int) (x : α) (h0 : 0 ≤ i)
    (h : v[i.toNat]? = some x) : vget v i = Run.ret x := by
  unfold vget
  rw [if_pos h0, h]

/-! ## The kernel `max` -/

theorem std_max_eq {T : Type} [LinearOrder T] (a b : T) : std.max a b = max a b := by
  unfold std.max
  split
  · rw [max_eq_right (le_of_lt ‹a < b›)]
  · rw [max_eq_left (not_lt.1 ‹¬ a < b›)]

theorem max_cpu_run {T : Type} [LinearOrder T] (nelems : Int) (src dst : List T)
    (hs : nelems ≤ src.length) (hd : nelems ≤ dst.length) :
    ∃ out, kernel.max.cpu nelems src dst = Run.ret out ∧ out.length = dst.length ∧
      (∀ (i : Nat) (a b : T), (i : Int) < nelems → src[i]? = some a → dst[i]? = some b →
        out[i]? = some (max a b)) ∧
      (∀ i : Nat, nelems ≤ (i : Int) → out[i]? = dst[i]?) := by
  rcases le_or_lt 0 nelems with hn | hn
  · unfold kernel.max.cpu
    refine foldRange_invariant 0 nelems hn dst _
      (fun i t => t.length = dst.length ∧
        (∀ (j : Nat) (a b : T), (j : Int) < i → src[j]? = some a → dst[j]? = some b →
          t[j]? = some (max a b)) ∧
        (∀ j : Nat, i ≤ (j : Int) → t[j]? = dst[j]?))
      ⟨rfl, fun j a b hj => by omega, fun j _ => rfl⟩ ?_
    rintro i t h0 h1 ⟨hl, hlow, hhigh⟩
    have hi : i.toNat < src.length := by omega
    have hi2 : i.toNat < t.length := by omega
    have hi3 : i.toNat < dst.length := by omega
    have hti : t[i.toNat]? = some dst[i.toNat] := by
      rw [hhigh i.toNat (by omega), List.getElem?_eq_getElem hi3]
    refine ⟨t.set i.toNat (std.max src[i.toNat] dst[i.toNat]), ?_, ?_, ?_, ?_⟩
    · simp only [Run.bind_eq, vget_ret src i _ h0 (List.getElem?_eq_getElem hi),
        vget_ret t i _ h0 hti, Run.ret_andThen, vset_ret t i _ h0 (show i < t.length by omega)]
    · rw [List.length_set, hl]
    · intro j a b hj ha hb
      rcases eq_or_ne i.toNat j with h | h
      · subst h
        rw [List.getElem?_eq_getElem hi] at ha
        rw [List.getElem?_eq_getElem hi3] at hb
        cases ha
        cases hb
        rw [List.getElem?_set_self hi2, std_max_eq]
      · rw [List.getElem?_set_ne h]
        exact hlow j a b (by omega) ha hb
    · intro j hj
      rw [List.getElem?_set_ne (by omega)]
      exact hhigh j (by omega)
  · refine ⟨dst, ?_, rfl, fun i a b hi => by omega, fun i _ => rfl⟩
    unfold kernel.max.cpu
    exact foldRange_empty 0 nelems (by omega) dst _

/-- C16: the kernel `max::cpu(nelems, src, dst)` on buffers of at least `nelems` elements of
a totally ordered type ends normally; afterwards `dst[i]` is the maximum of `src[i]` and the
old `dst[i]` for every `i < nelems`, the entries of `dst` from `nelems` on are the old ones
(`src` is an input of the function and is not written); the new `dst[i]` is at least
`src[i]` and at least the old `dst[i]`, and a second call with the same `src` leaves the
buffer as it is. -/
theorem max_cpu_spec {T : Type} [LinearOrder T] (nelems : Int) (src dst : List T)
    (hs : nelems ≤ src.length) (hd : nelems ≤ dst.length) :
    ∃ out, kernel.max.cpu nelems src dst = Run.ret out ∧ out.length = dst.length ∧
      (∀ (i : Nat) (a b : T), (i : Int) < nelems → src[i]? = some a → dst[i]? = some b →
        out[i]? = some (max a b)) ∧
      (∀ i : Nat, nelems ≤ (i : Int) → out[i]? = dst[i]?) ∧
      (∀ (i : Nat) (a b c : T), (i : Int) < nelems → src[i]? = some a → dst[i]? = some b →
        out[i]? = some c → a ≤ c ∧ b ≤ c) ∧
      kernel.max.cpu nelems src out = Run.ret out := by
  obtain ⟨out, hrun, hlen, hlow, hhigh⟩ := max_cpu_run nelems src dst hs hd
  refine ⟨out, hrun, hlen, hlow, hhigh, ?_, ?_⟩
  · intro i a b c hi ha hb hc
    rw [hlow i a b hi ha hb] at hc
    cases hc
    exact ⟨le_max_left a b, le_max_right a b⟩
  · obtain ⟨out2, hrun2, hlen2, hlow2, hhigh2⟩ :=
      max_cpu_run nelems src out hs (by rw [hlen]; exact hd)
    rw [hrun2]
    congr 1
    apply List.ext_getElem?
    intro i
    rcases lt_or_le (i : Int) nelems with hi | hi
    · have h1 : i < src.length := by omega
      have h2 : i < dst.length := by omega
      have ho := hlow i _ _ hi (List.getElem?_eq_getElem h1) (List.getElem?_eq_getElem h2)
      rw [hlow2 i _ _ hi (List.getElem?_eq_getElem h1) ho, ho, max_eq_right (le_max_left _ _)]
    · exact hhigh2 i hi

theorem max_cpu_spec_witness :
    ∃ out, kernel.max.cpu 2 [1, 5, 9] [3, 2, (1 : Int)] = Run.ret out ∧
      out.length = [3, 2, (1 : Int)].length ∧
      (∀ (i : Nat) (a b : Int), (i : Int) < 2 → [1, 5, (9 : Int)][i]? = some a →
        [3, 2, (1 : Int)][i]? = some b → out[i]? = some (max a b)) ∧
      (∀ i : Nat, (2 : Int) ≤ (i : Int) → out[i]? = [3, 2, (1 : Int)][i]?) ∧
      (∀ (i : Nat) (a b c : Int), (i : Int) < 2 → [1, 5, (9 : Int)][i]? = some a →
        [3, 2, (1 : Int)][i]? = some b → out[i]? = some c → a ≤ c ∧ b ≤ c) ∧
      kernel.max.cpu 2 [1, 5, 9] out = Run.ret out :=
  max_cpu_spec 2 [1, 5, 9] [3, 2, (1 : Int)] (by decide) (by decide)

/-! ## The kernel `randn` without axes -/

/-- C19: with `ndim == 0` the kernel `randn` writes `data[0]` only, the value
`stddev * draw + mean` of the first draw from the given seed, and ends normally whatever the
pointers `start`, `shape`, `underlying_shape`, `stride` and `tmp_index` are, null pointers
included, with the same result; with the same seed and `stddev`, two different means give
two different values of `data[0]`. -/
theorem randn_ndim0 {T : Type} [Ring T] (g : Generator T) (nelems : Int) (seed : Nat)
    (mean stddev : T) (data : List T) (hd : 0 < data.length) :
    kernel.cpu.randn g 0 nelems seed mean stddev none none none data none none =
      Run.ret (data.set 0 (stddev * g.laran seed + mean)) ∧
    (∀ start shape underlying_shape stride tmp_index,
      kernel.cpu.randn g 0 nelems seed mean stddev start shape underlying_shape data stride
          tmp_index =
        kernel.cpu.randn g 0 nelems seed mean stddev none none none data none none) ∧
    (∀ mean2 : T, mean2 ≠ mean →
      (data.set 0 (stddev * g.laran seed + mean2))[0]? ≠
        (data.set 0 (stddev * g.laran seed + mean))[0]?) := by
  refine ⟨?_, fun _ _ _ _ _ => rfl, ?_⟩
  · unfold kernel.cpu.randn
    rw [if_pos rfl, vset_ret data 0 _ (le_refl _) (by exact_mod_cast hd)]
    rfl
  · intro mean2 hne h
    rw [List.getElem?_set_self (by simpa using hd), List.getElem?_set_self (by simpa using hd)] at h
    exact hne (add_left_cancel (Option.some.inj h))

theorem randn_ndim0_witness :
    kernel.cpu.randn counting 0 1 5 10 2 none none none [0, 0] none none =
      Run.ret ([0, 0].set 0 (2 * counting.laran 5 + 10)) ∧
    (∀ start shape underlying_shape stride tmp_index,
      kernel.cpu.randn counting 0 1 5 10 2 start shape underlying_shape [0, 0] stride
          tmp_index =
        kernel.cpu.randn counting 0 1 5 10 2 none none none [0, 0] none none) ∧
    (∀ mean2 : Int, mean2 ≠ 10 →
      ([0, 0].set 0 (2 * counting.laran 5 + mean2))[0]? ≠
        ([0, 0].set 0 (2 * counting.laran 5 + 10))[0]?) :=
  randn_ndim0 counting 1 5 10 2 [0, 0] (by decide)

/-! ## The kernel `randn` and the stride of the first axis -/

/-- C13: the kernel `randn` does not read `stride[0]`: it writes the `shape[0]` elements of
a column next to each other.  For the `2 x 2` array with `start = 0`, the underlying shape
`2 x 2` and the strides `stride = (2, 5)` of the test (`stride[0] = 2`,
`stride[1] = stride[0]*shape[0] + 1`), with the counting generator, `mean = 0` and
`stddev = 1`, the elements `1, 2, 3, 4` of the underlying array are due at the positions
`0, 2, 5, 7` of the buffer; the kernel writes them at the positions `0, 1, 5, 6`. -/
theorem randn_ignores_first_stride :
    kernel.cpu.randn counting 2 4 0 0 1 (some [0, 0]) (some [2, 2]) (some [2, 2])
        [0, 0, 0, 0, 0, 0, 0, 0] (some [2, 5]) (some [0, 0]) =
      Run.ret [1, 2, 0, 0, 0, 3, 4, 0] ∧
    kernel.cpu.randn counting 2 4 0 0 1 (some [0, 0]) (some [2, 2]) (some [2, 2])
        [0, 0, 0, 0, 0, 0, 0, 0] (some [2, 5]) (some [0, 0]) =
      kernel.cpu.randn counting 2 4 0 0 1 (some [0, 0]) (some [2, 2]) (some [2, 2])
        [0, 0, 0, 0, 0, 0, 0, 0] (some [1, 5]) (some [0, 0]) := by
  decide

/-! ## The tensor-level copy -/

theorem copy_intersection_async_eq (G : GridMaps) (src : Tensor) (src_offset : List Int)
    (dst : Tensor) (dst_offset : List Int) :
    copy_intersection_async G src src_offset dst dst_offset =
      (copy_intersection_check src src_offset dst dst_offset).andThen fun _ =>
        if src.ndim = 0 then
          (src.get_tile 0).andThen fun src_tile => (dst.get_tile 0).andThen fun dst_tile =>
            Run.emit (.tile_copy_intersection src_tile src_offset dst_tile dst_offset)
        else forRange 0 src.grid.nelems
          (copy_intersection_src_tile G src.ndim src src_offset dst dst_offset) := by
  unfold copy_intersection_async
  simp only [bind, pure]

theorem copy_intersection_check_spec (src : Tensor) (src_offset : List Int) (dst : Tensor)
    (dst_offset : List Int) :
    (copy_intersection_check src src_offset dst dst_offset).is_check ∧
    ((copy_intersection_check src src_offset dst dst_offset).result ≠ .ok () ↔
      (src.ndim ≠ (src_offset.length : Int) ∨ src.ndim ≠ dst.ndim ∨
        dst.ndim ≠ (dst_offset.length : Int))) := by
  unfold copy_intersection_check
  simp only [Run.bind_eq]
  by_cases h1 : src.ndim ≠ (src_offset.length : Int)
  · rw [Run.throw_if_pos _ h1, Run.raise_andThen]
    exact ⟨Run.is_check_raise _, by simp [h1]⟩
  · rw [Run.throw_if_neg _ h1, Run.ret_andThen]
    by_cases h2 : src.ndim ≠ dst.ndim
    · rw [Run.throw_if_pos _ h2, Run.raise_andThen]
      exact ⟨Run.is_check_raise _, by simp [h2]⟩
    · rw [Run.throw_if_neg _ h2, Run.ret_andThen]
      by_cases h3 : dst.ndim ≠ (dst_offset.length : Int)
      · rw [Run.throw_if_pos _ h3]
        exact ⟨Run.is_check_raise _, by simp [h3]⟩
      · rw [Run.throw_if_neg _ h3]
        exact ⟨Run.is_check_ret, by simp [h1, h2, h3]⟩

theorem get_tile_no_validation (t : Tensor) (i : Int) : (t.get_tile i).no_validation := by
  unfold Tensor.get_tile
  simp only [Run.bind_eq, Run.pure_eq]
  exact Run.no_validation_andThen (get_tile_traits_no_validation t i) fun _ =>
    Run.no_validation_andThen (get_tile_handle_no_validation t i) fun _ =>
      Run.no_validation_ret _

theorem copy_tile_offset_no_validation (ndim : Int) (offset tile_index basetile_shape : List Int) :
    (copy_tile_offset ndim offset tile_index basetile_shape).no_validation := by
  unfold copy_tile_offset foldRange
  apply foldEach_no_validation
  intro k t
  simp only [Run.bind_eq]
  exact Run.no_validation_andThen (vget_no_validation _ _) fun _ =>
    Run.no_validation_andThen (vget_no_validation _ _) fun _ =>
      Run.no_validation_andThen (vget_no_validation _ _) fun _ => vset_no_validation _ _ _

theorem copy_intersection_dst_tile_no_validation (G : GridMaps) (ndim : Int) (src_tile : Tile)
    (src_tile_offset : List Int) (dst : Tensor) (dst_offset : List Int) (j : Int) :
    (copy_intersection_dst_tile G ndim src_tile src_tile_offset dst dst_offset
      j).no_validation := by
  unfold copy_intersection_dst_tile
  simp only [Run.bind_eq]
  exact Run.no_validation_andThen (to_index_no_validation _ _ _) fun _ =>
    Run.no_validation_andThen (copy_tile_offset_no_validation _ _ _ _) fun _ =>
      Run.no_validation_andThen (get_tile_no_validation _ _) fun _ =>
        Run.no_validation_emit _

theorem copy_intersection_src_tile_no_validation (G : GridMaps) (ndim : Int) (src : Tensor)
    (src_offset : List Int) (dst : Tensor) (dst_offset : List Int) (i : Int) :
    (copy_intersection_src_tile G ndim src src_offset dst dst_offset i).no_validation := by
  unfold copy_intersection_src_tile
  simp only [Run.bind_eq]
  exact Run.no_validation_andThen (to_index_no_validation _ _ _) fun _ =>
    Run.no_validation_andThen (copy_tile_offset_no_validation _ _ _ _) fun _ =>
      Run.no_validation_andThen (get_tile_no_validation _ _) fun _ =>
        forEach_no_validation _ _ fun _ =>
          copy_intersection_dst_tile_no_validation _ _ _ _ _ _ _

theorem copy_intersection_rest_no_validation (G : GridMaps) (src : Tensor)
    (src_offset : List Int) (dst : Tensor) (dst_offset : List Int) :
    (if src.ndim = 0 then
      (src.get_tile 0).andThen fun src_tile => (dst.get_tile 0).andThen fun dst_tile =>
        Run.emit (.tile_copy_intersection src_tile src_offset dst_tile dst_offset)
    else forRange 0 src.grid.nelems
      (copy_intersection_src_tile G src.ndim src src_offset dst dst_offset)).no_validation := by
  split
  · exact Run.no_validation_andThen (get_tile_no_validation _ _) fun _ =>
      Run.no_validation_andThen (get_tile_no_validation _ _) fun _ => Run.no_validation_emit _
  · exact forEach_no_validation _ _ fun _ =>
      copy_intersection_src_tile_no_validation _ _ _ _ _ _ _

theorem copy_tile_offset_ok (ndim : Int) (offset tile_index basetile_shape : List Int)
    (h1 : (offset.length : Int) = ndim) (h2 : (tile_index.length : Int) = ndim)
    (h3 : (basetile_shape.length : Int) = ndim) :
    ∃ out, copy_tile_offset ndim offset tile_index basetile_shape = Run.ret out := by
  unfold copy_tile_offset
  obtain ⟨out, h, _⟩ := foldRange_invariant 0 ndim (by omega) offset
    (fun k tile_offset => do
      let o ← vget tile_offset k
      let x ← vget tile_index k
      let b ← vget basetile_shape k
      vset tile_offset k (o + x * b))
    (fun _ t => t.length = offset.length) rfl (by
      intro k t h0 hk ht
      obtain ⟨o, _, ho⟩ := vget_of_lt t k h0 (by omega)
      obtain ⟨x, _, hx⟩ := vget_of_lt tile_index k h0 (by omega)
      obtain ⟨b, _, hb⟩ := vget_of_lt basetile_shape k h0 (by omega)
      refine ⟨t.set k.toNat (o + x * b), ?_,
        show (t.set k.toNat (o + x * b)).length = offset.length by rw [List.length_set, ht]⟩
      simp only [Run.bind_eq, ho, hx, hb, Run.ret_andThen]
      exact vset_ret t k _ h0 (by omega))
  exact ⟨out, h⟩

theorem get_tile_ok (t : Tensor) (i : Int) (h0 : 0 ≤ i) (h1 : i < t.tile_traits.length)
    (h2 : i < t.tile_handles.length) : ∃ tile, t.get_tile i = Run.ret tile := by
  obtain ⟨k, rfl⟩ := Int.eq_ofNat_of_zero_le h0
  refine ⟨⟨t.traits k, t.handle k⟩, ?_⟩
  unfold Tensor.get_tile
  simp only [Run.bind_eq, Run.pure_eq, get_tile_traits_nat t k (by omega),
    get_tile_handle_nat t k (by omega), Run.ret_andThen]

theorem to_index_ok (G : GridMaps) (g : TileTraits) (hG : G.Lawful g) (i : Int) (h0 : 0 ≤ i)
    (h1 : i < g.nelems) : ∃ c, G.to_index g i = Run.ret c ∧ c.length = g.shape.length := by
  obtain ⟨c, hc, hin, _⟩ := hG.index_of_linear i h0 h1
  refine ⟨c, ?_, hin.1⟩
  unfold GridMaps.to_index
  rw [hc]

theorem copy_intersection_dst_tile_ok (G : GridMaps) (src_tile : Tile)
    (src_tile_offset : List Int) (dst : Tensor) (dst_offset : List Int) (j : Int)
    (hd : dst.WF) (hG : G.Lawful dst.grid) (ho : dst.ndim = (dst_offset.length : Int))
    (h0 : 0 ≤ j) (h1 : j < dst.grid.nelems) :
    (copy_intersection_dst_tile G dst.ndim src_tile src_tile_offset dst dst_offset j).result =
      .ok () := by
  have hgl := grid_shape_length dst hd
  obtain ⟨hsw, _, _, _, _, hth, htt, _⟩ := hd
  obtain ⟨c, hc, hcl⟩ := to_index_ok G dst.grid hG j h0 h1
  obtain ⟨off, hoff⟩ := copy_tile_offset_ok dst.ndim dst_offset c dst.basetile_shape
    ho.symm (by omega) (by have := hsw.1; have := hsw.2; omega)
  obtain ⟨tile, htile⟩ := get_tile_ok dst j h0 (by omega) (by omega)
  unfold copy_intersection_dst_tile
  simp only [Run.bind_eq, hc, hoff, htile, Run.ret_andThen, Run.emit_result]

theorem copy_intersection_src_tile_ok (G : GridMaps) (src : Tensor) (src_offset : List Int)
    (dst : Tensor) (dst_offset : List Int) (i : Int) (hs : src.WF) (hd : dst.WF)
    (hGs : G.Lawful src.grid) (hGd : G.Lawful dst.grid)
    (h1 : src.ndim = (src_offset.length : Int)) (h2 : src.ndim = dst.ndim)
    (h3 : dst.ndim = (dst_offset.length : Int)) (h0 : 0 ≤ i) (hi : i < src.grid.nelems) :
    (copy_intersection_src_tile G src.ndim src src_offset dst dst_offset i).result =
      .ok () := by
  have hgl := grid_shape_length src hs
  obtain ⟨hsw, _, _, _, _, hth, htt, _⟩ := hs
  obtain ⟨c, hc, hcl⟩ := to_index_ok G src.grid hGs i h0 hi
  obtain ⟨off, hoff⟩ := copy_tile_offset_ok src.ndim src_offset c src.basetile_shape
    h1.symm (by omega) (by have := hsw.1; have := hsw.2; omega)
  obtain ⟨tile, htile⟩ := get_tile_ok src i h0 (by omega) (by omega)
  unfold copy_intersection_src_tile
  simp only [Run.bind_eq, hc, hoff, htile, Run.ret_andThen]
  unfold forRange
  rw [forEach_result_ok_iff]
  intro j hj
  rw [mem_indexRange] at hj
  rw [h2]
  exact copy_intersection_dst_tile_ok G tile off dst dst_offset j hd hGd h3 hj.1 hj.2

theorem one_tile_of_no_axes (t : Tensor) (ht : t.WF) (h0 : t.ndim = 0) :
    (t.tile_traits.length : Int) = 1 ∧ (t.tile_handles.length : Int) = 1 := by
  obtain ⟨hsw, _, _, hg, hn, hth, htt, _⟩ := ht
  have hshape : t.shape = [] := List.length_eq_zero.1 (by have := hsw.1; omega)
  rw [hshape] at hg
  rw [hg] at hn
  simp only [List.zipWith_nil_left, List.prod_nil] at hn
  omega

/-- C17: the tensor-level `copy_intersection_async` ends with an exception of its checks if
and only if `src.ndim != src_offset.size()` or `src.ndim != dst.ndim` or
`dst.ndim != dst_offset.size()`, and it has then called no tile-level copy; on tensors that
satisfy their invariant, with lawful index maps, a call that passes the three checks ends
normally, so it throws nothing before a tile-level copy.  The three cases of the test, an
offset of the wrong length for the source, operands of different `ndim` and an offset of
the wrong length for the destination, are refused with the matching message. -/
theorem copy_intersection_async_validation (G : GridMaps) (src : Tensor)
    (src_offset : List Int) (dst : Tensor) (dst_offset : List Int) :
    ((∃ what, (copy_intersection_async G src src_offset dst dst_offset).result =
        .error (.validation what)) ↔
      (src.ndim ≠ (src_offset.length : Int) ∨ src.ndim ≠ dst.ndim ∨
        dst.ndim ≠ (dst_offset.length : Int))) ∧
    ((src.ndim ≠ (src_offset.length : Int) ∨ src.ndim ≠ dst.ndim ∨
        dst.ndim ≠ (dst_offset.length : Int)) →
      (copy_intersection_async G src src_offset dst dst_offset).effects = []) ∧
    (src.WF → dst.WF → G.Lawful src.grid → G.Lawful dst.grid →
      ¬ (src.ndim ≠ (src_offset.length : Int) ∨ src.ndim ≠ dst.ndim ∨
        dst.ndim ≠ (dst_offset.length : Int)) →
      (copy_intersection_async G src src_offset dst dst_offset).result = .ok ()) ∧
    copy_intersection_async G sample1 [] sample1 [0] =
      ⟨[], .error (.validation "src.ndim != src_offset.size()")⟩ ∧
    copy_intersection_async G sample1 [0] sample0 [0] =
      ⟨[], .error (.validation "src.ndim != dst.ndim")⟩ ∧
    copy_intersection_async G sample1 [0] sample1 [] =
      ⟨[], .error (.validation "dst.ndim != dst_offset.size()")⟩ := by
  have hc := copy_intersection_check_spec src src_offset dst dst_offset
  have hrest := copy_intersection_rest_no_validation G src src_offset dst dst_offset
  have hiff : (∃ what, (copy_intersection_async G src src_offset dst dst_offset).result =
        .error (.validation what)) ↔
      (src.ndim ≠ (src_offset.length : Int) ∨ src.ndim ≠ dst.ndim ∨
        dst.ndim ≠ (dst_offset.length : Int)) := by
    rw [copy_intersection_async_eq, validation_iff _ _ hc.1 hrest, hc.2]
  refine ⟨hiff, ?_, ?_, rfl, rfl, rfl⟩
  · intro h
    have hv := hiff.2 h
    rw [copy_intersection_async_eq] at hv ⊢
    exact validation_quiet _ _ hc.1.1 (fun _ => hrest) hv
  · intro hs hd hGs hGd h
    have hok : (copy_intersection_check src src_offset dst dst_offset).result = .ok () := by
      by_contra hne
      exact h (hc.2.1 hne)
    simp only [not_or, not_not] at h
    obtain ⟨h1, h2, h3⟩ := h
    rw [copy_intersection_async_eq, Run.andThen_result_ok_iff]
    refine ⟨hok, ?_⟩
    split
    · rename_i h0
      obtain ⟨hs1, hs2⟩ := one_tile_of_no_axes src hs h0
      obtain ⟨hd1, hd2⟩ := one_tile_of_no_axes dst hd (by omega)
      obtain ⟨ts, hts⟩ := get_tile_ok src 0 (le_refl _) (by omega) (by omega)
      obtain ⟨td, htd⟩ := get_tile_ok dst 0 (le_refl _) (by omega) (by omega)
      simp only [hts, htd, Run.ret_andThen, Run.emit_result]
    · unfold forRange
      rw [forEach_result_ok_iff]
      intro i hi
      rw [mem_indexRange] at hi
      exact copy_intersection_src_tile_ok G src src_offset dst dst_offset i hs hd hGs hGd
        h1 h2 h3 hi.1 hi.2

theorem copy_intersection_async_validation_witness :
    sample1.WF ∧ row_major.Lawful sample1.grid ∧
    (copy_intersection_async row_major sample1 [0] sample1 [0]).result = .ok () :=
  ⟨by decide, row_major_lawful _ (by decide) rfl,
    (copy_intersection_async_validation row_major sample1 [0] sample1 [0]).2.2.1 (by decide)
      (by decide) (row_major_lawful _ (by decide) rfl) (row_major_lawful _ (by decide) rfl)
      (by decide)⟩

/-! ## The index maps of a grid -/

theorem has_index_of_zero_extent (g : TileTraits) (h : (0 : Int) ∈ g.shape)
    (index : List Int) : ¬ g.has_index index := by
  rintro ⟨hl, hin⟩
  obtain ⟨k, hk, hk0⟩ := List.mem_iff_getElem.1 h
  have hkc : k < index.length := by omega
  have := hin k (index.get ⟨k, hkc⟩) 0 (List.getElem?_eq_getElem hkc)
    (by rw [List.getElem?_eq_getElem hk, hk0])
  omega

theorem row_major_lawful_nonneg (g : TileTraits) (hnn : ∀ n ∈ g.shape, 0 ≤ n)
    (hn : g.nelems = g.shape.prod) : row_major.Lawful g := by
  by_cases hz : (0 : Int) ∈ g.shape
  · constructor
    · intro i h0 h1
      rw [hn, List.prod_eq_zero hz] at h1
      omega
    · intro c hc
      exact absurd hc (has_index_of_zero_extent g hz c)
  · refine row_major_lawful g (fun n hm => ?_) hn
    rcases lt_or_eq_of_le (hnn n hm) with h | h
    · exact h
    · exact absurd (h ▸ hm) hz

/-- C18: for a grid with extents `shape` and `tile_count = prod(shape)` tiles, the index
maps in row-major order are mutually inverse: `linear_to_index(i)` is a tile coordinate of
the grid with `index_to_linear(linear_to_index(i)) == i` for every `0 <= i < tile_count`,
`index_to_linear(c)` lies in `[0, tile_count)` with `linear_to_index(index_to_linear(c)) == c`
for every tile coordinate `c` of the grid, and both maps are one-to-one, so every linear
index and every tile coordinate is reached exactly once. -/
theorem grid_round_trip (g : TileTraits) (hnn : ∀ n ∈ g.shape, 0 ≤ n)
    (hn : g.nelems = g.shape.prod) :
    (∀ i, 0 ≤ i → i < g.nelems →
      ∃ c, row_major.linear_to_index g i = some c ∧ g.has_index c ∧
        row_major.index_to_linear g c = some i) ∧
    (∀ c, g.has_index c →
      ∃ i, row_major.index_to_linear g c = some i ∧ 0 ≤ i ∧ i < g.nelems ∧
        row_major.linear_to_index g i = some c) ∧
    (∀ i j, 0 ≤ i → i < g.nelems → 0 ≤ j → j < g.nelems →
      row_major.linear_to_index g i = row_major.linear_to_index g j → i = j) ∧
    (∀ c d, g.has_index c → g.has_index d →
      row_major.index_to_linear g c = row_major.index_to_linear g d → c = d) := by
  have hL := row_major_lawful_nonneg g hnn hn
  refine ⟨hL.index_of_linear, hL.linear_of_index, ?_, ?_⟩
  · intro i j hi0 hi1 hj0 hj1 h
    obtain ⟨c, hc, _, hci⟩ := hL.index_of_linear i hi0 hi1
    obtain ⟨d, hd, _, hdj⟩ := hL.index_of_linear j hj0 hj1
    rw [hc, hd] at h
    cases h
    rw [hci] at hdj
    exact Option.some.inj hdj
  · intro c d hc hd h
    obtain ⟨i, hci, _, _, hic⟩ := hL.linear_of_index c hc
    obtain ⟨j, hdj, _, _, hjd⟩ := hL.linear_of_index d hd
    rw [hci, hdj] at h
    cases h
    rw [hic] at hjd
    exact Option.some.inj hjd

theorem grid_round_trip_witness :
    (∃ c, row_major.linear_to_index (sample44 0).grid 3 = some c ∧
      (sample44 0).grid.has_index c ∧ row_major.index_to_linear (sample44 0).grid c = some 3) ∧
    row_major.linear_to_index (sample44 0).grid 3 = some [1, 1] :=
  ⟨(grid_round_trip (sample44 0).grid (by decide) rfl).1 3 (by decide) (by decide), by decide⟩

/-! ## The kernel `randn`: indices and offsets -/

theorem Index.wrap_zero : Index.wrap 0 = 0 := by
  unfold Index.wrap
  omega

theorem Index.wrap_of_range (x : Int) (h0 : -9223372036854775808 ≤ x)
    (h1 : x < 9223372036854775808) : Index.wrap x = x := by
  unfold Index.wrap
  omega

theorem Index.wrap_sub_wrap (a : Int) : Index.wrap (a - Index.wrap a) = 0 := by
  unfold Index.wrap
  omega

theorem column_major_offset_set (index shape : List Int) (i : Nat) (x d : Int)
    (hs : i < shape.length) (hd : index[i]? = some d) :
    column_major_offset (index.set i x) shape =
      column_major_offset index shape + (x - d) * (shape.take i).prod := by
  induction index generalizing shape i with
  | nil => simp at hd
  | cons y index ih =>
    cases shape with
    | nil => simp at hs
    | cons n shape =>
      cases i with
      | zero =>
        simp only [List.getElem?_cons_zero, Option.some.injEq] at hd
        subst hd
        simp only [List.set_cons_zero, column_major_offset, List.take_zero, List.prod_nil]
        ring
      | succ i =>
        simp only [List.getElem?_cons_succ] at hd
        simp only [List.set_cons_succ, column_major_offset, List.take_succ_cons, List.prod_cons]
        rw [ih shape i (by simpa using hs) hd]
        ring

theorem column_major_offset_nonneg (index shape : List Int) (hi : ∀ x ∈ index, 0 ≤ x)
    (hs : ∀ n ∈ shape, 0 ≤ n) : 0 ≤ column_major_offset index shape := by
  induction index generalizing shape with
  | nil => simp [column_major_offset]
  | cons y index ih =>
    cases shape with
    | nil => simp [column_major_offset]
    | cons n shape =>
      simp only [column_major_offset]
      have h1 := hi y (by simp)
      have h2 := hs n (by simp)
      have h3 := ih shape (fun x hx => hi x (by simp [hx])) (fun m hm => hs m (by simp [hm]))
      positivity

theorem column_major_offset_lower (index shape : List Int) (hi : ∀ x ∈ index, 0 ≤ x)
    (hs : ∀ n ∈ shape, 0 ≤ n) (i : Nat) (d : Int) (hl : i < shape.length)
    (hd : index[i]? = some d) :
    d * (shape.take i).prod ≤ column_major_offset index shape := by
  induction index generalizing shape i with
  | nil => simp at hd
  | cons y index ih =>
    cases shape with
    | nil => simp at hl
    | cons n shape =>
      have h1 := hi y (by simp)
      have h2 := hs n (by simp)
      have h3 := column_major_offset_nonneg index shape (fun x hx => hi x (by simp [hx]))
        (fun m hm => hs m (by simp [hm]))
      cases i with
      | zero =>
        simp only [List.getElem?_cons_zero, Option.some.injEq] at hd
        subst hd
        simp only [column_major_offset, List.take_zero, List.prod_nil, mul_one]
        nlinarith
      | succ i =>
        simp only [List.getElem?_cons_succ] at hd
        simp only [column_major_offset, List.take_succ_cons, List.prod_cons]
        have h4 := ih shape (fun x hx => hi x (by simp [hx])) (fun m hm => hs m (by simp [hm]))
          i (by simpa using hl) hd
        nlinarith

theorem column_major_offset_zeros (n : Nat) (shape : List Int) :
    column_major_offset (List.replicate n 0) shape = 0 := by
  induction n generalizing shape with
  | zero => simp [column_major_offset]
  | succ n ih =>
    cases shape with
    | nil => simp [List.replicate_succ, column_major_offset]
    | cons m shape => simp [List.replicate_succ, column_major_offset, ih]

theorem vget_replicate {α : Type} (n : Nat) (x : α) (i : Int) (h0 : 0 ≤ i) (h1 : i < n) :
    vget (List.replicate n x) i = Run.ret x := by
  apply vget_ret _ _ _ h0
  rw [List.getElem?_replicate, if_pos (by omega)]

theorem foldEach_fixed {α σ : Type} (xs : List α) (s : σ) (body : α → σ → Run σ)
    (h : ∀ x ∈ xs, body x s = Run.ret s) : foldEach xs s body = Run.ret s := by
  induction xs with
  | nil => rfl
  | cons x xs ih =>
    unfold foldEach
    rw [h x (by simp), Run.ret_andThen]
    exact ih (fun y hy => h y (by simp [hy]))

theorem sequential_getElem? {T : Type} [Add T] [Mul T] (g : Generator T) (mean stddev : T)
    (n seed i : Nat) :
    (kernel.cpu.sequential g mean stddev n seed)[i]? =
      if i < n then some (stddev * g.laran (g.next^[i] seed) + mean) else none := by
  induction n generalizing seed i with
  | zero => simp [kernel.cpu.sequential]
  | succ n ih =>
    cases i with
    | zero => simp [kernel.cpu.sequential, kernel.cpu.chameleon_randn]
    | succ i =>
      simp only [kernel.cpu.sequential, List.getElem?_cons_succ, ih,
        kernel.cpu.chameleon_randn, Function.iterate_succ_apply, Nat.add_lt_add_iff_right]

theorem sequential_length {T : Type} [Add T] [Mul T] (g : Generator T) (mean stddev : T)
    (n seed : Nat) : (kernel.cpu.sequential g mean stddev n seed).length = n := by
  induction n generalizing seed with
  | zero => rfl
  | succ n ih => simp [kernel.cpu.sequential, ih]

/-- A column of `randn`: the next `r` values of the stream are written next to each other
from the position of `data` on. -/
theorem randn_column_run {T : Type} [Add T] [Mul T] (g : Generator T) (mean stddev : T)
    (r a seed : Nat) (b : List T) (hb : a + r ≤ b.length) :
    ∃ b2, kernel.cpu.randn_column g mean stddev (r : Int) ⟨seed, b, (a : Int)⟩ =
        Run.ret ⟨g.next^[r] seed, b2, ((a + r : Nat) : Int)⟩ ∧
      b2.length = b.length ∧
      (∀ i : Nat, i < r → b2[a + i]? = some (stddev * g.laran (g.next^[i] seed) + mean)) ∧
      (∀ j : Nat, j < a ∨ a + r ≤ j → b2[j]? = b[j]?) := by
  unfold kernel.cpu.randn_column
  obtain ⟨c, hrun, h1, h2, h3, h4, h5⟩ := foldRange_invariant 0 (r : Int) (by omega)
    (⟨seed, b, (a : Int)⟩ : kernel.cpu.Cursor T)
    (fun _ c => do
      let r := kernel.cpu.chameleon_randn g c.seed mean stddev
      let buffer ← vset c.buffer c.data r.1
      pure ⟨r.2, buffer, c.data + 1⟩)
    (fun i c => c.seed = g.next^[i.toNat] seed ∧ c.data = (a : Int) + i ∧
      c.buffer.length = b.length ∧
      (∀ j : Nat, j < i.toNat →
        c.buffer[a + j]? = some (stddev * g.laran (g.next^[j] seed) + mean)) ∧
      (∀ j : Nat, j < a ∨ a + i.toNat ≤ j → c.buffer[j]? = b[j]?))
    ⟨rfl, by simp, rfl, fun j hj => by simp at hj, fun j _ => rfl⟩ (by
      rintro i c h0 hi ⟨h1, h2, h3, h4, h5⟩
      obtain ⟨k, rfl⟩ := Int.eq_ofNat_of_zero_le h0
      simp only [Int.toNat_ofNat] at h1 h4 h5
      have hk : k < r := by omega
      refine ⟨⟨g.next^[k + 1] seed,
        c.buffer.set (a + k) (stddev * g.laran (g.next^[k] seed) + mean),
        (a : Int) + ((k : Int) + 1)⟩, ?_, ?_, ?_, ?_, ?_, ?_⟩
      · simp only [Run.bind_eq, Run.pure_eq, kernel.cpu.chameleon_randn, h1, h2]
        rw [vset_ret _ _ _ (by omega) (by omega), Run.ret_andThen,
          Function.iterate_succ_apply']
        have : ((a : Int) + (k : Int)).toNat = a + k := by omega
        rw [this, add_assoc]
      · show g.next^[k + 1] seed = g.next^[((k : Int) + 1).toNat] seed
        rw [show ((k : Int) + 1).toNat = k + 1 by omega]
      · rfl
      · show (c.buffer.set _ _).length = b.length
        rw [List.length_set, h3]
      · intro j hj
        have hj2 : j < k + 1 := by
          have : ((k : Int) + 1).toNat = k + 1 := by omega
          rw [this] at hj
          exact hj
        show (c.buffer.set _ _)[a + j]? = _
        rcases Nat.lt_succ_iff_lt_or_eq.1 hj2 with hlt | heq
        · rw [List.getElem?_set_ne (by omega)]
          exact h4 j hlt
        · subst heq
          rw [List.getElem?_set_self (by omega)]
      · intro j hj
        have : ((k : Int) + 1).toNat = k + 1 := by omega
        rw [this] at hj
        show (c.buffer.set _ _)[j]? = _
        rw [List.getElem?_set_ne (by omega)]
        exact h5 j (by omega))
  simp only [Int.toNat_ofNat] at h1 h4 h5
  refine ⟨c.buffer, ?_, h3, h4, h5⟩
  rw [hrun]
  congr 1
  cases c
  simp only at h1 h2
  rw [h1, h2]
  simp

/-! ## The kernel `randn` on a full contiguous array -/

theorem prod_take_last (shape : List Int) (k : Nat) (s : Int) (hk : k + 1 = shape.length)
    (hs : shape[k]? = some s) : shape.prod = (shape.take k).prod * s := by
  have hlt : k < shape.length := by omega
  have h1 := List.prod_take_succ shape k hlt
  rw [List.getElem?_eq_getElem hlt] at hs
  cases hs
  rw [← h1, hk, List.take_length]

/-- The loop `while(tmp_index[k] == shape[k])` on a contiguous array that is generated in
full: it ends normally, leaves `shift` and `data` as they are, and carries the index
`tmp_index` over to the index of the same offset with all its entries within the shape. -/
theorem randn_carry_run (shape stride : List Int) (hlen : stride.length = shape.length)
    (hstride : ∀ (i : Nat) (s x : Int), stride[i]? = some s → shape[i]? = some x →
      i + 1 < shape.length → stride[i + 1]? = some (s * x))
    (hpos : ∀ x ∈ shape, 1 ≤ x) (total : Int) (htotal : total < shape.prod)
    (fuel k : Nat) (t : List Int) (ustride data : Int) (hk : k < shape.length)
    (hfuel : shape.length ≤ k + fuel) (htl : t.length = shape.length)
    (hdig : ∀ (i : Nat) (d s : Int), t[i]? = some d → shape[i]? = some s →
      0 ≤ d ∧ (d < s ∨ (i = k ∧ d = s)))
    (hval : column_major_offset t shape = total) :
    ∃ w, kernel.cpu.randn_carry (some shape) (some shape) (some stride) fuel
        ⟨t, (k : Int), 0, ustride, data⟩ = Run.ret w ∧
      w.shift = 0 ∧ w.data = data ∧ w.tmp_index.length = shape.length ∧
      (∀ (i : Nat) (d s : Int), w.tmp_index[i]? = some d → shape[i]? = some s →
        0 ≤ d ∧ d < s) ∧
      column_major_offset w.tmp_index shape = total := by
  induction fuel generalizing k t ustride with
  | zero => omega
  | succ fuel ih =>
    have hkt : k < t.length := by omega
    have hks : k < stride.length := by omega
    have htk := List.getElem?_eq_getElem hkt
    have hsk := List.getElem?_eq_getElem hk
    have hstk := List.getElem?_eq_getElem hks
    unfold kernel.cpu.randn_carry
    simp only [Run.bind_eq, Run.pure_eq, pget, vget_nat t k _ htk, vget_nat shape k _ hsk,
      Run.ret_andThen]
    by_cases heq : t[k] = shape[k]
    · rw [if_pos heq]
      have hnn : ∀ x ∈ t, 0 ≤ x := by
        intro x hx
        obtain ⟨i, hi, rfl⟩ := List.mem_iff_getElem.1 hx
        exact (hdig i _ _ (List.getElem?_eq_getElem hi)
          (List.getElem?_eq_getElem (by omega))).1
      have hk1 : k + 1 < shape.length := by
        by_contra hcon
        have hlast : k + 1 = shape.length := by omega
        have h1 := column_major_offset_lower t shape hnn
          (fun n hn => by have := hpos n hn; omega) k _ hk htk
        rw [prod_take_last shape k _ hlast hsk] at htotal
        rw [heq, hval] at h1
        have := mul_comm (shape[k]) (shape.take k).prod
        omega
      have hk1t : k + 1 < t.length := by omega
      have hk1s : k + 1 < stride.length := by omega
      have ht1 : (t.set k 0)[k + 1]? = some t[k + 1] := by
        rw [List.getElem?_set_ne (by omega), List.getElem?_eq_getElem hk1t]
      have hcast : ((k : Int) + 1) = ((k + 1 : Nat) : Int) := by push_cast; rfl
      have hsnext := hstride k _ _ hstk hsk hk1
      rw [vset_ret t k 0 (by omega) (by omega), Run.ret_andThen]
      simp only [Int.toNat_ofNat, add_sub_cancel_right]
      rw [hcast, vget_nat _ (k + 1) _ ht1, Run.ret_andThen,
        vset_ret _ _ _ (by omega) (by rw [List.length_set]; omega), Run.ret_andThen]
      simp only [vget_nat shape k _ hsk, Run.ret_andThen, vget_nat stride (k + 1) _ hsnext,
        vget_nat stride k _ hstk, Int.toNat_ofNat, sub_self, mul_zero, add_zero,
        Index.wrap_zero, Index.wrap_sub_wrap]
      refine ih (k + 1) _ _ hk1 (by omega) ?_ ?_ ?_
      · rw [List.length_set, List.length_set]
        exact htl
      · intro i d s hd hs
        rcases eq_or_ne i (k + 1) with hi | hi
        · subst hi
          rw [List.getElem?_set_self (by rw [List.length_set]; omega)] at hd
          cases hd
          have := hdig (k + 1) _ s (List.getElem?_eq_getElem hk1t) hs
          omega
        · rw [List.getElem?_set_ne (Ne.symm hi)] at hd
          rcases eq_or_ne i k with hik | hik
          · subst hik
            rw [List.getElem?_set_self hkt] at hd
            cases hd
            have := hpos s (List.mem_iff_getElem?.2 ⟨_, hs⟩)
            omega
          · rw [List.getElem?_set_ne (Ne.symm hik)] at hd
            have := hdig i d s hd hs
            omega
      · rw [column_major_offset_set _ shape (k + 1) _ _ hk1 ht1,
          column_major_offset_set t shape k 0 _ hk htk, hval, List.prod_take_succ shape k hk,
          ← heq]
        ring
    · rw [if_neg heq]
      refine ⟨_, rfl, rfl, rfl, htl, ?_, hval⟩
      intro i d s hd hs
      have h := hdig i d s hd hs
      refine ⟨h.1, ?_⟩
      rcases h.2 with h2 | ⟨rfl, h2⟩
      · exact h2
      · rw [htk] at hd
        rw [hsk] at hs
        cases hd
        cases hs
        exact absurd h2 heq

theorem vget_one {α : Type} (v : List α) (x : α) (h : v[1]? = some x) :
    vget v 1 = Run.ret x := vget_nat v 1 x h

theorem vget_zero {α : Type} (v : List α) (x : α) (h : v[0]? = some x) :
    vget v 0 = Run.ret x := vget_nat v 0 x h

theorem vset_one {α : Type} (v : List α) (x : α) (h : 1 < v.length) :
    vset v 1 x = Run.ret (v.set 1 x) := by
  unfold vset
  rw [if_pos ⟨by omega, by simpa using h⟩]
  rfl

/-- One round of the loop over the columns of a contiguous array that is generated in
full: no jump, the next column of the stream right after the last one, and the index
`tmp_index` moved on to the index of the column. -/
theorem randn_next_column_run {T : Type} [Add T] [Mul T] (g : Generator T)
    (hjump : ∀ s, g.jump 0 s = s) (mean stddev : T) (shape stride : List Int) (r : Nat)
    (hlen : stride.length = shape.length) (hstride0 : stride[0]? = some 1)
    (hstride : ∀ (i : Nat) (s x : Int), stride[i]? = some s → shape[i]? = some x →
      i + 1 < shape.length → stride[i + 1]? = some (s * x))
    (hpos : ∀ x ∈ shape, 1 ≤ x) (hr : shape[0]? = some (r : Int))
    (a seed : Nat) (b : List T) (t : List Int)
    (ha : ((a + r : Nat) : Int) ≤ shape.prod) (hb : a + r ≤ b.length)
    (htl : t.length = shape.length)
    (hdig : ∀ (i : Nat) (d s : Int), t[i]? = some d → shape[i]? = some s → 0 ≤ d ∧ d < s)
    (hval : column_major_offset t shape + r = a) :
    ∃ b2 t2, kernel.cpu.randn_next_column g mean stddev (some shape) (some shape)
        (some stride) (r : Int) (⟨seed, b, (a : Int)⟩, t) =
          Run.ret (⟨g.next^[r] seed, b2, ((a + r : Nat) : Int)⟩, t2) ∧
      b2.length = b.length ∧
      (∀ i : Nat, i < r → b2[a + i]? = some (stddev * g.laran (g.next^[i] seed) + mean)) ∧
      (∀ j : Nat, j < a ∨ a + r ≤ j → b2[j]? = b[j]?) ∧
      t2.length = shape.length ∧
      (∀ (i : Nat) (d s : Int), t2[i]? = some d → shape[i]? = some s → 0 ≤ d ∧ d < s) ∧
      column_major_offset t2 shape + r = ((a + r : Nat) : Int) := by
  have hnn : ∀ x ∈ t, 0 ≤ x := by
    intro x hx
    obtain ⟨i, hi, rfl⟩ := List.mem_iff_getElem.1 hx
    exact (hdig i _ _ (List.getElem?_eq_getElem hi) (List.getElem?_eq_getElem (by omega))).1
  have hD := column_major_offset_nonneg t shape hnn (fun n hn => by have := hpos n hn; omega)
  have hr1 : (1 : Int) ≤ r := hpos _ (List.mem_iff_getElem?.2 ⟨_, hr⟩)
  have h2 : 1 < shape.length := by
    rcases shape with _ | ⟨x, _ | ⟨y, rest⟩⟩
    · simp at hr
    · simp only [List.getElem?_cons_zero, Option.some.injEq] at hr
      subst hr
      simp only [List.prod_cons, List.prod_nil, mul_one] at ha
      push_cast at ha
      omega
    · simp
  have h1t : 1 < t.length := by omega
  have h1s : 1 < stride.length := by omega
  have ht1 := List.getElem?_eq_getElem h1t
  have hs1 := List.getElem?_eq_getElem h2
  have hst1 : stride[1]? = some (1 * (r : Int)) := hstride 0 1 r hstride0 hr h2
  have htake : (shape.take 1).prod = r := by
    have h := List.prod_take_succ shape 0 (by omega)
    rw [List.getElem?_eq_getElem (by omega)] at hr
    rw [h, Option.some.inj hr]
    simp
  obtain ⟨w, hw, hshift, hwdata, hwl, hwdig, hwval⟩ := randn_carry_run shape stride hlen hstride
    hpos (a : Int) (by push_cast at ha; omega) (t.set 1 (t[1] + 1)).length 1
    (t.set 1 (t[1] + 1)) (r : Int) (a : Int) h2 (by rw [List.length_set]; omega)
    (by rw [List.length_set]; exact htl)
    (by
      intro i d s hd hs
      rcases eq_or_ne i 1 with hi | hi
      · subst hi
        rw [List.getElem?_set_self h1t] at hd
        cases hd
        have := hdig 1 _ s ht1 hs
        omega
      · rw [List.getElem?_set_ne (Ne.symm hi)] at hd
        have := hdig i d s hd hs
        omega)
    (by
      rw [column_major_offset_set t shape 1 _ _ h2 ht1, htake]
      omega)
  obtain ⟨b2, hcol, hb2l, hb2new, hb2old⟩ := randn_column_run g mean stddev r a seed b hb
  refine ⟨b2, w.tmp_index, ?_, hb2l, hb2new, hb2old, hwl, hwdig, ?_⟩
  · unfold kernel.cpu.randn_next_column
    simp only [Nat.cast_one] at hw
    simp only [Run.bind_eq, Run.pure_eq, pget, vget_one t _ ht1, Run.ret_andThen,
      vset_one t _ h1t, vget_zero shape _ hr, vget_one stride _ hst1, sub_self, one_mul,
      Index.wrap_zero, add_zero, hw, hshift, hwdata, hjump, hcol]
  · rw [hwval]
    push_cast
    rfl

theorem tmp_index_init (n : Nat) (t : List Int) (ht : t.length = n) :
    foldRange 0 (n : Int) t (fun i t => vset t i 0) = Run.ret (List.replicate n 0) := by
  obtain ⟨t2, hrun, hl, hz⟩ := foldRange_invariant 0 (n : Int) (by omega) t
    (fun i t => vset t i 0)
    (fun i t2 => t2.length = n ∧ ∀ j : Nat, (j : Int) < i → t2[j]? = some 0)
    ⟨ht, fun j hj => by omega⟩ (by
      rintro i t2 h0 hi ⟨hl, hz⟩
      refine ⟨t2.set i.toNat 0, vset_ret t2 i 0 h0 (by omega), ?_, ?_⟩
      · show (t2.set i.toNat 0).length = n
        rw [List.length_set, hl]
      · intro j hj
        show (t2.set i.toNat 0)[j]? = some 0
        rcases eq_or_ne i.toNat j with h | h
        · subst h
          rw [List.getElem?_set_self (by omega)]
        · rw [List.getElem?_set_ne h]
          exact hz j (by omega))
  rw [hrun]
  congr 1
  apply List.ext_getElem?
  intro j
  rcases lt_or_le j n with hj | hj
  · rw [hz j (by omega), List.getElem?_replicate, if_pos hj]
  · rw [List.getElem?_eq_none (by omega), List.getElem?_eq_none (by simpa using hj)]

/-- C14: full contiguous generation is the sequential stream.  For `ndim >= 1`, a shape
with all entries at least `1`, `nelems = prod(shape)`, `start = 0`,
`underlying_shape = shape`, `stride[0] = 1` and `stride[i] = stride[i-1]*shape[i-1]`, a
scratch `tmp_index` of `ndim` entries and a buffer of at least `nelems` elements, and a
generator whose `CORE_rnd64_jump(n, s)` is `n` steps, the kernel `randn` ends normally, the
first `nelems` elements of the buffer are the values of `nelems` calls of the element
generator in a row from the given seed, and the rest of the buffer is left as it was. -/
theorem randn_full_contiguous {T : Type} [Add T] [Mul T] (g : Generator T)
    (ndim nelems : Int) (seed : Nat) (mean stddev : T) (shape stride tmp_index : List Int)
    (data : List T) (hjump : ∀ (n s : Nat), g.jump (n : Int) s = g.next^[n] s)
    (hndim : 1 ≤ ndim) (hshape : (shape.length : Int) = ndim) (hpos : ∀ x ∈ shape, 1 ≤ x)
    (hnelems : nelems = shape.prod) (hlen : stride.length = shape.length)
    (hstride0 : stride[0]? = some 1)
    (hstride : ∀ (i : Nat) (s x : Int), stride[i]? = some s → shape[i]? = some x →
      i + 1 < shape.length → stride[i + 1]? = some (s * x))
    (htmp : tmp_index.length = shape.length) (hdata : nelems ≤ data.length) :
    ∃ out, kernel.cpu.randn g ndim nelems seed mean stddev
        (some (List.replicate shape.length 0)) (some shape) (some shape) data (some stride)
        (some tmp_index) = Run.ret out ∧
      out.length = data.length ∧
      out.take nelems.toNat = kernel.cpu.sequential g mean stddev nelems.toNat seed ∧
      out.drop nelems.toNat = data.drop nelems.toNat := by
  subst hshape
  have hj0 : ∀ s, g.jump 0 s = s := fun s => by simpa using hjump 0 s
  have hl0 : 0 < shape.length := by omega
  obtain ⟨r, hr⟩ : ∃ r : Nat, shape[0]? = some (r : Int) := by
    have hx := hpos _ (List.getElem_mem hl0)
    refine ⟨(shape.get ⟨0, hl0⟩).toNat, ?_⟩
    rw [List.getElem?_eq_getElem hl0]
    congr 1
    simp only [List.get_eq_getElem]
    omega
  have hr1 : (1 : Int) ≤ r := hpos _ (List.mem_iff_getElem?.2 ⟨_, hr⟩)
  obtain ⟨c, hc, hc1⟩ : ∃ c : Nat, shape.prod = (r : Int) * c ∧ 1 ≤ c := by
    rcases shape with _ | ⟨x, rest⟩
    · simp at hl0
    · simp only [List.getElem?_cons_zero, Option.some.injEq] at hr
      subst hr
      have hp : 0 < rest.prod :=
        List.prod_pos (fun a ha => by have := hpos a (by simp [ha]); omega)
      refine ⟨rest.prod.toNat, ?_, by omega⟩
      rw [List.prod_cons]
      congr 1
      omega
  have hncols : nelems.tdiv (r : Int) = c := by
    rw [hnelems, hc]
    exact Int.mul_tdiv_cancel_left _ (by omega)
  have hrc : r * c ≤ data.length := by
    have : ((r * c : Nat) : Int) ≤ data.length := by
      push_cast
      rw [← hc, ← hnelems]
      exact hdata
    exact_mod_cast this
  have hrcn : nelems.toNat = r * c := by
    rw [hnelems, hc]
    have : ((r : Int) * c) = ((r * c : Nat) : Int) := by push_cast; rfl
    rw [this, Int.toNat_ofNat]
  -- the first column
  obtain ⟨b1, hcol, hb1l, hb1new, hb1old⟩ := randn_column_run g mean stddev r 0 seed data
    (by have : r * 1 ≤ r * c := Nat.mul_le_mul_left r hc1; omega)
  simp only [Nat.cast_zero, zero_add] at hcol hb1new hb1old
  -- the other columns
  obtain ⟨st, hloop, a, ha, hsd, hdp, hbl, hbnew, hbold, -, -, -⟩ :=
    foldRange_invariant 1 (c : Int) (by omega)
      ((⟨g.next^[r] seed, b1, (r : Int)⟩, List.replicate shape.length 0) :
        kernel.cpu.Cursor T × List Int)
      (fun _ st => kernel.cpu.randn_next_column g mean stddev (some shape) (some shape)
        (some stride) (r : Int) st)
      (fun j st => ∃ a : Nat, (a : Int) = j * r ∧ st.1.seed = g.next^[a] seed ∧
        st.1.data = (a : Int) ∧ st.1.buffer.length = data.length ∧
        (∀ i : Nat, i < a → st.1.buffer[i]? = some (stddev * g.laran (g.next^[i] seed) + mean)) ∧
        (∀ i : Nat, a ≤ i → st.1.buffer[i]? = data[i]?) ∧
        st.2.length = shape.length ∧
        (∀ (i : Nat) (d s : Int), st.2[i]? = some d → shape[i]? = some s → 0 ≤ d ∧ d < s) ∧
        column_major_offset st.2 shape + r = a)
      (by
        refine ⟨r, by simp, rfl, rfl, hb1l, hb1new, fun i hi => hb1old i (Or.inr hi),
          List.length_replicate _ _, ?_, ?_⟩
        · intro i d s hd hs
          rw [List.getElem?_replicate] at hd
          split at hd
          · cases hd
            have := hpos s (List.mem_iff_getElem?.2 ⟨_, hs⟩)
            omega
          · cases hd
        · show column_major_offset (List.replicate shape.length 0) shape + (r : Int) = r
          rw [column_major_offset_zeros]
          simp)
      (by
        rintro j ⟨⟨sd, b, dp⟩, t⟩ h1 hj ⟨a, ha, hsd, hdp, hbl, hbnew, hbold, htl, hdig, hval⟩
        simp only at hsd hdp hbl hbnew hbold htl hdig hval
        subst hsd hdp
        have hle : ((a + r : Nat) : Int) ≤ (r : Int) * c := by
          push_cast
          rw [ha]
          nlinarith
        have hle2 : a + r ≤ r * c := by exact_mod_cast hle
        obtain ⟨b2, t2, hrun, hb2l, hb2new, hb2old, ht2l, ht2dig, ht2val⟩ :=
          randn_next_column_run g hj0 mean stddev shape stride r hlen hstride0 hstride hpos hr
            a (g.next^[a] seed) b t (by rw [hc]; exact hle) (by omega) htl hdig hval
        refine ⟨_, hrun, a + r, ?_, ?_, rfl, ?_, ?_, ?_, ht2l, ht2dig, ht2val⟩
        · push_cast
          rw [ha]
          ring
        · show g.next^[r] (g.next^[a] seed) = g.next^[a + r] seed
          rw [← Function.iterate_add_apply, add_comm]
        · show b2.length = data.length
          rw [hb2l, hbl]
        · intro i hi
          show b2[i]? = _
          rcases lt_or_le i a with hia | hia
          · rw [hb2old i (Or.inl hia)]
            exact hbnew i hia
          · obtain ⟨k, rfl⟩ := Nat.exists_eq_add_of_le hia
            rw [hb2new k (by omega), ← Function.iterate_add_apply, add_comm k a]
        · intro i hi
          show b2[i]? = _
          rw [hb2old i (Or.inr hi)]
          exact hbold i (by omega))
  have hac : a = r * c := by
    have : (a : Int) = ((r * c : Nat) : Int) := by
      rw [ha]
      push_cast
      ring
    exact_mod_cast this
  subst hac
  refine ⟨st.1.buffer, ?_, hbl, ?_, ?_⟩
  · unfold kernel.cpu.randn
    rw [if_neg (by omega)]
    have hA : vget (List.replicate shape.length (0 : Int)) ((shape.length : Int) - 1) =
        Run.ret 0 := vget_replicate _ _ _ (by omega) (by omega)
    have hB : foldEach (indexRange 0 ((shape.length : Int) - 1)).reverse (0 : Int)
        (fun i shift =>
        (vget (List.replicate shape.length 0) i).andThen fun s =>
          (vget shape i).andThen fun u =>
            Run.ret (Index.wrap (s + Index.wrap (shift * u)))) = Run.ret 0 := by
      apply foldEach_fixed
      intro i hi
      rw [List.mem_reverse, mem_indexRange] at hi
      obtain ⟨u, _, hu⟩ := vget_of_lt shape i hi.1 (by omega)
      simp only [vget_replicate _ _ _ hi.1 (show i < (shape.length : Int) by omega), hu,
        Run.ret_andThen, zero_mul, add_zero, Index.wrap_zero]
    simp only [Run.bind_eq, Run.pure_eq, pget, hA, Run.ret_andThen, hB, hj0,
      vget_zero shape _ hr, Run.throw_if_neg _ (show ¬ (r : Int) = 0 by omega), hncols, hcol,
      tmp_index_init shape.length tmp_index htmp, hloop]
  · apply List.ext_getElem?
    intro i
    rw [hrcn, List.getElem?_take, sequential_getElem?]
    split
    · exact hbnew i ‹_›
    · rfl
  · apply List.ext_getElem?
    intro i
    rw [hrcn, List.getElem?_drop, List.getElem?_drop]
    exact hbold _ (by omega)

theorem randn_full_contiguous_witness :
    ∃ out, kernel.cpu.randn counting 2 6 4 10 2 (some (List.replicate [2, 3].length 0))
        (some [2, 3]) (some [2, 3]) [0, 0, 0, 0, 0, 0, 0] (some [1, 2]) (some [7, 7]) =
          Run.ret out ∧
      out.length = [0, 0, 0, 0, 0, 0, (0 : Int)].length ∧
      out.take (6 : Int).toNat = kernel.cpu.sequential counting 10 2 (6 : Int).toNat 4 ∧
      out.drop (6 : Int).toNat = [0, 0, 0, 0, 0, 0, (0 : Int)].drop (6 : Int).toNat :=
  randn_full_contiguous counting 2 6 4 10 2 [2, 3] [1, 2] [7, 7] [0, 0, 0, 0, 0, 0, 0]
    (fun n s => by
      induction n generalizing s with
      | zero => rfl
      | succ n ih =>
        rw [Function.iterate_succ_apply, ← ih]
        simp only [counting]
        omega)
    (by decide) (by decide) (by decide) (by decide) (by decide) (by decide)
    (fun i s x hs hx hi => by
      have hi0 : i = 0 := by simp at hi; omega
      subst hi0
      simp at hs hx
      subst hs hx
      rfl)
    (by decide) (by decide)

/-! ## The kernel `normalize`: the deviation -/

theorem sqrt_unique {T : Type} [LinearOrderedField T] (sqrt : T → T)
    (hsqrt : ∀ x, 0 ≤ x → 0 ≤ sqrt x ∧ sqrt x * sqrt x = x) (a x : T) (ha : 0 ≤ a)
    (hx : a * a = x) : a = sqrt x := by
  have h0 : 0 ≤ x := by rw [← hx]; exact mul_self_nonneg a
  obtain ⟨h1, h2⟩ := hsqrt x h0
  exact (mul_self_inj ha h1).1 (by rw [hx, h2])

theorem sqrt_mono {T : Type} [LinearOrderedField T] (sqrt : T → T)
    (hsqrt : ∀ x, 0 ≤ x → 0 ≤ sqrt x ∧ sqrt x * sqrt x = x) (x y : T) (hx : 0 ≤ x)
    (hxy : x ≤ y) : sqrt x ≤ sqrt y := by
  obtain ⟨h1, h2⟩ := hsqrt x hx
  obtain ⟨h3, h4⟩ := hsqrt y (le_trans hx hxy)
  exact (mul_self_le_mul_self_iff h1 h3).2 (by rw [h2, h4]; exact hxy)

theorem sqrt_pos_of_pos {T : Type} [LinearOrderedField T] (sqrt : T → T)
    (hsqrt : ∀ x, 0 ≤ x → 0 ≤ sqrt x ∧ sqrt x * sqrt x = x) (x : T) (hx : 0 < x) :
    0 < sqrt x := by
  obtain ⟨h1, h2⟩ := hsqrt x (le_of_lt hx)
  rcases lt_or_eq_of_le h1 with h | h
  · exact h
  · rw [← h] at h2
    rw [← h2] at hx
    simp at hx

/-- The deviation computed by the three branches of the kernel is the square root of
`rms^2 - mean^2 + reps^2` whenever `rms > 0`, `reps >= 0` and `mean^2 <= rms^2`. -/
theorem cpu_dev_eq {T : Type} [LinearOrderedField T] (sqrt : T → T)
    (hsqrt : ∀ x, 0 ≤ x → 0 ≤ sqrt x ∧ sqrt x * sqrt x = x) (reps mean rms : T)
    (hrms : 0 < rms) (hreps : 0 ≤ reps) (hm : mean * mean ≤ rms * rms) :
    kernel.normalize.cpu_dev sqrt reps mean rms =
      sqrt (rms * rms - mean * mean + reps * reps) := by
  have habs : |mean| ≤ rms := by
    have := (mul_self_le_mul_self_iff (abs_nonneg mean) (le_of_lt hrms)).2
      (by rw [abs_mul_abs_self]; exact hm)
    exact this
  have hne : rms ≠ 0 := ne_of_gt hrms
  have htmp0 : 0 ≤ |mean| / rms := div_nonneg (abs_nonneg _) (le_of_lt hrms)
  have htmp1 : |mean| / rms ≤ 1 := (div_le_one hrms).2 habs
  have htmpsq : |mean| / rms * (|mean| / rms) * (rms * rms) = mean * mean := by
    rw [← abs_mul_abs_self mean]
    field_simp
  have htt : |mean| / rms * (|mean| / rms) ≤ 1 := by nlinarith
  unfold kernel.normalize.cpu_dev
  simp only [ge_iff_le, gt_iff_lt]
  split
  · rename_i h1
    have h1' : |mean| / rms = 1 := le_antisymm htmp1 h1
    have : mean * mean = rms * rms := by
      rw [← htmpsq, h1']
      ring
    apply sqrt_unique sqrt hsqrt _ _ hreps
    rw [this]
    ring
  · split
    · rename_i h1 h2
      have hq : 0 ≤ 1 - |mean| / rms * (|mean| / rms) + reps / rms * (reps / rms) := by
        have := mul_self_nonneg (reps / rms)
        linarith
      obtain ⟨hs0, hs1⟩ := hsqrt _ hq
      apply sqrt_unique sqrt hsqrt _ _ (mul_nonneg (le_of_lt hrms) hs0)
      have e : rms * sqrt (1 - |mean| / rms * (|mean| / rms) + reps / rms * (reps / rms)) *
          (rms * sqrt (1 - |mean| / rms * (|mean| / rms) + reps / rms * (reps / rms))) =
          rms * rms * (sqrt (1 - |mean| / rms * (|mean| / rms) + reps / rms * (reps / rms)) *
            sqrt (1 - |mean| / rms * (|mean| / rms) + reps / rms * (reps / rms))) := by ring
      rw [e, hs1, ← htmpsq]
      field_simp
    · rename_i h1 h2
      have hreps_pos : 0 < reps := lt_of_lt_of_le hrms (not_lt.1 h2)
      have hrne : reps ≠ 0 := ne_of_gt hreps_pos
      have hq : 0 ≤ (1 - |mean| / rms * (|mean| / rms)) * (rms / reps * (rms / reps)) + 1 := by
        have h3 := mul_self_nonneg (rms / reps)
        have h4 : 0 ≤ 1 - |mean| / rms * (|mean| / rms) := by linarith
        have := mul_nonneg h4 h3
        linarith
      obtain ⟨hs0, hs1⟩ := hsqrt _ hq
      apply sqrt_unique sqrt hsqrt _ _ (mul_nonneg hreps hs0)
      have e : reps *
          sqrt ((1 - |mean| / rms * (|mean| / rms)) * (rms / reps * (rms / reps)) + 1) *
          (reps *
            sqrt ((1 - |mean| / rms * (|mean| / rms)) * (rms / reps * (rms / reps)) + 1)) =
          reps * reps *
            (sqrt ((1 - |mean| / rms * (|mean| / rms)) * (rms / reps * (rms / reps)) + 1) *
            sqrt ((1 - |mean| / rms * (|mean| / rms)) * (rms / reps * (rms / reps)) + 1)) := by
        ring
      rw [e, hs1, ← htmpsq]
      field_simp

/-- With a positive `rms` and a non-zero deviation no division of the pass has a zero
divisor. -/
theorem cpu_divisors_ne_zero {T : Type} [LinearOrderedField T] (sqrt : T → T)
    (reps mean rms : T) (hrms : 0 < rms)
    (hdev : kernel.normalize.cpu_dev sqrt reps mean rms ≠ 0) :
    (0 : T) ∉ kernel.normalize.cpu_divisors sqrt reps mean rms := by
  intro hd
  unfold kernel.normalize.cpu_divisors at hd
  simp only [List.mem_append, List.mem_singleton] at hd
  rcases hd with (hd | hd) | hd
  · exact absurd hd.symm (ne_of_gt hrms)
  · split at hd
    · simp at hd
    · split at hd
      · exact absurd (List.mem_singleton.1 hd).symm (ne_of_gt hrms)
      · rename_i h2
        have := List.mem_singleton.1 hd
        have h3 : rms ≤ reps := not_lt.1 h2
        rw [← this] at h3
        exact absurd h3 (not_le.2 hrms)
  · exact hdev hd.symm

/-- A pass with a zero divisor stores no number. -/
theorem cpu_value_none {T : Type} [LinearOrderedField T] (sqrt : T → T)
    (invl rinvl reps gamma0 beta0 : T) (old : Option T) (sum norm : T)
    (h : (0 : T) ∈ kernel.normalize.cpu_divisors sqrt reps (sum * invl) (norm * rinvl)) :
    kernel.normalize.cpu_value sqrt invl rinvl reps gamma0 beta0 old sum norm = none := by
  unfold kernel.normalize.cpu_value
  rw [if_pos h]
  rfl

/-- The value of an element in the terms of the documentation: with `l > 0`, `eps >= 0`,
`norm > 0`, `mean^2 <= norm^2/l` for `mean = sum/l` and `norm^2/l - mean^2 + eps > 0`, no
division has a zero divisor and the value is
`(old - mean)/sqrt(norm^2/l - mean^2 + eps)*gamma + beta`. -/
theorem cpu_value_eq {T : Type} [LinearOrderedField T] (sqrt : T → T)
    (hsqrt : ∀ x, 0 ≤ x → 0 ≤ sqrt x ∧ sqrt x * sqrt x = x) (l : Nat) (eps gamma0 beta0 : T)
    (old sum norm : T) (hl : 0 < l) (heps : 0 ≤ eps) (hnorm : 0 < norm)
    (hm : (sum / l) ^ 2 ≤ norm ^ 2 / l) (hv : 0 < norm ^ 2 / l - (sum / l) ^ 2 + eps) :
    kernel.normalize.cpu_value sqrt (1 / (((l : Int) : T))) (sqrt (1 / (((l : Int) : T))))
        (sqrt eps) gamma0 beta0 (some old) sum norm =
      some ((old - sum / l) / sqrt (norm ^ 2 / l - (sum / l) ^ 2 + eps) * gamma0 + beta0) := by
  have hlT : (0 : T) < l := by exact_mod_cast hl
  have hinv : (0 : T) ≤ 1 / (l : T) := le_of_lt (one_div_pos.2 hlT)
  obtain ⟨hr0, hr1⟩ := hsqrt _ hinv
  obtain ⟨he0, he1⟩ := hsqrt _ heps
  have hrpos : 0 < sqrt (1 / (l : T)) := sqrt_pos_of_pos sqrt hsqrt _ (one_div_pos.2 hlT)
  have hmean : sum * (1 / (l : T)) = sum / l := by ring
  have hdev : kernel.normalize.cpu_dev sqrt (sqrt eps) (sum / l)
      (norm * sqrt (1 / (l : T))) = sqrt (norm ^ 2 / l - (sum / l) ^ 2 + eps) := by
    rw [cpu_dev_eq sqrt hsqrt (sqrt eps) (sum / l) (norm * sqrt (1 / (l : T)))
      (mul_pos hnorm hrpos) he0 (by
        have e : norm * sqrt (1 / (l : T)) * (norm * sqrt (1 / (l : T))) =
            norm ^ 2 * (sqrt (1 / (l : T)) * sqrt (1 / (l : T))) := by ring
        rw [e, hr1]
        have e2 : norm ^ 2 * (1 / (l : T)) = norm ^ 2 / l := by ring
        rw [e2, ← sq]
        exact hm)]
    have e : norm * sqrt (1 / (l : T)) * (norm * sqrt (1 / (l : T))) - sum / l * (sum / l) +
        sqrt eps * sqrt eps = norm ^ 2 / l - (sum / l) ^ 2 + eps := by
      have e1 : norm * sqrt (1 / (l : T)) * (norm * sqrt (1 / (l : T))) =
          norm ^ 2 * (sqrt (1 / (l : T)) * sqrt (1 / (l : T))) := by ring
      rw [e1, hr1, he1]
      ring
    rw [e]
  unfold kernel.normalize.cpu_value
  rw [Int.cast_natCast, hmean, if_neg (cpu_divisors_ne_zero sqrt _ _ _ (mul_pos hnorm hrpos)
    (by rw [hdev]; exact ne_of_gt (sqrt_pos_of_pos sqrt hsqrt _ hv))), hdev]
  rfl

/-! ## The kernel `normalize`: the loops -/

theorem normalize_idx_lt (m n k i0 i1 i2 : Nat) (h0 : i0 < m) (h1 : i1 < k) (h2 : i2 < n) :
    (i2 * k + i1) * m + i0 < m * k * n := by
  have a : i2 * k + i1 + 1 ≤ n * k := by
    have := Nat.mul_le_mul_right k (Nat.succ_le_of_lt h2)
    rw [Nat.succ_mul] at this
    omega
  have b := Nat.mul_le_mul_right m a
  have c : m * k * n = n * k * m := by ring
  rw [c]
  have d : (i2 * k + i1 + 1) * m = (i2 * k + i1) * m + m := by ring
  omega

theorem normalize_sidx_lt (m n i0 i2 : Nat) (h0 : i0 < m) (h2 : i2 < n) :
    2 * (i2 * m + i0) + 1 < 2 * m * n := by
  have a := Nat.mul_le_mul_right m (Nat.succ_le_of_lt h2)
  rw [Nat.succ_mul] at a
  have c : 2 * m * n = 2 * (n * m) := by ring
  rw [c]
  omega

theorem normalize_idx_unique (m k i0 i1 i2 j0 j1 j2 : Nat) (hi0 : i0 < m) (hj0 : j0 < m)
    (hi1 : i1 < k) (hj1 : j1 < k) (h : (i2 * k + i1) * m + i0 = (j2 * k + j1) * m + j0) :
    i0 = j0 ∧ i1 = j1 ∧ i2 = j2 := by
  have hm : 0 < m := by omega
  have hk : 0 < k := by omega
  have e0 : i0 = j0 := by
    have := congrArg (· % m) h
    simp only [] at this
    rwa [Nat.add_comm _ i0, Nat.add_comm _ j0, Nat.add_mul_mod_self_right,
      Nat.add_mul_mod_self_right, Nat.mod_eq_of_lt hi0, Nat.mod_eq_of_lt hj0] at this
  subst e0
  have e1 : i2 * k + i1 = j2 * k + j1 := by
    have : (i2 * k + i1) * m = (j2 * k + j1) * m := by omega
    exact Nat.eq_of_mul_eq_mul_right hm this
  have e2 : i1 = j1 := by
    have := congrArg (· % k) e1
    simp only [] at this
    rwa [Nat.add_comm _ i1, Nat.add_comm _ j1, Nat.add_mul_mod_self_right,
      Nat.add_mul_mod_self_right, Nat.mod_eq_of_lt hi1, Nat.mod_eq_of_lt hj1] at this
  subst e2
  have e3 : i2 * k = j2 * k := by omega
  exact ⟨rfl, rfl, Nat.eq_of_mul_eq_mul_right hk e3⟩

theorem vset_nat {α : Type} (v : List α) (k : Nat) (x : α) (h : k < v.length) :
    vset v (k : Int) x = Run.ret (v.set k x) := by
  unfold vset
  rw [if_pos ⟨by omega, by simpa using h⟩]
  rfl

theorem vget_nat_succ {α : Type} (v : List α) (k : Nat) (x : α) (h : v[k + 1]? = some x) :
    vget v ((k : Int) + 1) = Run.ret x := by
  have := vget_nat v (k + 1) x h
  rwa [Nat.cast_succ] at this

theorem cpu_element_run {T : Type} [LinearOrderedField T] (sqrt : T → T)
    (invl rinvl reps gamma0 beta0 : T) (gamma beta sumnorm : List T) (d : List (Option T))
    (off soff : Nat) (old : Option T) (sum norm : T) (hg : gamma[0]? = some gamma0) (hb : beta[0]? = some beta0)
    (hold : d[off]? = some old) (hsum : sumnorm[soff]? = some sum)
    (hnorm : sumnorm[soff + 1]? = some norm) :
    kernel.normalize.cpu_element sqrt invl rinvl reps gamma beta sumnorm
        ((d, (off : Int)), (soff : Int)) =
      Run.ret ((d.set off
        (kernel.normalize.cpu_value sqrt invl rinvl reps gamma0 beta0 old sum norm),
        (off : Int) + 1), (soff : Int) + 2) := by
  have hoff : off < d.length := by
    by_contra hcon
    rw [List.getElem?_eq_none (by omega)] at hold
    cases hold
  unfold kernel.normalize.cpu_element kernel.normalize.cpu_value
  simp only [Run.bind_eq, Run.pure_eq, vget_nat d off old hold, vget_nat sumnorm soff sum hsum,
    vget_nat_succ sumnorm soff norm hnorm, vget_zero gamma gamma0 hg, vget_zero beta beta0 hb,
    vset_nat d off _ hoff, Run.ret_andThen]

theorem updated_step {T U : Type} (value : U → T → T → U) (m n k : Nat) (sumnorm : List T)
    (dst d : List U) (i0 i1 i2 : Nat) (old : U) (sum norm : T) (h0 : i0 < m) (h1 : i1 < k)
    (hU : kernel.normalize.Updated value m n k sumnorm dst ((i2 * k + i1) * m + i0) d)
    (hold : dst[(i2 * k + i1) * m + i0]? = some old)
    (hsum : sumnorm[2 * (i2 * m + i0)]? = some sum)
    (hnorm : sumnorm[2 * (i2 * m + i0) + 1]? = some norm) :
    kernel.normalize.Updated value m n k sumnorm dst ((i2 * k + i1) * m + i0 + 1)
      (d.set ((i2 * k + i1) * m + i0) (value old sum norm)) := by
  obtain ⟨hl, hlow, hhigh⟩ := hU
  have hoff : (i2 * k + i1) * m + i0 < d.length := by
    by_contra hcon
    rw [List.getElem?_eq_none (by omega)] at hold
    cases hold
  refine ⟨by rw [List.length_set, hl], ?_, ?_⟩
  · intro j0 j1 j2 old2 sum2 norm2 hj0 hj1 hj2 hlt hold2 hsum2 hnorm2
    rcases Nat.lt_succ_iff_lt_or_eq.1 hlt with h | h
    · rw [List.getElem?_set_ne (by omega)]
      exact hlow j0 j1 j2 old2 sum2 norm2 hj0 hj1 hj2 h hold2 hsum2 hnorm2
    · obtain ⟨e0, e1, e2⟩ := normalize_idx_unique m k j0 j1 j2 i0 i1 i2 hj0 h0 hj1 h1 h
      subst e0 e1 e2
      rw [hold] at hold2
      rw [hsum] at hsum2
      rw [hnorm] at hnorm2
      cases hold2
      cases hsum2
      cases hnorm2
      rw [List.getElem?_set_self hoff]
  · intro idx hidx
    rw [List.getElem?_set_ne (by omega)]
    exact hhigh idx (by omega)

theorem cpu_middle_run {T : Type} [LinearOrderedField T] (sqrt : T → T)
    (invl rinvl reps gamma0 beta0 : T) (gamma beta sumnorm : List T) (dst : List (Option T))
    (m n k : Nat) (hg : gamma[0]? = some gamma0) (hb : beta[0]? = some beta0)
    (hs : 2 * m * n ≤ sumnorm.length) (hd : m * k * n ≤ dst.length) (i1 i2 : Nat)
    (hi1 : i1 < k) (hi2 : i2 < n) (d : List (Option T))
    (hU : kernel.normalize.Updated
      (kernel.normalize.cpu_value sqrt invl rinvl reps gamma0 beta0) m n k sumnorm dst
      ((i2 * k + i1) * m) d) :
    ∃ d2, kernel.normalize.cpu_middle sqrt invl rinvl reps gamma beta sumnorm (m : Int)
        (i2 : Int) (d, (((i2 * k + i1) * m : Nat) : Int)) =
          Run.ret (d2, (((i2 * k + (i1 + 1)) * m : Nat) : Int)) ∧
      kernel.normalize.Updated
        (kernel.normalize.cpu_value sqrt invl rinvl reps gamma0 beta0) m n k sumnorm dst
        ((i2 * k + (i1 + 1)) * m) d2 := by
  obtain ⟨st, hrun, i0, hi0, hoff, hsoff, hU2⟩ := foldRange_invariant 0 (m : Int) (by omega)
    (((d, (((i2 * k + i1) * m : Nat) : Int)), 2 * (m : Int) * (i2 : Int)) :
      (List (Option T) × Int) × Int)
    (fun _ st => kernel.normalize.cpu_element sqrt invl rinvl reps gamma beta sumnorm st)
    (fun i st => ∃ i0 : Nat, i = (i0 : Int) ∧
      st.1.2 = (((i2 * k + i1) * m + i0 : Nat) : Int) ∧
      st.2 = ((2 * (i2 * m + i0) : Nat) : Int) ∧
      kernel.normalize.Updated
        (kernel.normalize.cpu_value sqrt invl rinvl reps gamma0 beta0) m n k sumnorm dst
        ((i2 * k + i1) * m + i0) st.1.1)
    (by
      refine ⟨0, rfl, rfl, ?_, hU⟩
      show 2 * (m : Int) * (i2 : Int) = ((2 * (i2 * m + 0) : Nat) : Int)
      push_cast
      ring)
    (by
      rintro i ⟨⟨d1, off⟩, soff⟩ h0 hi ⟨i0, rfl, hoff, hsoff, hU1⟩
      simp only at hoff hsoff hU1
      subst hoff hsoff
      have hi0 : i0 < m := by omega
      have hidx := normalize_idx_lt m n k i0 i1 i2 hi0 hi1 hi2
      have hsidx := normalize_sidx_lt m n i0 i2 hi0 hi2
      have hold := List.getElem?_eq_getElem (show (i2 * k + i1) * m + i0 < dst.length by omega)
      have hsum := List.getElem?_eq_getElem
        (show 2 * (i2 * m + i0) < sumnorm.length by omega)
      have hnorm := List.getElem?_eq_getElem
        (show 2 * (i2 * m + i0) + 1 < sumnorm.length by omega)
      have hold1 : d1[(i2 * k + i1) * m + i0]? = some dst[(i2 * k + i1) * m + i0] := by
        rw [hU1.2.2 _ (le_refl _), hold]
      refine ⟨_, cpu_element_run sqrt invl rinvl reps gamma0 beta0 gamma beta sumnorm d1 _ _
        _ _ _ hg hb hold1 hsum hnorm, i0 + 1, by push_cast; rfl, ?_, ?_, ?_⟩
      · show (((i2 * k + i1) * m + i0 : Nat) : Int) + 1 = _
        push_cast
        ring
      · show ((2 * (i2 * m + i0) : Nat) : Int) + 2 = _
        push_cast
        ring
      · exact updated_step _ m n k sumnorm dst d1 i0 i1 i2 _ _ _ hi0 hi1 hU1 hold hsum hnorm)
  have him : i0 = m := by omega
  subst him
  have e : (i2 * k + i1) * i0 + i0 = (i2 * k + (i1 + 1)) * i0 := by ring
  rw [e] at hoff hU2
  refine ⟨st.1.1, ?_, hU2⟩
  unfold kernel.normalize.cpu_middle
  simp only [Run.bind_eq, Run.pure_eq, hrun, Run.ret_andThen]
  congr 1
  rw [← hoff]

theorem cpu_rows_run {T : Type} [LinearOrderedField T] (sqrt : T → T)
    (invl rinvl reps gamma0 beta0 : T) (gamma beta sumnorm : List T) (dst : List (Option T))
    (m n k : Nat) (hg : gamma[0]? = some gamma0) (hb : beta[0]? = some beta0)
    (hs : 2 * m * n ≤ sumnorm.length) (hd : m * k * n ≤ dst.length) (i2 : Nat)
    (hi2 : i2 < n) (d : List (Option T))
    (hU : kernel.normalize.Updated
      (kernel.normalize.cpu_value sqrt invl rinvl reps gamma0 beta0) m n k sumnorm dst
      (i2 * k * m) d) :
    ∃ d2, foldRange 0 (k : Int) (d, ((i2 * k * m : Nat) : Int)) (fun _ st =>
        kernel.normalize.cpu_middle sqrt invl rinvl reps gamma beta sumnorm (m : Int)
          (i2 : Int) st) = Run.ret (d2, (((i2 + 1) * k * m : Nat) : Int)) ∧
      kernel.normalize.Updated
        (kernel.normalize.cpu_value sqrt invl rinvl reps gamma0 beta0) m n k sumnorm dst
        ((i2 + 1) * k * m) d2 := by
  obtain ⟨st, hrun, i1, hi1, hoff, hU2⟩ := foldRange_invariant 0 (k : Int) (by omega)
    ((d, ((i2 * k * m : Nat) : Int)) : List (Option T) × Int)
    (fun _ st => kernel.normalize.cpu_middle sqrt invl rinvl reps gamma beta sumnorm
      (m : Int) (i2 : Int) st)
    (fun i st => ∃ i1 : Nat, i = (i1 : Int) ∧ st.2 = (((i2 * k + i1) * m : Nat) : Int) ∧
      kernel.normalize.Updated
        (kernel.normalize.cpu_value sqrt invl rinvl reps gamma0 beta0) m n k sumnorm dst
        ((i2 * k + i1) * m) st.1)
    ⟨0, rfl, rfl, hU⟩
    (by
      rintro i ⟨d1, off⟩ h0 hi ⟨i1, rfl, hoff, hU1⟩
      simp only at hoff hU1
      subst hoff
      obtain ⟨d2, hrun, hU2⟩ := cpu_middle_run sqrt invl rinvl reps gamma0 beta0 gamma beta
        sumnorm dst m n k hg hb hs hd i1 i2 (by omega) hi2 d1 hU1
      exact ⟨_, hrun, i1 + 1, by push_cast; rfl, rfl, hU2⟩)
  have hik : i1 = k := by omega
  subst hik
  have e : (i2 * i1 + i1) * m = (i2 + 1) * i1 * m := by ring
  rw [e] at hoff hU2
  refine ⟨st.1, ?_, hU2⟩
  rw [hrun]
  congr 1
  rw [← hoff]

theorem normalize_cpu_run {T : Type} [LinearOrderedField T] (sqrt : T → T) (m n k : Nat)
    (l : Int) (eps gamma0 beta0 : T) (gamma beta sumnorm : List T) (dst : List (Option T))
    (hg : gamma[0]? = some gamma0) (hb : beta[0]? = some beta0)
    (hs : 2 * m * n ≤ sumnorm.length) (hd : m * k * n ≤ dst.length) :
    ∃ out, kernel.normalize.cpu sqrt (m : Int) (n : Int) (k : Int) l eps gamma beta sumnorm
        dst = Run.ret out ∧
      kernel.normalize.Updated
        (kernel.normalize.cpu_value sqrt (1 / (l : T)) (sqrt (1 / (l : T))) (sqrt eps)
          gamma0 beta0) m n k sumnorm dst (m * k * n) out := by
  obtain ⟨st, hrun, i2, hi2, hoff, hU2⟩ := foldRange_invariant 0 (n : Int) (by omega)
    ((dst, (0 : Int)) : List (Option T) × Int)
    (fun i2 st => foldRange 0 (k : Int) st fun _ st =>
      kernel.normalize.cpu_middle sqrt (1 / (l : T)) (sqrt (1 / (l : T))) (sqrt eps) gamma beta
        sumnorm (m : Int) i2 st)
    (fun i st => ∃ i2 : Nat, i = (i2 : Int) ∧ st.2 = ((i2 * k * m : Nat) : Int) ∧
      kernel.normalize.Updated
        (kernel.normalize.cpu_value sqrt (1 / (l : T)) (sqrt (1 / (l : T))) (sqrt eps)
          gamma0 beta0) m n k sumnorm dst (i2 * k * m) st.1)
    (by
      refine ⟨0, rfl, by simp, rfl, ?_, fun idx _ => rfl⟩
      intro i0 i1 i2 old sum norm _ _ _ h
      simp at h)
    (by
      rintro i ⟨d1, off⟩ h0 hi ⟨i2, rfl, hoff, hU1⟩
      simp only at hoff hU1
      subst hoff
      obtain ⟨d2, hrun, hU2⟩ := cpu_rows_run sqrt (1 / (l : T)) (sqrt (1 / (l : T)))
        (sqrt eps) gamma0 beta0 gamma beta sumnorm dst m n k hg hb hs hd i2 (by omega) d1 hU1
      exact ⟨_, hrun, i2 + 1, by push_cast; rfl, rfl, hU2⟩)
  have hin : i2 = n := by omega
  subst hin
  have e : i2 * k * m = m * k * i2 := by ring
  rw [e] at hU2
  refine ⟨st.1, ?_, hU2⟩
  unfold kernel.normalize.cpu
  simp only [Run.bind_eq, Run.pure_eq, hrun, Run.ret_andThen]

/-- The run of `normalize::cpu` on a buffer of one element, for `m = n = k = 1`. -/
theorem normalize_cpu_single {T : Type} [LinearOrderedField T] (sqrt : T → T) (l : Int)
    (eps gamma0 beta0 sum norm : T) (old : Option T) :
    kernel.normalize.cpu sqrt ((1 : Nat) : Int) ((1 : Nat) : Int) ((1 : Nat) : Int) l eps
        [gamma0] [beta0] [sum, norm] [old] =
      Run.ret [kernel.normalize.cpu_value sqrt (1 / (l : T)) (sqrt (1 / (l : T))) (sqrt eps)
        gamma0 beta0 old sum norm] := by
  obtain ⟨out, hrun, hlen, hlow, -⟩ := normalize_cpu_run sqrt 1 1 1 l eps gamma0 beta0
    [gamma0] [beta0] [sum, norm] [old] rfl rfl (by simp) (by simp)
  have h0 := hlow 0 0 0 old sum norm (by decide) (by decide) (by decide) (by decide) rfl rfl
    rfl
  rw [hrun]
  congr 1
  match out, hlen, h0 with
  | [y], _, h0 =>
    simp only [Nat.zero_mul, Nat.add_zero, Nat.mul_one, List.getElem?_cons_zero,
      Option.some.injEq] at h0
    rw [h0]

/-- C15 (as stated): with `l = 1`, `eps = 0` and the pair `(sum, norm) = (1, 1)`, which
meets `l > 0`, `eps >= 0`, `norm > 0` and `mean^2 <= norm^2/l`, the deviation that the
kernel computes is `0` and the element that it stores has no value: the kernel divides
`val - mean` by zero, as does the formula, whose divisor `sqrt(norm^2/l - mean^2 + eps)`
is `0` there. -/
theorem normalize_zero_deviation_counterexample :
    (0 : ℝ) < 1 ∧ ((1 : ℝ) / ((1 : Nat) : ℝ)) ^ 2 ≤ (1 : ℝ) ^ 2 / ((1 : Nat) : ℝ) ∧
    Real.sqrt ((1 : ℝ) ^ 2 / ((1 : Nat) : ℝ) - ((1 : ℝ) / ((1 : Nat) : ℝ)) ^ 2 + 0) = 0 ∧
    kernel.normalize.cpu_dev Real.sqrt (Real.sqrt 0) (1 * (1 / (((1 : Int)) : ℝ)))
      (1 * Real.sqrt (1 / (((1 : Int)) : ℝ))) = 0 ∧
    kernel.normalize.cpu Real.sqrt ((1 : Nat) : Int) ((1 : Nat) : Int) ((1 : Nat) : Int)
      (1 : Int) (0 : ℝ) [2] [1] [1, 1] [some 3] = Run.ret [none] := by
  have hdev : kernel.normalize.cpu_dev Real.sqrt (Real.sqrt 0) (1 * (1 / (((1 : Int)) : ℝ)))
      (1 * Real.sqrt (1 / (((1 : Int)) : ℝ))) = 0 := by
    simp [kernel.normalize.cpu_dev]
  refine ⟨by norm_num, by norm_num, by norm_num, hdev, ?_⟩
  rw [normalize_cpu_single, cpu_value_none]
  unfold kernel.normalize.cpu_divisors
  rw [hdev]
  simp

/-- C15 (amended): the kernel `normalize::cpu` applies the documented formula where the
formula has a value.  Over an ordered field with an exact square root, for `l > 0`,
`eps >= 0`, a buffer `sumnorm` of `2*m*n` numbers and a buffer `dst` of `m*k*n` numbers, the
kernel ends normally and, for all `i0 < m`, `i1 < k`, `i2 < n` with
`norm = sumnorm[2*(i2*m+i0)+1] > 0`, `mean^2 <= norm^2/l` for
`mean = sumnorm[2*(i2*m+i0)]/l` and `norm^2/l - mean^2 + eps > 0`, the element
`dst[(i2*k+i1)*m+i0]` becomes the number
`(old - mean)/sqrt(norm^2/l - mean^2 + eps)*gamma[0] + beta[0]`, with the same pair of
`sumnorm` for every `i1`; when `norm^2/l - mean^2 = 1` this is
`(old - mean)/sqrt(1 + eps)*gamma[0] + beta[0]`; with `norm > 0`, `mean^2 <= norm^2/l` and
`norm^2/l - mean^2 + eps = 0` the deviation is zero and the element, divided by it, has no
value; the elements of `dst` from `m*k*n` on are left as they are. -/
theorem normalize_cpu_formula {T : Type} [LinearOrderedField T] (sqrt : T → T)
    (hsqrt : ∀ x, 0 ≤ x → 0 ≤ sqrt x ∧ sqrt x * sqrt x = x) (m n k l : Nat)
    (eps gamma0 beta0 : T) (gamma beta sumnorm dst : List T) (hl : 0 < l) (heps : 0 ≤ eps)
    (hg : gamma[0]? = some gamma0) (hb : beta[0]? = some beta0)
    (hs : 2 * m * n ≤ sumnorm.length) (hd : m * k * n ≤ dst.length) :
    ∃ out, kernel.normalize.cpu sqrt (m : Int) (n : Int) (k : Int) (l : Int) eps gamma beta
        sumnorm (dst.map some) = Run.ret out ∧
      out.length = dst.length ∧
      (∀ (i0 i1 i2 : Nat) (old sum norm : T), i0 < m → i1 < k → i2 < n →
        dst[(i2 * k + i1) * m + i0]? = some old → sumnorm[2 * (i2 * m + i0)]? = some sum →
        sumnorm[2 * (i2 * m + i0) + 1]? = some norm →
        0 < norm → (sum / l) ^ 2 ≤ norm ^ 2 / l → 0 < norm ^ 2 / l - (sum / l) ^ 2 + eps →
        out[(i2 * k + i1) * m + i0]? =
          some (some ((old - sum / l) / sqrt (norm ^ 2 / l - (sum / l) ^ 2 + eps) * gamma0 +
            beta0))) ∧
      (∀ (i0 i1 i2 : Nat) (old sum norm : T), i0 < m → i1 < k → i2 < n →
        dst[(i2 * k + i1) * m + i0]? = some old → sumnorm[2 * (i2 * m + i0)]? = some sum →
        sumnorm[2 * (i2 * m + i0) + 1]? = some norm →
        0 < norm → norm ^ 2 / l - (sum / l) ^ 2 = 1 →
        out[(i2 * k + i1) * m + i0]? =
          some (some ((old - sum / l) / sqrt (1 + eps) * gamma0 + beta0))) ∧
      (∀ (i0 i1 i2 : Nat) (old sum norm : T), i0 < m → i1 < k → i2 < n →
        dst[(i2 * k + i1) * m + i0]? = some old → sumnorm[2 * (i2 * m + i0)]? = some sum →
        sumnorm[2 * (i2 * m + i0) + 1]? = some norm →
        0 < norm → (sum / l) ^ 2 ≤ norm ^ 2 / l → norm ^ 2 / l - (sum / l) ^ 2 + eps = 0 →
        kernel.normalize.cpu_dev sqrt (sqrt eps) (sum * (1 / (((l : Int)) : T)))
          (norm * sqrt (1 / (((l : Int)) : T))) = 0 ∧
        out[(i2 * k + i1) * m + i0]? = some none) ∧
      (∀ idx : Nat, m * k * n ≤ idx → out[idx]? = (dst.map some)[idx]?) := by
  obtain ⟨out, hrun, hlen, hlow, hhigh⟩ := normalize_cpu_run sqrt m n k (l : Int) eps gamma0
    beta0 gamma beta sumnorm (dst.map some) hg hb hs (by rw [List.length_map]; exact hd)
  have hread : ∀ (idx : Nat) (old : T), dst[idx]? = some old →
      (dst.map some)[idx]? = some (some old) := by
    intro idx old h
    rw [List.getElem?_map, h]
    rfl
  have main : ∀ (i0 i1 i2 : Nat) (old sum norm : T), i0 < m → i1 < k → i2 < n →
      dst[(i2 * k + i1) * m + i0]? = some old → sumnorm[2 * (i2 * m + i0)]? = some sum →
      sumnorm[2 * (i2 * m + i0) + 1]? = some norm →
      0 < norm → (sum / l) ^ 2 ≤ norm ^ 2 / l → 0 < norm ^ 2 / l - (sum / l) ^ 2 + eps →
      out[(i2 * k + i1) * m + i0]? =
        some (some ((old - sum / l) / sqrt (norm ^ 2 / l - (sum / l) ^ 2 + eps) * gamma0 +
          beta0)) := by
    intro i0 i1 i2 old sum norm h0 h1 h2 hold hsum hnorm hpos hm hv
    rw [hlow i0 i1 i2 (some old) sum norm h0 h1 h2 (normalize_idx_lt m n k i0 i1 i2 h0 h1 h2)
      (hread _ _ hold) hsum hnorm,
      cpu_value_eq sqrt hsqrt l eps gamma0 beta0 old sum norm hl heps hpos hm hv]
  have zero : ∀ (i0 i1 i2 : Nat) (old sum norm : T), i0 < m → i1 < k → i2 < n →
      dst[(i2 * k + i1) * m + i0]? = some old → sumnorm[2 * (i2 * m + i0)]? = some sum →
      sumnorm[2 * (i2 * m + i0) + 1]? = some norm →
      (0 : T) ∈ kernel.normalize.cpu_divisors sqrt (sqrt eps) (sum * (1 / (((l : Int)) : T)))
        (norm * sqrt (1 / (((l : Int)) : T))) →
      out[(i2 * k + i1) * m + i0]? = some none := by
    intro i0 i1 i2 old sum norm h0 h1 h2 hold hsum hnorm hz
    rw [hlow i0 i1 i2 (some old) sum norm h0 h1 h2 (normalize_idx_lt m n k i0 i1 i2 h0 h1 h2)
      (hread _ _ hold) hsum hnorm, cpu_value_none sqrt _ _ _ _ _ _ _ _ hz]
  refine ⟨out, hrun, by rw [hlen, List.length_map], main, ?_, ?_, hhigh⟩
  · intro i0 i1 i2 old sum norm h0 h1 h2 hold hsum hnorm hpos hv
    rw [main i0 i1 i2 old sum norm h0 h1 h2 hold hsum hnorm hpos (by linarith)
      (by rw [hv]; linarith), hv]
  · intro i0 i1 i2 old sum norm h0 h1 h2 hold hsum hnorm hpos hm hv
    have hlT : (0 : T) < l := by exact_mod_cast hl
    obtain ⟨hr0, hr1⟩ := hsqrt _ (le_of_lt (one_div_pos.2 hlT))
    obtain ⟨he0, he1⟩ := hsqrt _ heps
    have hrpos : 0 < sqrt (1 / (l : T)) := sqrt_pos_of_pos sqrt hsqrt _ (one_div_pos.2 hlT)
    have hmean : sum * (1 / (l : T)) = sum / l := by ring
    have hsq0 : sqrt (0 : T) = 0 := by
      obtain ⟨_, h⟩ := hsqrt 0 (le_refl _)
      exact mul_self_eq_zero.1 h
    have hdev : kernel.normalize.cpu_dev sqrt (sqrt eps) (sum / l)
        (norm * sqrt (1 / (l : T))) = 0 := by
      rw [cpu_dev_eq sqrt hsqrt (sqrt eps) (sum / l) (norm * sqrt (1 / (l : T)))
        (mul_pos hpos hrpos) he0 (by
          have e : norm * sqrt (1 / (l : T)) * (norm * sqrt (1 / (l : T))) =
              norm ^ 2 * (sqrt (1 / (l : T)) * sqrt (1 / (l : T))) := by ring
          rw [e, hr1]
          have e2 : norm ^ 2 * (1 / (l : T)) = norm ^ 2 / l := by ring
          rw [e2, ← sq]
          exact hm)]
      have e : norm * sqrt (1 / (l : T)) * (norm * sqrt (1 / (l : T))) - sum / l * (sum / l) +
          sqrt eps * sqrt eps = norm ^ 2 / l - (sum / l) ^ 2 + eps := by
        have e1 : norm * sqrt (1 / (l : T)) * (norm * sqrt (1 / (l : T))) =
            norm ^ 2 * (sqrt (1 / (l : T)) * sqrt (1 / (l : T))) := by ring
        rw [e1, hr1, he1]
        ring
      rw [e, hv, hsq0]
    rw [Int.cast_natCast, hmean]
    refine ⟨hdev, zero i0 i1 i2 old sum norm h0 h1 h2 hold hsum hnorm ?_⟩
    rw [Int.cast_natCast, hmean]
    unfold kernel.normalize.cpu_divisors
    rw [hdev]
    simp

theorem normalize_cpu_formula_witness :
    ∃ out, kernel.normalize.cpu Real.sqrt ((1 : Nat) : Int) ((1 : Nat) : Int)
        ((1 : Nat) : Int) ((1 : Nat) : Int) (3 : ℝ) [2] [1] [0, 1] ([3].map some) =
          Run.ret out ∧
      out[(0 * 1 + 0) * 1 + 0]? =
        some (some (((3 : ℝ) - 0 / ((1 : Nat) : ℝ)) / Real.sqrt (1 + 3) * 2 + 1)) := by
  obtain ⟨out, h1, _, _, h2, _⟩ := normalize_cpu_formula Real.sqrt
    (fun x hx => ⟨Real.sqrt_nonneg x, Real.mul_self_sqrt hx⟩) 1 1 1 1 (3 : ℝ) 2 1 [2] [1]
    [0, 1] [3] (by decide) (by norm_num) rfl rfl (by decide) (by decide)
  exact ⟨out, h1, h2 0 0 0 3 0 1 (by decide) (by decide) (by decide) rfl rfl rfl
    (by norm_num) (by norm_num)⟩

/-! ## The bound on the turns of the carry loop of `randn` -/

theorem Run.andThen_congr {α β : Type} (m : Run α) (f g : α → Run β)
    (h : ∀ a, m.result = .ok a → f a = g a) : m.andThen f = m.andThen g := by
  unfold Run.andThen
  cases hm : m.result with
  | error e => rfl
  | ok a => simp only [h a hm]

theorem vset_length {α : Type} (v w : List α) (i : Int) (x : α)
    (h : (vset v i x).result = .ok w) : w.length = v.length := by
  unfold vset at h
  split at h
  · simp only [Run.ret_result, Outcome.ok.injEq] at h
    rw [← h, List.length_set]
  · simp at h

theorem vget_of_ge {α : Type} (v : List α) (i : Int) (h : (v.length : Int) ≤ i) :
    vget v i = Run.raise .vector_bounds := by
  unfold vget
  rw [if_pos (by omega), List.getElem?_eq_none (by omega)]

/-- The carry loop of `randn` never uses up its turns: once the bound on the turns is at
least the number of entries of `tmp_index` from `k` on, a larger bound gives the same
run. -/
theorem randn_carry_fuel (shape underlying_shape stride : Option (List Int))
    (fuel fuel2 : Nat) (c : kernel.cpu.Carry) (h0 : 0 ≤ c.k)
    (h : c.tmp_index.length ≤ c.k.toNat + fuel) (h2 : fuel ≤ fuel2) :
    kernel.cpu.randn_carry shape underlying_shape stride fuel c =
      kernel.cpu.randn_carry shape underlying_shape stride fuel2 c := by
  induction fuel generalizing fuel2 c with
  | zero =>
    cases fuel2 with
    | zero => rfl
    | succ fuel2 =>
      simp only [kernel.cpu.randn_carry, Run.bind_eq]
      rw [vget_of_ge _ _ (by omega), Run.raise_andThen]
  | succ fuel ih =>
    cases fuel2 with
    | zero => omega
    | succ fuel2 =>
      simp only [kernel.cpu.randn_carry, Run.bind_eq, Run.pure_eq]
      refine Run.andThen_congr _ _ _ fun t _ => Run.andThen_congr _ _ _ fun s _ => ?_
      split
      · refine Run.andThen_congr _ _ _ fun t1 ht1 => Run.andThen_congr _ _ _ fun d _ =>
          Run.andThen_congr _ _ _ fun t2 ht2 => Run.andThen_congr _ _ _ fun u _ =>
          Run.andThen_congr _ _ _ fun s2 _ => Run.andThen_congr _ _ _ fun a _ =>
          Run.andThen_congr _ _ _ fun b _ => ?_
        have hl1 := vset_length _ _ _ _ ht1
        have hl2 := vset_length _ _ _ _ ht2
        exact ih fuel2 _ (by show 0 ≤ c.k + 1; omega)
          (by show t2.length ≤ (c.k + 1).toNat + fuel; omega) (by omega)
      · rfl

/-! ## The short-circuit of `add_scalar_async` and `hypot_async` -/

/-- C21 (as stated): with `alpha == 0` and `beta == 2` both drivers do submit a task and
flush the tiles.  On the node of rank `1`, `add_scalar_async(0, 2, dst)` on the vector of
two tiles submits the task of the tile it owns and flushes both tiles, and
`hypot_async(0, src, 2, dst)` on the `4 x 4` tensors submits the tasks of the two tiles it
owns and flushes all four. -/
theorem zero_alpha_counterexample :
    tasks (add_scalar_async 1 0 2 sample4).effects = [Task.add_scalar 2 0 2 ⟨40, 1⟩] ∧
    flushes (add_scalar_async 1 0 2 sample4).effects = [⟨40, 1⟩, ⟨41, 0⟩] ∧
    tasks (hypot_async 1 0 (sample44 0) 2 (sample44 10)).effects =
      [Task.hypot 4 0 ⟨1, 1⟩ 2 ⟨11, 1⟩, Task.hypot 4 0 ⟨3, 1⟩ 2 ⟨13, 1⟩] ∧
    flushes (hypot_async 1 0 (sample44 0) 2 (sample44 10)).effects =
      [⟨10, 0⟩, ⟨11, 1⟩, ⟨12, 0⟩, ⟨13, 1⟩] := by
  have h1 := add_scalar_async_run 1 0 2 sample4 (by decide) (by norm_num)
  have h2 := hypot_async_run 1 0 (sample44 0) 2 (sample44 10) (by decide) (by decide) rfl rfl
    rfl (by norm_num)
  rw [h1, h2]
  refine ⟨?_, ?_, ?_, ?_⟩ <;> rfl

/-- C21 (amended): `add_scalar_async` and `hypot_async` make no request, so submit no task
and flush nothing, when `alpha == 0` and `beta == 1`; when `alpha == 0` and `beta != 1`,
on well-formed operands that pass the checks, they flush every destination tile and submit
one task for every tile that the calling rank owns. -/
theorem zero_alpha_short_circuit (mpi_rank : Int) (beta : scal_t) (src dst : Tensor) :
    (beta = 1 →
      (add_scalar_async mpi_rank 0 beta dst).effects = [] ∧
      (hypot_async mpi_rank 0 src beta dst).effects = []) ∧
    (beta ≠ 1 → dst.WF →
      flushes (add_scalar_async mpi_rank 0 beta dst).effects = dst.tile_handles ∧
      tasks (add_scalar_async mpi_rank 0 beta dst).effects =
        ((List.range dst.grid.nelems.toNat).filter
          (fun i => mpi_rank = (dst.handle i).rank)).map
          (fun i => Task.add_scalar (dst.traits i).nelems 0 beta (dst.handle i))) ∧
    (beta ≠ 1 → src.WF → dst.WF → dst.ndim = src.ndim → dst.shape = src.shape →
      dst.basetile_shape = src.basetile_shape →
      flushes (hypot_async mpi_rank 0 src beta dst).effects = dst.tile_handles ∧
      tasks (hypot_async mpi_rank 0 src beta dst).effects =
        ((List.range dst.grid.nelems.toNat).filter
          (fun i => mpi_rank = (dst.handle i).rank)).map
          (fun i => Task.hypot (src.traits i).nelems 0 (src.handle i) beta (dst.handle i))) := by
  refine ⟨?_, ?_, ?_⟩
  · intro hb
    subst hb
    constructor
    · unfold add_scalar_async
      simp
    · rw [hypot_async_eq]
      simp only [and_self, if_true]
      cases h : (hypot_check src dst).result with
      | ok u => rw [Run.andThen_of_ok _ h, hypot_check_quiet]; rfl
      | error e => rw [Run.andThen_of_error _ h, hypot_check_quiet]
  · intro hb hd
    have hlen : dst.tile_handles.length = dst.grid.nelems.toNat := by
      have := hd.2.2.2.2.2.1
      omega
    rw [add_scalar_async_run mpi_rank 0 beta dst hd (fun h => hb h.2)]
    constructor
    · rw [flushes_flatMap, ← map_handle_range dst _ hlen, ← flatMap_singleton_eq_map]
      apply List.flatMap_congr
      intro i _
      unfold add_scalar_block
      split <;> rfl
    · rw [tasks_flatMap, ← flatMap_ite_singleton]
      apply List.flatMap_congr
      intro i _
      exact tasks_add_scalar_block mpi_rank 0 beta dst i
  · intro hb hs hd hn hsh hbt
    have hlen : dst.tile_handles.length = dst.grid.nelems.toNat := by
      have := hd.2.2.2.2.2.1
      omega
    rw [hypot_async_run mpi_rank 0 src beta dst hs hd hn hsh hbt (fun h => hb h.2)]
    constructor
    · rw [flushes_flatMap, ← map_handle_range dst _ hlen, ← flatMap_singleton_eq_map]
      apply List.flatMap_congr
      intro i _
      unfold hypot_block
      split <;> rfl
    · rw [tasks_flatMap, ← flatMap_ite_singleton]
      apply List.flatMap_congr
      intro i _
      exact tasks_hypot_block mpi_rank 0 src beta dst i

theorem zero_alpha_short_circuit_witness :
    (add_scalar_async 1 0 1 sample4).effects = [] ∧
    (hypot_async 1 0 (sample44 0) 1 (sample44 10)).effects = [] ∧
    flushes (add_scalar_async 1 0 2 sample4).effects = sample4.tile_handles :=
  ⟨((zero_alpha_short_circuit 1 1 (sample44 0) sample4).1 rfl).1,
    ((zero_alpha_short_circuit 1 1 (sample44 0) (sample44 10)).1 rfl).2,
    ((zero_alpha_short_circuit 1 2 (sample44 0) sample4).2.1 (by norm_num) (by decide)).1⟩

/-! ## The barrier of the Python module -/

/-- C24: the function bound to the Python name `starpu.wait_for_all` makes one request,
`starpu_mpi_wait_for_all(MPI_COMM_WORLD)`, and does not wait for the local tasks:
`starpu_task_wait_for_all` is named in it without being called.  The blocking driver
`gelutanh` ends with the two waits, the wait for the local tasks first. -/
theorem python_wait_for_all_skips_task_wait :
    def_mod_starpu.wait_for_all = ⟨[Effect.mpi_wait_for_all], .ok ()⟩ ∧
    Effect.task_wait_for_all ∉ def_mod_starpu.wait_for_all.effects ∧
    (gelutanh 1 sample4).effects.drop 3 =
      [Effect.task_wait_for_all, Effect.mpi_wait_for_all] := by
  decide

/-! ## Validation before the short-circuit of `hypot_async` -/

/-- C25: `hypot_async` ends with an exception of its checks exactly when the checks do,
whatever `alpha` and `beta` are, so the rejected pairs of operands are the same for all
scalar arguments; with `alpha == 0` and `beta == 1` operands that differ in `ndim`, in a
`shape` entry or in a `basetile_shape` entry are rejected before the short-circuit, and no
request is made. -/
theorem hypot_validation_before_short_circuit (mpi_rank : Int) (alpha beta alpha2 beta2 : scal_t)
    (src dst : Tensor) :
    (∀ what, (hypot_async mpi_rank alpha src beta dst).result = .error (.validation what) ↔
      (hypot_check src dst).result = .error (.validation what)) ∧
    (∀ what, (hypot_async mpi_rank alpha src beta dst).result = .error (.validation what) ↔
      (hypot_async mpi_rank alpha2 src beta2 dst).result = .error (.validation what)) ∧
    (src.ShapeWF → dst.ShapeWF →
      (dst.ndim ≠ src.ndim ∨ ∃ i : Nat, (i : Int) < dst.ndim ∧
        (dst.shape[i]? ≠ src.shape[i]? ∨
          dst.basetile_shape[i]? ≠ src.basetile_shape[i]?)) →
      ∃ what, hypot_async mpi_rank 0 src 1 dst = ⟨[], .error (.validation what)⟩) := by
  have key : ∀ (a b : scal_t) (what : String),
      (hypot_async mpi_rank a src b dst).result = .error (.validation what) ↔
        (hypot_check src dst).result = .error (.validation what) := by
    intro a b what
    rw [hypot_async_eq]
    cases h : (hypot_check src dst).result with
    | ok u =>
      rw [Run.andThen_of_ok _ h]
      constructor
      · intro h2
        exact absurd h2 (hypot_rest_no_validation mpi_rank a src b dst what)
      · intro h2
        cases h2
    | error e =>
      rw [Run.andThen_of_error _ h]
  refine ⟨key alpha beta, fun what => (key alpha beta what).trans (key alpha2 beta2 what).symm,
    ?_⟩
  intro hs hd hbad
  have hc := hypot_check_spec src dst hs hd
  have hne : (hypot_check src dst).result ≠ .ok () := by
    intro hok
    obtain ⟨hn, hall⟩ := hc.2.1 hok
    rcases hbad with h | ⟨i, hi, h⟩
    · exact h hn
    · rcases h with h | h
      · exact h (hall i hi).1
      · exact h (hall i hi).2
  rcases hc.1.2 with hok | ⟨what, herr⟩
  · exact absurd hok hne
  · refine ⟨what, ?_⟩
    rw [hypot_async_eq, Run.andThen_of_error _ herr, hc.1.1]

theorem hypot_validation_before_short_circuit_witness :
    ∃ what, hypot_async 0 0 (sample44 0) 1 sample44_23 = ⟨[], .error (.validation what)⟩ :=
  (hypot_validation_before_short_circuit 0 0 1 0 1 (sample44 0) sample44_23).2.2 (by decide)
    (by decide) (Or.inr ⟨1, by decide, Or.inr (by decide)⟩)

/-! ## The tile pairs of the tensor-level copy -/

theorem copy_offset_length (offset tile_index basetile_shape : List Int) (n : Nat)
    (h1 : offset.length = n) (h2 : tile_index.length = n) (h3 : basetile_shape.length = n) :
    (copy_offset offset tile_index basetile_shape).length = n := by
  unfold copy_offset
  rw [List.length_zipWith, List.length_zipWith, h1, h2, h3]
  omega

theorem copy_offset_getElem? (offset tile_index basetile_shape : List Int) (k : Nat)
    (o x b : Int) (ho : offset[k]? = some o) (hx : tile_index[k]? = some x)
    (hb : basetile_shape[k]? = some b) :
    (copy_offset offset tile_index basetile_shape)[k]? = some (o + x * b) := by
  unfold copy_offset
  simp [List.getElem?_zipWith, ho, hx, hb]

theorem copy_tile_offset_run (n : Nat) (offset tile_index basetile_shape : List Int)
    (h1 : offset.length = n) (h2 : tile_index.length = n) (h3 : basetile_shape.length = n) :
    copy_tile_offset (n : Int) offset tile_index basetile_shape =
      Run.ret (copy_offset offset tile_index basetile_shape) := by
  unfold copy_tile_offset
  obtain ⟨out, hrun, hl, hv⟩ := foldRange_invariant 0 (n : Int) (by omega) offset
    (fun k tile_offset => do
      let o ← vget tile_offset k
      let x ← vget tile_index k
      let b ← vget basetile_shape k
      vset tile_offset k (o + x * b))
    (fun k t => t.length = n ∧ ∀ j : Nat, t[j]? =
      if (j : Int) < k then (copy_offset offset tile_index basetile_shape)[j]? else offset[j]?)
    ⟨h1, fun j => by rw [if_neg (by omega)]⟩ (by
      rintro k t h0 hk ⟨hl, hv⟩
      obtain ⟨k, rfl⟩ := Int.eq_ofNat_of_zero_le h0
      have hkn : k < n := by omega
      have ho := List.getElem?_eq_getElem (show k < offset.length by omega)
      have hx := List.getElem?_eq_getElem (show k < tile_index.length by omega)
      have hb := List.getElem?_eq_getElem (show k < basetile_shape.length by omega)
      have ht : t[k]? = some offset[k] := by rw [hv k, if_neg (by omega), ho]
      refine ⟨t.set k (offset[k] + tile_index[k] * basetile_shape[k]), ?_, ?_, ?_⟩
      · simp only [Run.bind_eq, vget_nat t k _ ht, vget_nat tile_index k _ hx,
          vget_nat basetile_shape k _ hb, Run.ret_andThen]
        exact vset_nat t k _ (by omega)
      · show (t.set k _).length = n
        rw [List.length_set, hl]
      · intro j
        show (t.set k _)[j]? = _
        rcases eq_or_ne k j with h | h
        · subst h
          rw [List.getElem?_set_self (by omega), if_pos (by omega),
            copy_offset_getElem? _ _ _ k _ _ _ ho hx hb]
        · rw [List.getElem?_set_ne h, hv j]
          by_cases hj : j < k
          · rw [if_pos (by omega), if_pos (by omega)]
          · rw [if_neg (by omega), if_neg (by omega)])
  rw [hrun]
  congr 1
  apply List.ext_getElem?
  intro j
  rw [hv j]
  split
  · rfl
  · rw [List.getElem?_eq_none (by omega), List.getElem?_eq_none
      (by rw [copy_offset_length _ _ _ n h1 h2 h3]; omega)]

theorem get_tile_nat (t : Tensor) (k : Nat) (h1 : k < t.tile_traits.length)
    (h2 : k < t.tile_handles.length) :
    t.get_tile (k : Int) = Run.ret ⟨t.traits k, t.handle k⟩ := by
  unfold Tensor.get_tile
  simp only [Run.bind_eq, Run.pure_eq, get_tile_traits_nat t k h1, get_tile_handle_nat t k h2,
    Run.ret_andThen]

theorem to_index_nat (G : GridMaps) (g : TileTraits) (hG : G.Lawful g) (i : Nat)
    (h1 : (i : Int) < g.nelems) :
    G.to_index g (i : Int) = Run.ret ((G.linear_to_index g i).getD []) ∧
      ((G.linear_to_index g i).getD []).length = g.shape.length := by
  obtain ⟨c, hc, hin, _⟩ := hG.index_of_linear i (by omega) h1
  unfold GridMaps.to_index
  rw [hc]
  exact ⟨rfl, hin.1⟩

theorem copy_intersection_dst_tile_run (G : GridMaps) (src_tile : Tile)
    (src_tile_offset : List Int) (dst : Tensor) (dst_offset : List Int) (j : Nat)
    (hd : dst.WF) (hG : G.Lawful dst.grid) (ho : dst.ndim = (dst_offset.length : Int))
    (hj : (j : Int) < dst.grid.nelems) :
    copy_intersection_dst_tile G dst.ndim src_tile src_tile_offset dst dst_offset j =
      ⟨[Effect.tile_copy_intersection src_tile src_tile_offset ⟨dst.traits j, dst.handle j⟩
        (copy_offset dst_offset ((G.linear_to_index dst.grid j).getD [])
          dst.basetile_shape)], .ok ()⟩ := by
  have hgl := grid_shape_length dst hd
  obtain ⟨hsw, _, _, _, _, hth, htt, _⟩ := hd
  obtain ⟨hc, hcl⟩ := to_index_nat G dst.grid hG j hj
  have hn : dst.ndim = ((dst_offset.length : Nat) : Int) := ho
  have hoff := copy_tile_offset_run dst_offset.length dst_offset
    ((G.linear_to_index dst.grid j).getD []) dst.basetile_shape rfl (by omega)
    (by have := hsw.1; have := hsw.2; omega)
  rw [← hn] at hoff
  unfold copy_intersection_dst_tile
  simp only [Run.bind_eq, hc, hoff, get_tile_nat dst j (by omega) (by omega), Run.ret_andThen]
  rfl

theorem copy_intersection_src_tile_run (G : GridMaps) (src : Tensor) (src_offset : List Int)
    (dst : Tensor) (dst_offset : List Int) (i : Nat) (hs : src.WF) (hd : dst.WF)
    (hGs : G.Lawful src.grid) (hGd : G.Lawful dst.grid)
    (h1 : src.ndim = (src_offset.length : Int)) (h2 : src.ndim = dst.ndim)
    (h3 : dst.ndim = (dst_offset.length : Int)) (hi : (i : Int) < src.grid.nelems) :
    copy_intersection_src_tile G src.ndim src src_offset dst dst_offset i =
      ⟨(List.range dst.grid.nelems.toNat).map
        (copy_intersection_call G src src_offset dst dst_offset i), .ok ()⟩ := by
  have hgl := grid_shape_length src hs
  obtain ⟨hsw, _, _, _, _, hth, htt, _⟩ := hs
  obtain ⟨hc, hcl⟩ := to_index_nat G src.grid hGs i hi
  have hn : src.ndim = ((src_offset.length : Nat) : Int) := h1
  have hoff := copy_tile_offset_run src_offset.length src_offset
    ((G.linear_to_index src.grid i).getD []) src.basetile_shape rfl (by omega)
    (by have := hsw.1; have := hsw.2; omega)
  rw [← hn] at hoff
  unfold copy_intersection_src_tile
  simp only [Run.bind_eq, hc, hoff, get_tile_nat src i (by omega) (by omega), Run.ret_andThen]
  rw [h2, forRange_blocks _ _ (fun j => [copy_intersection_call G src src_offset dst dst_offset
    i j]) (fun j hj => copy_intersection_dst_tile_run G _ _ dst dst_offset j hd hGd h3 hj),
    flatMap_singleton_eq_map]

theorem length_flatMap_map_range {α : Type} (m n : Nat) (f : Nat → Nat → α) :
    ((List.range m).flatMap fun i => (List.range n).map (f i)).length = m * n := by
  induction m with
  | zero => simp
  | succ m ih =>
    rw [List.range_succ, List.flatMap_append, List.length_append, ih]
    simp [Nat.succ_mul]

/-- C23: on well-formed tensors with lawful index maps and arguments that pass the checks,
`copy_intersection_async` with `ndim >= 1` ends normally after one call of the tile-level
copy for every pair of a source tile `i` and a destination tile `j`, in the order of the
nested loops, `src.grid.nelems * dst.grid.nelems` calls in all, whatever the tile layouts
of the two tensors are; the tile with index `t` is passed the offset
`offset[k] + t[k]*basetile_shape[k]` on every axis `k`, taken from the offset and the tile
shape of its own tensor (the offsets of the caller are arguments that are read only); with
`ndim == 0` it makes one call on tile `0` of each tensor with the offsets of the caller. -/
theorem copy_intersection_async_tile_pairs (G : GridMaps) (src : Tensor)
    (src_offset : List Int) (dst : Tensor) (dst_offset : List Int) (hs : src.WF) (hd : dst.WF)
    (hGs : G.Lawful src.grid) (hGd : G.Lawful dst.grid)
    (h1 : src.ndim = (src_offset.length : Int)) (h2 : src.ndim = dst.ndim)
    (h3 : dst.ndim = (dst_offset.length : Int)) :
    (src.ndim ≠ 0 →
      copy_intersection_async G src src_offset dst dst_offset =
        ⟨(List.range src.grid.nelems.toNat).flatMap fun i =>
          (List.range dst.grid.nelems.toNat).map
            (copy_intersection_call G src src_offset dst dst_offset i), .ok ()⟩ ∧
      (copy_intersection_async G src src_offset dst dst_offset).effects.length =
        src.grid.nelems.toNat * dst.grid.nelems.toNat) ∧
    (src.ndim = 0 →
      copy_intersection_async G src src_offset dst dst_offset =
        ⟨[Effect.tile_copy_intersection ⟨src.traits 0, src.handle 0⟩ src_offset
          ⟨dst.traits 0, dst.handle 0⟩ dst_offset], .ok ()⟩) ∧
    (∀ (i j : Nat), (i : Int) < src.grid.nelems → (j : Int) < dst.grid.nelems →
      ∃ s d, G.linear_to_index src.grid i = some s ∧ G.linear_to_index dst.grid j = some d ∧
        copy_intersection_call G src src_offset dst dst_offset i j =
          Effect.tile_copy_intersection ⟨src.traits i, src.handle i⟩
            (copy_offset src_offset s src.basetile_shape) ⟨dst.traits j, dst.handle j⟩
            (copy_offset dst_offset d dst.basetile_shape) ∧
        (∀ (k : Nat) (o x b : Int), src_offset[k]? = some o → s[k]? = some x →
          src.basetile_shape[k]? = some b →
          (copy_offset src_offset s src.basetile_shape)[k]? = some (o + x * b)) ∧
        (∀ (k : Nat) (o x b : Int), dst_offset[k]? = some o → d[k]? = some x →
          dst.basetile_shape[k]? = some b →
          (copy_offset dst_offset d dst.basetile_shape)[k]? = some (o + x * b)) ∧
        ((copy_offset src_offset s src.basetile_shape).length : Int) = src.ndim ∧
        ((copy_offset dst_offset d dst.basetile_shape).length : Int) = dst.ndim) := by
  have hok : (copy_intersection_check src src_offset dst dst_offset).result = .ok () := by
    have hc := copy_intersection_check_spec src src_offset dst dst_offset
    by_contra hne
    rcases hc.2.1 hne with h | h | h
    · exact h h1
    · exact h h2
    · exact h h3
  have hq := (copy_intersection_check_spec src src_offset dst dst_offset).1.1
  refine ⟨?_, ?_, ?_⟩
  · intro hn
    have hrun : copy_intersection_async G src src_offset dst dst_offset =
        ⟨(List.range src.grid.nelems.toNat).flatMap fun i =>
          (List.range dst.grid.nelems.toNat).map
            (copy_intersection_call G src src_offset dst dst_offset i), .ok ()⟩ := by
      rw [copy_intersection_async_eq, Run.andThen_of_ok _ hok, hq, if_neg hn,
        forRange_blocks _ _ _ (fun i hi => copy_intersection_src_tile_run G src src_offset dst
          dst_offset i hs hd hGs hGd h1 h2 h3 hi)]
      rfl
    refine ⟨hrun, ?_⟩
    rw [hrun]
    exact length_flatMap_map_range _ _ _
  · intro hn
    obtain ⟨hs1, hs2⟩ := one_tile_of_no_axes src hs hn
    obtain ⟨hd1, hd2⟩ := one_tile_of_no_axes dst hd (by omega)
    have e1 := get_tile_nat src 0 (by omega) (by omega)
    have e2 := get_tile_nat dst 0 (by omega) (by omega)
    simp only [Nat.cast_zero] at e1 e2
    rw [copy_intersection_async_eq, Run.andThen_of_ok _ hok, hq, if_pos hn]
    simp only [e1, e2, Run.ret_andThen]
    rfl
  · intro i j hi hj
    obtain ⟨s, hsi, hsin, _⟩ := hGs.index_of_linear i (by omega) hi
    obtain ⟨d, hdj, hdin, _⟩ := hGd.index_of_linear j (by omega) hj
    have hgs := grid_shape_length src hs
    have hgd := grid_shape_length dst hd
    refine ⟨s, d, hsi, hdj, ?_, fun k o x b => copy_offset_getElem? _ _ _ k o x b,
      fun k o x b => copy_offset_getElem? _ _ _ k o x b, ?_, ?_⟩
    · unfold copy_intersection_call
      rw [hsi, hdj]
      rfl
    · rw [copy_offset_length _ _ _ src_offset.length rfl
        (by have := hsin.1; omega) (by have := hs.1.1; have := hs.1.2; omega)]
      omega
    · rw [copy_offset_length _ _ _ dst_offset.length rfl
        (by have := hdin.1; omega) (by have := hd.1.1; have := hd.1.2; omega)]
      omega

theorem copy_intersection_async_tile_pairs_witness :
    (sample44 0).WF ∧ sample24.WF ∧
    (copy_intersection_async row_major (sample44 0) [1, 1] sample24 [0, 0]).effects.length =
      (sample44 0).grid.nelems.toNat * sample24.grid.nelems.toNat ∧
    (copy_intersection_async row_major (sample44 0) [1, 1] sample24 [0, 0]).effects.take 1 =
      [Effect.tile_copy_intersection ⟨tile22, ⟨0, 0⟩⟩ [1, 1] ⟨tile22, ⟨30, 0⟩⟩ [0, 0]] :=
  ⟨by decide, by decide,
    ((copy_intersection_async_tile_pairs row_major (sample44 0) [1, 1] sample24 [0, 0]
      (by decide) (by decide) (row_major_lawful _ (by decide) rfl)
      (row_major_lawful _ (by decide) rfl) rfl rfl rfl).1 (by decide)).2, by decide⟩

/-! ## The requests of `sumnorm_async` on one destination tile -/

theorem tile_requests_append (h : Handle) (a b : List Effect) :
    tile_requests h (a ++ b) = tile_requests h a ++ tile_requests h b := by
  unfold tile_requests
  rw [List.filter_append]

theorem tile_requests_flatMap {α : Type} (h : Handle) (xs : List α) (f : α → List Effect) :
    tile_requests h (xs.flatMap f) = xs.flatMap (fun x => tile_requests h (f x)) := by
  induction xs with
  | nil => rfl
  | cons x xs ih => simp only [List.flatMap_cons, tile_requests_append, ih]

theorem flatMap_range_single {α : Type} (n i : Nat) (hi : i < n) (f : Nat → List α)
    (h : ∀ k, k < n → k ≠ i → f k = []) : (List.range n).flatMap f = f i := by
  induction n with
  | zero => omega
  | succ n ih =>
    rw [List.range_succ, List.flatMap_append]
    simp only [List.flatMap_cons, List.flatMap_nil, List.append_nil]
    rcases Nat.lt_succ_iff_lt_or_eq.1 hi with hlt | heq
    · rw [ih hlt (fun k hk hne => h k (by omega) hne), h n (by omega) (by omega),
        List.append_nil]
    · subst heq
      have : (List.range i).flatMap f = [] := by
        rw [List.flatMap_eq_nil_iff]
        intro k hk
        have := List.mem_range.1 hk
        exact h k (by omega) (by omega)
      rw [this, List.nil_append]

theorem handle_injective (t : Tensor) (hnd : t.tile_handles.Nodup) (i j : Nat)
    (hi : i < t.tile_handles.length) (hj : j < t.tile_handles.length)
    (h : t.handle i = t.handle j) : i = j := by
  unfold Tensor.handle at h
  rw [List.getD_eq_getElem?_getD, List.getD_eq_getElem?_getD, List.getElem?_eq_getElem hi,
    List.getElem?_eq_getElem hj] at h
  exact (List.Nodup.getElem_inj_iff hnd).1 h

theorem tile_requests_sumnorm_src_block (G : GridMaps) (mpi_rank : Int) (src dst : Tensor)
    (axis : Int) (h : Handle) (i j : Nat) :
    tile_requests h (sumnorm_src_block G mpi_rank src dst axis i j) =
      if mpi_rank = (dst.handle i).rank ∧ dst.handle i = h then
        [Effect.submit (sumnorm_task G src dst axis i j)] else [] := by
  unfold sumnorm_src_block sumnorm_task tile_requests
  by_cases hr : mpi_rank = (dst.handle i).rank
  · by_cases hh : dst.handle i = h
    · subst hh
      simp [hr, Task.dst]
    · simp [hr, hh, Task.dst]
  · simp [hr]

theorem tile_requests_sumnorm_block (G : GridMaps) (mpi_rank : Int) (src dst : Tensor)
    (axis : Int) (h : Handle) (i : Nat) :
    tile_requests h (sumnorm_block G mpi_rank src dst axis i) =
      if dst.handle i = h then
        (if mpi_rank = (dst.handle i).rank then
          [Effect.submit (.clear (dst.handle i))] ++
          (List.range (src.grid.shape.getD axis.toNat 0).toNat).map
            (fun j => Effect.submit (sumnorm_task G src dst axis i j))
        else []) ++ [Effect.flush (dst.handle i)]
      else [] := by
  unfold sumnorm_block
  rw [tile_requests_append, tile_requests_append, tile_requests_flatMap]
  simp only [tile_requests_sumnorm_src_block]
  by_cases hh : dst.handle i = h
  · subst hh
    by_cases hr : mpi_rank = (dst.handle i).rank
    · simp only [hr, and_self, if_true, flatMap_singleton_eq_map]
      simp [tile_requests, Task.dst]
    · simp only [hr, false_and, if_false, if_true]
      simp [tile_requests]
  · simp only [hh, and_false, if_false]
    by_cases hr : mpi_rank = (dst.handle i).rank
    · simp [tile_requests, Task.dst, hh, hr]
    · simp [tile_requests, hh, hr]

/-- C26: when `sumnorm_async` passes its checks on well-formed tensors whose destination
tiles have distinct handles, with lawful index maps, the requests that write to the
destination tile `i` or flush it are, on the rank that owns the tile: one `clear` task, then
`src.grid.shape[axis]` tasks `sumnorm`, the `j`-th of which reads the source tile whose index
has the entry `j` on the reduced axis and writes to the handle of tile `i`, then the flush
of the tile; on a rank that does not own the tile they are the flush alone. -/
theorem sumnorm_clear_then_accumulate (G : GridMaps) (mpi_rank : Int) (src dst : Tensor)
    (axis : Int) (hs : src.WF) (hd : dst.WF)
    (hok : (sumnorm_check src dst axis).result = .ok ())
    (hGs : G.Lawful src.grid) (hGd : G.Lawful dst.grid) (hnd : dst.tile_handles.Nodup)
    (i : Nat) (hi : (i : Int) < dst.grid.nelems) :
    (mpi_rank = (dst.handle i).rank →
      tile_requests (dst.handle i) (sumnorm_async G mpi_rank src dst axis).effects =
        [Effect.submit (.clear (dst.handle i))] ++
        (List.range (src.grid.shape.getD axis.toNat 0).toNat).map
          (fun j => Effect.submit (sumnorm_task G src dst axis i j)) ++
        [Effect.flush (dst.handle i)]) ∧
    (mpi_rank ≠ (dst.handle i).rank →
      tile_requests (dst.handle i) (sumnorm_async G mpi_rank src dst axis).effects =
        [Effect.flush (dst.handle i)]) ∧
    (∀ j : Nat, (j : Int) < src.grid.shape.getD axis.toNat 0 →
      ∃ m n k s, sumnorm_task G src dst axis i j =
          Task.sumnorm m n k (src.handle (sumnorm_src_offset G src dst axis.toNat i j))
            (dst.handle i) ∧
        G.linear_to_index src.grid (sumnorm_src_offset G src dst axis.toNat i j : Nat) =
          some s ∧ s[axis.toNat]? = some (j : Int)) := by
  have hlen : dst.tile_handles.length = dst.grid.nelems.toNat := by
    have := hd.2.2.2.2.2.1
    omega
  have hfilter : tile_requests (dst.handle i) (sumnorm_async G mpi_rank src dst axis).effects =
      (if mpi_rank = (dst.handle i).rank then
          [Effect.submit (.clear (dst.handle i))] ++
          (List.range (src.grid.shape.getD axis.toNat 0).toNat).map
            (fun j => Effect.submit (sumnorm_task G src dst axis i j))
        else []) ++ [Effect.flush (dst.handle i)] := by
    rw [sumnorm_async_run G mpi_rank src dst axis hs hd hok hGs hGd, tile_requests_flatMap,
      flatMap_range_single _ i (by omega)]
    · rw [tile_requests_sumnorm_block, if_pos rfl]
    · intro k hk hne
      rw [tile_requests_sumnorm_block, if_neg]
      intro h
      exact hne (handle_injective dst hnd k i (by omega) (by omega) h)
  refine ⟨fun hr => ?_, fun hr => ?_, fun j hj => ?_⟩
  · rw [hfilter, if_pos hr]
  · rw [hfilter, if_neg hr]
    rfl
  · obtain ⟨d, hd1, hd2, _, _, _, hs1⟩ := sumnorm_src_offset_spec G src dst axis hs hd hok hGs
      hGd i j hi hj
    obtain ⟨h1, h2, h3, h4, _, _⟩ := (sumnorm_check_ok_iff src dst axis hs.1 hd.1).1 hok
    have hdl := grid_shape_length dst hd
    refine ⟨_, _, _, _, rfl, hs1, ?_⟩
    rw [getElem?_sumnorm_src_index _ _ _ _ (by have := hd2.1; omega), if_neg (by omega),
      if_pos rfl]

theorem sumnorm_clear_then_accumulate_witness :
    tile_requests ⟨30, 0⟩ (sumnorm_async row_major 0 (sample44 0) sample24 0).effects =
      [Effect.submit (.clear ⟨30, 0⟩), Effect.submit (.sumnorm 1 2 2 ⟨0, 0⟩ ⟨30, 0⟩),
        Effect.submit (.sumnorm 1 2 2 ⟨2, 0⟩ ⟨30, 0⟩), Effect.flush ⟨30, 0⟩] :=
  ((sumnorm_clear_then_accumulate row_major 0 (sample44 0) sample24 0 (by decide) (by decide)
    (by decide) (row_major_lawful _ (by decide) rfl) (row_major_lawful _ (by decide) rfl)
    (by decide) 0 (by decide)).1 (by decide)).trans (by decide)

/-! ## The sizes handed to the codelets of `sumnorm` and `biasprod` -/

theorem tile_shape_eraseIdx (shape basetile_shape tile_index : List Int) (a : Nat) :
    (tile_shape shape basetile_shape tile_index).eraseIdx a =
      tile_shape (shape.eraseIdx a) (basetile_shape.eraseIdx a) (tile_index.eraseIdx a) := by
  unfold tile_shape
  rw [zipWith_eraseIdx, zipWith_eraseIdx]

theorem prod_eraseIdx (s : List Int) (a : Nat) :
    (s.eraseIdx a).prod = (s.take a).prod * (s.drop (a + 1)).prod := by
  rw [List.eraseIdx_eq_take_drop_succ, List.prod_append]

theorem prod_split (s : List Int) (a : Nat) (h : a < s.length) :
    s.prod = (s.take a).prod * s.getD a 0 * (s.drop (a + 1)).prod := by
  conv_lhs => rw [← List.take_append_drop a s, List.drop_eq_getElem_cons h]
  rw [List.prod_append, List.prod_cons, List.getD_eq_getElem?_getD, List.getElem?_eq_getElem h]
  simp only [Option.getD_some]
  ring

theorem eraseIdx_sumnorm_src_index (a : Nat) (d : List Int) (j : Int) (ha : a < d.length) :
    (sumnorm_src_index a d j).eraseIdx a = d.tail := by
  rw [sumnorm_src_index_eq]
  exact eraseIdx_biasprod_dst_index a d.tail j (by rw [List.length_tail]; omega)

/-- The tiles that `sumnorm_async` pairs: the shape of the destination tile is `2` followed
by the shape of the source tile without its extent along `axis`. -/
theorem sumnorm_tile_shapes (G : GridMaps) (src dst : Tensor) (axis : Int) (hs : src.WF)
    (hd : dst.WF) (hok : (sumnorm_check src dst axis).result = .ok ())
    (hGs : G.Lawful src.grid) (hGd : G.Lawful dst.grid) (hts : src.TilesWF G)
    (htd : dst.TilesWF G) (i j : Nat) (hi : (i : Int) < dst.grid.nelems)
    (hj : (j : Int) < src.grid.shape.getD axis.toNat 0) :
    (dst.traits i).shape =
      2 :: ((src.traits (sumnorm_src_offset G src dst axis.toNat i j)).shape).eraseIdx
        axis.toNat := by
  obtain ⟨d, hd1, hd2, _, _, ho, hs1⟩ := sumnorm_src_offset_spec G src dst axis hs hd hok hGs
    hGd i j hi hj
  obtain ⟨h1, h2, h3, h4, h5, h6⟩ := (sumnorm_check_ok_iff src dst axis hs.1 hd.1).1 hok
  have hg := sumnorm_grid_shape src dst axis hs hd hok
  have hdl := grid_shape_length dst hd
  have hd0 := index_head_zero dst.grid _ d hg hd2
  rw [(htd i (by omega)).1, (hts _ (by omega)).1, hd1, hs1, Option.getD_some, Option.getD_some,
    tile_shape_eraseIdx, eraseIdx_sumnorm_src_index _ _ _ (by have := hd2.1; omega), h5, h6]
  conv_lhs => rw [hd0]
  rfl

theorem sumnorm_sizes_eq (ndim axis : Int) (tr dtr : TileTraits) (htr : tr.WF ndim)
    (hder : tr.Derived) (hn : dtr.nelems = 2 * (tr.shape.eraseIdx axis.toNat).prod)
    (h0 : 0 ≤ axis) (h1 : axis < ndim) :
    sumnorm_sizes ndim axis tr dtr =
      Run.ret ((tr.shape.take axis.toNat).prod, (tr.shape.drop (axis.toNat + 1)).prod,
        tr.shape.getD axis.toNat 0) := by
  obtain ⟨hnd, hst, hms, hrow⟩ := htr
  obtain ⟨_, hstride, hmat⟩ := hder
  have hhalf : Int.tdiv dtr.nelems 2 = (tr.shape.eraseIdx axis.toNat).prod := by
    rw [hn]
    exact Int.mul_tdiv_cancel_left _ (by decide)
  unfold sumnorm_sizes
  simp only [bind, pure]
  split
  · rename_i h
    subst h
    rw [vget_getD _ 0 (le_refl 0) (by omega), Run.ret_andThen, hhalf, prod_eraseIdx]
    simp
  · split
    · rename_i h
      have hlast : axis.toNat + 1 = tr.shape.length := by omega
      rw [vget_getD _ axis h0 (by omega), Run.ret_andThen, hhalf, prod_eraseIdx,
        hlast, List.drop_length]
      simp
    · obtain ⟨row, hrow1, hrow2⟩ := vget_of_lt tr.matrix_shape (axis + 1) (by omega)
        (by omega)
      have hr2 : row.length = 2 := hrow row (List.mem_iff_getElem?.2 ⟨_, hrow1⟩)
      have hm := hmat (axis.toNat + 1) (by omega)
      have hrow3 : tr.matrix_shape.getD (axis.toNat + 1) [] = row := by
        rw [List.getD_eq_getElem?_getD, show axis.toNat + 1 = (axis + 1).toNat by omega, hrow1]
        rfl
      rw [hrow3] at hm
      rw [vget_getD _ axis h0 (by omega), Run.ret_andThen, hrow2, Run.ret_andThen,
        vget_getD row 1 (by omega) (by omega), Run.ret_andThen,
        vget_getD _ axis h0 (by omega), Run.ret_andThen, hstride axis.toNat (by omega)]
      show Run.ret (_, row.getD 1 0, _) = _
      rw [hm]

/-- The tiles that `biasprod_async` pairs: the shape of the source tile is the shape of
the destination tile without its extent along `axis`. -/
theorem biasprod_tile_shapes (G : GridMaps) (src dst : Tensor) (axis : Int) (hs : src.WF)
    (hd : dst.WF) (hok : (biasprod_check src dst axis).result = .ok ())
    (hGs : G.Lawful src.grid) (hGd : G.Lawful dst.grid) (hts : src.TilesWF G)
    (htd : dst.TilesWF G) (i j : Nat) (hi : (i : Int) < src.grid.nelems)
    (hj : (j : Int) < dst.grid.shape.getD axis.toNat 0) :
    (src.traits i).shape =
      ((dst.traits (biasprod_dst_offset G src dst axis.toNat i j)).shape).eraseIdx
        axis.toNat := by
  obtain ⟨s, hs1, hs2, _, _, ho, hd1⟩ := biasprod_dst_offset_spec G src dst axis hs hd hok hGs
    hGd i j hi hj
  obtain ⟨h1, h3, h4, h5, h6⟩ := (biasprod_check_ok_iff src dst axis hs.1 hd.1).1 hok
  have hsl := grid_shape_length src hs
  rw [(hts i (by omega)).1, (htd _ (by omega)).1, hd1, hs1, Option.getD_some, Option.getD_some,
    tile_shape_eraseIdx, eraseIdx_biasprod_dst_index _ _ _ (by have := hs2.1; omega), h5, h6]

theorem tasks_sumnorm_src_block (G : GridMaps) (mpi_rank : Int) (src dst : Tensor)
    (axis : Int) (i j : Nat) :
    tasks (sumnorm_src_block G mpi_rank src dst axis i j) =
      if mpi_rank = (dst.handle i).rank then [sumnorm_task G src dst axis i j] else [] := by
  unfold sumnorm_src_block sumnorm_task
  simp only []
  split <;> rfl

theorem tasks_sumnorm_block (G : GridMaps) (mpi_rank : Int) (src dst : Tensor)
    (axis : Int) (i : Nat) :
    tasks (sumnorm_block G mpi_rank src dst axis i) =
      if mpi_rank = (dst.handle i).rank then
        Task.clear (dst.handle i) ::
          (List.range (src.grid.shape.getD axis.toNat 0).toNat).map
            (sumnorm_task G src dst axis i)
      else [] := by
  unfold sumnorm_block
  rw [tasks_append, tasks_append, tasks_flatMap]
  simp only [tasks_sumnorm_src_block]
  by_cases h : mpi_rank = (dst.handle i).rank
  · simp only [if_pos h, flatMap_singleton_eq_map]
    simp [tasks]
  · simp only [if_neg h]
    simp [tasks]

/-- The sizes of the task that `biasprod_async` submits for a destination tile, in the
terms of the shape of that tile, and the tiles that they factor. -/
theorem biasprod_task_sizes (G : GridMaps) (src dst : Tensor) (axis : Int) (hs : src.WF)
    (hd : dst.WF) (hok : (biasprod_check src dst axis).result = .ok ())
    (hGs : G.Lawful src.grid) (hGd : G.Lawful dst.grid) (hts : src.TilesWF G)
    (htd : dst.TilesWF G) (i j : Nat) (hi : (i : Int) < src.grid.nelems)
    (hj : (j : Int) < dst.grid.shape.getD axis.toNat 0) :
    biasprod_task src dst axis.toNat i (biasprod_dst_offset G src dst axis.toNat i j) =
      Task.biasprod
        (((dst.traits (biasprod_dst_offset G src dst axis.toNat i j)).shape.take
          axis.toNat).prod)
        (((dst.traits (biasprod_dst_offset G src dst axis.toNat i j)).shape.drop
          (axis.toNat + 1)).prod)
        ((dst.traits (biasprod_dst_offset G src dst axis.toNat i j)).shape.getD axis.toNat 0)
        (src.handle i) (dst.handle (biasprod_dst_offset G src dst axis.toNat i j)) ∧
    ((dst.traits (biasprod_dst_offset G src dst axis.toNat i j)).shape.take axis.toNat).prod *
      ((dst.traits (biasprod_dst_offset G src dst axis.toNat i j)).shape.drop
        (axis.toNat + 1)).prod = (src.traits i).nelems ∧
    ((dst.traits (biasprod_dst_offset G src dst axis.toNat i j)).shape.take axis.toNat).prod *
      (dst.traits (biasprod_dst_offset G src dst axis.toNat i j)).shape.getD axis.toNat 0 *
      ((dst.traits (biasprod_dst_offset G src dst axis.toNat i j)).shape.drop
        (axis.toNat + 1)).prod =
        (dst.traits (biasprod_dst_offset G src dst axis.toNat i j)).nelems := by
  obtain ⟨h1, h3, h4, h5, h6⟩ := (biasprod_check_ok_iff src dst axis hs.1 hd.1).1 hok
  obtain ⟨s, _, _, _, _, ho, _⟩ := biasprod_dst_offset_spec G src dst axis hs hd hok hGs
    hGd i j hi hj
  have hsh := biasprod_tile_shapes G src dst axis hs hd hok hGs hGd hts htd i j hi hj
  obtain ⟨hsn, _, _⟩ := (hts i (by omega)).2
  obtain ⟨hdn, hdst, hdmat⟩ := (htd (biasprod_dst_offset G src dst axis.toNat i j)
    (by omega)).2
  have hwf := hd.2.2.2.2.2.2.2 _ (traits_mem dst
    (biasprod_dst_offset G src dst axis.toNat i j) (by have := hd.2.2.2.2.2.2.1; omega))
  have ha : axis.toNat <
      (dst.traits (biasprod_dst_offset G src dst axis.toNat i j)).shape.length := by
    have := hwf.1
    omega
  refine ⟨?_, ?_, ?_⟩
  · unfold biasprod_task
    rw [hdst _ ha, hdmat _ (by omega)]
  · rw [hsn, hsh, prod_eraseIdx]
  · rw [hdn, prod_split _ _ ha]

/-- The sizes of the task that `sumnorm_async` submits for a source tile, in the terms of
the shape of that tile, and the tiles that they factor. -/
theorem sumnorm_task_sizes (G : GridMaps) (src dst : Tensor) (axis : Int) (hs : src.WF)
    (hd : dst.WF) (hok : (sumnorm_check src dst axis).result = .ok ())
    (hGs : G.Lawful src.grid) (hGd : G.Lawful dst.grid) (hts : src.TilesWF G)
    (htd : dst.TilesWF G) (i j : Nat) (hi : (i : Int) < dst.grid.nelems)
    (hj : (j : Int) < src.grid.shape.getD axis.toNat 0) :
    sumnorm_sizes src.ndim axis (src.traits (sumnorm_src_offset G src dst axis.toNat i j))
        (dst.traits i) =
      Run.ret
        (((src.traits (sumnorm_src_offset G src dst axis.toNat i j)).shape.take
          axis.toNat).prod,
        ((src.traits (sumnorm_src_offset G src dst axis.toNat i j)).shape.drop
          (axis.toNat + 1)).prod,
        (src.traits (sumnorm_src_offset G src dst axis.toNat i j)).shape.getD axis.toNat 0) ∧
    sumnorm_task G src dst axis i j =
      Task.sumnorm
        (((src.traits (sumnorm_src_offset G src dst axis.toNat i j)).shape.take
          axis.toNat).prod)
        (((src.traits (sumnorm_src_offset G src dst axis.toNat i j)).shape.drop
          (axis.toNat + 1)).prod)
        ((src.traits (sumnorm_src_offset G src dst axis.toNat i j)).shape.getD axis.toNat 0)
        (src.handle (sumnorm_src_offset G src dst axis.toNat i j)) (dst.handle i) ∧
    ((src.traits (sumnorm_src_offset G src dst axis.toNat i j)).shape.take axis.toNat).prod *
      (src.traits (sumnorm_src_offset G src dst axis.toNat i j)).shape.getD axis.toNat 0 *
      ((src.traits (sumnorm_src_offset G src dst axis.toNat i j)).shape.drop
        (axis.toNat + 1)).prod =
        (src.traits (sumnorm_src_offset G src dst axis.toNat i j)).nelems ∧
    2 * ((src.traits (sumnorm_src_offset G src dst axis.toNat i j)).shape.take
        axis.toNat).prod *
      ((src.traits (sumnorm_src_offset G src dst axis.toNat i j)).shape.drop
        (axis.toNat + 1)).prod = (dst.traits i).nelems ∧
    ((src.traits (sumnorm_src_offset G src dst axis.toNat i j)).shape.take axis.toNat).prod =
      (src.traits (sumnorm_src_offset G src dst axis.toNat i j)).stride.getD axis.toNat 0 ∧
    ((src.traits (sumnorm_src_offset G src dst axis.toNat i j)).shape.drop
        (axis.toNat + 1)).prod =
      ((src.traits (sumnorm_src_offset G src dst axis.toNat i j)).matrix_shape.getD
        (axis.toNat + 1) []).getD 1 0 ∧
    (axis = 0 →
      ((src.traits (sumnorm_src_offset G src dst axis.toNat i j)).shape.take
        axis.toNat).prod = 1 ∧
      ((src.traits (sumnorm_src_offset G src dst axis.toNat i j)).shape.drop
        (axis.toNat + 1)).prod = Int.tdiv (dst.traits i).nelems 2) ∧
    (axis = src.ndim - 1 → axis ≠ 0 →
      ((src.traits (sumnorm_src_offset G src dst axis.toNat i j)).shape.take
        axis.toNat).prod = Int.tdiv (dst.traits i).nelems 2 ∧
      ((src.traits (sumnorm_src_offset G src dst axis.toNat i j)).shape.drop
        (axis.toNat + 1)).prod = 1) := by
  obtain ⟨h1, h2, h3, h4, h5, h6⟩ := (sumnorm_check_ok_iff src dst axis hs.1 hd.1).1 hok
  obtain ⟨d, _, _, _, _, ho, _⟩ := sumnorm_src_offset_spec G src dst axis hs hd hok hGs
    hGd i j hi hj
  have hsh := sumnorm_tile_shapes G src dst axis hs hd hok hGs hGd hts htd i j hi hj
  obtain ⟨hsn, hsst, hsmat⟩ := (hts (sumnorm_src_offset G src dst axis.toNat i j)
    (by omega)).2
  obtain ⟨hdn, _, _⟩ := (htd i (by omega)).2
  have hwf := hs.2.2.2.2.2.2.2 _ (traits_mem src
    (sumnorm_src_offset G src dst axis.toNat i j) (by have := hs.2.2.2.2.2.2.1; omega))
  have ha : axis.toNat <
      (src.traits (sumnorm_src_offset G src dst axis.toNat i j)).shape.length := by
    have := hwf.1
    omega
  have hdn2 : (dst.traits i).nelems = 2 *
      ((src.traits (sumnorm_src_offset G src dst axis.toNat i j)).shape.eraseIdx
        axis.toNat).prod := by
    rw [hdn, hsh, List.prod_cons]
  have hsizes := sumnorm_sizes_eq src.ndim axis _ (dst.traits i) hwf
    (hts (sumnorm_src_offset G src dst axis.toNat i j) (by omega)).2 hdn2 h3 h4
  have hhalf : Int.tdiv (dst.traits i).nelems 2 =
      ((src.traits (sumnorm_src_offset G src dst axis.toNat i j)).shape.eraseIdx
        axis.toNat).prod := by
    rw [hdn2]
    exact Int.mul_tdiv_cancel_left _ (by decide)
  refine ⟨hsizes, ?_, ?_, ?_, (hsst _ ha).symm, (hsmat _ (by omega)).symm, ?_, ?_⟩
  · unfold sumnorm_task
    simp only [hsizes, Run.value, Run.ret_result]
  · rw [hsn, prod_split _ _ ha]
  · rw [hdn2, prod_eraseIdx]
    ring
  · intro h0
    subst h0
    rw [hhalf, prod_eraseIdx]
    simp
  · intro hl _
    have hlast : axis.toNat + 1 =
        (src.traits (sumnorm_src_offset G src dst axis.toNat i j)).shape.length := by
      have := hwf.1
      omega
    rw [hhalf, prod_eraseIdx, hlast, List.drop_length]
    simp

/-- C22: on well-formed tensors with lawful index maps whose tiles have the traits derived
from their shapes (`stride[i]` the product of the extents before axis `i`,
`matrix_shape[i][1]` the product of the extents from axis `i` on, `nelems` the product of
all extents), for inputs that pass the checks.  The tasks that `biasprod_async` submits
are, in the order of the rounds, one task `biasprod(m, n, k)` for every round whose
destination tile the calling rank owns, with `m`, `n` and `k` the products of the extents
of the destination tile before `axis`, after `axis`, and its extent along `axis`; in every
round `m*n` is the number of elements of the source tile and `m*k*n` that of the destination
tile.  The tasks that `sumnorm_async` submits are, for every destination tile that the
calling rank owns, the task `clear` and one task `sumnorm(m, n, k)` per source tile along
the axis, with `m`, `n` and `k` the same products and extent of the source tile; in every
round the code computes these sizes (in its branch for `axis == 0`, where `m = 1` and
`n = nelems/2` of the destination tile, for `axis == ndim-1`, where `m = nelems/2` and
`n = 1`, and for an interior axis), `m = stride[axis]`, `n = matrix_shape[axis+1][1]`,
`m*k*n` is the number of elements of the source tile and `2*m*n` that of the destination
tile. -/
theorem kernel_sizes_factor_tiles (G : GridMaps) (mpi_rank : Int) (src dst : Tensor)
    (axis : Int) (hs : src.WF) (hd : dst.WF) (hGs : G.Lawful src.grid)
    (hGd : G.Lawful dst.grid) (hts : src.TilesWF G) (htd : dst.TilesWF G) :
    ((biasprod_check src dst axis).result = .ok () →
      tasks (biasprod_async G mpi_rank src dst axis).effects =
        (List.range src.grid.nelems.toNat).flatMap (fun i =>
          ((List.range (dst.grid.shape.getD axis.toNat 0).toNat).filter (fun j =>
            mpi_rank = (dst.handle (biasprod_dst_offset G src dst axis.toNat i j)).rank)).map
            (fun j => Task.biasprod
              (((dst.traits (biasprod_dst_offset G src dst axis.toNat i j)).shape.take
                axis.toNat).prod)
              (((dst.traits (biasprod_dst_offset G src dst axis.toNat i j)).shape.drop
                (axis.toNat + 1)).prod)
              ((dst.traits (biasprod_dst_offset G src dst axis.toNat i j)).shape.getD
                axis.toNat 0)
              (src.handle i) (dst.handle (biasprod_dst_offset G src dst axis.toNat i j)))) ∧
      ∀ i j : Nat, (i : Int) < src.grid.nelems →
        (j : Int) < dst.grid.shape.getD axis.toNat 0 →
        ((dst.traits (biasprod_dst_offset G src dst axis.toNat i j)).shape.take
            axis.toNat).prod *
          ((dst.traits (biasprod_dst_offset G src dst axis.toNat i j)).shape.drop
            (axis.toNat + 1)).prod = (src.traits i).nelems ∧
        ((dst.traits (biasprod_dst_offset G src dst axis.toNat i j)).shape.take
            axis.toNat).prod *
          (dst.traits (biasprod_dst_offset G src dst axis.toNat i j)).shape.getD
            axis.toNat 0 *
          ((dst.traits (biasprod_dst_offset G src dst axis.toNat i j)).shape.drop
            (axis.toNat + 1)).prod =
            (dst.traits (biasprod_dst_offset G src dst axis.toNat i j)).nelems) ∧
    ((sumnorm_check src dst axis).result = .ok () →
      tasks (sumnorm_async G mpi_rank src dst axis).effects =
        (List.range dst.grid.nelems.toNat).flatMap (fun i =>
          if mpi_rank = (dst.handle i).rank then
            Task.clear (dst.handle i) ::
              (List.range (src.grid.shape.getD axis.toNat 0).toNat).map (fun j =>
                Task.sumnorm
                  (((src.traits (sumnorm_src_offset G src dst axis.toNat i j)).shape.take
                    axis.toNat).prod)
                  (((src.traits (sumnorm_src_offset G src dst axis.toNat i j)).shape.drop
                    (axis.toNat + 1)).prod)
                  ((src.traits (sumnorm_src_offset G src dst axis.toNat i j)).shape.getD
                    axis.toNat 0)
                  (src.handle (sumnorm_src_offset G src dst axis.toNat i j)) (dst.handle i))
          else []) ∧
      ∀ i j : Nat, (i : Int) < dst.grid.nelems →
        (j : Int) < src.grid.shape.getD axis.toNat 0 →
        sumnorm_sizes src.ndim axis
            (src.traits (sumnorm_src_offset G src dst axis.toNat i j)) (dst.traits i) =
          Run.ret
            (((src.traits (sumnorm_src_offset G src dst axis.toNat i j)).shape.take
              axis.toNat).prod,
            ((src.traits (sumnorm_src_offset G src dst axis.toNat i j)).shape.drop
              (axis.toNat + 1)).prod,
            (src.traits (sumnorm_src_offset G src dst axis.toNat i j)).shape.getD
              axis.toNat 0) ∧
        ((src.traits (sumnorm_src_offset G src dst axis.toNat i j)).shape.take
            axis.toNat).prod *
          (src.traits (sumnorm_src_offset G src dst axis.toNat i j)).shape.getD axis.toNat 0 *
          ((src.traits (sumnorm_src_offset G src dst axis.toNat i j)).shape.drop
            (axis.toNat + 1)).prod =
            (src.traits (sumnorm_src_offset G src dst axis.toNat i j)).nelems ∧
        2 * ((src.traits (sumnorm_src_offset G src dst axis.toNat i j)).shape.take
            axis.toNat).prod *
          ((src.traits (sumnorm_src_offset G src dst axis.toNat i j)).shape.drop
            (axis.toNat + 1)).prod = (dst.traits i).nelems ∧
        ((src.traits (sumnorm_src_offset G src dst axis.toNat i j)).shape.take
            axis.toNat).prod =
          (src.traits (sumnorm_src_offset G src dst axis.toNat i j)).stride.getD
            axis.toNat 0 ∧
        ((src.traits (sumnorm_src_offset G src dst axis.toNat i j)).shape.drop
            (axis.toNat + 1)).prod =
          ((src.traits (sumnorm_src_offset G src dst axis.toNat i j)).matrix_shape.getD
            (axis.toNat + 1) []).getD 1 0 ∧
        (axis = 0 →
          ((src.traits (sumnorm_src_offset G src dst axis.toNat i j)).shape.take
            axis.toNat).prod = 1 ∧
          ((src.traits (sumnorm_src_offset G src dst axis.toNat i j)).shape.drop
            (axis.toNat + 1)).prod = Int.tdiv (dst.traits i).nelems 2) ∧
        (axis = src.ndim - 1 → axis ≠ 0 →
          ((src.traits (sumnorm_src_offset G src dst axis.toNat i j)).shape.take
            axis.toNat).prod = Int.tdiv (dst.traits i).nelems 2 ∧
          ((src.traits (sumnorm_src_offset G src dst axis.toNat i j)).shape.drop
            (axis.toNat + 1)).prod = 1)) := by
  constructor
  · intro hok
    constructor
    · rw [biasprod_async_run G mpi_rank src dst axis hs hd hok hGs hGd, tasks_flatMap]
      apply List.flatMap_congr
      intro i hi
      have hi2 := List.mem_range.1 hi
      rw [tasks_flatMap]
      simp only [tasks_biasprod_block]
      rw [flatMap_ite_singleton]
      apply List.map_congr_left
      intro j hj
      have hj2 := List.mem_range.1 (List.mem_of_mem_filter hj)
      exact (biasprod_task_sizes G src dst axis hs hd hok hGs hGd hts htd i j (by omega)
        (by omega)).1
    · intro i j hi hj
      exact (biasprod_task_sizes G src dst axis hs hd hok hGs hGd hts htd i j hi hj).2
  · intro hok
    constructor
    · rw [sumnorm_async_run G mpi_rank src dst axis hs hd hok hGs hGd, tasks_flatMap]
      apply List.flatMap_congr
      intro i hi
      have hi2 := List.mem_range.1 hi
      rw [tasks_sumnorm_block]
      split
      · congr 1
        apply List.map_congr_left
        intro j hj
        have hj2 := List.mem_range.1 hj
        exact (sumnorm_task_sizes G src dst axis hs hd hok hGs hGd hts htd i j (by omega)
          (by omega)).2.1
      · rfl
    · intro i j hi hj
      obtain ⟨h1, -, h3, h4, h5, h6, h7, h8⟩ := sumnorm_task_sizes G src dst axis hs hd hok hGs
        hGd hts htd i j hi hj
      exact ⟨h1, h3, h4, h5, h6, h7, h8⟩

theorem kernel_sizes_factor_tiles_witness :
    tasks (biasprod_async row_major 0 sample4 (sample44 0) 1).effects =
      [Task.biasprod 2 1 2 ⟨40, 1⟩ ⟨0, 0⟩, Task.biasprod 2 1 2 ⟨41, 0⟩ ⟨2, 0⟩] ∧
    tasks (sumnorm_async row_major 0 (sample44 0) sample24 0).effects =
      [Task.clear ⟨30, 0⟩, Task.sumnorm 1 2 2 ⟨0, 0⟩ ⟨30, 0⟩,
        Task.sumnorm 1 2 2 ⟨2, 0⟩ ⟨30, 0⟩] ∧
    tasks (sumnorm_async row_major 0 (sample44 0) sample24 1).effects =
      [Task.clear ⟨30, 0⟩, Task.sumnorm 2 1 2 ⟨0, 0⟩ ⟨30, 0⟩,
        Task.sumnorm 2 1 2 ⟨1, 1⟩ ⟨30, 0⟩] ∧
    tasks (sumnorm_async row_major 0 (sample222 0) (sample222 10) 1).effects =
      [Task.clear ⟨10, 0⟩, Task.sumnorm 2 2 2 ⟨0, 0⟩ ⟨10, 0⟩] := by
  have hb := ((kernel_sizes_factor_tiles row_major 0 sample4 (sample44 0) 1 (by decide)
    (by decide) (row_major_lawful _ (by decide) rfl) (row_major_lawful _ (by decide) rfl)
    (by decide) (by decide)).1 (by decide)).1
  have h0 := ((kernel_sizes_factor_tiles row_major 0 (sample44 0) sample24 0 (by decide)
    (by decide) (row_major_lawful _ (by decide) rfl) (row_major_lawful _ (by decide) rfl)
    (by decide) (by decide)).2 (by decide)).1
  have h1 := ((kernel_sizes_factor_tiles row_major 0 (sample44 0) sample24 1 (by decide)
    (by decide) (row_major_lawful _ (by decide) rfl) (row_major_lawful _ (by decide) rfl)
    (by decide) (by decide)).2 (by decide)).1
  have h2 := ((kernel_sizes_factor_tiles row_major 0 (sample222 0) (sample222 10) 1
    (by decide) (by decide) (row_major_lawful _ (by decide) rfl)
    (row_major_lawful _ (by decide) rfl) (by decide) (by decide)).2 (by decide)).1
  rw [hb, h0, h1, h2]
  decide

/-! ## The deviation of `normalize::cpu` -/

/-- C28: over an ordered field with a square root function (non-negative, squaring back to
its non-negative argument), for `l > 0`, `eps >= 0` and `norm > 0`, with `mean`, `rms` and
`reps` computed as in lines 47-49, 64 and 66: `rms` is positive; the deviation is at least
`sqrt eps`; in the first branch (`|mean| / rms >= 1`) it is exactly `sqrt eps`; in the
second branch it is `rms * sqrt (1 - tmp^2 + (reps/rms)^2)` and in the third
`reps * sqrt ((1 - tmp^2) * (rms/reps)^2 + 1)` with `reps` non-zero, and both are
`sqrt (rms^2 - mean^2 + eps)`; for `eps > 0` every divisor of the pass is non-zero, in
particular the deviation that divides `val - mean`. -/
theorem normalize_dev_lower_bound {T : Type} [LinearOrderedField T] (sqrt : T → T)
    (hsqrt : ∀ x, 0 ≤ x → 0 ≤ sqrt x ∧ sqrt x * sqrt x = x) (l : Int) (eps sum norm : T)
    (hl : 0 < l) (heps : 0 ≤ eps) (hnorm : 0 < norm) :
    0 < norm * sqrt (1 / (l : T)) ∧
    sqrt eps ≤ kernel.normalize.cpu_dev sqrt (sqrt eps) (sum * (1 / (l : T)))
      (norm * sqrt (1 / (l : T))) ∧
    (|sum * (1 / (l : T))| / (norm * sqrt (1 / (l : T))) ≥ 1 →
      kernel.normalize.cpu_dev sqrt (sqrt eps) (sum * (1 / (l : T)))
        (norm * sqrt (1 / (l : T))) = sqrt eps) ∧
    (¬ |sum * (1 / (l : T))| / (norm * sqrt (1 / (l : T))) ≥ 1 →
      kernel.normalize.cpu_dev sqrt (sqrt eps) (sum * (1 / (l : T)))
        (norm * sqrt (1 / (l : T))) =
          sqrt (norm * sqrt (1 / (l : T)) * (norm * sqrt (1 / (l : T))) -
            sum * (1 / (l : T)) * (sum * (1 / (l : T))) + eps) ∧
      (norm * sqrt (1 / (l : T)) > sqrt eps →
        kernel.normalize.cpu_dev sqrt (sqrt eps) (sum * (1 / (l : T)))
          (norm * sqrt (1 / (l : T))) =
            norm * sqrt (1 / (l : T)) * sqrt (1 -
              |sum * (1 / (l : T))| / (norm * sqrt (1 / (l : T))) *
                (|sum * (1 / (l : T))| / (norm * sqrt (1 / (l : T)))) +
              sqrt eps / (norm * sqrt (1 / (l : T))) *
                (sqrt eps / (norm * sqrt (1 / (l : T)))))) ∧
      (¬ norm * sqrt (1 / (l : T)) > sqrt eps →
        sqrt eps ≠ 0 ∧
        kernel.normalize.cpu_dev sqrt (sqrt eps) (sum * (1 / (l : T)))
          (norm * sqrt (1 / (l : T))) =
            sqrt eps * sqrt ((1 -
              |sum * (1 / (l : T))| / (norm * sqrt (1 / (l : T))) *
                (|sum * (1 / (l : T))| / (norm * sqrt (1 / (l : T))))) *
              (norm * sqrt (1 / (l : T)) / sqrt eps *
                (norm * sqrt (1 / (l : T)) / sqrt eps)) + 1))) ∧
    (0 < eps →
      kernel.normalize.cpu_dev sqrt (sqrt eps) (sum * (1 / (l : T)))
        (norm * sqrt (1 / (l : T))) ≠ 0 ∧
      ∀ d ∈ kernel.normalize.cpu_divisors sqrt (sqrt eps) (sum * (1 / (l : T)))
        (norm * sqrt (1 / (l : T))), d ≠ 0) := by
  have hlT : (0 : T) < (l : T) := by exact_mod_cast hl
  have hrpos : 0 < sqrt (1 / (l : T)) := sqrt_pos_of_pos sqrt hsqrt _ (one_div_pos.2 hlT)
  have hrms : 0 < norm * sqrt (1 / (l : T)) := mul_pos hnorm hrpos
  obtain ⟨he0, he1⟩ := hsqrt eps heps
  generalize norm * sqrt (1 / (l : T)) = rms at hrms ⊢
  generalize sum * (1 / (l : T)) = mean
  have hfirst : |mean| / rms ≥ 1 → kernel.normalize.cpu_dev sqrt (sqrt eps) mean rms =
      sqrt eps := by
    intro h
    unfold kernel.normalize.cpu_dev
    simp only [if_pos h]
  have hlt : ¬ |mean| / rms ≥ 1 → mean * mean < rms * rms := by
    intro h
    have h2 : |mean| < rms := by
      have := (div_lt_one hrms).1 (not_le.1 h)
      exact this
    have := mul_self_lt_mul_self (abs_nonneg mean) h2
    rwa [abs_mul_abs_self] at this
  have hrest : ¬ |mean| / rms ≥ 1 → kernel.normalize.cpu_dev sqrt (sqrt eps) mean rms =
      sqrt (rms * rms - mean * mean + eps) := by
    intro h
    rw [cpu_dev_eq sqrt hsqrt (sqrt eps) mean rms hrms he0 (le_of_lt (hlt h)), he1]
  have hlow : sqrt eps ≤ kernel.normalize.cpu_dev sqrt (sqrt eps) mean rms := by
    by_cases h : |mean| / rms ≥ 1
    · rw [hfirst h]
    · rw [hrest h]
      exact sqrt_mono sqrt hsqrt _ _ heps (by have := hlt h; linarith)
  have hthird : ¬ rms > sqrt eps → sqrt eps ≠ 0 := by
    intro h
    exact ne_of_gt (lt_of_lt_of_le hrms (not_lt.1 h))
  refine ⟨hrms, hlow, hfirst, fun h => ⟨hrest h, fun h2 => ?_, fun h2 => ⟨hthird h2, ?_⟩⟩,
    fun hpos => ?_⟩
  · unfold kernel.normalize.cpu_dev
    simp only [if_neg h, if_pos h2]
  · unfold kernel.normalize.cpu_dev
    simp only [if_neg h, if_neg h2]
  · have hrepos : 0 < sqrt eps := sqrt_pos_of_pos sqrt hsqrt _ hpos
    have hdev : kernel.normalize.cpu_dev sqrt (sqrt eps) mean rms ≠ 0 :=
      ne_of_gt (lt_of_lt_of_le hrepos hlow)
    refine ⟨hdev, ?_⟩
    intro d hd
    unfold kernel.normalize.cpu_divisors at hd
    simp only [List.mem_append, List.mem_singleton] at hd
    rcases hd with (hd | hd) | hd
    · rw [hd]
      exact ne_of_gt hrms
    · split at hd
      · simp at hd
      · split at hd
        · rw [List.mem_singleton.1 hd]
          exact ne_of_gt hrms
        · rw [List.mem_singleton.1 hd]
          exact ne_of_gt hrepos
    · rw [hd]
      exact hdev

theorem normalize_dev_lower_bound_witness :
    Real.sqrt 3 ≤ kernel.normalize.cpu_dev Real.sqrt (Real.sqrt 3)
      (0 * (1 / (((1 : Int)) : ℝ))) (1 * Real.sqrt (1 / (((1 : Int)) : ℝ))) :=
  (normalize_dev_lower_bound Real.sqrt
    (fun x hx => ⟨Real.sqrt_nonneg x, Real.mul_self_sqrt hx⟩) 1 3 0 1 (by decide)
    (by norm_num) (by norm_num)).2.1

/-- C29: a slice of `sumnorm` whose sum and norm are both zero, with `l = 1` and
`eps = 1`: the first division of the pass, `std::fabs(mean) / rms` of line 71, has the
divisor `rms = 0`, although the deviation `sqrt (var + eps)` of the formula that the kernel
documents is `1` there; the element that the kernel stores for `sumnorm = [0, 0]` has no
value. -/
theorem normalize_zero_slice_divides_by_zero :
    (kernel.normalize.cpu_divisors Real.sqrt (Real.sqrt 1) (0 * (1 / (((1 : Int)) : ℝ)))
      (0 * Real.sqrt (1 / (((1 : Int)) : ℝ)))).head? = some 0 ∧
    (0 : ℝ) ∈ kernel.normalize.cpu_divisors Real.sqrt (Real.sqrt 1)
      (0 * (1 / (((1 : Int)) : ℝ))) (0 * Real.sqrt (1 / (((1 : Int)) : ℝ))) ∧
    Real.sqrt ((0 : ℝ) ^ 2 / 1 - (0 / 1) ^ 2 + 1) = 1 ∧
    kernel.normalize.cpu Real.sqrt ((1 : Nat) : Int) ((1 : Nat) : Int) ((1 : Nat) : Int)
      (1 : Int) (1 : ℝ) [2] [1] [0, 0] [some 3] = Run.ret [none] := by
  refine ⟨?_, ?_, ?_, ?_⟩
  · simp [kernel.normalize.cpu_divisors]
  · simp [kernel.normalize.cpu_divisors]
  · norm_num
  · rw [normalize_cpu_single, cpu_value_none]
    simp [kernel.normalize.cpu_divisors]

/-! ## Offsets of multi-indices -/

theorem strided_offset_set (stride index : List Int) (i : Nat) (x d s : Int)
    (hd : index[i]? = some d) (hs : stride[i]? = some s) :
    strided_offset stride (index.set i x) = strided_offset stride index + (x - d) * s := by
  induction stride generalizing index i with
  | nil => simp at hs
  | cons s0 stride ih =>
    cases index with
    | nil => simp at hd
    | cons y index =>
      cases i with
      | zero =>
        simp only [List.getElem?_cons_zero, Option.some.injEq] at hd hs
        subst hd hs
        simp only [List.set_cons_zero, strided_offset]
        ring
      | succ i =>
        simp only [List.getElem?_cons_succ] at hd hs
        simp only [List.set_cons_succ, strided_offset]
        rw [ih index i hd hs]
        ring

theorem column_major_offset_add (a b shape : List Int) (h : a.length = b.length) :
    column_major_offset (List.zipWith (fun x y => x + y) a b) shape =
      column_major_offset a shape + column_major_offset b shape := by
  induction a generalizing b shape with
  | nil =>
    cases b with
    | nil => simp [column_major_offset]
    | cons y b => simp at h
  | cons x a ih =>
    cases b with
    | nil => simp at h
    | cons y b =>
      cases shape with
      | nil => simp [column_major_offset]
      | cons n shape =>
        simp only [List.zipWith_cons_cons, column_major_offset]
        rw [ih b shape (by simpa using h)]
        ring

/-- An index whose entries lie within the extents has an offset below the number of
elements. -/
theorem column_major_offset_lt (a shape : List Int) (ha : a.length = shape.length)
    (hda : ∀ (i : Nat) (d s : Int), a[i]? = some d → shape[i]? = some s → 0 ≤ d ∧ d < s) :
    0 ≤ column_major_offset a shape ∧ column_major_offset a shape < shape.prod := by
  induction shape generalizing a with
  | nil =>
    cases a with
    | nil => simp [column_major_offset]
    | cons x a => simp at ha
  | cons n shape ih =>
    cases a with
    | nil => simp at ha
    | cons x a =>
      have h0 := hda 0 x n (by simp) (by simp)
      have h1 := ih a (by simpa using ha) (fun i d s hd hs => hda (i + 1) d s (by simpa using hd) (by simpa using hs))
      simp only [column_major_offset, List.prod_cons]
      constructor
      · nlinarith
      · nlinarith

/-- Two indices within the extents that have the same offset are the same index. -/
theorem column_major_offset_inj (a b shape : List Int) (ha : a.length = shape.length)
    (hb : b.length = shape.length)
    (hda : ∀ (i : Nat) (d s : Int), a[i]? = some d → shape[i]? = some s → 0 ≤ d ∧ d < s)
    (hdb : ∀ (i : Nat) (d s : Int), b[i]? = some d → shape[i]? = some s → 0 ≤ d ∧ d < s)
    (h : column_major_offset a shape = column_major_offset b shape) : a = b := by
  induction shape generalizing a b with
  | nil =>
    rw [List.length_eq_zero.1 ha, List.length_eq_zero.1 hb]
  | cons n shape ih =>
    cases a with
    | nil => simp at ha
    | cons x a =>
      cases b with
      | nil => simp at hb
      | cons y b =>
        have hx := hda 0 x n (by simp) (by simp)
        have hy := hdb 0 y n (by simp) (by simp)
        simp only [column_major_offset] at h
        have hdvd : n ∣ x - y :=
          ⟨column_major_offset b shape - column_major_offset a shape, by linarith⟩
        have hxy : x - y = 0 := Int.eq_zero_of_abs_lt_dvd hdvd (by rw [abs_lt]; omega)
        have hxy2 : x = y := by omega
        subst hxy2
        have hn : n ≠ 0 := by omega
        have hrest : column_major_offset a shape = column_major_offset b shape := by
          have : n * column_major_offset a shape = n * column_major_offset b shape := by
            linarith
          exact mul_left_cancel₀ hn this
        rw [ih a b (by simpa using ha) (by simpa using hb)
          (fun i d s hd hs => hda (i + 1) d s (by simpa using hd) (by simpa using hs))
          (fun i d s hd hs => hdb (i + 1) d s (by simpa using hd) (by simpa using hs)) hrest]

/-- With a positive first stride and every stride at least the stride before it times the
extent before it, the positions of two different indices within the extents are at least
the first stride apart. -/
theorem strided_offset_gap (stride shape a b : List Int) (s0 : Int)
    (hl : stride.length = shape.length) (ha : a.length = shape.length)
    (hb : b.length = shape.length) (hs0 : stride[0]? = some s0) (hpos : 1 ≤ s0)
    (hchain : ∀ (i : Nat) (s x s2 : Int), stride[i]? = some s → shape[i]? = some x →
      stride[i + 1]? = some s2 → s * x ≤ s2)
    (hda : ∀ (i : Nat) (d s : Int), a[i]? = some d → shape[i]? = some s → 0 ≤ d ∧ d < s)
    (hdb : ∀ (i : Nat) (d s : Int), b[i]? = some d → shape[i]? = some s → 0 ≤ d ∧ d < s) :
    a = b ∨ s0 ≤ |strided_offset stride a - strided_offset stride b| := by
  induction shape generalizing stride a b s0 with
  | nil =>
    left
    rw [List.length_eq_zero.1 ha, List.length_eq_zero.1 hb]
  | cons n shape ih =>
    cases stride with
    | nil => simp at hl
    | cons s stride =>
      cases a with
      | nil => simp at ha
      | cons x a =>
        cases b with
        | nil => simp at hb
        | cons y b =>
          simp only [List.getElem?_cons_zero, Option.some.injEq] at hs0
          subst hs0
          have hx := hda 0 x n (by simp) (by simp)
          have hy := hdb 0 y n (by simp) (by simp)
          simp only [strided_offset]
          have hsx : 0 ≤ s * x := mul_nonneg (by omega) hx.1
          have hsy : 0 ≤ s * y := mul_nonneg (by omega) hy.1
          have hsxn : s * x ≤ s * n - s := by nlinarith
          have hsyn : s * y ≤ s * n - s := by nlinarith
          have htail : a = b ∨ s * n ≤ |strided_offset stride a - strided_offset stride b| := by
            cases hst : stride with
            | nil =>
              left
              subst hst
              have h0 : shape.length = 0 := by simpa using hl.symm
              have ha0 : a.length = 0 := by simpa [h0] using ha
              have hb0 : b.length = 0 := by simpa [h0] using hb
              rw [List.length_eq_zero.1 ha0, List.length_eq_zero.1 hb0]
            | cons s1 stride1 =>
              subst hst
              have hs1 : s * n ≤ s1 := hchain 0 s n s1 (by simp) (by simp) (by simp)
              have hs1pos : 1 ≤ s1 := by nlinarith
              rcases ih (s1 :: stride1) a b s1 (by simpa using hl) (by simpa using ha)
                (by simpa using hb) (by simp) hs1pos
                (fun i s x s2 h1 h2 h3 => hchain (i + 1) s x s2 (by simpa using h1)
                  (by simpa using h2) (by simpa using h3))
                (fun i d s hd hs => hda (i + 1) d s (by simpa using hd) (by simpa using hs))
                (fun i d s hd hs => hdb (i + 1) d s (by simpa using hd) (by simpa using hs)) with h | h
              · exact Or.inl h
              · exact Or.inr (le_trans hs1 h)
          rcases htail with h | h
          · subst h
            rcases eq_or_ne x y with hxy | hxy
            · left
              rw [hxy]
            · right
              rcases lt_or_gt_of_ne hxy with hlt | hgt
              · refine le_abs.2 (Or.inr ?_)
                have : s * 1 ≤ s * (y - x) := mul_le_mul_of_nonneg_left (by omega) (by omega)
                linarith
              · refine le_abs.2 (Or.inl ?_)
                have : s * 1 ≤ s * (x - y) := mul_le_mul_of_nonneg_left (by omega) (by omega)
                linarith
          · right
            rcases le_abs.1 h with h2 | h2
            · exact le_abs.2 (Or.inl (by linarith))
            · exact le_abs.2 (Or.inr (by linarith))

/-- Under the conditions of `strided_offset_gap` two different indices within the extents
have different positions. -/
theorem strided_offset_inj (stride shape a b : List Int) (s0 : Int)
    (hl : stride.length = shape.length) (ha : a.length = shape.length)
    (hb : b.length = shape.length) (hs0 : stride[0]? = some s0) (hpos : 1 ≤ s0)
    (hchain : ∀ (i : Nat) (s x s2 : Int), stride[i]? = some s → shape[i]? = some x →
      stride[i + 1]? = some s2 → s * x ≤ s2)
    (hda : ∀ (i : Nat) (d s : Int), a[i]? = some d → shape[i]? = some s → 0 ≤ d ∧ d < s)
    (hdb : ∀ (i : Nat) (d s : Int), b[i]? = some d → shape[i]? = some s → 0 ≤ d ∧ d < s)
    (h : strided_offset stride a = strided_offset stride b) : a = b := by
  rcases strided_offset_gap stride shape a b s0 hl ha hb hs0 hpos hchain hda hdb with h2 | h2
  · exact h2
  · rw [h, sub_self, abs_zero] at h2
    omega

/-- Under the conditions of `strided_offset_gap` the position of an index within the
extents lies between `0` and the position of the last element. -/
theorem strided_offset_le (stride shape a : List Int) (s0 : Int)
    (hl : stride.length = shape.length) (ha : a.length = shape.length)
    (hs0 : stride[0]? = some s0) (hpos : 1 ≤ s0)
    (hchain : ∀ (i : Nat) (s x s2 : Int), stride[i]? = some s → shape[i]? = some x →
      stride[i + 1]? = some s2 → s * x ≤ s2)
    (hda : ∀ (i : Nat) (d s : Int), a[i]? = some d → shape[i]? = some s → 0 ≤ d ∧ d < s) :
    0 ≤ strided_offset stride a ∧
      strided_offset stride a ≤ strided_offset stride (shape.map fun x => x - 1) := by
  induction shape generalizing stride a s0 with
  | nil =>
    rw [List.length_eq_zero.1 ha, List.length_eq_zero.1 hl]
    simp [strided_offset]
  | cons n shape ih =>
    cases stride with
    | nil => simp at hl
    | cons s stride =>
      cases a with
      | nil => simp at ha
      | cons x a =>
        simp only [List.getElem?_cons_zero, Option.some.injEq] at hs0
        subst hs0
        have hx := hda 0 x n (by simp) (by simp)
        simp only [strided_offset, List.map_cons]
        have hsx : 0 ≤ s * x := mul_nonneg (by omega) hx.1
        have hsxn : s * x ≤ s * (n - 1) := mul_le_mul_of_nonneg_left (by omega) (by omega)
        have htail : 0 ≤ strided_offset stride a ∧
            strided_offset stride a ≤ strided_offset stride (shape.map fun x => x - 1) := by
          cases hst : stride with
          | nil => simp [strided_offset]
          | cons s1 stride1 =>
            subst hst
            have hs1 : s * n ≤ s1 := hchain 0 s n s1 (by simp) (by simp) (by simp)
            have hs1pos : 1 ≤ s1 := by nlinarith
            exact ih (s1 :: stride1) a s1 (by simpa using hl) (by simpa using ha) (by simp) hs1pos
              (fun i s x s2 h1 h2 h3 => hchain (i + 1) s x s2 (by simpa using h1)
                  (by simpa using h2) (by simpa using h3))
              (fun i d s hd hs => hda (i + 1) d s (by simpa using hd) (by simpa using hs))
        constructor
        · linarith
        · linarith

/-! ## The first jump of `randn` -/

theorem indexRange_succ (k : Nat) :
    indexRange 0 ((k : Int) + 1) = indexRange 0 (k : Int) ++ [(k : Int)] := by
  rw [indexRange_zero, indexRange_zero, show ((k : Int) + 1).toNat = k + 1 by omega,
    Int.toNat_ofNat, List.range_succ, List.map_append]
  rfl

theorem prod_take_pos (l : List Int) (h : ∀ u ∈ l, 1 ≤ u) (k : Nat) : 1 ≤ (l.take k).prod := by
  have : 0 < (l.take k).prod :=
    List.prod_pos fun a ha => by have := h a (List.mem_of_mem_take ha); omega
  omega

theorem prod_drop_pos (l : List Int) (h : ∀ u ∈ l, 1 ≤ u) (k : Nat) : 1 ≤ (l.drop k).prod := by
  have : 0 < (l.drop k).prod :=
    List.prod_pos fun a ha => by have := h a (List.mem_of_mem_drop ha); omega
  omega

theorem prod_take_le (l : List Int) (h : ∀ u ∈ l, 1 ≤ u) (k : Nat) :
    (l.take k).prod ≤ l.prod := by
  have h1 := prod_take_pos l h k
  have h2 := prod_drop_pos l h k
  have h3 : l.prod = (l.take k).prod * (l.drop k).prod := by
    rw [← List.prod_append, List.take_append_drop]
  rw [h3]
  nlinarith

theorem prod_drop_le (l : List Int) (h : ∀ u ∈ l, 1 ≤ u) (k : Nat) :
    (l.drop k).prod ≤ l.prod := by
  have h1 := prod_take_pos l h k
  have h2 := prod_drop_pos l h k
  have h3 : l.prod = (l.take k).prod * (l.drop k).prod := by
    rw [← List.prod_append, List.take_append_drop]
  rw [h3]
  nlinarith

/-- The offset of the last entries of an index within the extents lies below the product
of the last extents. -/
theorem column_major_offset_drop_lt (a shape : List Int) (k : Nat)
    (ha : a.length = shape.length)
    (hda : ∀ (i : Nat) (d s : Int), a[i]? = some d → shape[i]? = some s → 0 ≤ d ∧ d < s) :
    0 ≤ column_major_offset (a.drop k) (shape.drop k) ∧
      column_major_offset (a.drop k) (shape.drop k) < (shape.drop k).prod := by
  apply column_major_offset_lt
  · rw [List.length_drop, List.length_drop, ha]
  · intro i d s hd hs
    rw [List.getElem?_drop] at hd hs
    exact hda _ d s hd hs

/-- The loop of the first jump, for a start index within an underlying array whose number of
elements is a value of `Index`: no step leaves the range of `Index`. -/
theorem start_shift_loop (start ushape : List Int) (k : Nat) (hl : start.length = ushape.length)
    (hk : k < ushape.length)
    (hdig : ∀ (i : Nat) (d u : Int), start[i]? = some d → ushape[i]? = some u → 0 ≤ d ∧ d < u)
    (hbound : ushape.prod < 9223372036854775808) :
    foldEach (indexRange 0 (k : Int)).reverse
        (column_major_offset (start.drop k) (ushape.drop k))
        (fun i shift => (vget start i).andThen fun s =>
          (vget ushape i).andThen fun u =>
            Run.ret (Index.wrap (s + Index.wrap (shift * u)))) =
      Run.ret (column_major_offset start ushape) := by
  have hu1 : ∀ u ∈ ushape, 1 ≤ u := by
    intro u hu
    obtain ⟨i, hi, rfl⟩ := List.mem_iff_getElem.1 hu
    have := hdig i _ _ (List.getElem?_eq_getElem (show i < start.length by omega))
      (List.getElem?_eq_getElem hi)
    omega
  induction k with
  | zero =>
    rw [show ((0 : Nat) : Int) = 0 from rfl, indexRange_nil 0 0 (le_refl _)]
    rfl
  | succ k ih =>
    have hks : k < start.length := by omega
    have hku : k < ushape.length := by omega
    rw [show ((k + 1 : Nat) : Int) = (k : Int) + 1 by push_cast; rfl, indexRange_succ,
      List.reverse_append, List.reverse_singleton, List.singleton_append]
    unfold foldEach
    show ((vget start (k : Int)).andThen fun s =>
      (vget ushape (k : Int)).andThen fun u =>
        Run.ret (Index.wrap (s + Index.wrap (_ * u)))).andThen _ = _
    rw [vget_nat start k _ (List.getElem?_eq_getElem hks), Run.ret_andThen,
      vget_nat ushape k _ (List.getElem?_eq_getElem hku), Run.ret_andThen, Run.ret_andThen]
    have := ih hku
    have h1 := column_major_offset_drop_lt start ushape (k + 1) hl hdig
    have h2 := column_major_offset_drop_lt start ushape k hl hdig
    have h3 := prod_drop_le ushape hu1 k
    have h4 := hdig k _ _ (List.getElem?_eq_getElem hks) (List.getElem?_eq_getElem hku)
    rw [List.drop_eq_getElem_cons hku] at h3
    rw [List.drop_eq_getElem_cons hks, List.drop_eq_getElem_cons hku] at this h2
    simp only [column_major_offset, List.prod_cons] at this h2 h3
    rw [← this]
    have h5 : 0 ≤ column_major_offset (List.drop (k + 1) start) (List.drop (k + 1) ushape) *
        ushape[k] := mul_nonneg h1.1 (by omega)
    have h6 : column_major_offset (List.drop (k + 1) start) (List.drop (k + 1) ushape) *
        ushape[k] = ushape[k] *
          column_major_offset (List.drop (k + 1) start) (List.drop (k + 1) ushape) :=
      mul_comm _ _
    have hw1 := Index.wrap_of_range (column_major_offset (List.drop (k + 1) start)
      (List.drop (k + 1) ushape) * ushape[k]) (by omega) (by omega)
    rw [hw1, Index.wrap_of_range _ (by omega) (by omega), h6]

/-- The first jump of `randn` goes to the offset of the index `start` in the underlying
array, when the number of elements of that array is a value of `Index`. -/
theorem randn_start_shift_run (start ushape : List Int) (n : Nat) (hn : 1 ≤ n)
    (hs : start.length = n) (hu : ushape.length = n)
    (hdig : ∀ (i : Nat) (d u : Int), start[i]? = some d → ushape[i]? = some u → 0 ≤ d ∧ d < u)
    (hbound : ushape.prod < 9223372036854775808) :
    kernel.cpu.randn_start_shift (n : Int) (some start) (some ushape) =
      Run.ret (column_major_offset start ushape) := by
  obtain ⟨k, rfl⟩ : ∃ k, n = k + 1 := ⟨n - 1, by omega⟩
  have hks : k < start.length := by omega
  have hku : k < ushape.length := by omega
  unfold kernel.cpu.randn_start_shift
  simp only [Run.bind_eq, Run.pure_eq, pget]
  rw [show (((k + 1 : Nat) : Int) - 1) = (k : Int) by push_cast; ring,
    vget_nat start k _ (List.getElem?_eq_getElem hks), Run.ret_andThen]
  have h := start_shift_loop start ushape k (by omega) hku hdig hbound
  rw [List.drop_eq_getElem_cons hks, List.drop_eq_getElem_cons hku] at h
  have hd1 : start.drop (k + 1) = [] := List.drop_eq_nil_of_le (by omega)
  rw [hd1] at h
  simp only [column_major_offset, mul_zero, add_zero] at h
  exact h

/-! ## The carry loop of `randn` on a part of an underlying array -/

theorem underlying_nonneg (shape ushape : List Int) (hul : ushape.length = shape.length)
    (hpos : ∀ x ∈ shape, 1 ≤ x)
    (hsub : ∀ (i : Nat) (s u : Int), shape[i]? = some s → ushape[i]? = some u → s ≤ u) :
    ∀ u ∈ ushape, 1 ≤ u := by
  intro u hu
  obtain ⟨i, hi, rfl⟩ := List.mem_iff_getElem.1 hu
  have his : i < shape.length := by omega
  have h1 := hsub i _ _ (List.getElem?_eq_getElem his) (List.getElem?_eq_getElem hi)
  have h2 := hpos _ (List.getElem_mem his)
  omega

theorem prod_take_nonneg (ushape : List Int) (h : ∀ u ∈ ushape, 1 ≤ u) (k : Nat) :
    0 ≤ (ushape.take k).prod :=
  List.prod_nonneg fun a ha => by have := h a (List.mem_of_mem_take ha); omega

/-- The loop `while(tmp_index[k] == shape[k])`: it ends normally with `k` inside of the
index arrays, carries the index `tmp_index` over to the index of the same offset with all
its entries within the shape, and moves `shift` and `data` by as much as the offset of the
index in the underlying array and its position in the buffer move, when the number of
elements of the underlying array is a value of `Index` and, for `data`, when the strides and
their differences are; `shift` never goes down. -/
theorem randn_carry_general (shape ushape stride : List Int)
    (hul : ushape.length = shape.length) (hlen : stride.length = shape.length)
    (hpos : ∀ x ∈ shape, 1 ≤ x)
    (hsub : ∀ (i : Nat) (s u : Int), shape[i]? = some s → ushape[i]? = some u → s ≤ u)
    (hbound : ushape.prod < 9223372036854775808)
    (total : Int) (htotal : total < shape.prod)
    (fuel k : Nat) (t : List Int) (shift data : Int) (hk1 : 1 ≤ k) (hk : k < shape.length)
    (hfuel : shape.length ≤ k + fuel) (htl : t.length = shape.length)
    (hdig : ∀ (i : Nat) (d s : Int), t[i]? = some d → shape[i]? = some s →
      0 ≤ d ∧ (d < s ∨ (i = k ∧ d = s)))
    (hval : column_major_offset t shape = total) (hs0 : 0 ≤ shift)
    (hsP : shift < (ushape.take k).prod) :
    ∃ w, kernel.cpu.randn_carry (some shape) (some ushape) (some stride) fuel
        ⟨t, (k : Int), shift, (ushape.take k).prod, data⟩ = Run.ret w ∧
      w.tmp_index.length = shape.length ∧
      (∀ (i : Nat) (d s : Int), w.tmp_index[i]? = some d → shape[i]? = some s →
        0 ≤ d ∧ d < s) ∧
      column_major_offset w.tmp_index shape = total ∧
      w.shift - column_major_offset w.tmp_index ushape =
        shift - column_major_offset t ushape ∧
      ((∀ (i : Nat) (s x s2 : Int), stride[i]? = some s → shape[i]? = some x →
          stride[i + 1]? = some s2 →
          -9223372036854775808 ≤ s * x ∧ s * x < 9223372036854775808 ∧
          -9223372036854775808 ≤ s2 - s * x ∧ s2 - s * x < 9223372036854775808) →
        w.data - strided_offset stride w.tmp_index = data - strided_offset stride t) ∧
      shift ≤ w.shift ∧ (k : Int) ≤ w.k ∧ w.k < shape.length ∧
      w.tmp_index[0]? = t[0]? := by
  induction fuel generalizing k t shift data with
  | zero => omega
  | succ fuel ih =>
    have hkt : k < t.length := by omega
    have hks : k < stride.length := by omega
    have hku : k < ushape.length := by omega
    have htk := List.getElem?_eq_getElem hkt
    have hsk := List.getElem?_eq_getElem hk
    have hstk := List.getElem?_eq_getElem hks
    have huk := List.getElem?_eq_getElem hku
    unfold kernel.cpu.randn_carry
    simp only [Run.bind_eq, Run.pure_eq, pget, vget_nat t k _ htk, vget_nat shape k _ hsk,
      Run.ret_andThen]
    by_cases heq : t[k] = shape[k]
    · rw [if_pos heq]
      have hnn : ∀ x ∈ t, 0 ≤ x := by
        intro x hx
        obtain ⟨i, hi, rfl⟩ := List.mem_iff_getElem.1 hx
        exact (hdig i _ _ (List.getElem?_eq_getElem hi)
          (List.getElem?_eq_getElem (by omega))).1
      have hk1s : k + 1 < shape.length := by
        by_contra hcon
        have hlast : k + 1 = shape.length := by omega
        have h1 := column_major_offset_lower t shape hnn
          (fun n hn => by have := hpos n hn; omega) k _ hk htk
        rw [prod_take_last shape k _ hlast hsk] at htotal
        rw [heq, hval] at h1
        have := mul_comm (shape[k]) (shape.take k).prod
        omega
      have hk1t : k + 1 < t.length := by omega
      have hk1st : k + 1 < stride.length := by omega
      have hk1u : k + 1 < ushape.length := by omega
      have ht1 : (t.set k 0)[k + 1]? = some t[k + 1] := by
        rw [List.getElem?_set_ne (by omega), List.getElem?_eq_getElem hk1t]
      have hcast : ((k : Int) + 1) = ((k + 1 : Nat) : Int) := by push_cast; rfl
      have hsnext := List.getElem?_eq_getElem hk1st
      have hu1 := underlying_nonneg shape ushape hul hpos hsub
      have hP := prod_take_pos ushape hu1 k
      have hP1 := prod_take_le ushape hu1 (k + 1)
      have hPs := List.prod_take_succ ushape k hku
      have hus := hsub k _ _ hsk huk
      have hsk1 := hpos _ (List.getElem_mem hk)
      have hA0 : 0 ≤ (ushape.take k).prod * (ushape[k] - shape[k]) :=
        mul_nonneg (by omega) (by omega)
      have hA1 : (ushape.take k).prod * (ushape[k] - shape[k]) ≤
          (ushape.take k).prod * ushape[k] - (ushape.take k).prod := by
        have := mul_le_mul_of_nonneg_left (show ushape[k] - shape[k] ≤ ushape[k] - 1 by omega)
          (show 0 ≤ (ushape.take k).prod by omega)
        have h2 : (ushape.take k).prod * (ushape[k] - 1) =
            (ushape.take k).prod * ushape[k] - (ushape.take k).prod := by ring
        rw [h2] at this
        exact this
      have hAu : ushape[k] ≤ (ushape.take k).prod * ushape[k] := by
        have := mul_le_mul_of_nonneg_right hP (show 0 ≤ ushape[k] by omega)
        rw [one_mul] at this
        exact this
      have hwr1 : Index.wrap (ushape[k] - shape[k]) = ushape[k] - shape[k] :=
        Index.wrap_of_range _ (by omega) (by omega)
      have hwr2 : Index.wrap ((ushape.take k).prod * (ushape[k] - shape[k])) =
          (ushape.take k).prod * (ushape[k] - shape[k]) :=
        Index.wrap_of_range _ (by omega) (by omega)
      have hwr3 : Index.wrap (shift + (ushape.take k).prod * (ushape[k] - shape[k])) =
          shift + (ushape.take k).prod * (ushape[k] - shape[k]) :=
        Index.wrap_of_range _ (by omega) (by omega)
      have hwr4 : Index.wrap ((ushape.take k).prod * ushape[k]) =
          (ushape.take k).prod * ushape[k] :=
        Index.wrap_of_range _ (by omega) (by omega)
      obtain ⟨w, hw, hwl, hwdig, hwval, hwshift, hwdata, hwmono, hwk, hwk2, hw0⟩ :=
        ih (k + 1) ((t.set k 0).set (k + 1) (t[k + 1] + 1))
          (shift + (ushape.take k).prod * (ushape[k] - shape[k]))
          (data + Index.wrap (stride[k + 1] - Index.wrap (stride[k] * shape[k]))) (by omega)
          hk1s (by omega)
          (by rw [List.length_set, List.length_set]; exact htl)
          (by
            intro i d s hd hs
            rcases eq_or_ne i (k + 1) with hi | hi
            · subst hi
              rw [List.getElem?_set_self (by rw [List.length_set]; omega)] at hd
              cases hd
              have := hdig (k + 1) _ s (List.getElem?_eq_getElem hk1t) hs
              omega
            · rw [List.getElem?_set_ne (Ne.symm hi)] at hd
              rcases eq_or_ne i k with hik | hik
              · subst hik
                rw [List.getElem?_set_self hkt] at hd
                cases hd
                have := hpos s (List.mem_iff_getElem?.2 ⟨_, hs⟩)
                omega
              · rw [List.getElem?_set_ne (Ne.symm hik)] at hd
                have := hdig i d s hd hs
                omega)
          (by
            rw [column_major_offset_set _ shape (k + 1) _ _ hk1s ht1,
              column_major_offset_set t shape k 0 _ hk htk, hval,
              List.prod_take_succ shape k hk, ← heq]
            ring)
          (by omega) (by rw [hPs]; omega)
      rw [List.prod_take_succ ushape k hku] at hw
      refine ⟨w, ?_, hwl, hwdig, hwval, ?_, ?_, ?_, by omega, hwk2, ?_⟩
      · rw [vset_ret t k 0 (by omega) (by omega), Run.ret_andThen]
        simp only [Int.toNat_ofNat, add_sub_cancel_right]
        rw [hcast, vget_nat _ (k + 1) _ ht1, Run.ret_andThen,
          vset_ret _ _ _ (by omega) (by rw [List.length_set]; omega), Run.ret_andThen]
        simp only [vget_nat shape k _ hsk, vget_nat ushape k _ huk, Run.ret_andThen,
          vget_nat stride (k + 1) _ hsnext, vget_nat stride k _ hstk, Int.toNat_ofNat, hwr1,
          hwr2, hwr3, hwr4]
        exact hw
      · rw [hwshift, column_major_offset_set _ ushape (k + 1) _ _ hk1u ht1,
          column_major_offset_set t ushape k 0 _ hku htk, List.prod_take_succ ushape k hku,
          heq]
        ring
      · intro hgood
        obtain ⟨g1, g2, g3, g4⟩ := hgood k _ _ _ hstk hsk hsnext
        rw [hwdata hgood, strided_offset_set stride _ (k + 1) _ _ _ ht1 hsnext,
          strided_offset_set stride t k 0 _ _ htk hstk, heq,
          Index.wrap_of_range (stride[k] * shape[k]) g1 g2,
          Index.wrap_of_range (stride[k + 1] - stride[k] * shape[k]) g3 g4]
        ring
      · omega
      · rw [hw0, List.getElem?_set_ne (by omega), List.getElem?_set_ne (by omega)]
    · rw [if_neg heq]
      refine ⟨_, rfl, htl, ?_, hval, rfl, fun _ => rfl, le_refl _, le_refl _,
        by simpa using hk, rfl⟩
      intro i d s hd hs
      have h := hdig i d s hd hs
      refine ⟨h.1, ?_⟩
      rcases h.2 with h2 | ⟨rfl, h2⟩
      · exact h2
      · rw [htk] at hd
        rw [hsk] at hs
        cases hd
        cases hs
        exact absurd h2 heq

/-- The index part of one round of the loop over the columns, from the index of a column
that is not the last one: the next index within the shape, the jump count and the position
of the pointer. -/
theorem randn_index_step_run (shape ushape stride : List Int) (r : Nat)
    (hul : ushape.length = shape.length) (hlen : stride.length = shape.length)
    (hpos : ∀ x ∈ shape, 1 ≤ x)
    (hsub : ∀ (i : Nat) (s u : Int), shape[i]? = some s → ushape[i]? = some u → s ≤ u)
    (hbound : ushape.prod < 9223372036854775808)
    (hr : shape[0]? = some (r : Int)) (t : List Int) (data : Int)
    (htl : t.length = shape.length)
    (hdig : ∀ (i : Nat) (d s : Int), t[i]? = some d → shape[i]? = some s → 0 ≤ d ∧ d < s)
    (hnext : column_major_offset t shape + r < shape.prod) :
    ∃ w, kernel.cpu.randn_index_step (some shape) (some ushape) (some stride) (r : Int) data
        t = Run.ret w ∧
      w.tmp_index.length = shape.length ∧
      (∀ (i : Nat) (d s : Int), w.tmp_index[i]? = some d → shape[i]? = some s →
        0 ≤ d ∧ d < s) ∧
      column_major_offset w.tmp_index shape = column_major_offset t shape + r ∧
      w.shift = column_major_offset w.tmp_index ushape - column_major_offset t ushape - r ∧
      ((∀ (i : Nat) (s x s2 : Int), stride[i]? = some s → shape[i]? = some x →
          stride[i + 1]? = some s2 →
          -9223372036854775808 ≤ s * x ∧ s * x < 9223372036854775808 ∧
          -9223372036854775808 ≤ s2 - s * x ∧ s2 - s * x < 9223372036854775808) →
        (∀ s1 : Int, stride[1]? = some s1 →
          -9223372036854775808 ≤ s1 - r ∧ s1 - r < 9223372036854775808) →
        w.data = data - r + (strided_offset stride w.tmp_index - strided_offset stride t)) ∧
      0 ≤ w.shift ∧ 1 ≤ w.k ∧ w.k < shape.length ∧ w.tmp_index[0]? = t[0]? ∧
      1 < shape.length := by
  have hnn : ∀ x ∈ t, 0 ≤ x := by
    intro x hx
    obtain ⟨i, hi, rfl⟩ := List.mem_iff_getElem.1 hx
    exact (hdig i _ _ (List.getElem?_eq_getElem hi) (List.getElem?_eq_getElem (by omega))).1
  have hD := column_major_offset_nonneg t shape hnn (fun n hn => by have := hpos n hn; omega)
  have hr1 : (1 : Int) ≤ r := hpos _ (List.mem_iff_getElem?.2 ⟨_, hr⟩)
  have h2 : 1 < shape.length := by
    rcases shape with _ | ⟨x, _ | ⟨y, rest⟩⟩
    · simp at hr
    · simp only [List.getElem?_cons_zero, Option.some.injEq] at hr
      subst hr
      simp only [List.prod_cons, List.prod_nil, mul_one] at hnext
      omega
    · simp
  have h1t : 1 < t.length := by omega
  have h1s : 1 < stride.length := by omega
  have h0u : 0 < ushape.length := by omega
  have h1u : 1 < ushape.length := by omega
  have h0st : 0 < stride.length := by omega
  have ht1 := List.getElem?_eq_getElem h1t
  have hst1 := List.getElem?_eq_getElem h1s
  have hu0 := List.getElem?_eq_getElem h0u
  have htake : (shape.take 1).prod = r := by
    have h := List.prod_take_succ shape 0 (by omega)
    rw [List.getElem?_eq_getElem (by omega)] at hr
    rw [h, Option.some.inj hr]
    simp
  have hutake : (ushape.take 1).prod = ushape[0] := by
    have h := List.prod_take_succ ushape 0 h0u
    rw [h]
    simp
  have hru := hsub 0 _ _ hr hu0
  have hu1 := underlying_nonneg shape ushape hul hpos hsub
  have hule := prod_take_le ushape hu1 1
  rw [hutake] at hule
  have hwr : Index.wrap (ushape[0] - (r : Int)) = ushape[0] - r :=
    Index.wrap_of_range _ (by omega) (by omega)
  obtain ⟨w, hw, hwl, hwdig, hwval, hwshift, hwdata, hwmono, hwk, hwk2, hw0⟩ :=
    randn_carry_general shape ushape stride hul hlen hpos hsub hbound
      (column_major_offset t shape + r) hnext (t.set 1 (t[1] + 1)).length 1
      (t.set 1 (t[1] + 1)) (ushape[0] - r) (data + Index.wrap (stride[1] - r)) (le_refl _) h2
      (by rw [List.length_set]; omega) (by rw [List.length_set]; exact htl)
      (by
        intro i d s hd hs
        rcases eq_or_ne i 1 with hi | hi
        · subst hi
          rw [List.getElem?_set_self h1t] at hd
          cases hd
          have := hdig 1 _ s ht1 hs
          omega
        · rw [List.getElem?_set_ne (Ne.symm hi)] at hd
          have := hdig i d s hd hs
          omega)
      (by
        rw [column_major_offset_set t shape 1 _ _ h2 ht1, htake]
        omega)
      (by omega) (by rw [hutake]; omega)
  refine ⟨w, ?_, hwl, hwdig, hwval, ?_, ?_, by omega, by simpa using hwk, hwk2, ?_, h2⟩
  · unfold kernel.cpu.randn_index_step
    rw [hutake] at hw
    simp only [Nat.cast_one] at hw
    simp only [Run.bind_eq, Run.pure_eq, pget, vget_one t _ ht1, Run.ret_andThen,
      vset_one t _ h1t, vget_zero ushape _ hu0, vget_one stride _ hst1, hwr, hw]
  · have h := column_major_offset_set t ushape 1 (t[1] + 1) _ h1u ht1
    rw [hutake] at h
    rw [h] at hwshift
    linarith
  · intro hgood hfirst
    have h := strided_offset_set stride t 1 (t[1] + 1) _ _ ht1 hst1
    have h3 := hwdata hgood
    have h4 := hfirst _ hst1
    rw [h, Index.wrap_of_range _ h4.1 h4.2] at h3
    linarith
  · rw [hw0, List.getElem?_set_ne (by omega)]

/-! ## The index arrays of `randn` -/

theorem Run.andThen_assoc {α β γ : Type} (m : Run α) (f : α → Run β) (g : β → Run γ) :
    (m.andThen f).andThen g = m.andThen fun a => (f a).andThen g := by
  unfold Run.andThen
  cases hm : m.result with
  | error e => simp
  | ok a =>
    simp only []
    cases hf : (f a).result with
    | error e => simp
    | ok b => simp [List.append_assoc]

/-- One round of the loop over the columns is its index part, the jump of the generator
and the column. -/
theorem randn_next_column_eq {T : Type} [Add T] [Mul T] (g : Generator T) (mean stddev : T)
    (shape underlying_shape stride : Option (List Int)) (nrows : Int)
    (st : kernel.cpu.Cursor T × List Int) :
    kernel.cpu.randn_next_column g mean stddev shape underlying_shape stride nrows st =
      (kernel.cpu.randn_index_step shape underlying_shape stride nrows st.1.data st.2).andThen
        fun w => (kernel.cpu.randn_column g mean stddev nrows
          ⟨g.jump w.shift st.1.seed, st.1.buffer, w.data⟩).andThen
            fun c => Run.ret (c, w.tmp_index) := by
  unfold kernel.cpu.randn_next_column kernel.cpu.randn_index_step
  simp only [Run.bind_eq, Run.pure_eq, Run.andThen_assoc]

/-- For `ndim != 0` the kernel is the computation of the first jump followed by the rest of
the kernel. -/
theorem randn_eq {T : Type} [Add T] [Mul T] (g : Generator T) (ndim nelems : Int)
    (seed : Nat) (mean stddev : T) (start shape underlying_shape : Option (List Int))
    (data : List T) (stride tmp_index : Option (List Int)) (hndim : ndim ≠ 0) :
    kernel.cpu.randn g ndim nelems seed mean stddev start shape underlying_shape data stride
        tmp_index =
      (kernel.cpu.randn_start_shift ndim start underlying_shape).andThen fun shift =>
        (pget shape 0).andThen fun nrows =>
          (Run.throw_if (nrows = 0) .vector_bounds).andThen fun _ =>
            (kernel.cpu.randn_column g mean stddev nrows ⟨g.jump shift seed, data, 0⟩).andThen
              fun c =>
                (match tmp_index with
                  | some t => foldRange 0 ndim t fun i t => vset t i 0
                  | none => Run.raise .vector_bounds).andThen fun tmp_index =>
                  (foldRange 1 (nelems.tdiv nrows) (c, tmp_index) fun _ st =>
                    kernel.cpu.randn_next_column g mean stddev shape underlying_shape stride
                      nrows st).andThen fun r => Run.ret r.1.buffer := by
  unfold kernel.cpu.randn kernel.cpu.randn_start_shift
  rw [if_neg hndim]
  cases tmp_index with
  | none => simp only [Run.bind_eq, Run.pure_eq, Run.andThen_assoc]
  | some t => simp only [Run.bind_eq, Run.pure_eq, Run.andThen_assoc]

theorem getD_of_getElem? (v : List Int) (i : Nat) (x : Int) (h : v[i]? = some x) :
    v.getD i 0 = x := by
  rw [List.getD_eq_getElem?_getD, h]
  rfl

/-- The rows and columns of the matrix view of a shape with positive extents. -/
theorem shape_rows_cols (shape : List Int) (hl : 0 < shape.length)
    (hpos : ∀ x ∈ shape, 1 ≤ x) :
    ∃ r c : Nat, shape[0]? = some (r : Int) ∧ shape.prod = (r : Int) * c ∧ 1 ≤ r ∧ 1 ≤ c ∧
      shape.prod.tdiv (r : Int) = c ∧ (shape.length = 1 → c = 1) := by
  rcases shape with _ | ⟨x, rest⟩
  · simp at hl
  · have hx := hpos x (by simp)
    have hp : 0 < rest.prod :=
      List.prod_pos (fun a ha => by have := hpos a (by simp [ha]); omega)
    have hprod : (x :: rest).prod = ((x.toNat : Nat) : Int) * ((rest.prod.toNat : Nat) : Int) := by
      rw [List.prod_cons, Int.toNat_of_nonneg (by omega), Int.toNat_of_nonneg (by omega)]
    refine ⟨x.toNat, rest.prod.toNat, ?_, hprod, by omega, by omega, ?_, ?_⟩
    · simp only [List.getElem?_cons_zero, Option.some.injEq]
      omega
    · rw [hprod]
      exact Int.mul_tdiv_cancel_left _ (by omega)
    · intro h1
      have : rest = [] := List.length_eq_zero.1 (by simpa using h1)
      subst this
      simp

theorem Run.ret_inj {α : Type} (a b : α) (h : Run.ret a = Run.ret b) : a = b := by
  unfold Run.ret at h
  injection h with _ h2
  injection h2

theorem Run.andThen_eq_ret {α β : Type} (m : Run α) (f : α → Run β) (b : β)
    (h : m.andThen f = Run.ret b) : ∃ a, m = Run.ret a ∧ f a = Run.ret b := by
  unfold Run.andThen at h
  cases hm : m.result with
  | error e =>
    rw [hm] at h
    unfold Run.ret at h
    injection h with _ h2
    cases h2
  | ok a =>
    rw [hm] at h
    simp only [] at h
    unfold Run.ret at h
    injection h with h1 h2
    obtain ⟨h3, h4⟩ := List.append_eq_nil.1 h1
    refine ⟨a, ?_, ?_⟩
    · cases m
      simp only at hm h3
      rw [hm, h3]
      rfl
    · cases hf : f a
      rw [hf] at h2 h4
      simp only at h2 h4
      rw [h2, h4]
      rfl

theorem Run.andThen_ok {α β : Type} (m : Run α) (f : α → Run β) (b : β)
    (h : (m.andThen f).result = .ok b) : ∃ a, m.result = .ok a ∧ (f a).result = .ok b := by
  unfold Run.andThen at h
  cases hm : m.result with
  | error e =>
    rw [hm] at h
    cases h
  | ok a =>
    rw [hm] at h
    exact ⟨a, rfl, h⟩

/-- A column moves the pointer `data` on by its number of elements. -/
theorem randn_column_data {T : Type} [Add T] [Mul T] (g : Generator T) (mean stddev : T)
    (nrows : Int) (hn : 0 ≤ nrows) (c c2 : kernel.cpu.Cursor T)
    (h : (kernel.cpu.randn_column g mean stddev nrows c).result = .ok c2) :
    c2.data = c.data + nrows := by
  have key : ∀ (xs : List Int) (c c2 : kernel.cpu.Cursor T),
      (foldEach xs c fun _ c =>
        (vset c.buffer c.data (kernel.cpu.chameleon_randn g c.seed mean stddev).1).andThen
          fun buffer => Run.ret
            ⟨(kernel.cpu.chameleon_randn g c.seed mean stddev).2, buffer, c.data + 1⟩).result =
        .ok c2 → c2.data = c.data + xs.length := by
    intro xs
    induction xs with
    | nil =>
      intro c c2 h
      unfold foldEach at h
      simp only [Run.ret_result, Outcome.ok.injEq] at h
      rw [← h]
      simp
    | cons x xs ih =>
      intro c c2 h
      unfold foldEach at h
      obtain ⟨c1, h1, h2⟩ := Run.andThen_ok _ _ _ h
      obtain ⟨b, _, h4⟩ := Run.andThen_ok _ _ _ h1
      simp only [Run.ret_result, Outcome.ok.injEq] at h4
      have := ih c1 c2 h2
      rw [this, ← h4]
      simp only [List.length_cons, Nat.cast_add, Nat.cast_one]
      ring
  unfold kernel.cpu.randn_column foldRange at h
  simp only [Run.bind_eq, Run.pure_eq] at h
  have := key _ c c2 h
  rw [this]
  unfold indexRange
  simp only [List.length_map, List.length_range, sub_zero]
  omega

/-- The loop over the columns follows the walk over the index arrays: when the walk ends
normally, the loop of the kernel is the sequence of the columns that the walk lists, each
written after a jump by the count of its round at the position of its round. -/
theorem column_loop_fusion {T : Type} [Add T] [Mul T] (g : Generator T) (mean stddev : T)
    (shape ushape stride : Option (List Int)) (nrows : Int) (hn : 0 ≤ nrows) (xs : List Int)
    (acc : List kernel.cpu.Carry) (dp : Int) (t : List Int)
    (res : List kernel.cpu.Carry × Int × List Int)
    (h : foldEach xs (acc, dp, t) (fun _ st =>
      (kernel.cpu.randn_index_step shape ushape stride nrows st.2.1 st.2.2).andThen fun w =>
        Run.ret (st.1 ++ [w], w.data + nrows, w.tmp_index)) = Run.ret res) :
    ∃ ws, res.1 = acc ++ ws ∧ ∀ c : kernel.cpu.Cursor T, c.data = dp →
      foldEach xs (c, t) (fun _ st =>
          kernel.cpu.randn_next_column g mean stddev shape ushape stride nrows st) =
        (foldEach ws c fun w c => kernel.cpu.randn_column g mean stddev nrows
          ⟨g.jump w.shift c.seed, c.buffer, w.data⟩).andThen fun c2 =>
            Run.ret (c2, res.2.2) := by
  induction xs generalizing acc dp t with
  | nil =>
    unfold foldEach at h
    have := Run.ret_inj _ _ h
    subst this
    refine ⟨[], by simp, fun c _ => ?_⟩
    unfold foldEach
    rw [Run.ret_andThen]
  | cons x xs ih =>
    unfold foldEach at h
    obtain ⟨s1, h1, h2⟩ := Run.andThen_eq_ret _ _ _ h
    obtain ⟨w, hw, h3⟩ := Run.andThen_eq_ret _ _ _ h1
    have h4 := Run.ret_inj _ _ h3
    subst h4
    obtain ⟨ws, hws, hk⟩ := ih _ _ _ h2
    refine ⟨w :: ws, by rw [hws]; simp, fun c hc => ?_⟩
    simp only at hw
    unfold foldEach
    show (kernel.cpu.randn_next_column g mean stddev shape ushape stride nrows (c, t)).andThen
      _ = _
    rw [randn_next_column_eq]
    simp only [hc, hw, Run.ret_andThen, Run.andThen_assoc]
    apply Run.andThen_congr
    intro c2 hc2
    exact hk c2 (randn_column_data g mean stddev nrows hn _ _ hc2)

/-- The kernel follows its walk over the index arrays: when the computation of the first
jump and the walk end normally, the run of the kernel for `ndim != 0` is the first column
after the first jump, followed by the columns that the walk lists, each after the jump of
its round at the position of its round; only a write through `data` can end it early. -/
theorem randn_eq_walk {T : Type} [Add T] [Mul T] (g : Generator T) (ndim nelems : Int)
    (seed : Nat) (mean stddev : T) (start shape underlying_shape : Option (List Int))
    (data : List T) (stride tmp_index : Option (List Int)) (hndim : ndim ≠ 0) (shift r : Int)
    (ws : List kernel.cpu.Carry)
    (hshift : kernel.cpu.randn_start_shift ndim start underlying_shape = Run.ret shift)
    (hr : pget shape 0 = Run.ret r) (hr0 : 0 ≤ r)
    (hwalk : kernel.cpu.randn_index_walk ndim nelems shape underlying_shape stride tmp_index =
      Run.ret ws) :
    kernel.cpu.randn g ndim nelems seed mean stddev start shape underlying_shape data stride
        tmp_index =
      (kernel.cpu.randn_column g mean stddev r ⟨g.jump shift seed, data, 0⟩).andThen fun c =>
        (foldEach ws c fun w c => kernel.cpu.randn_column g mean stddev r
          ⟨g.jump w.shift c.seed, c.buffer, w.data⟩).andThen fun c => Run.ret c.buffer := by
  unfold kernel.cpu.randn_index_walk at hwalk
  cases tmp_index with
  | none =>
    simp only [Run.bind_eq, Run.pure_eq, hr, Run.ret_andThen, Run.raise_andThen] at hwalk
    obtain ⟨_, _, hwalk⟩ := Run.andThen_eq_ret _ _ _ hwalk
    unfold Run.raise Run.ret at hwalk
    injection hwalk with _ h2
    cases h2
  | some tmp =>
  simp only [Run.bind_eq, Run.pure_eq, hr, Run.ret_andThen] at hwalk
  obtain ⟨_, hthrow, hwalk⟩ := Run.andThen_eq_ret _ _ _ hwalk
  obtain ⟨t0, ht0, hwalk⟩ := Run.andThen_eq_ret _ _ _ hwalk
  obtain ⟨res, hres, hwalk⟩ := Run.andThen_eq_ret _ _ _ hwalk
  have hres1 := Run.ret_inj _ _ hwalk
  unfold foldRange at hres
  obtain ⟨ws2, hws2, hk⟩ := column_loop_fusion g mean stddev shape underlying_shape stride r
    hr0 _ [] r t0 res hres
  rw [List.nil_append] at hws2
  rw [hws2] at hres1
  subst hres1
  rw [randn_eq g ndim nelems seed mean stddev start shape underlying_shape data stride
    (some tmp) hndim, hshift, Run.ret_andThen, hr, Run.ret_andThen, hthrow, Run.ret_andThen]
  apply Run.andThen_congr
  intro c hc
  have hcd := randn_column_data g mean stddev r hr0 _ _ hc
  simp only [ht0, Run.ret_andThen]
  unfold foldRange
  rw [hk c (by rw [hcd]; simp), Run.andThen_assoc]
  simp only [Run.ret_andThen]

/-- C30 (as stated): with `start = (0, 3)`, `shape = (1, 1)` and
`underlying_shape = (2^62, 4)`, which meet `shape[j] >= 1`, `start[j] >= 0` and
`start[j] + shape[j] <= underlying_shape[j]`, the computation of the first jump multiplies
`3` by `2^62` in `Index`, and the count that the kernel passes to `CORE_rnd64_jump` is
`-2^62`: the kernel writes the element that the generator gives after a jump by a negative
count. -/
theorem randn_negative_jump_counterexample :
    (∀ x ∈ ([1, 1] : List Int), 1 ≤ x) ∧
    (∀ i : Nat, i < ([1, 1] : List Int).length →
      0 ≤ ([0, 3] : List Int).getD i 0 ∧
      ([0, 3] : List Int).getD i 0 + ([1, 1] : List Int).getD i 0 ≤
        ([4611686018427387904, 4] : List Int).getD i 0) ∧
    kernel.cpu.randn_start_shift 2 (some [0, 3]) (some [4611686018427387904, 4]) =
      Run.ret (-4611686018427387904) ∧
    kernel.cpu.randn_index_walk 2 1 (some [1, 1]) (some [4611686018427387904, 4])
      (some [1, 1]) (some [0, 0]) = Run.ret [] ∧
    ∀ (T : Type) [Add T] [Mul T] (g : Generator T) (seed : Nat) (mean stddev x : T),
      kernel.cpu.randn g 2 1 seed mean stddev (some [0, 3]) (some [1, 1])
          (some [4611686018427387904, 4]) [x] (some [1, 1]) (some [0, 0]) =
        Run.ret [stddev * g.laran (g.jump (-4611686018427387904) seed) + mean] := by
  have h1 : kernel.cpu.randn_start_shift 2 (some [0, 3]) (some [4611686018427387904, 4]) =
      Run.ret (-4611686018427387904) := by decide
  have h2 : kernel.cpu.randn_index_walk 2 1 (some [1, 1]) (some [4611686018427387904, 4])
      (some [1, 1]) (some [0, 0]) = Run.ret [] := by decide
  refine ⟨by decide, by decide, h1, h2, ?_⟩
  intro T _ _ g seed mean stddev x
  rw [randn_eq_walk g 2 1 seed mean stddev (some [0, 3]) (some [1, 1])
    (some [4611686018427387904, 4]) [x] (some [1, 1]) (some [0, 0]) (by decide) _ 1 [] h1
    (by decide) (by decide) h2]
  obtain ⟨b2, hcol, hb2l, hb2new, -⟩ := randn_column_run g mean stddev 1 0
    (g.jump (-4611686018427387904) seed) [x] (by simp)
  simp only [Nat.cast_one, Nat.cast_zero] at hcol
  rw [hcol, Run.ret_andThen]
  unfold foldEach
  rw [Run.ret_andThen]
  congr 1
  have h0 := hb2new 0 (by omega)
  simp only [add_zero, Function.iterate_zero, id_eq] at h0
  match b2, hb2l, h0 with
  | [y], _, h0 =>
    simp only [List.getElem?_cons_zero, Option.some.injEq] at h0
    rw [h0]

/-- C30 (amended): for `ndim >= 1`, index arrays of `ndim` entries, `shape[j] >= 1`,
`start[j] >= 0`, `start[j] + shape[j] <= underlying_shape[j]`, `nelems = prod(shape)` and
an underlying array whose number of elements is a value of `Index`
(`prod(underlying_shape) < 2^63`), whatever the strides: the computation of the first jump
reads within the arrays and gives a count that is not negative; `shape[0]` is not zero; the
walk over the index arrays ends normally without an access outside of the arrays, takes
`nelems / shape[0] - 1` rounds, none for `ndim = 1`, and every round leaves the loop
`while(tmp_index[k] == shape[k])` with `1 <= k <= ndim-1` and a jump count that is not
negative; and for every generator and buffer the run of the kernel is the first column
after the first jump followed by one column per round of the walk, after the jump of the
round, so that only a write through `data` can end it early. -/
theorem randn_index_safety (ndim nelems : Int) (start shape ushape stride tmp_index : List Int)
    (hndim : 1 ≤ ndim) (hshape : (shape.length : Int) = ndim)
    (hstartl : start.length = shape.length) (hul : ushape.length = shape.length)
    (hlen : stride.length = shape.length) (htmp : tmp_index.length = shape.length)
    (hpos : ∀ x ∈ shape, 1 ≤ x)
    (hstart : ∀ i : Nat, i < shape.length →
      0 ≤ start.getD i 0 ∧ start.getD i 0 + shape.getD i 0 ≤ ushape.getD i 0)
    (hnelems : nelems = shape.prod) (hbound : ushape.prod < 9223372036854775808) :
    ∃ (shift : Int) (ws : List kernel.cpu.Carry),
      kernel.cpu.randn_start_shift ndim (some start) (some ushape) = Run.ret shift ∧
      0 ≤ shift ∧ shape.getD 0 0 ≠ 0 ∧
      kernel.cpu.randn_index_walk ndim nelems (some shape) (some ushape) (some stride)
        (some tmp_index) = Run.ret ws ∧
      (ws.length : Int) + 1 = nelems.tdiv (shape.getD 0 0) ∧
      (∀ w ∈ ws, 0 ≤ w.shift ∧ 1 ≤ w.k ∧ w.k ≤ ndim - 1) ∧
      (ndim = 1 → ws = []) ∧
      ∀ (T : Type) [Add T] [Mul T] (g : Generator T) (seed : Nat) (mean stddev : T)
        (data : List T),
        kernel.cpu.randn g ndim nelems seed mean stddev (some start) (some shape)
            (some ushape) data (some stride) (some tmp_index) =
          (kernel.cpu.randn_column g mean stddev (shape.getD 0 0)
            ⟨g.jump shift seed, data, 0⟩).andThen fun c =>
              (foldEach ws c fun w c => kernel.cpu.randn_column g mean stddev (shape.getD 0 0)
                ⟨g.jump w.shift c.seed, c.buffer, w.data⟩).andThen fun c =>
                  Run.ret c.buffer := by
  subst hshape
  have hl0 : 0 < shape.length := by omega
  have hsub : ∀ (i : Nat) (s u : Int), shape[i]? = some s → ushape[i]? = some u → s ≤ u := by
    intro i s u hs hu
    have hi : i < shape.length := by
      by_contra hcon
      rw [List.getElem?_eq_none (by omega)] at hs
      cases hs
    have := hstart i hi
    rw [getD_of_getElem? shape i s hs, getD_of_getElem? ushape i u hu] at this
    omega
  have hsdig : ∀ (i : Nat) (d u : Int), start[i]? = some d → ushape[i]? = some u →
      0 ≤ d ∧ d < u := by
    intro i d u hd hu
    have hi : i < shape.length := by
      by_contra hcon
      rw [List.getElem?_eq_none (by omega)] at hd
      cases hd
    have h1 := hstart i hi
    have h2 := hpos _ (List.getElem_mem hi)
    rw [getD_of_getElem? start i d hd, getD_of_getElem? ushape i u hu,
      getD_of_getElem? shape i _ (List.getElem?_eq_getElem hi)] at h1
    omega
  have hu1 := underlying_nonneg shape ushape hul hpos hsub
  obtain ⟨r, c, hr, hc, hr1, hc1, hdiv, hone⟩ := shape_rows_cols shape hl0 hpos
  have hrD : shape.getD 0 0 = (r : Int) := getD_of_getElem? shape 0 _ hr
  have hshift := randn_start_shift_run start ushape shape.length (by omega) hstartl hul hsdig
    hbound
  obtain ⟨st, hloop, hl, hwl, hwdig, hwval, hws⟩ :=
    foldRange_invariant 1 (c : Int) (by omega)
      ((([] : List kernel.cpu.Carry), (r : Int), List.replicate shape.length 0) :
        List kernel.cpu.Carry × Int × List Int)
      (fun _ st =>
        (kernel.cpu.randn_index_step (some shape) (some ushape) (some stride) (r : Int)
          st.2.1 st.2.2).andThen
            fun w => Run.ret (st.1 ++ [w], w.data + (r : Int), w.tmp_index))
      (fun j st => (st.1.length : Int) + 1 = j ∧ st.2.2.length = shape.length ∧
        (∀ (i : Nat) (d s : Int), st.2.2[i]? = some d → shape[i]? = some s →
          0 ≤ d ∧ d < s) ∧
        column_major_offset st.2.2 shape + r = j * r ∧
        ∀ w ∈ st.1, 0 ≤ w.shift ∧ 1 ≤ w.k ∧ w.k ≤ (shape.length : Int) - 1)
      (by
        refine ⟨by simp, List.length_replicate _ _, ?_, ?_, by simp⟩
        · intro i d s hd hs
          rw [List.getElem?_replicate] at hd
          split at hd
          · cases hd
            have := hpos s (List.mem_iff_getElem?.2 ⟨_, hs⟩)
            omega
          · cases hd
        · show column_major_offset (List.replicate shape.length 0) shape + (r : Int) = 1 * r
          rw [column_major_offset_zeros]
          simp)
      (by
        rintro j ⟨ws, dp, t⟩ h1 hj ⟨hl, htl, hdig, hval, hws⟩
        simp only at hl htl hdig hval hws
        have hnext : column_major_offset t shape + r < shape.prod := by
          rw [hval, hc]
          have h3 : (j + 1) * (r : Int) ≤ c * r :=
            mul_le_mul_of_nonneg_right (by omega) (by omega)
          linarith
        obtain ⟨w, hw, hwl, hwdig, hwval, -, -, hs0, hk1, hk2, -, -⟩ :=
          randn_index_step_run shape ushape stride r hul hlen hpos hsub hbound hr t dp htl
            hdig hnext
        refine ⟨(ws ++ [w], w.data + (r : Int), w.tmp_index), ?_, ?_, hwl, hwdig, ?_, ?_⟩
        · show (kernel.cpu.randn_index_step _ _ _ _ dp t).andThen _ = _
          rw [hw, Run.ret_andThen]
        · show ((ws ++ [w]).length : Int) + 1 = j + 1
          rw [List.length_append]
          simp only [List.length_singleton, Nat.cast_add, Nat.cast_one]
          omega
        · show column_major_offset w.tmp_index shape + r = (j + 1) * r
          rw [hwval, hval]
          ring
        · intro w2 hw2
          rcases List.mem_append.1 hw2 with h | h
          · exact hws w2 h
          · rw [List.mem_singleton.1 h]
            exact ⟨hs0, hk1, by omega⟩)
  have hwalk : kernel.cpu.randn_index_walk (shape.length : Int) nelems (some shape)
      (some ushape) (some stride) (some tmp_index) = Run.ret st.1 := by
    unfold kernel.cpu.randn_index_walk
    simp only [Run.bind_eq, Run.pure_eq, pget, vget_zero shape _ hr,
      Run.throw_if_neg _ (show ¬ (r : Int) = 0 by omega), Run.ret_andThen, hnelems, hdiv,
      tmp_index_init shape.length tmp_index htmp, hloop]
  refine ⟨_, st.1, hshift, ?_, by rw [hrD]; omega, hwalk, ?_, hws, ?_, ?_⟩
  · apply column_major_offset_nonneg
    · intro x hx
      obtain ⟨i, hi, rfl⟩ := List.mem_iff_getElem.1 hx
      have := (hstart i (by omega)).1
      rw [getD_of_getElem? start i _ (List.getElem?_eq_getElem hi)] at this
      exact this
    · intro u hu
      have := hu1 u hu
      omega
  · rw [hl, hrD, hnelems, hdiv]
  · intro h1
    have hc1 : c = 1 := hone (by omega)
    subst hc1
    have : st.1.length = 0 := by
      have : (st.1.length : Int) + 1 = 1 := hl
      omega
    exact List.length_eq_zero.1 this
  · intro T _ _ g seed mean stddev data
    rw [hrD]
    exact randn_eq_walk g _ nelems seed mean stddev _ _ _ data _ _ (by omega) _ (r : Int) st.1
      hshift (vget_zero shape _ hr) (by omega) hwalk

theorem randn_index_safety_witness :
    ∃ (shift : Int) (ws : List kernel.cpu.Carry),
      kernel.cpu.randn_start_shift 2 (some [1, 2]) (some [4, 5]) = Run.ret shift ∧
      0 ≤ shift ∧
      kernel.cpu.randn_index_walk 2 6 (some [2, 3]) (some [4, 5]) (some [7, -7])
        (some [9, 9]) = Run.ret ws ∧
      (ws.length : Int) + 1 = (6 : Int).tdiv (([2, 3] : List Int).getD 0 0) ∧
      (∀ w ∈ ws, 0 ≤ w.shift ∧ 1 ≤ w.k ∧ w.k ≤ 2 - 1) := by
  obtain ⟨shift, ws, h1, h2, _, h4, h5, h6, _⟩ := randn_index_safety 2 6 [1, 2] [2, 3] [4, 5]
    [7, -7] [9, 9] (by decide) (by decide) (by decide) (by decide) (by decide) (by decide)
    (by decide) (by decide) (by decide) (by decide)
  exact ⟨shift, ws, h1, h2, h4, h5, h6⟩

/-! ## The columns of `randn` on a part of an underlying array -/

theorem index_within_iff (index shape : List Int) :
    index_within index shape ↔ index.length = shape.length ∧
      ∀ (i : Nat) (d s : Int), index[i]? = some d → shape[i]? = some s → 0 ≤ d ∧ d < s := by
  unfold index_within
  constructor
  · rintro ⟨hl, h⟩
    refine ⟨hl, fun i d s hd hs => ?_⟩
    have hi : i < shape.length := by
      by_contra hcon
      rw [List.getElem?_eq_none (by omega)] at hs
      cases hs
    have := h i hi
    rwa [getD_of_getElem? index i d hd, getD_of_getElem? shape i s hs] at this
  · rintro ⟨hl, h⟩
    refine ⟨hl, fun i hi => ?_⟩
    have hii : i < index.length := by omega
    have := h i _ _ (List.getElem?_eq_getElem hii) (List.getElem?_eq_getElem hi)
    rwa [getD_of_getElem? index i _ (List.getElem?_eq_getElem hii),
      getD_of_getElem? shape i _ (List.getElem?_eq_getElem hi)]

theorem strided_offset_zeros (n : Nat) (stride : List Int) :
    strided_offset stride (List.replicate n 0) = 0 := by
  induction n generalizing stride with
  | zero => cases stride <;> simp [strided_offset]
  | succ n ih =>
    cases stride with
    | nil => simp [List.replicate_succ, strided_offset]
    | cons m stride => simp [List.replicate_succ, strided_offset, ih]

/-- The elements of the column that starts at the index `t`: the indices `t` with the
first entry replaced by a row number. -/
theorem column_element (shape ushape stride t : List Int) (r i : Nat)
    (hul : ushape.length = shape.length) (hlen : stride.length = shape.length)
    (hr : shape[0]? = some (r : Int)) (hstride0 : stride[0]? = some 1)
    (htl : t.length = shape.length)
    (hdig : ∀ (i : Nat) (d s : Int), t[i]? = some d → shape[i]? = some s → 0 ≤ d ∧ d < s)
    (ht0 : t[0]? = some 0) (hi : i < r) :
    (t.set 0 (i : Int)).length = shape.length ∧
    (∀ (j : Nat) (d s : Int), (t.set 0 (i : Int))[j]? = some d → shape[j]? = some s →
      0 ≤ d ∧ d < s) ∧
    column_major_offset (t.set 0 (i : Int)) shape = column_major_offset t shape + i ∧
    column_major_offset (t.set 0 (i : Int)) ushape = column_major_offset t ushape + i ∧
    strided_offset stride (t.set 0 (i : Int)) = strided_offset stride t + i := by
  have hl0 : 0 < shape.length := by
    by_contra hcon
    rw [List.getElem?_eq_none (by omega)] at hr
    cases hr
  refine ⟨by rw [List.length_set]; exact htl, ?_, ?_, ?_, ?_⟩
  · intro j d s hd hs
    rcases eq_or_ne j 0 with hj | hj
    · subst hj
      rw [List.getElem?_set_self (by omega)] at hd
      cases hd
      rw [hr] at hs
      cases hs
      omega
    · rw [List.getElem?_set_ne (Ne.symm hj)] at hd
      exact hdig j d s hd hs
  · rw [column_major_offset_set t shape 0 _ _ hl0 ht0]
    simp
  · rw [column_major_offset_set t ushape 0 _ _ (by omega) ht0]
    simp
  · rw [strided_offset_set stride t 0 _ _ _ ht0 hstride0]
    simp

/-- An index within the shape whose offset falls into the column that starts at the index
`t` is an element of that column. -/
theorem index_in_column (shape t index : List Int) (r : Nat)
    (hr : shape[0]? = some (r : Int)) (htl : t.length = shape.length)
    (hdig : ∀ (i : Nat) (d s : Int), t[i]? = some d → shape[i]? = some s → 0 ≤ d ∧ d < s)
    (ht0 : t[0]? = some 0) (hil : index.length = shape.length)
    (hidig : ∀ (i : Nat) (d s : Int), index[i]? = some d → shape[i]? = some s →
      0 ≤ d ∧ d < s)
    (h1 : column_major_offset t shape ≤ column_major_offset index shape)
    (h2 : column_major_offset index shape < column_major_offset t shape + r) :
    ∃ i : Nat, i < r ∧ index = t.set 0 (i : Int) := by
  have hl0 : 0 < shape.length := by
    by_contra hcon
    rw [List.getElem?_eq_none (by omega)] at hr
    cases hr
  refine ⟨(column_major_offset index shape - column_major_offset t shape).toNat, by omega, ?_⟩
  apply column_major_offset_inj index _ shape hil (by rw [List.length_set]; exact htl) hidig
  · intro j d s hd hs
    rcases eq_or_ne j 0 with hj | hj
    · subst hj
      rw [List.getElem?_set_self (by omega)] at hd
      cases hd
      rw [hr] at hs
      cases hs
      omega
    · rw [List.getElem?_set_ne (Ne.symm hj)] at hd
      exact hdig j d s hd hs
  · rw [column_major_offset_set t shape 0 _ _ hl0 ht0]
    simp only [List.take_zero, List.prod_nil, mul_one, sub_zero]
    omega

/-- With a unit first stride and every stride at least the stride before it times the
extent before it, all strides are positive. -/
theorem stride_pos (stride shape : List Int) (hpos : ∀ x ∈ shape, 1 ≤ x)
    (hstride0 : stride[0]? = some 1)
    (hchain : ∀ (i : Nat) (s x s2 : Int), stride[i]? = some s → shape[i]? = some x →
      stride[i + 1]? = some s2 → s * x ≤ s2)
    (hlen : stride.length = shape.length) (i : Nat) (s : Int) (hs : stride[i]? = some s) :
    1 ≤ s := by
  induction i generalizing s with
  | zero =>
    rw [hstride0] at hs
    cases hs
    exact le_refl _
  | succ i ih =>
    have hi : i + 1 < stride.length := by
      by_contra hcon
      rw [List.getElem?_eq_none (by omega)] at hs
      cases hs
    have h1 := ih _ (List.getElem?_eq_getElem (show i < stride.length by omega))
    have h2 := hpos _ (List.getElem_mem (show i < shape.length by omega))
    have h3 := hchain i _ _ s (List.getElem?_eq_getElem (show i < stride.length by omega))
      (List.getElem?_eq_getElem (show i < shape.length by omega)) hs
    have h4 : 1 * 1 ≤ stride[i] * shape[i] := mul_le_mul h1 h2 (by omega) (by omega)
    omega

/-- Under the conditions of `stride_pos`, with strides that are values of `Index`, the
products and differences that move the pointer `data` are values of `Index`. -/
theorem stride_steps_in_range (stride shape : List Int) (hpos : ∀ x ∈ shape, 1 ≤ x)
    (hstride0 : stride[0]? = some 1)
    (hchain : ∀ (i : Nat) (s x s2 : Int), stride[i]? = some s → shape[i]? = some x →
      stride[i + 1]? = some s2 → s * x ≤ s2)
    (hlen : stride.length = shape.length) (hsmax : ∀ s ∈ stride, s < 9223372036854775808) :
    ∀ (i : Nat) (s x s2 : Int), stride[i]? = some s → shape[i]? = some x →
      stride[i + 1]? = some s2 →
      -9223372036854775808 ≤ s * x ∧ s * x < 9223372036854775808 ∧
      -9223372036854775808 ≤ s2 - s * x ∧ s2 - s * x < 9223372036854775808 := by
  intro i s x s2 h1 h2 h3
  have h4 := hchain i s x s2 h1 h2 h3
  have h5 := stride_pos stride shape hpos hstride0 hchain hlen i s h1
  have h6 := hpos x (List.mem_iff_getElem?.2 ⟨_, h2⟩)
  have h7 := hsmax s2 (List.mem_iff_getElem?.2 ⟨_, h3⟩)
  have h8 : 1 * 1 ≤ s * x := mul_le_mul h5 h6 (by omega) (by omega)
  omega

/-- One round of the loop over the columns, from the index `t` of a column that is not the
last one: the index moves on to the next column, the generator jumps to the offset of that
column in the underlying array, and the column is written at its position in the buffer. -/
theorem randn_next_column_general {T : Type} [Add T] [Mul T] (g : Generator T)
    (hjump : ∀ (n s : Nat), g.jump (n : Int) s = g.next^[n] s) (mean stddev : T)
    (shape ushape stride : List Int) (r : Nat)
    (hul : ushape.length = shape.length) (hlen : stride.length = shape.length)
    (hpos : ∀ x ∈ shape, 1 ≤ x)
    (hsub : ∀ (i : Nat) (s u : Int), shape[i]? = some s → ushape[i]? = some u → s ≤ u)
    (hbound : ushape.prod < 9223372036854775808)
    (hsmax : ∀ s ∈ stride, s < 9223372036854775808)
    (hr : shape[0]? = some (r : Int)) (hstride0 : stride[0]? = some 1)
    (hchain : ∀ (i : Nat) (s x s2 : Int), stride[i]? = some s → shape[i]? = some x →
      stride[i + 1]? = some s2 → s * x ≤ s2)
    (seed : Nat) (b : List T) (t : List Int)
    (hb : strided_offset stride (shape.map fun x => x - 1) < b.length)
    (htl : t.length = shape.length)
    (hdig : ∀ (i : Nat) (d s : Int), t[i]? = some d → shape[i]? = some s → 0 ≤ d ∧ d < s)
    (ht0 : t[0]? = some 0)
    (hnext : column_major_offset t shape + r < shape.prod) :
    ∃ (b2 : List T) (t2 : List Int) (a shift : Nat),
      kernel.cpu.randn_next_column g mean stddev (some shape) (some ushape) (some stride)
          (r : Int) (⟨seed, b, strided_offset stride t + r⟩, t) =
        Run.ret (⟨g.next^[shift + r] seed, b2, strided_offset stride t2 + r⟩, t2) ∧
      (a : Int) = strided_offset stride t2 ∧
      (shift : Int) = column_major_offset t2 ushape - column_major_offset t ushape - r ∧
      t2.length = shape.length ∧
      (∀ (i : Nat) (d s : Int), t2[i]? = some d → shape[i]? = some s → 0 ≤ d ∧ d < s) ∧
      t2[0]? = some 0 ∧
      column_major_offset t2 shape = column_major_offset t shape + r ∧
      b2.length = b.length ∧
      (∀ i : Nat, i < r →
        b2[a + i]? = some (stddev * g.laran (g.next^[shift + i] seed) + mean)) ∧
      (∀ j : Nat, j < a ∨ a + r ≤ j → b2[j]? = b[j]?) := by
  have hr1 : (1 : Int) ≤ r := hpos _ (List.mem_iff_getElem?.2 ⟨_, hr⟩)
  obtain ⟨w, hw, hwl, hwdig, hwval, hwshift, hwdata, hs0, hk1, hk2, hw0, h2⟩ :=
    randn_index_step_run shape ushape stride r hul hlen hpos hsub hbound hr t
      (strided_offset stride t + r) htl hdig hnext
  rw [ht0] at hw0
  have hdata : w.data = strided_offset stride w.tmp_index := by
    rw [hwdata (stride_steps_in_range stride shape hpos hstride0 hchain hlen hsmax) (by
      intro s1 hs1
      have h3 := hchain 0 1 r s1 hstride0 hr hs1
      have h4 := hsmax s1 (List.mem_iff_getElem?.2 ⟨_, hs1⟩)
      omega)]
    ring
  obtain ⟨_, hlastdig, _, _, hlast⟩ := column_element shape ushape stride w.tmp_index r (r - 1)
    hul hlen hr hstride0 hwl hwdig hw0 (by omega)
  have hbound := strided_offset_le stride shape (w.tmp_index.set 0 ((r - 1 : Nat) : Int)) 1
    hlen (by rw [List.length_set]; exact hwl) hstride0 (le_refl _) hchain hlastdig
  have hpos2 := strided_offset_le stride shape w.tmp_index 1 hlen hwl hstride0 (le_refl _)
    hchain hwdig
  obtain ⟨a, ha⟩ := Int.eq_ofNat_of_zero_le hpos2.1
  obtain ⟨shift, hshift⟩ := Int.eq_ofNat_of_zero_le hs0
  have hab : a + r ≤ b.length := by
    have h1 := hbound.2
    rw [hlast, ha] at h1
    omega
  obtain ⟨b2, hcol, hb2l, hb2new, hb2old⟩ := randn_column_run g mean stddev r a
    (g.next^[shift] seed) b hab
  refine ⟨b2, w.tmp_index, a, shift, ?_, by rw [ha], by rw [← hshift, hwshift], hwl, hwdig,
    hw0, hwval, hb2l, ?_, hb2old⟩
  · rw [randn_next_column_eq, hw, Run.ret_andThen]
    simp only []
    rw [hshift, hjump, hdata, ha, hcol, Run.ret_andThen, ← Function.iterate_add_apply,
      Nat.add_comm r shift]
    push_cast
    rfl
  · intro i hi
    rw [hb2new i hi, ← Function.iterate_add_apply, Nat.add_comm i shift]

/-! ## The buffer of `randn` column by column -/

/-- Writing the column that starts at the index `t2` extends a buffer that is filled up to
the offset of `t2` to a buffer that is filled up to the end of the column. -/
theorem filled_column {T : Type} (value : List Int → T) (shape ushape stride : List Int)
    (r : Nat) (data b b2 : List T) (t2 : List Int) (a : Nat)
    (hul : ushape.length = shape.length) (hlen : stride.length = shape.length)
    (hr : shape[0]? = some (r : Int)) (hstride0 : stride[0]? = some 1)
    (hchain : ∀ (i : Nat) (s x s2 : Int), stride[i]? = some s → shape[i]? = some x →
      stride[i + 1]? = some s2 → s * x ≤ s2)
    (ht2l : t2.length = shape.length)
    (ht2dig : ∀ (i : Nat) (d s : Int), t2[i]? = some d → shape[i]? = some s → 0 ≤ d ∧ d < s)
    (ht20 : t2[0]? = some 0) (ha : (a : Int) = strided_offset stride t2)
    (hlen2 : b2.length = b.length)
    (hnew : ∀ i : Nat, i < r → b2[a + i]? = some (value (t2.set 0 (i : Int))))
    (hold : ∀ j : Nat, j < a ∨ a + r ≤ j → b2[j]? = b[j]?)
    (hF : kernel.cpu.Filled value stride shape data (column_major_offset t2 shape) b) :
    kernel.cpu.Filled value stride shape data (column_major_offset t2 shape + r) b2 := by
  obtain ⟨hFl, hFnew, hFold⟩ := hF
  have hcol : ∀ i : Nat, i < r → index_within (t2.set 0 (i : Int)) shape ∧
      column_major_offset (t2.set 0 (i : Int)) shape = column_major_offset t2 shape + i ∧
      (strided_offset stride (t2.set 0 (i : Int))).toNat = a + i := by
    intro i hi
    obtain ⟨h1, h2, h3, _, h5⟩ := column_element shape ushape stride t2 r i hul hlen hr
      hstride0 ht2l ht2dig ht20 hi
    refine ⟨(index_within_iff _ _).2 ⟨h1, h2⟩, h3, ?_⟩
    rw [h5, ← ha]
    omega
  refine ⟨by rw [hlen2, hFl], ?_, ?_⟩
  · intro index hin hlt
    obtain ⟨hil, hidig⟩ := (index_within_iff _ _).1 hin
    have hinn := (strided_offset_le stride shape index 1 hlen hil hstride0 (le_refl _) hchain
      hidig).1
    rcases lt_or_le (column_major_offset index shape) (column_major_offset t2 shape)
      with hlow | hhigh
    · have hq := hFnew index hin hlow
      rw [← hq]
      apply hold
      by_contra hcon
      have hcon2 : a ≤ (strided_offset stride index).toNat ∧
          (strided_offset stride index).toNat < a + r := by omega
      obtain ⟨i, hieq⟩ := Nat.exists_eq_add_of_le hcon2.1
      have hi : i < r := by omega
      obtain ⟨h1, h2, h3⟩ := hcol i hi
      obtain ⟨h1l, h1d⟩ := (index_within_iff _ _).1 h1
      have hpos2 := (strided_offset_le stride shape (t2.set 0 (i : Int)) 1 hlen h1l hstride0
        (le_refl _) hchain h1d).1
      have heq : index = t2.set 0 (i : Int) :=
        strided_offset_inj stride shape index _ 1 hlen hil h1l hstride0 (le_refl _) hchain
          hidig h1d (by omega)
      rw [heq, h2] at hlow
      omega
    · obtain ⟨i, hi, rfl⟩ := index_in_column shape t2 index r hr ht2l ht2dig ht20 hil hidig
        hhigh hlt
      rw [(hcol i hi).2.2]
      exact hnew i hi
  · intro p hp
    have hout : p < a ∨ a + r ≤ p := by
      by_contra hcon
      have hcon2 : a ≤ p ∧ p < a + r := by omega
      obtain ⟨i, rfl⟩ := Nat.exists_eq_add_of_le hcon2.1
      have hi : i < r := by omega
      obtain ⟨h1, h2, h3⟩ := hcol i hi
      exact hp _ h1 (by omega) h3
    rw [hold p hout]
    exact hFold p fun index hin hlt => hp index hin (by omega)

/-- The kernel `randn` on a part of an underlying array, with a unit first stride and
every other stride at least the stride before it times the extent before it: it ends
normally, the element of every index inside the shape holds the value of the stream at the
offset of `start + index` in the underlying array, and every other position of the buffer
is left as it was, when the number of elements of the underlying array and the strides are
values of `Index`. -/
theorem randn_strided_run {T : Type} [Add T] [Mul T] (g : Generator T)
    (hjump : ∀ (n s : Nat), g.jump (n : Int) s = g.next^[n] s) (seed : Nat) (mean stddev : T)
    (start shape ushape stride tmp_index : List Int) (data : List T)
    (hl0 : 0 < shape.length) (hstartl : start.length = shape.length)
    (hul : ushape.length = shape.length) (hlen : stride.length = shape.length)
    (htmp : tmp_index.length = shape.length) (hpos : ∀ x ∈ shape, 1 ≤ x)
    (hstart0 : ∀ x ∈ start, 0 ≤ x)
    (hsub : ∀ (i : Nat) (s u : Int), shape[i]? = some s → ushape[i]? = some u → s ≤ u)
    (hsdig : ∀ (i : Nat) (d u : Int), start[i]? = some d → ushape[i]? = some u →
      0 ≤ d ∧ d < u)
    (hubound : ushape.prod < 9223372036854775808)
    (hsmax : ∀ s ∈ stride, s < 9223372036854775808)
    (hstride0 : stride[0]? = some 1)
    (hchain : ∀ (i : Nat) (s x s2 : Int), stride[i]? = some s → shape[i]? = some x →
      stride[i + 1]? = some s2 → s * x ≤ s2)
    (hdata : strided_offset stride (shape.map fun x => x - 1) < data.length) :
    ∃ out, kernel.cpu.randn g (shape.length : Int) shape.prod seed mean stddev (some start)
        (some shape) (some ushape) data (some stride) (some tmp_index) = Run.ret out ∧
      kernel.cpu.Filled
        (fun index => stddev * g.laran (g.next^[(column_major_offset start ushape +
          column_major_offset index ushape).toNat] seed) + mean)
        stride shape data shape.prod out := by
  have hu1 := underlying_nonneg shape ushape hul hpos hsub
  have hS0 := column_major_offset_nonneg start ushape hstart0
    (fun u hu => by have := hu1 u hu; omega)
  obtain ⟨s0, hs0⟩ := Int.eq_ofNat_of_zero_le hS0
  obtain ⟨r, c, hr, hc, hr1, hc1, hdiv, -⟩ := shape_rows_cols shape hl0 hpos
  have hzl : (List.replicate shape.length (0 : Int)).length = shape.length :=
    List.length_replicate _ _
  have hzdig : ∀ (i : Nat) (d s : Int), (List.replicate shape.length (0 : Int))[i]? = some d →
      shape[i]? = some s → 0 ≤ d ∧ d < s := by
    intro i d s hd hs
    rw [List.getElem?_replicate] at hd
    split at hd
    · cases hd
      have := hpos s (List.mem_iff_getElem?.2 ⟨_, hs⟩)
      omega
    · cases hd
  have hz0 : (List.replicate shape.length (0 : Int))[0]? = some 0 := by
    rw [List.getElem?_replicate, if_pos hl0]
  -- the first column
  obtain ⟨_, hlastdig, _, _, hlast⟩ := column_element shape ushape stride
    (List.replicate shape.length 0) r (r - 1) hul hlen hr hstride0 hzl hzdig hz0 (by omega)
  have hbound := (strided_offset_le stride shape _ 1 hlen
    (by rw [List.length_set]; exact hzl) hstride0 (le_refl _) hchain hlastdig).2
  rw [hlast, strided_offset_zeros] at hbound
  obtain ⟨b1, hcol, hb1l, hb1new, hb1old⟩ := randn_column_run g mean stddev r 0
    (g.next^[s0] seed) data (by omega)
  simp only [Nat.cast_zero, zero_add] at hcol
  have hF1 : kernel.cpu.Filled
      (fun index => stddev * g.laran (g.next^[(column_major_offset start ushape +
        column_major_offset index ushape).toNat] seed) + mean)
      stride shape data (column_major_offset (List.replicate shape.length 0) shape + r) b1 := by
    apply filled_column _ shape ushape stride r data data b1 _ 0 hul hlen hr hstride0 hchain
      hzl hzdig hz0 (by rw [strided_offset_zeros]; rfl) hb1l
    · intro i hi
      rw [hb1new i hi, ← Function.iterate_add_apply]
      obtain ⟨_, _, _, h4, _⟩ := column_element shape ushape stride
        (List.replicate shape.length 0) r i hul hlen hr hstride0 hzl hzdig hz0 hi
      show some (stddev * g.laran (g.next^[i + s0] seed) + mean) =
        some (stddev * g.laran (g.next^[(column_major_offset start ushape +
          column_major_offset ((List.replicate shape.length 0).set 0 (i : Int))
            ushape).toNat] seed) + mean)
      rw [h4, column_major_offset_zeros, hs0,
        show ((s0 : Int) + (0 + (i : Int))).toNat = i + s0 by omega]
    · exact hb1old
    · refine ⟨rfl, ?_, fun p _ => rfl⟩
      intro index hin hlt
      obtain ⟨hil, hidig⟩ := (index_within_iff _ _).1 hin
      have := (column_major_offset_lt index shape hil hidig).1
      rw [column_major_offset_zeros] at hlt
      omega
  rw [column_major_offset_zeros, zero_add] at hF1
  -- the other columns
  obtain ⟨st, hloop, m, -, -, -, -, -, -, hval, hF⟩ :=
    foldRange_invariant 1 (c : Int) (by omega)
      ((⟨g.next^[r] (g.next^[s0] seed), b1, (r : Int)⟩, List.replicate shape.length 0) :
        kernel.cpu.Cursor T × List Int)
      (fun _ st => kernel.cpu.randn_next_column g mean stddev (some shape) (some ushape)
        (some stride) (r : Int) st)
      (fun j st => ∃ m : Nat,
        (m : Int) = column_major_offset start ushape + column_major_offset st.2 ushape + r ∧
        st.1.seed = g.next^[m] seed ∧
        st.1.data = strided_offset stride st.2 + r ∧
        st.2.length = shape.length ∧
        (∀ (i : Nat) (d s : Int), st.2[i]? = some d → shape[i]? = some s → 0 ≤ d ∧ d < s) ∧
        st.2[0]? = some 0 ∧
        column_major_offset st.2 shape + r = j * r ∧
        kernel.cpu.Filled
          (fun index => stddev * g.laran (g.next^[(column_major_offset start ushape +
            column_major_offset index ushape).toNat] seed) + mean)
          stride shape data (j * r) st.1.buffer)
      (by
        refine ⟨r + s0, ?_, ?_, ?_, hzl, hzdig, hz0, ?_, ?_⟩
        · show ((r + s0 : Nat) : Int) = column_major_offset start ushape +
            column_major_offset (List.replicate shape.length 0) ushape + r
          rw [column_major_offset_zeros, hs0]
          push_cast
          ring
        · show g.next^[r] (g.next^[s0] seed) = g.next^[r + s0] seed
          rw [Function.iterate_add_apply]
        · show (r : Int) = strided_offset stride (List.replicate shape.length 0) + r
          rw [strided_offset_zeros, zero_add]
        · show column_major_offset (List.replicate shape.length 0) shape + (r : Int) = 1 * r
          rw [column_major_offset_zeros]
          simp
        · show kernel.cpu.Filled _ stride shape data (1 * (r : Int)) b1
          rw [one_mul]
          exact hF1)
      (by
        rintro j ⟨⟨sd, b, dp⟩, t⟩ h1 hj ⟨m, hm, hsd, hdp, htl, hdig, ht0, hval, hF⟩
        simp only at hm hsd hdp htl hdig ht0 hval hF
        subst hsd hdp
        have hnext : column_major_offset t shape + r < shape.prod := by
          rw [hval, hc]
          have h3 : (j + 1) * (r : Int) ≤ c * r :=
            mul_le_mul_of_nonneg_right (by omega) (by omega)
          linarith
        obtain ⟨b2, t2, a, shift, hrun, ha, hshift, ht2l, ht2dig, ht20, ht2val, hb2l, hb2new,
          hb2old⟩ := randn_next_column_general g hjump mean stddev shape ushape stride r hul
            hlen hpos hsub hubound hsmax hr hstride0 hchain (g.next^[m] seed) b t
            (by rw [hF.1]; exact hdata) htl hdig ht0 hnext
        refine ⟨_, hrun, shift + r + m, ?_, ?_, rfl, ht2l, ht2dig, ht20, ?_, ?_⟩
        · show ((shift + r + m : Nat) : Int) = _
          push_cast
          rw [hshift, hm]
          ring
        · show g.next^[shift + r] (g.next^[m] seed) = g.next^[shift + r + m] seed
          exact (Function.iterate_add_apply _ _ _ _).symm
        · show column_major_offset t2 shape + r = (j + 1) * r
          rw [ht2val, hval]
          ring
        · show kernel.cpu.Filled _ stride shape data ((j + 1) * (r : Int)) b2
          have hjr : (j + 1) * (r : Int) = column_major_offset t2 shape + r := by
            rw [ht2val, hval]
            ring
          rw [hjr]
          apply filled_column _ shape ushape stride r data b b2 t2 a hul hlen hr hstride0
            hchain ht2l ht2dig ht20 ha hb2l
          · intro i hi
            rw [hb2new i hi, ← Function.iterate_add_apply]
            obtain ⟨_, _, _, h4, _⟩ := column_element shape ushape stride t2 r i hul hlen hr
              hstride0 ht2l ht2dig ht20 hi
            show some (stddev * g.laran (g.next^[shift + i + m] seed) + mean) =
              some (stddev * g.laran (g.next^[(column_major_offset start ushape +
                column_major_offset (t2.set 0 (i : Int)) ushape).toNat] seed) + mean)
            have hexp : (column_major_offset start ushape +
                column_major_offset (t2.set 0 (i : Int)) ushape).toNat = shift + i + m := by
              rw [h4]
              omega
            rw [hexp]
          · exact hb2old
          · rw [ht2val, hval]
            exact hF)
  refine ⟨st.1.buffer, ?_, ?_⟩
  · rw [randn_eq _ _ _ _ _ _ _ _ _ _ _ _ (by omega),
      randn_start_shift_run start ushape shape.length (by omega) hstartl hul hsdig hubound,
      Run.ret_andThen]
    simp only [pget, vget_zero shape _ hr, Run.ret_andThen,
      Run.throw_if_neg _ (show ¬ (r : Int) = 0 by omega), hdiv, hs0, hjump, hcol,
      tmp_index_init shape.length tmp_index htmp, hloop]
  · have : shape.prod = (c : Int) * r := by rw [hc]; ring
    rw [this]
    exact hF

/-! ## The kernel `randn` on a part of an underlying array -/

theorem getElem?_of_getD (v : List Int) (i : Nat) (hi : i < v.length) :
    v[i]? = some (v.getD i 0) := by
  rw [List.getD_eq_getElem?_getD, List.getElem?_eq_getElem hi]
  rfl

theorem counting_iterate (n s : Nat) : counting.next^[n] s = s + n := by
  induction n generalizing s with
  | zero => rfl
  | succ n ih =>
    rw [Function.iterate_succ_apply, ih]
    simp only [counting]
    omega

/-- The run of `randn` on a `2 x 2` part at `(1, 1)` of a `3 x 4` underlying array, into a
buffer with the strides `1` and `3`, with the generator `counting`. -/
theorem randn_strided_sample :
    kernel.cpu.randn counting 2 4 4 10 2 (some [1, 1]) (some [2, 2]) (some [3, 4])
        [0, 0, 0, 0, 0, 0] (some [1, 3]) (some [7, 7]) = Run.ret [28, 30, 0, 34, 36, 0] := by
  decide


end nntile
